import Mathlib

/-!
# TigerKDF (tigerphs): shallow embedding of the parallel and reference variants

The definitions below follow `src/tigerkdf-sse.c` and `src/tigerkdf-ref.c`
function by function.  Machine integers are natural numbers reduced modulo
`2^32` / `2^64` wherever the C expression is evaluated in that width.  Memory
(`M` and `multHashes`) is a total map from word index to word, and every access
is recorded in a trace.  The external hash `H` is a parameter.
-/

namespace Tiger

/-! ## Machine integers -/

/-- Reduction to an unsigned 32-bit value. -/
def u32 (x : Nat) : Nat := x % 2 ^ 32

/-- Reduction to an unsigned 64-bit value. -/
def u64 (x : Nat) : Nat := x % 2 ^ 64

/-- Reduction to an unsigned 8-bit value. -/
def u8 (x : Nat) : Nat := x % 2 ^ 8

/-- A counted loop: runs `body 0`, `body 1`, ..., `body (n-1)` in this order. -/
def forLoop {σ : Type} : Nat → (Nat → σ → σ) → σ → σ
  | 0, _, s => s
  | n + 1, body, s => body n (forLoop n body s)

/-! ## Environment: what the C code gets from outside -/

/-- The collaborators of `TigerKDF`: the hash primitive `H(out, outlen, in, inlen, salt,
saltlen)` as a function of `outlen`, the input bytes and the salt bytes; the outcome of the
four allocations (0: `mem`, 1: `memThreads`, 2: `c`, 3: `multHashes`); the outcome of
`pthread_create` at garlic level `g` for thread slot `k` (0: pacer, `1 + p`: resistant
worker `p`, `1 + parallelism + p`: unpredictable worker `p`); and the contents of
uninitialised stack bytes. -/
structure Env where
  H : Nat → List Nat → List Nat → List Nat
  allocOk : Nat → Bool
  threadOk : Nat → Nat → Bool
  junk : Nat → Nat

/-- The `outlen` bytes that `H` leaves in its output buffer. -/
def Env.hashOut (env : Env) (outlen : Nat) (inp salt : List Nat) : List Nat :=
  (List.range outlen).map (fun j => (env.H outlen inp salt).getD j 0 % 256)

/-! ## Instrumented memory -/

/-- One recorded event: read or write of a word of `M`, read or write of a word of
`multHashes`, or the start of garlic level `g` with the given `numblocks`. -/
inductive Ev where
  | rdM (a : Nat)
  | wrM (a : Nat)
  | rdH (a : Nat)
  | wrH (a : Nat)
  | level (g numblocks : Nat)
  deriving DecidableEq

/-- The shared machine state of one `TigerKDF` call: the array `M`, the checkpoint array
`multHashes`, the counter `completedMultiplies`, and the accesses made so far (newest
first). -/
structure Mach where
  mem : Nat → Nat
  multHashes : Nat → Nat
  completedMultiplies : Nat
  trace : List Ev

/-- Read word `a` of `M`. -/
def Mach.rd (m : Mach) (a : Nat) : Nat × Mach :=
  (m.mem a, { m with trace := Ev.rdM a :: m.trace })

/-- Write word `a` of `M`. -/
def Mach.wr (m : Mach) (a v : Nat) : Mach :=
  { m with mem := fun x => if x = a then v else m.mem x, trace := Ev.wrM a :: m.trace }

/-- Read word `a` of `multHashes`. -/
def Mach.rdH (m : Mach) (a : Nat) : Nat × Mach :=
  (m.multHashes a, { m with trace := Ev.rdH a :: m.trace })

/-- Write word `a` of `multHashes`. -/
def Mach.wrH (m : Mach) (a v : Nat) : Mach :=
  { m with multHashes := fun x => if x = a then v else m.multHashes x,
           trace := Ev.wrH a :: m.trace }

/-- The controller starts garlic level `g`: it resets `completedMultiplies` (the event is
recorded with the `numblocks` of the level). -/
def Mach.startLevel (m : Mach) (g numblocks : Nat) : Mach :=
  { m with completedMultiplies := 0, trace := Ev.level g numblocks :: m.trace }

/-! ## Endian codec -/

/-- Modelled from the spec: `be32enc` of `tigerkdf-impl.h` (not in the sources), the
big-endian encoding of one 32-bit word as four bytes. -/
def be32enc (x : Nat) : List Nat :=
  [x / 2 ^ 24 % 256, x / 2 ^ 16 % 256, x / 2 ^ 8 % 256, x % 256]

/-- Modelled from the spec: `be32enc_vect(dst, src, len)` of `tigerkdf-impl.h` (not in the
sources): byte `j` of the big-endian encoding of the `len/4` words `src 0, src 1, ...`. -/
def be32enc_vect (src : Nat → Nat) (len : Nat) : List Nat :=
  (List.range (4 * (len / 4))).map (fun j => (be32enc (src (j / 4))).getD (j % 4) 0)

/-- Modelled from the spec: `be32dec_vect(dst, src, len)` of `tigerkdf-impl.h` (not in the
sources): word `i` decoded big-endian from bytes `4i .. 4i+3`. -/
def be32dec_vect (src : List Nat) (i : Nat) : Nat :=
  src.getD (4 * i) 0 % 256 * 2 ^ 24 + src.getD (4 * i + 1) 0 % 256 * 2 ^ 16
    + src.getD (4 * i + 2) 0 % 256 * 2 ^ 8 + src.getD (4 * i + 3) 0 % 256

namespace Sse

/-- `hashState`: one hash of a 32-byte state (encode, `H` without salt, decode). -/
def hashState (env : Env) (state : List Nat) : List Nat :=
  let buf := be32enc_vect (fun i => state.getD i 0) 32
  let buf2 := env.hashOut 32 buf []
  (List.range 8).map (be32dec_vect buf2)

/-! ## Block mixer (`hashBlocks`, SSE variant) -/

/-- `_mm_srl_epi32(a, count)` of `<emmintrin.h>`: every 32-bit lane of `a` is shifted
right by the 64-bit number held in the low half of `count` (lanes 0 and 1); when that
number exceeds 31 every lane of the result is 0.  A vector is the list of its four lanes,
lane 0 first. -/
def mm_srl_epi32 (a count : List Nat) : List Nat :=
  if 31 < count.getD 0 0 + 2 ^ 32 * count.getD 1 0 then [0, 0, 0, 0]
  else (List.range 4).map
    (fun k => a.getD k 0 >>> (count.getD 0 0 + 2 ^ 32 * count.getD 1 0))

/-- `_mm_sll_epi32(a, count)` of `<emmintrin.h>`: as `mm_srl_epi32`, shifting left within
each 32-bit lane. -/
def mm_sll_epi32 (a count : List Nat) : List Nat :=
  if 31 < count.getD 0 0 + 2 ^ 32 * count.getD 1 0 then [0, 0, 0, 0]
  else (List.range 4).map
    (fun k => u32 (a.getD k 0 <<< (count.getD 0 0 + 2 ^ 32 * count.getD 1 0)))

/-- The count vector `shiftRightVal = _mm_set_epi32(25, 25, 25, 25)` of `hashBlocks`. -/
def shiftRightVal : List Nat := [25, 25, 25, 25]

/-- The count vector `shiftLeftVal = _mm_set_epi32(7, 7, 7, 7)` of `hashBlocks`. -/
def shiftLeftVal : List Nat := [7, 7, 7, 7]

/-- The statement under the comment `Rotate left 7` in `hashBlocks`:
`s = _mm_or_si128(_mm_srl_epi32(s, shiftRightVal), _mm_sll_epi32(s, shiftLeftVal))`. -/
def rotateStmt (s : List Nat) : List Nat :=
  (List.range 4).map (fun k =>
    (mm_srl_epi32 s shiftRightVal).getD k 0 ||| (mm_sll_epi32 s shiftLeftVal).getD k 0)

/-- Registers of `hashBlocks`: the machine, the two vectors `s1`, `s2` (four lanes each)
and the three `__m128i` cursors `f`, `t`, `p` (in units of four words). -/
structure HB where
  m : Mach
  s1 : List Nat
  s2 : List Nat
  f : Nat
  t : Nat
  p : Nat

/-- Load the four words of the vector at cursor `v`. -/
def loadVec (m : Mach) (v : Nat) : List Nat × Mach :=
  let r0 := m.rd (4 * v)
  let r1 := r0.2.rd (4 * v + 1)
  let r2 := r1.2.rd (4 * v + 2)
  let r3 := r2.2.rd (4 * v + 3)
  ([r0.1, r1.1, r2.1, r3.1], r3.2)

/-- Store four lanes at cursor `v`. -/
def storeVec (m : Mach) (v : Nat) (s : List Nat) : Mach :=
  (((m.wr (4 * v) (s.getD 0 0)).wr (4 * v + 1) (s.getD 1 0)).wr (4 * v + 2) (s.getD 2 0)).wr
    (4 * v + 3) (s.getD 3 0)

/-- One vector statement group: `s = _mm_add_epi32(s, *p++); s = _mm_xor_si128(s, *f++);`
the statement under `Rotate left 7`; `*t++ = s`, returning the machine and the new `s`. -/
def mixVec (m : Mach) (s : List Nat) (p f t : Nat) : Mach × List Nat :=
  let pv := loadVec m p
  let fv := loadVec pv.2 f
  let s2 := rotateStmt ((List.range 4).map
    (fun k => u32 (s.getD k 0 + pv.1.getD k 0) ^^^ fv.1.getD k 0))
  (storeVec fv.2 t s2, s2)

/-- Body of the innermost loop (`j`): the `s1` group followed by the `s2` group. -/
def hashBlocksInner (h : HB) : HB :=
  let a := mixVec h.m h.s1 h.p h.f h.t
  let b := mixVec a.1 h.s2 (h.p + 1) (h.f + 1) (h.t + 1)
  { m := b.1, s1 := a.2, s2 := b.2, f := h.f + 2, t := h.t + 2, p := h.p + 2 }

/-- Body of the sub-block loop (`i`): set `p` from the first word at `f`, then run
`subBlocklen/8` inner iterations. -/
def hashBlocksSub (subBlocklen prevAddr mask : Nat) (h : HB) : HB :=
  let r := h.m.rd (4 * h.f)
  let p := prevAddr / 4 + u32 ((subBlocklen / 4) * (r.1 &&& mask))
  forLoop (subBlocklen / 8) (fun _ x => hashBlocksInner x) { h with m := r.2, p := p }

/-- `hashBlocks` of `tigerkdf-sse.c`: mixes the previous block and the block at `fromAddr`
into the block at `toAddr`, `repetitions` times, and returns the new 8-word state.  The
division `blocklen/subBlocklen` traps when `subBlocklen = 0`; the callers
(`hashWithoutPasswordStep`, `hashWithPasswordStep`) stop the thread in that case and do not
get here. -/
def hashBlocks (m : Mach) (state : List Nat) (blocklen subBlocklen fromAddr toAddr
    repetitions : Nat) : Mach × List Nat :=
  let prevAddr := u64 (toAddr + 2 ^ 64 - blocklen)
  let numSubBlocks := blocklen / subBlocklen
  let mask := u32 (numSubBlocks + 2 ^ 32 - 1)
  let h0 : HB := { m := m, s1 := (List.range 4).map (fun k => state.getD k 0),
                   s2 := (List.range 4).map (fun k => state.getD (k + 4) 0),
                   f := 0, t := 0, p := 0 }
  let h := forLoop repetitions (fun _ x =>
    forLoop numSubBlocks (fun _ y => hashBlocksSub subBlocklen prevAddr mask y)
      { x with f := fromAddr / 4, t := toAddr / 4 }) h0
  (h.m, (List.range 8).map (fun k => if k < 4 then h.s1.getD k 0 else h.s2.getD (k - 4) 0))

/-! ## Multiplication pacer (`multHash`) -/

/-- The shared constant data of `struct TigerKDFCommonDataStruct` (the arrays and the
counter live in `Mach`). -/
structure Common where
  hash : List Nat
  hashSize : Nat
  parallelism : Nat
  blocklen : Nat
  subBlocklen : Nat
  numblocks : Nat
  repetitions : Nat
  multipliesPerBlock : Nat

/-- The eight statements of the body of the `j` loop of `multHash`, in sequence. -/
def multRound (s : List Nat) : List Nat :=
  let g := fun k => s.getD k 0
  let s0 := u32 (g 0 * (g 1 ||| 1)) ^^^ (g 2 >>> 1)
  let s1 := u32 (g 1 * (g 2 ||| 1)) ^^^ (g 3 >>> 1)
  let s2 := u32 (g 2 * (g 3 ||| 1)) ^^^ (g 4 >>> 1)
  let s3 := u32 (g 3 * (g 4 ||| 1)) ^^^ (g 5 >>> 1)
  let s4 := u32 (g 4 * (g 5 ||| 1)) ^^^ (g 6 >>> 1)
  let s5 := u32 (g 5 * (g 6 ||| 1)) ^^^ (g 7 >>> 1)
  let s6 := u32 (g 6 * (g 7 ||| 1)) ^^^ (s0 >>> 1)
  let s7 := u32 (g 7 * (s0 ||| 1)) ^^^ (s1 >>> 1)
  [s0, s1, s2, s3, s4, s5, s6, s7]

/-- Number of iterations of `for(j = 0; j < multipliesPerBlock * repetitions; j += 8)`. -/
def multRounds (c : Common) : Nat := (u32 (c.multipliesPerBlock * c.repetitions) + 7) / 8

/-- Body of the `i` loop of `multHash`: the multiplication rounds, `hashState`, the
publication of the eight words at slot `completedMultiplies`, and the increment. -/
def multHashStep (env : Env) (c : Common) (ms : Mach × List Nat) : Mach × List Nat :=
  let st := hashState env (forLoop (multRounds c) (fun _ s => multRound s) ms.2)
  let m1 := forLoop 8 (fun j (m : Mach) =>
    m.wrH (u32 (8 * m.completedMultiplies + j)) (st.getD j 0)) ms.1
  ({ m1 with completedMultiplies := u32 (m1.completedMultiplies + 1) }, st)

/-- `multHash`: the pacer thread, run to completion. -/
def multHash (env : Env) (c : Common) (m : Mach) : Mach :=
  let threadKey := env.hashOut 32 (c.hash.take c.hashSize) (be32enc (u32 c.parallelism))
  let state := (List.range 8).map (be32dec_vect threadKey)
  (forLoop (u32 (c.numblocks * 2)) (fun _ ms => multHashStep env c ms) (m, state)).1

/-! ## Folding a checkpoint (`hashMultItoState`) -/

/-- `hashMultItoState`: wait until `completedMultiplies > iteration`, then XOR the eight
words found in slot `iteration` into `state` and hash it.  The wait ends at once when the
counter of the machine is above `iteration`, and the words are those the machine holds at
that moment; otherwise the result is `none`.  In the join-order schedule (`garlicLevel`) the
machine is the one the pacer leaves when it has finished; in the step relation `LevelStep`
it is the machine of any state an interleaving reaches.  The two agree on the words read as
long as no slot is stored twice, that is for levels of at most `2^28` blocks
(`checkpointValues_reach`); beyond that the index `8*completedMultiplies + j` of line 90
wraps and the words read depend on the interleaving. -/
def hashMultItoState (env : Env) (iteration : Nat) (m : Mach) (state : List Nat) :
    Option (Mach × List Nat) :=
  if iteration ≥ m.completedMultiplies then none
  else
    let r := forLoop 8 (fun i (ms : Mach × List Nat) =>
      let v := ms.1.rdH (u32 (iteration * 8 + i))
      (v.2, ms.2.set i (ms.2.getD i 0 ^^^ v.1))) (m, state)
    some (r.1, hashState env r.2)

/-! ## Resistant pass (`hashWithoutPassword`) -/

/-- `bswap_32` of `<byteswap.h>`. -/
def bswap_32 (x : Nat) : Nat :=
  u32 ((x &&& 0xff) <<< 24) ||| ((x &&& 0xff00) <<< 8) ||| ((x >>> 8) &&& 0xff00) ||| (x >>> 24)

/-- `reverse` of `tigerkdf-sse.c` (Catena's bit reversal); `n` is the `uint8_t` argument. -/
def reverse (x n : Nat) : Nat :=
  if n = 0 then 0 else
    let x1 := bswap_32 x
    let x2 := u32 ((x1 &&& 0x0f0f0f0f) <<< 4) ||| ((x1 &&& 0xf0f0f0f0) >>> 4)
    let x3 := u32 ((x2 &&& 0x33333333) <<< 2) ||| ((x2 &&& 0xcccccccc) >>> 2)
    let x4 := u32 ((x3 &&& 0x55555555) <<< 1) ||| ((x3 &&& 0xaaaaaaaa) >>> 1)
    x4 >>> (32 - n)

/-- Loop variables of `hashWithoutPassword`; `stuck` says that the thread never finishes:
it waits forever in `hashMultItoState`, or the division `blocklen/subBlocklen` of
`hashBlocks` has trapped. -/
structure WS where
  m : Mach
  state : List Nat
  mask : Nat
  numBits : Nat
  toAddr : Nat
  stuck : Bool

/-- The window update `if(mask << 1 <= i) { mask <<= 1; numBits++; }`. -/
def slideWindow (i : Nat) (mn : Nat × Nat) : Nat × Nat :=
  if u32 (mn.1 <<< 1) ≤ i then (u32 (mn.1 <<< 1), u32 (mn.2 + 1)) else mn

/-- The sliding-window source block of block `i` for the given `mask` and `numBits`. -/
def reversePosOf (i mask numBits : Nat) : Nat :=
  let reversePos := reverse i (u8 numBits)
  if u32 (reversePos + mask) < i then u32 (reversePos + mask) else reversePos

/-- Body of the block loop of `hashWithoutPassword` for block `i`. -/
def hashWithoutPasswordStep (env : Env) (c : Common) (start i : Nat) (w : WS) : WS :=
  if w.stuck then w
  else if c.blocklen = 0 then { w with stuck := true }
  else
    let mn := slideWindow i (w.mask, w.numBits)
    let fromAddr := u64 (start + u64 (c.blocklen * reversePosOf i mn.1 mn.2))
    let hb := hashBlocks w.m w.state c.blocklen c.blocklen fromAddr w.toAddr c.repetitions
    match hashMultItoState env i hb.1 hb.2 with
    | none => { m := hb.1, state := hb.2, mask := mn.1, numBits := mn.2, toAddr := w.toAddr,
                stuck := true }
    | some hm => { m := hm.1, state := hm.2, mask := mn.1, numBits := mn.2,
                   toAddr := u64 (w.toAddr + c.blocklen), stuck := false }

/-- `hashWithoutPassword`: the resistant pass of worker `p`.  The result is the machine and
whether the thread never finishes (`stuck`). -/
def hashWithoutPassword (env : Env) (c : Common) (p : Nat) (m : Mach) : Mach × Bool :=
  let start := u64 (u32 (2 * p) * c.numblocks * c.blocklen)
  let threadKey := env.hashOut (c.blocklen * 4) (c.hash.take c.hashSize) (be32enc p)
  let m1 := forLoop c.blocklen (fun i (x : Mach) => x.wr (start + i) (be32dec_vect threadKey i)) m
  let w0 : WS := { m := m1, state := [1, 1, 1, 1, 1, 1, 1, 1], mask := 1, numBits := 0,
                   toAddr := u64 (start + c.blocklen), stuck := false }
  let w := forLoop (c.numblocks - 1) (fun k w => hashWithoutPasswordStep env c start (k + 1) w) w0
  (w.m, w.stuck)

/-! ## Unpredictable pass (`hashWithPassword`) -/

/-- The source address chosen by `hashWithPassword` for block `i` when `state[0] = v`. -/
def fromAddrWithPassword (c : Common) (p start i v : Nat) : Nat :=
  let v2 := u64 (v * v) >>> 32
  let v3 := u64 (v * v2) >>> 32
  let distance := u32 (u64 (u32 (i + c.numblocks + 2 ^ 32 - 1) * v3) >>> 32)
  if distance < i then
    u64 (start + u64 (u32 (i - 1 - distance) * c.blocklen))
  else
    let q := u32 (p + i) % c.parallelism
    let b := u32 (c.numblocks + 2 ^ 33 - 1 - (distance - i))
    u64 (u32 (u32 (2 * c.numblocks * q) + b) * c.blocklen)

/-- Loop variables of `hashWithPassword`; `stuck` as in `WS`. -/
structure PS where
  m : Mach
  state : List Nat
  toAddr : Nat
  stuck : Bool

/-- Body of the block loop of `hashWithPassword` for block `i`. -/
def hashWithPasswordStep (env : Env) (c : Common) (p start i : Nat) (w : PS) : PS :=
  if w.stuck then w
  else if c.subBlocklen = 0 then { w with stuck := true }
  else
    let fromAddr := fromAddrWithPassword c p start i (w.state.getD 0 0)
    let hb := hashBlocks w.m w.state c.blocklen c.subBlocklen fromAddr w.toAddr c.repetitions
    match hashMultItoState env i hb.1 hb.2 with
    | none => { m := hb.1, state := hb.2, toAddr := w.toAddr, stuck := true }
    | some hm => { m := hm.1, state := hm.2, toAddr := u64 (w.toAddr + c.blocklen),
                   stuck := false }

/-- `hashWithPassword`: the unpredictable pass of worker `p`.  The result is the machine
and whether the thread never finishes (`stuck`). -/
def hashWithPassword (env : Env) (c : Common) (p : Nat) (m : Mach) : Mach × Bool :=
  let start := u64 (u32 (2 * p + 1) * c.numblocks * c.blocklen)
  let w := forLoop c.numblocks (fun i w => hashWithPasswordStep env c p start i w)
    { m := m, state := [1, 1, 1, 1, 1, 1, 1, 1], toAddr := start, stuck := false }
  (w.m, w.stuck)

/-! ## Combining the workers (`combineHashes`) -/

/-- Read the `n` words of `M` starting at `pos` (the loads done by `be32enc_vect`). -/
def readWords (m : Mach) (pos n : Nat) : Mach :=
  forLoop n (fun i (x : Mach) => (x.rd (pos + i)).2) m

/-- The word position of the tail of worker `p` used by `combineHashes`:
`2*(p+1)*numblocks*(uint64_t)blocklen - hashSize/sizeof(uint32_t)`. -/
def combinePos (hashSize blocklen numblocks p : Nat) : Nat :=
  u64 (u32 (2 * (p + 1) * numblocks) * blocklen + 2 ^ 64 - hashSize / 4)

/-- Body of the `p` loop of `combineHashes`: encode the tail of worker `p` into `data` and
add it byte-wise into `hash`.  Bytes of `data` that `be32enc_vect` does not write are
uninitialised stack. -/
def combineStep (env : Env) (hashSize blocklen numblocks p : Nat)
    (mh : Mach × List Nat) : Mach × List Nat :=
  let pos := combinePos hashSize blocklen numblocks p
  let data := be32enc_vect (fun i => mh.1.mem (pos + i)) hashSize
  let m1 := readWords mh.1 pos (hashSize / 4)
  (m1, (List.range hashSize).map (fun i =>
      (mh.2.getD i 0 + (if i < data.length then data.getD i 0 else env.junk i)) % 256)
    ++ mh.2.drop hashSize)

/-- The call `H(hash, hashSize, hash, hashSize, salt, saltlen)` on the hash buffer. -/
def rehash (env : Env) (hash : List Nat) (hashSize : Nat) (salt : List Nat) : List Nat :=
  env.hashOut hashSize (hash.take hashSize) salt ++ hash.drop hashSize

/-- `combineHashes`: fold the tails of all workers into `hash`, then hash it unsalted. -/
def combineHashes (env : Env) (hash : List Nat) (hashSize : Nat) (m : Mach)
    (blocklen numblocks parallelism : Nat) : Mach × List Nat :=
  let r := forLoop parallelism (fun p mh => combineStep env hashSize blocklen numblocks p mh)
    (m, hash)
  (r.1, rehash env r.2 hashSize [])

/-! ## Garlic controller (`TigerKDF`) -/

/-- Whether every `pthread_create` of the given kind succeeds (`base` is the first slot). -/
def threadsOk (env : Env) (g base parallelism : Nat) : Bool :=
  (List.range parallelism).all (fun p => env.threadOk g (base + p))

/-- Run the worker threads `0 .. parallelism-1` one after the other; the flag says whether
some worker is stuck, in which case the joins never complete. -/
def runWorkers (worker : Nat → Mach → Mach × Bool) (parallelism : Nat) (m : Mach) :
    Mach × Bool :=
  forLoop parallelism (fun p (x : Mach × Bool) =>
    let r := worker p x.1
    (r.1, x.2 || r.2)) (m, false)

/-- What one iteration of the garlic loop does up to `combineHashes`: a `pthread_create`
fails (the C function returns false), a worker never finishes (it waits forever or a
division has trapped), or the level is done with the new machine and hash. -/
inductive LevelResult where
  | createFailed
  | hang
  | done (m : Mach) (hash : List Nat)

/-- One garlic level in join order: pacer, resistant workers, unpredictable workers,
`combineHashes`.  This is one schedule of the threads.  Whether the level ends and what it
returns do not depend on the schedule; the words folded from the checkpoints, and with them
the hash, are those of every schedule only for levels of at most `2^28` blocks, where each
checkpoint slot is stored once. -/
def garlicLevel (env : Env) (c : Common) (g : Nat) (m : Mach) : LevelResult :=
  let m0 := m.startLevel g c.numblocks
  if !env.threadOk g 0 then LevelResult.createFailed
  else if !threadsOk env g 1 c.parallelism then LevelResult.createFailed
  else
    let m1 := multHash env c m0
    let r2 := runWorkers (hashWithoutPassword env c) c.parallelism m1
    if r2.2 then LevelResult.hang
    else if !threadsOk env g (1 + c.parallelism) c.parallelism then LevelResult.createFailed
    else
      let r3 := runWorkers (hashWithPassword env c) c.parallelism r2.1
      if r3.2 then LevelResult.hang
      else
        let r := combineHashes env c.hash c.hashSize r3.1 c.blocklen c.numblocks c.parallelism
        LevelResult.done r.1 r.2

/-- The garlic loop `for(uint8_t i = startGarlic; i <= stopGarlic; i++)`.  `fuel` bounds the
number of iterations; `none` means that the call does not return (a worker never
finishes, or the fuel ran out).  The result is the returned flag, the hash buffer and the machine. -/
def garlicLoop (env : Env) (stopGarlic : Nat) (skipLastHash : Bool) :
    Nat → Nat → Common → Mach → Option (Bool × List Nat × Mach)
  | 0, _, _, _ => none
  | fuel + 1, i, c, m =>
    if i ≤ stopGarlic then
      match garlicLevel env c i m with
      | LevelResult.createFailed => some (false, c.hash, m)
      | LevelResult.hang => none
      | LevelResult.done m1 hash1 =>
        let hash2 := if i < stopGarlic || !skipLastHash then rehash env hash1 c.hashSize [i]
                     else hash1
        garlicLoop env stopGarlic skipLastHash fuel (u8 (i + 1))
          { c with hash := hash2, numblocks := u32 (c.numblocks * 2) } m1
    else some (true, c.hash, m)

/-- The base block count `(memlen/(2*parallelism*blocklen)) << startGarlic` stored in the
32-bit `numblocks`.  The shift is that of a 64-bit value by `startGarlic`, which C defines
for counts below 64 only: the value given here is the one of the program for
`startGarlic < 64`, in particular in the documented range `startGarlic ≤ 30`, to which the
properties of whole calls are restricted. -/
def numblocksStart (memSize blockSize parallelism startGarlic : Nat) : Nat :=
  u32 (u64 ((u64 (1024 * memSize) / 4 / u32 (2 * parallelism * (blockSize / 4))) <<< startGarlic))

/-- The allocation length
`(2*parallelism*(uint64_t)numblocks*blocklen) << (stopGarlic - startGarlic)` in words.  The
shift count is defined in C for `0 ≤ stopGarlic - startGarlic < 64` only: the value given
here is the one of the program for `startGarlic ≤ stopGarlic ≤ 30`. -/
def memlenOf (memSize blockSize parallelism startGarlic stopGarlic : Nat) : Nat :=
  u64 (u64 (u32 (2 * parallelism) * numblocksStart memSize blockSize parallelism startGarlic
    * (blockSize / 4)) <<< (stopGarlic - startGarlic))

/-- The adjustment `multipliesPerBlock = 8*(multipliesPerBlock/8); if 0 then 8`. -/
def roundMultiplies (multipliesPerBlock : Nat) : Nat :=
  if u32 (8 * (multipliesPerBlock / 8)) = 0 then 8 else u32 (8 * (multipliesPerBlock / 8))

/-- `TigerKDF` of `tigerkdf-sse.c`.  `m` holds the (uninitialised) contents of the freshly
allocated arrays.  The result is `none` when the call does not return (the division by
`2*parallelism*blocklen` traps, a worker never finishes, or `fuel` iterations of the garlic
loop were not enough), otherwise the returned flag, the caller's hash buffer and the
machine. -/
def TigerKDF (env : Env) (fuel : Nat) (m : Mach) (hash : List Nat) (hashSize memSize
    multipliesPerBlock startGarlic stopGarlic blockSize subBlockSize parallelism
    repetitions : Nat) (skipLastHash : Bool) : Option (Bool × List Nat × Mach) :=
  let blocklen := blockSize / 4
  let numblocks := numblocksStart memSize blockSize parallelism startGarlic
  if u32 (2 * parallelism * blocklen) = 0 then none
  else if !env.allocOk 0 then some (false, hash, m)
  else if !env.allocOk 1 then some (false, hash, m)
  else if !env.allocOk 2 then some (false, hash, m)
  else if !env.allocOk 3 then some (false, hash, m)
  else
    garlicLoop env stopGarlic skipLastHash fuel startGarlic
      { hash := hash, hashSize := hashSize, parallelism := parallelism, blocklen := blocklen,
        subBlocklen := if subBlockSize ≠ 0 then subBlockSize / 4 else blocklen,
        numblocks := numblocks, repetitions := repetitions,
        multipliesPerBlock := roundMultiplies multipliesPerBlock } m

end Sse

/-! ## A concrete environment for evaluating the code -/

/-- A small concrete instance of `H`: byte `j` of the output mixes the position, the input
bytes, the salt bytes and the salt length. -/
def demoH (outlen : Nat) (inp salt : List Nat) : List Nat :=
  (List.range outlen).map (fun j =>
    (j * 7 + inp.foldl (fun a b => (31 * a + b + 1) % 65521) 5
      + salt.foldl (fun a b => (17 * a + b + 3) % 65521) 11 + 13 * salt.length) % 251)

/-- An environment in which every allocation and every thread creation succeeds. -/
def demoEnv : Env :=
  { H := demoH, allocOk := fun _ => true, threadOk := fun _ _ => true, junk := fun _ => 0 }

/-- Freshly allocated arrays holding the word `v` everywhere. -/
def freshMach (v : Nat) : Mach :=
  { mem := fun _ => v, multHashes := fun _ => v, completedMultiplies := 0, trace := [] }

/-- The addresses of `M` read so far, newest first. -/
def readsM : List Ev → List Nat
  | [] => []
  | Ev.rdM a :: tr => a :: readsM tr
  | _ :: tr => readsM tr

/-- Two register files of `hashBlocks` with the same cursors and the same reads so far. -/
def HBSame (a b : Sse.HB) : Prop :=
  a.f = b.f ∧ a.t = b.t ∧ a.p = b.p ∧ readsM a.m.trace = readsM b.m.trace

/-- Two loop states of `hashWithoutPassword` with the same window, the same destination
and the same reads so far. -/
def WSSame (a b : Sse.WS) : Prop :=
  a.mask = b.mask ∧ a.numBits = b.numBits ∧ a.toAddr = b.toAddr ∧ a.stuck = b.stuck
    ∧ a.m.completedMultiplies = b.m.completedMultiplies
    ∧ readsM a.m.trace = readsM b.m.trace

/-- The garlic levels started so far with their `numblocks`, newest first. -/
def levelsOf : List Ev → List (Nat × Nat)
  | [] => []
  | Ev.level g n :: tr => (g, n) :: levelsOf tr
  | _ :: tr => levelsOf tr

/-- The parts of the machine that only the pacer and the controller change are the same
in `a` and `b`: the counter, the checkpoints and the levels started. -/
def SameCtl (a b : Mach) : Prop :=
  a.completedMultiplies = b.completedMultiplies ∧ a.multHashes = b.multHashes
    ∧ levelsOf a.trace = levelsOf b.trace

/-- Whether every `pthread_create` of garlic level `g` succeeds. -/
def levelThreadsOk (env : Env) (g parallelism : Nat) : Bool :=
  env.threadOk g 0 && Sse.threadsOk env g 1 parallelism
    && Sse.threadsOk env g (1 + parallelism) parallelism

/-- The garlic levels `i, i+1, ...` (`n` of them) with their block counts, the first one
having `numblocks` blocks and each next one twice as many (in 32 bits). -/
def scheduleFrom : Nat → Nat → Nat → List (Nat × Nat)
  | 0, _, _ => []
  | n + 1, i, numblocks => (i, numblocks) :: scheduleFrom n (i + 1) (u32 (numblocks * 2))

/-- An environment in which thread creation succeeds at garlic level 0 only. -/
def failAfterLevel0 : Env :=
  { H := demoH, allocOk := fun _ => true, threadOk := fun g _ => decide (g = 0),
    junk := fun _ => 0 }

/-- Every allocation and every `pthread_create` of the garlic levels
`startGarlic .. stopGarlic` succeeds. -/
def AllSucceed (env : Env) (startGarlic stopGarlic parallelism : Nat) : Prop :=
  env.allocOk 0 = true ∧ env.allocOk 1 = true ∧ env.allocOk 2 = true ∧ env.allocOk 3 = true
    ∧ ∀ g, startGarlic ≤ g → g ≤ stopGarlic →
        env.threadOk g 0 = true
          ∧ ∀ p, p < parallelism →
              env.threadOk g (1 + p) = true ∧ env.threadOk g (1 + parallelism + p) = true

namespace Ref

/-- The expansion of `timeCost` into `(multiplies, repetitions)` in `TigerKDF` of
`tigerkdf-ref.c`: `timeCost < 8` gives `(timeCost, 1)`, otherwise
`(8, 1 << (timeCost - 8))`. -/
def expandTimeCost (timeCost : Nat) : Nat × Nat :=
  if timeCost < 8 then (timeCost, 1) else (8, u32 (1 <<< (timeCost - 8)))

end Ref

/-- The registers of two `hashBlocks` runs are equal and their memories are equal on `S`. -/
def HBAgree (S : Nat → Prop) (x y : Sse.HB) : Prop :=
  x.s1 = y.s1 ∧ x.s2 = y.s2 ∧ x.f = y.f ∧ x.t = y.t ∧ x.p = y.p
    ∧ ∀ a, S a → x.m.mem a = y.m.mem a

/-- The pacer state seen by two runs is the same: equal counters, and equal checkpoint
words in the slots `0 .. nb-1`. -/
def MhAgree (nb : Nat) (a b : Mach) : Prop :=
  a.completedMultiplies = b.completedMultiplies
    ∧ ∀ i k, i < nb → k < 8 →
        a.multHashes (u32 (i * 8 + k)) = b.multHashes (u32 (i * 8 + k))

/-- The sizes under which one garlic level reads only what it has written: `subBlocklen` is
a positive multiple of 8 that divides `blocklen`, at least one repetition, at least one
block per worker, the tail of `hashSize/4` words fits in a block, and the block arithmetic
does not wrap in 32 bits. -/
def Sse.Common.Valid (c : Sse.Common) : Prop :=
  (∃ s8 ns, 1 ≤ s8 ∧ 1 ≤ ns ∧ c.subBlocklen = 8 * s8 ∧ c.blocklen = 8 * s8 * ns)
    ∧ c.blocklen < 2 ^ 32 ∧ 1 ≤ c.repetitions ∧ 1 ≤ c.numblocks
    ∧ c.hashSize / 4 ≤ c.blocklen ∧ 1 ≤ c.parallelism
    ∧ 2 * c.parallelism * c.numblocks < 2 ^ 32

/-- Two loop states of `hashWithoutPassword` that agree: same registers, neither stuck,
memories equal on `S`, same pacer state. -/
def WSAgree (nb : Nat) (S : Nat → Prop) (w1 w2 : Sse.WS) : Prop :=
  w1.state = w2.state ∧ w1.mask = w2.mask ∧ w1.numBits = w2.numBits
    ∧ w1.toAddr = w2.toAddr ∧ w1.stuck = false ∧ w2.stuck = false
    ∧ (∀ a, S a → w1.m.mem a = w2.m.mem a) ∧ MhAgree nb w1.m w2.m
    ∧ nb ≤ w1.m.completedMultiplies

/-- Word `a` lies in the first (resistant) half of the region of some worker. -/
def InFirstHalf (c : Sse.Common) (a : Nat) : Prop :=
  ∃ q, q < c.parallelism ∧ 2 * q * c.numblocks * c.blocklen ≤ a
    ∧ a < (2 * q + 1) * c.numblocks * c.blocklen

/-- Two loop states of `hashWithPassword` that agree: same registers, neither stuck,
memories equal on `S`, same pacer state. -/
def PSAgree (nb : Nat) (S : Nat → Prop) (w1 w2 : Sse.PS) : Prop :=
  w1.state = w2.state ∧ w1.toAddr = w2.toAddr ∧ w1.stuck = false ∧ w2.stuck = false
    ∧ (∀ a, S a → w1.m.mem a = w2.m.mem a) ∧ MhAgree nb w1.m w2.m
    ∧ nb ≤ w1.m.completedMultiplies

/-- The machine of garlic level `g` just before `combineHashes`, in join order. -/
def levelMach (env : Env) (c : Sse.Common) (g : Nat) (m : Mach) : Mach :=
  (Sse.runWorkers (Sse.hashWithPassword env c) c.parallelism
    (Sse.runWorkers (Sse.hashWithoutPassword env c) c.parallelism
      (Sse.multHash env c (m.startLevel g c.numblocks))).1).1

/-- The hash buffer after `combineHashes` of garlic level `g`. -/
def levelHash (env : Env) (c : Sse.Common) (g : Nat) (m : Mach) : List Nat :=
  (Sse.combineHashes env c.hash c.hashSize (levelMach env c g m) c.blocklen c.numblocks
    c.parallelism).2

/-- The common data that `TigerKDF` fills out before the garlic loop. -/
def initCommon (hash : List Nat) (hashSize memSize multipliesPerBlock startGarlic blockSize
    subBlockSize parallelism repetitions : Nat) : Sse.Common :=
  { hash := hash, hashSize := hashSize, parallelism := parallelism,
    blocklen := blockSize / 4,
    subBlocklen := if subBlockSize ≠ 0 then subBlockSize / 4 else blockSize / 4,
    numblocks := Sse.numblocksStart memSize blockSize parallelism startGarlic,
    repetitions := repetitions,
    multipliesPerBlock := Sse.roundMultiplies multipliesPerBlock }

namespace Ref

/-! ## Block mixer of the reference variant (`hashBlocks` of `tigerkdf-ref.c`) -/

/-- The rotation written in the reference `hashBlocks`: `(x >> 24) | (x << 8)` on a 32-bit
word. -/
def rotl8 (x : Nat) : Nat := (x >>> 24) ||| u32 (x <<< 8)

/-- Registers of the reference `hashBlocks`: memory, the 8-word `state`, the chain value `v`
and the word cursors `f`, `t`, `p`. -/
structure RB where
  mem : Nat → Nat
  state : List Nat
  v : Nat
  f : Nat
  t : Nat
  p : Nat

/-- One step of the multiplication chain: `v *= randVal | 1; v ^= origState[k]`, with
`c = origState[k]`. -/
def chainStep (randVal c v : Nat) : Nat := u32 (v * (randVal ||| 1)) ^^^ c

/-- The multiplication chain of one group of 8 words:
`for(k = 0; k < multiplies; k++) { v *= randVal | 1; v ^= origState[k]; }`
(`multiplies ≤ 8` in every call, so `origState[k]` is in bounds). -/
def multChain (multiplies randVal : Nat) (origState : List Nat) (v : Nat) : Nat :=
  forLoop multiplies (fun k x => chainStep randVal (origState.getD k 0) x) v

/-- Body of the loop that hashes 32 bytes of memory, for word `k`:
`state[k] = (state[k] + *p++) ^ *f++; state[k] = (state[k] >> 24) | (state[k] << 8);
*t++ = state[k]`. -/
def mixWord (k : Nat) (h : RB) : RB :=
  let x := u32 (h.state.getD k 0 + h.mem h.p) ^^^ h.mem h.f
  let y := rotl8 x
  { h with state := h.state.set k y, mem := fun a => if a = h.t then y else h.mem a,
           p := h.p + 1, f := h.f + 1, t := h.t + 1 }

/-- Body of the `j` loop: the multiplication chain, then the eight words. -/
def hashBlocksGroup (multiplies randVal : Nat) (origState : List Nat) (h : RB) : RB :=
  forLoop 8 (fun k x => mixWord k x)
    { h with v := multChain multiplies randVal origState h.v }

/-- Body of the sub-block loop (`i`): `randVal = *f`, `p` from `prevAddr` and `randVal`,
then `subBlocklen/8` groups. -/
def hashBlocksSub (subBlocklen numSubBlocks prevAddr multiplies : Nat) (origState : List Nat)
    (h : RB) : RB :=
  let randVal := h.mem h.f
  let p := prevAddr + u32 (subBlocklen * (randVal &&& u32 (numSubBlocks + 2 ^ 32 - 1)))
  forLoop (subBlocklen / 8) (fun _ x => hashBlocksGroup multiplies randVal origState x)
    { h with p := p }

/-- `hashBlocks` of `tigerkdf-ref.c`.  `hashWithSalt` (of `tigerkdf-impl.h`, not in the
sources) is a parameter, applied as `hashWithSalt(state, state, v)`.  The result is `none`
when a division traps (`state[0] % parallelism` or `blocklen/subBlocklen`), otherwise the
memory and the new state. -/
def hashBlocks (hashWithSalt : List Nat → Nat → List Nat) (mem : Nat → Nat) (state : List Nat)
    (blocklen subBlocklen blocksPerThread fromAddr prevAddr toAddr multiplies repetitions p
      parallelism completedBlocks : Nat) : Option ((Nat → Nat) × List Nat) :=
  if fromAddr < u32 (completedBlocks * blocklen) ∧ parallelism = 0 then none
  else if subBlocklen = 0 then none
  else
    let fromAddr1 :=
      if fromAddr < u32 (completedBlocks * blocklen) then
        u64 (fromAddr + u32 (state.getD 0 0 % parallelism * blocksPerThread))
      else u64 (fromAddr + u32 (p * blocksPerThread))
    let numSubBlocks := blocklen / subBlocklen
    let h0 : RB := { mem := mem, state := state, v := 1, f := 0, t := 0, p := 0 }
    let h := forLoop repetitions (fun _ x =>
      forLoop numSubBlocks
        (fun _ y => hashBlocksSub subBlocklen numSubBlocks prevAddr multiplies state y)
        { x with f := fromAddr1, t := toAddr }) h0
    some (h.mem, hashWithSalt h.state h.v)

end Ref

/-! ## Entry states of the worker loops -/

/-- The loop variables with which `hashWithoutPassword` enters its block loop: the first
block of the worker's region filled from `H(hash, salt = be32enc(p))`,
`state = {1, 1, 1, 1, 1, 1, 1, 1}`, `mask = 1`, `numBits = 0`, `toAddr = start + blocklen`. -/
def Sse.hashWithoutPasswordInit (env : Env) (c : Sse.Common) (p : Nat) (m : Mach) : Sse.WS :=
  let start := u64 (u32 (2 * p) * c.numblocks * c.blocklen)
  let threadKey := env.hashOut (c.blocklen * 4) (c.hash.take c.hashSize) (be32enc p)
  { m := forLoop c.blocklen (fun i (x : Mach) => x.wr (start + i) (be32dec_vect threadKey i)) m,
    state := [1, 1, 1, 1, 1, 1, 1, 1], mask := 1, numBits := 0,
    toAddr := u64 (start + c.blocklen), stuck := false }

/-- The loop variables with which `hashWithPassword` enters its block loop:
`state = {1, 1, 1, 1, 1, 1, 1, 1}` and `toAddr = start`. -/
def Sse.hashWithPasswordInit (c : Sse.Common) (p : Nat) (m : Mach) : Sse.PS :=
  { m := m, state := [1, 1, 1, 1, 1, 1, 1, 1],
    toAddr := u64 (u32 (2 * p + 1) * c.numblocks * c.blocklen), stuck := false }

/-! ## The sliding window of the resistant pass -/

/-- The `(mask, numBits)` with which block `i` of `hashWithoutPassword` is processed: the
initial `(1, 0)` after the window updates of the blocks `1 .. i`. -/
def Sse.windowAt (i : Nat) : Nat × Nat :=
  forLoop i (fun k mn => Sse.slideWindow (k + 1) mn) (1, 0)

/-- The words of `multHashes` read so far, newest first. -/
def readsH : List Ev → List Nat
  | [] => []
  | Ev.rdH a :: tr => a :: readsH tr
  | _ :: tr => readsH tr

/-- The words of `multHashes` written so far, newest first. -/
def writesH : List Ev → List Nat
  | [] => []
  | Ev.wrH a :: tr => a :: writesH tr
  | _ :: tr => writesH tr

/-- A machine whose array `M` holds 1 at word `a` and 0 elsewhere, with no checkpoint
published. -/
def markedMach (a : Nat) : Mach :=
  { mem := fun x => if x = a then 1 else 0, multHashes := fun _ => 0,
    completedMultiplies := 0, trace := [] }

/-! ## Writes to `M` -/

/-- The words of `M` written so far, newest first. -/
def writesM : List Ev → List Nat
  | [] => []
  | Ev.wrM a :: tr => a :: writesM tr
  | _ :: tr => writesM tr

/-- The same machine with an empty trace, to observe the accesses of one thread. -/
def Mach.clearTrace (m : Mach) : Mach := { m with trace := [] }

/-- Every write to `M` recorded in `b` and not already in `a` is to a word of `[lo, hi)`. -/
def WritesIn (lo hi : Nat) (a b : Mach) : Prop :=
  ∀ x, Ev.wrM x ∈ b.trace → Ev.wrM x ∈ a.trace ∨ (lo ≤ x ∧ x < hi)

/-! ## The scalar definition of the block mixer (specification side of the refinement) -/

namespace Scalar

/-- The rotation of the specification: `rotl7(x) = (x << 7) | (x >> 25)` on 32 bits. -/
def rotl7 (x : Nat) : Nat := u32 (x <<< 7) ||| (x >>> 25)

/-- Registers of the scalar mixer of the specification: memory, the 8-word state and the
word cursors `f`, `t`, `p`. -/
structure SB where
  mem : Nat → Nat
  state : List Nat
  f : Nat
  t : Nat
  p : Nat

/-- The scalar step of the specification for word `k`:
`state[k] := rotl7((state[k] + M[p++]) XOR M[f++]); M[t++] := state[k]`. -/
def word (k : Nat) (h : SB) : SB :=
  let x := rotl7 (u32 (h.state.getD k 0 + h.mem h.p) ^^^ h.mem h.f)
  { h with state := h.state.set k x, mem := fun a => if a = h.t then x else h.mem a,
           p := h.p + 1, f := h.f + 1, t := h.t + 1 }

/-- One group of 8 words: the scalar step for `k = 0..7`. -/
def group (h : SB) : SB := forLoop 8 (fun k x => word k x) h

/-- One sub-block of the specification: `randVal = M[f]`,
`p = prevAddr + subBlocklen*(randVal AND (numSubBlocks-1))`, then the groups of 8 words. -/
def sub (subBlocklen numSubBlocks prevAddr : Nat) (h : SB) : SB :=
  let randVal := h.mem h.f
  forLoop (subBlocklen / 8) (fun _ x => group x)
    { h with p := prevAddr + subBlocklen * (randVal &&& (numSubBlocks - 1)) }

/-- The scalar block mixer of the specification: for each repetition, `f` and `t` restart at
`fromAddr` and `toAddr` and every sub-block is mixed; `prevAddr` is the block before
`toAddr` as the code computes it (`toAddr - blocklen` in 64 bits).  The result is the
memory and the state. -/
def hashBlocks (mem : Nat → Nat) (state : List Nat) (blocklen subBlocklen fromAddr toAddr
    repetitions : Nat) : (Nat → Nat) × List Nat :=
  let prevAddr := u64 (toAddr + 2 ^ 64 - blocklen)
  let numSubBlocks := blocklen / subBlocklen
  let h := forLoop repetitions (fun _ x =>
    forLoop numSubBlocks (fun _ y => sub subBlocklen numSubBlocks prevAddr y)
      { x with f := fromAddr, t := toAddr })
    { mem := mem, state := state, f := 0, t := 0, p := 0 }
  (h.mem, h.state)

end Scalar

/-! ## Bit reversal of the reference variant -/

/-- `reverse` of `tigerkdf-ref.c`: `numBits` rounds of
`result = (result << 1) | (v & 1); v >>= 1`, starting from `result = 0`. -/
def Ref.reverse (v numBits : Nat) : Nat :=
  (forLoop numBits (fun _ (rv : Nat × Nat) => (u32 (rv.1 <<< 1) ||| (rv.2 &&& 1), rv.2 >>> 1))
    (0, v)).1

/-! ## The statements of one pacer round -/

/-- Statement `k` of the body of the `j` loop of `multHash`:
`state[k] = (state[k]*(state[(k+1) % 8] | 1)) ^ (state[(k+2) % 8] >> 1)`. -/
def Sse.multStmt (k : Nat) (s : List Nat) : List Nat :=
  s.set k (u32 (s.getD k 0 * (s.getD ((k + 1) % 8) 0 ||| 1)) ^^^ (s.getD ((k + 2) % 8) 0 >>> 1))

/-- The 8-tuples of 32-bit words. -/
def Words8 : Set (List Nat) := {s | s.length = 8 ∧ ∀ x ∈ s, x < 2 ^ 32}

/-! ## Accesses made between two machine states -/

/-- Machine `b` is reached from `a` by accesses to `M` only: the events added to the
trace are reads of words in `R` and writes of words in `W`, every word of `C` has been
written, and the words outside `W` hold what they held in `a`. -/
def Touches (R W C : Nat → Prop) (a b : Mach) : Prop :=
  (∃ ext, b.trace = ext ++ a.trace
      ∧ (∀ e ∈ ext, (∃ x, e = Ev.rdM x ∧ R x) ∨ (∃ x, e = Ev.wrM x ∧ W x))
      ∧ ∀ x, C x → Ev.wrM x ∈ ext)
    ∧ ∀ x, ¬ W x → b.mem x = a.mem x

/-! ## Reads of words written earlier -/

/-- Whether every read recorded in a trace (newest first) of a word of `M` or of `multHashes`
comes after a write of the same word in that trace. -/
def readsWritten : List Ev → Bool
  | [] => true
  | Ev.rdM a :: tr => decide (Ev.wrM a ∈ tr) && readsWritten tr
  | Ev.rdH a :: tr => decide (Ev.wrH a ∈ tr) && readsWritten tr
  | _ :: tr => readsWritten tr

/-- The common data of a small garlic level: one worker, two blocks of 8 words per pass, a
4-byte hash. -/
def smallLevel (repetitions : Nat) : Sse.Common :=
  { hash := [0, 0, 0, 0], hashSize := 4, parallelism := 1, blocklen := 8, subBlocklen := 8,
    numblocks := 2, repetitions := repetitions, multipliesPerBlock := 8 }

/-! ## The pacer and the workers as a step relation -/

/-- The seed of the pacer: the 8 words decoded from
`H(threadKey, 32, hash, hashSize, be32enc(parallelism), 4)`. -/
def Sse.multHashSeed (env : Env) (c : Sse.Common) : List Nat :=
  (List.range 8).map
    (be32dec_vect (env.hashOut 32 (c.hash.take c.hashSize) (be32enc (u32 c.parallelism))))

/-- The body of the `i` loop of `multHash` up to the store of the checkpoint: the
multiplication rounds, `hashState`, and the eight stores at slot `completedMultiplies`. -/
def Sse.multHashPublish (env : Env) (c : Sse.Common) (ms : Mach × List Nat) :
    Mach × List Nat :=
  let st := Sse.hashState env (forLoop (Sse.multRounds c) (fun _ s => Sse.multRound s) ms.2)
  (forLoop 8 (fun j (m : Mach) =>
    m.wrH (u32 (8 * m.completedMultiplies + j)) (st.getD j 0)) ms.1, st)

/-- The statement `(c->completedMultiplies)++` that ends the body of the `i` loop. -/
def Sse.multHashIncrement (m : Mach) : Mach :=
  { m with completedMultiplies := u32 (m.completedMultiplies + 1) }

/-- One garlic level seen as threads that take turns: the shared machine, the pacer's
local `state`, its loop index `i`, and whether it stands between the store of a checkpoint
and the increment of the counter. -/
structure Sys where
  m : Mach
  pacerState : List Nat
  pacerI : Nat
  stored : Bool

/-- One atomic step of a garlic level.  The pacer stores a checkpoint (`publish`, while
`i < numblocks*2`) or increments the counter (`increment`).  A worker fills its first block
(`fill`), runs the block mixer (`mix`), or folds checkpoint `iteration` into its state once
the wait of `hashMultItoState` has ended (`fold`); the local data of the workers is
arbitrary. -/
inductive LevelStep (env : Env) (c : Sse.Common) : Sys → Sys → Prop
  | publish (s : Sys) : s.stored = false → s.pacerI < u32 (c.numblocks * 2) →
      LevelStep env c s
        { m := (Sse.multHashPublish env c (s.m, s.pacerState)).1,
          pacerState := (Sse.multHashPublish env c (s.m, s.pacerState)).2,
          pacerI := s.pacerI, stored := true }
  | increment (s : Sys) : s.stored = true →
      LevelStep env c s
        { s with m := Sse.multHashIncrement s.m, pacerI := s.pacerI + 1, stored := false }
  | fill (s : Sys) (start n : Nat) (val : Nat → Nat) :
      LevelStep env c s
        { s with m := forLoop n (fun i (x : Mach) => x.wr (start + i) (val i)) s.m }
  | mix (s : Sys) (state : List Nat) (blocklen sub fromAddr toAddr repetitions : Nat) :
      LevelStep env c s
        { s with m := (Sse.hashBlocks s.m state blocklen sub fromAddr toAddr repetitions).1 }
  | fold (s : Sys) (iteration : Nat) (state : List Nat) (r : Mach × List Nat) :
      Sse.hashMultItoState env iteration s.m state = some r →
      LevelStep env c s { s with m := r.1 }

/-- The state in which garlic level `g` starts: the counter reset, the pacer at `i = 0`
with its seed. -/
def levelStart (env : Env) (c : Sse.Common) (g : Nat) (m : Mach) : Sys :=
  { m := m.startLevel g c.numblocks, pacerState := Sse.multHashSeed env c, pacerI := 0,
    stored := false }

/-- The words of the checkpoint slots `0 .. k-1` in the order of their stores, newest
first. -/
def slotWords : Nat → List Nat
  | 0 => []
  | k + 1 => [8 * k + 7, 8 * k + 6, 8 * k + 5, 8 * k + 4, 8 * k + 3, 8 * k + 2, 8 * k + 1,
      8 * k] ++ slotWords k

/-- The words of `multHashes` that the pacer stores in its first `k` checkpoints when it
starts with the counter at 0, newest first, with the index computed in 32 bits as in
`multHashes[8*c->completedMultiplies + j]`. -/
def Sse.pacerWords : Nat → List Nat
  | 0 => []
  | k + 1 => [u32 (8 * u32 k + 7), u32 (8 * u32 k + 6), u32 (8 * u32 k + 5),
      u32 (8 * u32 k + 4), u32 (8 * u32 k + 3), u32 (8 * u32 k + 2), u32 (8 * u32 k + 1),
      u32 (8 * u32 k + 0)] ++ Sse.pacerWords k

/-- Whether every read of a word of `multHashes` recorded in a trace (newest first) comes
after a store of that word. -/
def foldsAfterWrites : List Ev → Bool
  | [] => true
  | Ev.rdH a :: tr => decide (Ev.wrH a ∈ tr) && foldsAfterWrites tr
  | _ :: tr => foldsAfterWrites tr

/-- The publication order of the checkpoints in a state of a garlic level that started with
the trace `t0` and publishes `N` checkpoints: the counter equals the pacer index `i ≤ N`;
the words stored since the start are those of the slots `0 .. i-1` (and of slot `i` between
its store and the increment), each once and in this order; and every read of a word of
`multHashes` comes after the store of that word. -/
def PublicationInv (t0 : List Ev) (N : Nat) (s : Sys) : Prop :=
  s.m.completedMultiplies = s.pacerI ∧ s.pacerI ≤ N ∧ (s.stored = true → s.pacerI < N)
    ∧ ∃ ext, s.m.trace = ext ++ t0
        ∧ writesH ext = slotWords (s.pacerI + if s.stored then 1 else 0)
        ∧ foldsAfterWrites ext = true

namespace Ref

/-! ## Passes and slices of the reference variant (`tigerkdf-ref.c`) -/

/-- The source address of the reference `hashBlocks` after the thread offset is added:
`if(fromAddr < completedBlocks*blocklen) fromAddr += (state[0] % parallelism)*blocksPerThread;
else fromAddr += p*blocksPerThread;`. -/
def sourceAddr (state : List Nat) (blocklen blocksPerThread fromAddr p parallelism
    completedBlocks : Nat) : Nat :=
  if fromAddr < u32 (completedBlocks * blocklen) then
    u64 (fromAddr + u32 (state.getD 0 0 % parallelism * blocksPerThread))
  else u64 (fromAddr + u32 (p * blocksPerThread))

/-- The loop `while(1 << numBits <= i) numBits++;` of the reference `hashWithoutPassword`,
with `fuel` bounding the number of rounds (32 rounds are enough for `i < 2^31`; beyond that
the shift is undefined in C). -/
def growNumBits : Nat → Nat → Nat → Nat
  | 0, _, numBits => numBits
  | fuel + 1, i, numBits =>
    if u32 (1 <<< numBits) ≤ i then growNumBits fuel i (numBits + 1) else numBits

/-- Loop variables of the reference passes: memory, the worker's `state`, `numBits`, and the
addresses passed to `hashBlocks` so far, newest first: the source address after the thread
offset is added, `prevAddr`, and `toAddr`. -/
structure RW where
  mem : Nat → Nat
  state : List Nat
  numBits : Nat
  log : List (Nat × Nat × Nat)

/-- Body of the block loop of the reference `hashWithoutPassword` for block `i`; `none`
when a division in `hashBlocks` traps. -/
def hashWithoutPasswordStep (hashWithSalt : List Nat → Nat → List Nat)
    (p blocklen blocksPerThread multiplies repetitions parallelism completedBlocks start
      i : Nat) (w : Option RW) : Option RW :=
  match w with
  | none => none
  | some w =>
    let numBits := growNumBits 32 i w.numBits
    let half := u32 (1 <<< (numBits - 1))
    let reversePos0 := reverse i (numBits - 1)
    let reversePos := if u32 (reversePos0 + half) < i then u32 (reversePos0 + half)
                      else reversePos0
    let fromAddr := u64 (blocklen * reversePos)
    let toAddr := u64 (start + u64 (i * blocklen))
    let prevAddr := u64 (toAddr + 2 ^ 64 - blocklen)
    match hashBlocks hashWithSalt w.mem w.state (u32 blocklen) (u32 blocklen) blocksPerThread
        fromAddr prevAddr toAddr multiplies repetitions p parallelism completedBlocks with
    | none => none
    | some r =>
      some { mem := r.1, state := r.2, numBits := numBits,
             log := (sourceAddr w.state (u32 blocklen) blocksPerThread fromAddr p parallelism
                       completedBlocks, prevAddr, toAddr) :: w.log }

/-- `hashWithoutPassword` of `tigerkdf-ref.c`: one slice of the resistant pass of worker
`p` starting at block `completedBlocks`.  With `completedBlocks = 0` the first block is
filled by `hashWithSalt(mem + start + 8*i, state, i)` and the slice starts at block 1. -/
def hashWithoutPassword (hashWithSalt : List Nat → Nat → List Nat) (mem : Nat → Nat)
    (state : List Nat) (p blocklen blocksPerThread multiplies repetitions parallelism
      completedBlocks : Nat) : Option RW :=
  let start := u32 (blocksPerThread * p)
  let mem1 :=
    if completedBlocks = 0 then
      forLoop (blocklen / 8) (fun i (x : Nat → Nat) => fun a =>
        if start + u32 (8 * i) ≤ a ∧ a < start + u32 (8 * i) + 8 then
          (hashWithSalt state i).getD (a - (start + u32 (8 * i))) 0
        else x a) mem
    else mem
  let cb := if completedBlocks = 0 then 1 else completedBlocks
  forLoop (u32 (cb + blocksPerThread / 8) - cb)
    (fun k w => hashWithoutPasswordStep hashWithSalt p blocklen blocksPerThread multiplies
      repetitions parallelism cb start (cb + k) w)
    (some { mem := mem1, state := state, numBits := 1, log := [] })

/-- Body of the block loop of the reference `hashWithPassword` for block `i`. -/
def hashWithPasswordStep (hashWithSalt : List Nat → Nat → List Nat)
    (p blocklen subBlocklen blocksPerThread multiplies repetitions parallelism completedBlocks
      start i : Nat) (w : Option RW) : Option RW :=
  match w with
  | none => none
  | some w =>
    let v := w.state.getD 0 0
    let v2 := u64 (v * v) >>> 32
    let v3 := u64 (v * v2) >>> 32
    let distance := u32 (u64 (u32 (i + blocksPerThread + 2 ^ 32 - 1) * v3) >>> 32)
    let fromAddr := u64 (u32 (i + 2 ^ 33 - 1 - distance) * blocklen)
    let toAddr := u64 (start + u64 (i * blocklen))
    let prevAddr := u64 (toAddr + 2 ^ 64 - blocklen)
    match hashBlocks hashWithSalt w.mem w.state (u32 blocklen) subBlocklen blocksPerThread
        fromAddr prevAddr toAddr multiplies repetitions p parallelism completedBlocks with
    | none => none
    | some r =>
      some { mem := r.1, state := r.2, numBits := w.numBits,
             log := (sourceAddr w.state (u32 blocklen) blocksPerThread fromAddr p parallelism
                       completedBlocks, prevAddr, toAddr) :: w.log }

/-- `hashWithPassword` of `tigerkdf-ref.c`: one slice of the unpredictable pass of worker
`p` starting at block `completedBlocks`. -/
def hashWithPassword (hashWithSalt : List Nat → Nat → List Nat) (mem : Nat → Nat)
    (state : List Nat) (p blocklen subBlocklen blocksPerThread multiplies repetitions
      parallelism completedBlocks : Nat) : Option RW :=
  let start := u64 (u64 (u32 (p * blocksPerThread) * blocklen)
    + u64 (blocksPerThread * blocklen) / 2)
  forLoop (u32 (completedBlocks + blocksPerThread / 8) - completedBlocks)
    (fun k w => hashWithPasswordStep hashWithSalt p blocklen subBlocklen blocksPerThread
      multiplies repetitions parallelism completedBlocks start (completedBlocks + k) w)
    (some { mem := mem, state := state, numBits := 0, log := [] })

/-- `addIntoHash(hash256, mem + idx)`: `hash256[i] += mem[idx + i]` for `i = 0..7`. -/
def addIntoHash (hash256 : List Nat) (mem : Nat → Nat) (idx : Nat) : List Nat :=
  (List.range 8).map (fun i => u32 (hash256.getD i 0 + mem (idx + i)))

/-- The word index at which `hashMemory` folds after a slice:
`mem + (slice+1)*blocksPerThread/8 - 8`, the 32-bit quotient `(slice+1)*blocksPerThread/8`
added to the pointer and 8 subtracted from the result. -/
def foldIndex (slice blocksPerThread : Nat) : Int :=
  ((u32 ((slice + 1) * blocksPerThread) / 8 : Nat) : Int) - 8

/-- State of the slice loops of `hashMemory`: memory, the `state` of each worker,
`hash256`, and the folds done so far, newest first, as (slice, worker, word index, the last
destination block `toAddr` of the worker in this slice). -/
structure HM where
  mem : Nat → Nat
  states : Nat → List Nat
  hash256 : List Nat
  folds : List (Nat × Nat × Int × Option Nat)

/-- Body of the worker loops of `hashMemory` for slice `slice` and worker `p`: the pass of
the worker on its `state`, then `addIntoHash` at `foldIndex`.  The result is `none` when a
division traps or when the eight words at the fold index are not inside the array of
`memlen` words. -/
def sliceStep (hashWithSalt : List Nat → Nat → List Nat)
    (memlen blocksPerThread blocklen subBlocklen multiplies parallelism repetitions slice
      p : Nat) (x : Option HM) : Option HM :=
  match x with
  | none => none
  | some h =>
    let completedBlocks := u32 (slice * blocksPerThread) / 8
    let r := if slice < 4 then
        hashWithoutPassword hashWithSalt h.mem (h.states p) p blocklen blocksPerThread
          multiplies repetitions parallelism completedBlocks
      else
        hashWithPassword hashWithSalt h.mem (h.states p) p blocklen subBlocklen
          blocksPerThread multiplies repetitions parallelism completedBlocks
    match r with
    | none => none
    | some w =>
      let idx := foldIndex slice blocksPerThread
      if idx < 0 ∨ (memlen : Int) < idx + 8 then none
      else
        some { mem := w.mem,
               states := fun q => if q = p then w.state else h.states q,
               hash256 := addIntoHash h.hash256 w.mem idx.toNat,
               folds := (slice, p, idx, w.log.head?.map (fun e => e.2.2)) :: h.folds }

/-- The slice loops of `hashMemory` of `tigerkdf-ref.c`, from the initialisation of the
worker states by `hashWithSalt(state + 8*p, hash256, p)` to the last fold: four resistant
slices, then four unpredictable slices, each over all workers in turn. -/
def hashMemorySlices (hashWithSalt : List Nat → Nat → List Nat) (hash256 : List Nat)
    (mem : Nat → Nat) (memlen blocksPerThread blocklen subBlocklen multiplies parallelism
      repetitions : Nat) : Option HM :=
  let h0 : HM := { mem := mem, states := fun p => hashWithSalt hash256 p, hash256 := hash256,
                   folds := [] }
  let h1 := forLoop 4 (fun slice x =>
    forLoop parallelism (fun p y => sliceStep hashWithSalt memlen blocksPerThread blocklen
      subBlocklen multiplies parallelism repetitions slice p y) x) (some h0)
  forLoop 4 (fun k x =>
    forLoop parallelism (fun p y => sliceStep hashWithSalt memlen blocksPerThread blocklen
      subBlocklen multiplies parallelism repetitions (k + 4) p y) x) h1

end Ref

/-- A concrete instance of `hashWithSalt` for evaluating the reference code: word `k` of
the output mixes word `k` of the input, the salt and the position. -/
def demoHashWithSalt (state : List Nat) (salt : Nat) : List Nat :=
  (List.range 8).map (fun k => u32 (state.getD k 0 * 31 + salt * 7 + k + 1))

/-! ## The accesses of one garlic level -/

/-- The accesses made since the trace was `t0` are those of a garlic level in which every
read follows a write: the trace is `ext ++ t0`, every read of `ext` follows a write of the
same word in `ext`, every word of `Cov` has been written, and so has every word of the
checkpoints `0 .. nb-1`. -/
def LevelTrace (nb : Nat) (t0 : List Ev) (Cov : Nat → Prop) (m : Mach) : Prop :=
  ∃ ext, m.trace = ext ++ t0 ∧ readsWritten ext = true
    ∧ (∀ x, Cov x → Ev.wrM x ∈ ext)
    ∧ ∀ i k, i < nb → k < 8 → Ev.wrH (u32 (i * 8 + k)) ∈ ext

/-! ## The garlic loop as a fixed number of levels -/

/-- The garlic loop as the specification words it: `n` levels `g`, `g+1`, ... one after
the other, each with exactly twice the blocks of the previous one; after each level the
salted hash `H(hash, hashSize, hash, hashSize, &g, 1)` is applied, except after the last
one when `skipLastHash` is set.  There is no 8-bit counter, no 32-bit product and no exit
on failure here.  The result is the hash buffer and the machine. -/
def garlicLevelsSpec (env : Env) (skipLastHash : Bool) :
    Nat → Nat → Sse.Common → Mach → List Nat × Mach
  | 0, _, c, m => (c.hash, m)
  | n + 1, g, c, m =>
    let m1 := (Sse.combineHashes env c.hash c.hashSize (levelMach env c g m) c.blocklen
      c.numblocks c.parallelism).1
    let hash1 := levelHash env c g m
    let hash2 := if n = 0 ∧ skipLastHash = true then hash1
                 else Sse.rehash env hash1 c.hashSize [g]
    garlicLevelsSpec env skipLastHash n (g + 1)
      { c with hash := hash2, numblocks := c.numblocks * 2 } m1

/-! ## Command line (`main.c`): reading the hexadecimal salt -/

namespace Cli

/-- The function `toupper` of `<ctype.h>` in the "C" locale, which is the locale of the
program since it never calls `setlocale`: a lower-case letter `a`-`z` (97 .. 122) gives the
upper-case letter, every other value is returned unchanged. -/
def toupper (c : Nat) : Nat :=
  if 97 ≤ c ∧ c ≤ 122 then c - 32 else c

/-- The conversion of an `int` in `0 .. 255` to `char`: the value itself where `char` is
unsigned, the value reduced to `-128 .. 127` where `char` is signed. -/
def toChar (charSigned : Bool) (v : Nat) : Int :=
  if charSigned = true ∧ 128 ≤ v % 256 then ((v % 256 : Nat) : Int) - 256
  else ((v % 256 : Nat) : Int)

/-- The function `readHexByte` of `main.c`.  `dest` is the byte at `*dest` before the call
and `value` holds the bytes of the string at `value`, the terminating NUL not included (so
the byte at an index from the length on reads as 0).  The result is the returned flag and
the byte at `*dest` after the call.  The character codes are `'0'` = 48, `'9'` = 57,
`'A'` = 65 and `'F'` = 70. -/
def readHexByte (charSigned : Bool) (dest : Nat) (value : List Nat) : Bool × Nat :=
  let c := toChar charSigned (toupper (u8 (value.getD 0 0)))
  if 48 ≤ c ∧ c ≤ 57 then
    let byte := u8 (c - 48).toNat
    let byte := u8 (byte <<< 4)
    let c := toChar charSigned (toupper (u8 (value.getD 1 0)))
    if 48 ≤ c ∧ c ≤ 57 then (true, u8 (byte ||| (c - 48).toNat))
    else if 65 ≤ c ∧ c ≤ 70 then (true, u8 (byte ||| (c - 65 + 10).toNat))
    else (false, dest)
  else if 65 ≤ c ∧ c ≤ 70 then
    let byte := u8 (c - 65 + 10).toNat
    let byte := u8 (byte <<< 4)
    let c := toChar charSigned (toupper (u8 (value.getD 1 0)))
    if 48 ≤ c ∧ c ≤ 57 then (true, u8 (byte ||| (c - 48).toNat))
    else if 65 ≤ c ∧ c ≤ 70 then (true, u8 (byte ||| (c - 65 + 10).toNat))
    else (false, dest)
  else (false, dest)

/-- Whether the byte is a hexadecimal digit: `0`-`9` (48 .. 57), `A`-`F` (65 .. 70) or
`a`-`f` (97 .. 102). -/
def isHexDigit (c : Nat) : Bool :=
  (decide (48 ≤ c) && decide (c ≤ 57)) || (decide (65 ≤ c) && decide (c ≤ 70))
    || (decide (97 ≤ c) && decide (c ≤ 102))

/-- The value of a hexadecimal digit: `0`-`9` give 0 .. 9, `A`-`F` and `a`-`f` give
10 .. 15. -/
def hexDigitValue (c : Nat) : Nat :=
  if c ≤ 57 then c - 48 else if c ≤ 70 then c - 65 + 10 else c - 97 + 10

end Cli

/-! ## The pacer with its multiplications counted -/

/-- The body of the `j` loop of `multHash` with its multiplications counted: the eight
statements of lines 77-84 in order, each of them one multiplication. -/
def Sse.multRoundCounted (sn : List Nat × Nat) : List Nat × Nat :=
  forLoop 8 (fun k (x : List Nat × Nat) => (Sse.multStmt k x.1, x.2 + 1)) sn

/-- The body of the `i` loop of `multHash` with the multiplications counted: the `j` loop,
`hashState`, the eight stores of the checkpoint at slot `completedMultiplies`, and the
increment of the counter.  The count is a natural number (the program's own `numMults` is
this count modulo `2^32`). -/
def Sse.multHashStepCounted (env : Env) (c : Sse.Common) (x : (Mach × List Nat) × Nat) :
    (Mach × List Nat) × Nat :=
  let r := forLoop (Sse.multRounds c) (fun _ y => Sse.multRoundCounted y) (x.1.2, x.2)
  let st := Sse.hashState env r.1
  let m1 := forLoop 8 (fun j (m : Mach) =>
    m.wrH (u32 (8 * m.completedMultiplies + j)) (st.getD j 0)) x.1.1
  (({ m1 with completedMultiplies := u32 (m1.completedMultiplies + 1) }, st), r.2)

/-- The pacer thread `multHash` run to completion, with the multiplications counted: the
machine it leaves and the number of multiplications it has performed. -/
def Sse.multHashCounted (env : Env) (c : Sse.Common) (m : Mach) : Mach × Nat :=
  let threadKey := env.hashOut 32 (c.hash.take c.hashSize) (be32enc (u32 c.parallelism))
  let state := (List.range 8).map (be32dec_vect threadKey)
  let r := forLoop (u32 (c.numblocks * 2)) (fun _ x => Sse.multHashStepCounted env c x)
    ((m, state), 0)
  (r.1.1, r.2)

/-! ## What a fold reads, whatever the interleaving -/

/-- The calls of `TigerKDF` whose garlic levels stay inside the arrays allocated for the
last level and whose integer operations are all defined: the garlic range is the documented
one (`startGarlic ≤ stopGarlic ≤ 30`, so that the shifts of lines 284 and 285 are by less
than 64), `memSize` is a 32-bit value, `blockSize` is at most the documented `2^20` bytes
(every resistant worker keeps a block on its stack), the divisor `2*parallelism*blocklen` is
not 0 in 32 bits, `subBlocklen` is a positive multiple of 8 words that divides `blocklen`,
there is at least one repetition, one worker and one block per worker, `hashSize` is not 0
and the tail of `hashSize/4` words fits in a block, and `2*parallelism*numblocks` does not
wrap in 32 bits at the last level.  Nothing is asked of `hashSize` modulo 4, of powers of
two, of the number of workers or of `multipliesPerBlock`.  Under these conditions every
access of the call is inside the arrays (`TigerKDF_inside`). -/
def CallInBounds (hashSize memSize startGarlic stopGarlic blockSize subBlockSize parallelism
    repetitions : Nat) : Prop :=
  startGarlic ≤ stopGarlic ∧ stopGarlic ≤ 30 ∧ memSize < 2 ^ 32 ∧ blockSize ≤ 2 ^ 20
    ∧ u32 (2 * parallelism * (blockSize / 4)) ≠ 0
    ∧ (∃ s8 ns, 1 ≤ s8 ∧ 1 ≤ ns
        ∧ (if subBlockSize ≠ 0 then subBlockSize / 4 else blockSize / 4) = 8 * s8
        ∧ blockSize / 4 = 8 * s8 * ns)
    ∧ 1 ≤ repetitions ∧ 1 ≤ hashSize ∧ hashSize / 4 ≤ blockSize / 4 ∧ 1 ≤ parallelism
    ∧ 1 ≤ Sse.numblocksStart memSize blockSize parallelism startGarlic
    ∧ 2 * parallelism * (Sse.numblocksStart memSize blockSize parallelism startGarlic
        * 2 ^ (stopGarlic - startGarlic)) < 2 ^ 32

theorem forLoop_rel {σ τ : Type} (R : σ → τ → Prop) (f : Nat → σ → σ) (g : Nat → τ → τ)
    (hstep : ∀ i a b, R a b → R (f i a) (g i b)) :
    ∀ (n : Nat) (a : σ) (b : τ), R a b → R (forLoop n f a) (forLoop n g b) := by
  intro n
  induction n with
  | zero => intro a b h; exact h
  | succ n ih => intro a b h; exact hstep n _ _ (ih a b h)

theorem readsM_rd (m : Mach) (a : Nat) : readsM (m.rd a).2.trace = a :: readsM m.trace := rfl

theorem readsM_wr (m : Mach) (a v : Nat) : readsM (m.wr a v).trace = readsM m.trace := rfl

theorem readsM_rdH (m : Mach) (a : Nat) : readsM (m.rdH a).2.trace = readsM m.trace := rfl

theorem readsM_wrH (m : Mach) (a v : Nat) : readsM (m.wrH a v).trace = readsM m.trace := rfl

theorem readsM_loadVec (m : Mach) (v : Nat) :
    readsM (Sse.loadVec m v).2.trace
      = (4 * v + 3) :: (4 * v + 2) :: (4 * v + 1) :: (4 * v) :: readsM m.trace := rfl

theorem readsM_storeVec (m : Mach) (v : Nat) (s : List Nat) :
    readsM (Sse.storeVec m v s).trace = readsM m.trace := rfl

theorem readsM_mixVec (m : Mach) (s : List Nat) (p f t : Nat) :
    readsM (Sse.mixVec m s p f t).1.trace
      = (4 * f + 3) :: (4 * f + 2) :: (4 * f + 1) :: (4 * f) ::
        (4 * p + 3) :: (4 * p + 2) :: (4 * p + 1) :: (4 * p) :: readsM m.trace := by
  unfold Sse.mixVec
  simp only [readsM_storeVec, readsM_loadVec]

theorem hashBlocksInner_same (a b : Sse.HB) (h : HBSame a b) :
    HBSame (Sse.hashBlocksInner a) (Sse.hashBlocksInner b) := by
  obtain ⟨hf, ht, hp, hr⟩ := h
  refine ⟨?_, ?_, ?_, ?_⟩
  · simp [Sse.hashBlocksInner, hf]
  · simp [Sse.hashBlocksInner, ht]
  · simp [Sse.hashBlocksInner, hp]
  · simp only [Sse.hashBlocksInner, readsM_mixVec, hf, hp, hr]

theorem hashBlocksSub_same (sub prevAddr : Nat) (a b : Sse.HB) (h : HBSame a b) :
    HBSame (Sse.hashBlocksSub sub prevAddr 0 a) (Sse.hashBlocksSub sub prevAddr 0 b) := by
  obtain ⟨hf, ht, hp, hr⟩ := h
  unfold Sse.hashBlocksSub
  apply forLoop_rel HBSame _ _ (fun _ x y hxy => hashBlocksInner_same x y hxy)
  refine ⟨hf, ht, ?_, ?_⟩
  · simp
  · simp only [readsM_rd, hf, hr]

theorem hashBlocksSubLoop_same (n sub prevAddr mask : Nat) (hnm : n = 0 ∨ mask = 0)
    (a b : Sse.HB) (h : HBSame a b) :
    HBSame (forLoop n (fun _ y => Sse.hashBlocksSub sub prevAddr mask y) a)
      (forLoop n (fun _ y => Sse.hashBlocksSub sub prevAddr mask y) b) := by
  rcases hnm with hn | hm
  · subst hn; exact h
  · subst hm
    exact forLoop_rel HBSame _ _ (fun _ x y hxy => hashBlocksSub_same _ _ x y hxy) n a b h

theorem hashBlocks_reads_same (m1 m2 : Mach) (s1 s2 : List Nat)
    (blocklen fromAddr toAddr repetitions : Nat)
    (h : readsM m1.trace = readsM m2.trace) :
    readsM (Sse.hashBlocks m1 s1 blocklen blocklen fromAddr toAddr repetitions).1.trace
      = readsM (Sse.hashBlocks m2 s2 blocklen blocklen fromAddr toAddr repetitions).1.trace := by
  unfold Sse.hashBlocks
  have hnm : blocklen / blocklen = 0 ∨ u32 (blocklen / blocklen + 2 ^ 32 - 1) = 0 := by
    by_cases hb : blocklen = 0
    · left; subst hb; rfl
    · right; rw [Nat.div_self (Nat.pos_of_ne_zero hb)]; rfl
  have key := forLoop_rel HBSame
    (fun _ (x : Sse.HB) => forLoop (blocklen / blocklen) (fun _ y =>
      Sse.hashBlocksSub blocklen (u64 (toAddr + 2 ^ 64 - blocklen))
        (u32 (blocklen / blocklen + 2 ^ 32 - 1)) y)
        { x with f := fromAddr / 4, t := toAddr / 4 })
    (fun _ (x : Sse.HB) => forLoop (blocklen / blocklen) (fun _ y =>
      Sse.hashBlocksSub blocklen (u64 (toAddr + 2 ^ 64 - blocklen))
        (u32 (blocklen / blocklen + 2 ^ 32 - 1)) y)
        { x with f := fromAddr / 4, t := toAddr / 4 })
    (fun _ a b hab => hashBlocksSubLoop_same _ _ _ _ hnm _ _ ⟨rfl, rfl, hab.2.2.1, hab.2.2.2⟩)
    repetitions
    { m := m1, s1 := (List.range 4).map (fun k => s1.getD k 0),
      s2 := (List.range 4).map (fun k => s1.getD (k + 4) 0), f := 0, t := 0, p := 0 }
    { m := m2, s1 := (List.range 4).map (fun k => s2.getD k 0),
      s2 := (List.range 4).map (fun k => s2.getD (k + 4) 0), f := 0, t := 0, p := 0 }
    ⟨rfl, rfl, rfl, h⟩
  exact key.2.2.2

/-! ## Frame: what the memory workers leave unchanged -/

theorem forLoop_inv {σ : Type} (P : σ → Prop) (body : Nat → σ → σ)
    (hstep : ∀ i s, P s → P (body i s)) : ∀ (n : Nat) (s : σ), P s → P (forLoop n body s) := by
  intro n
  induction n with
  | zero => intro s h; exact h
  | succ n ih => intro s h; exact hstep n _ (ih s h)

theorem SameCtl.refl (a : Mach) : SameCtl a a := ⟨rfl, rfl, rfl⟩

theorem SameCtl.trans {a b c : Mach} (h1 : SameCtl a b) (h2 : SameCtl b c) : SameCtl a c :=
  ⟨h1.1.trans h2.1, h1.2.1.trans h2.2.1, h1.2.2.trans h2.2.2⟩

theorem sameCtl_rd (m : Mach) (a : Nat) : SameCtl m (m.rd a).2 := ⟨rfl, rfl, rfl⟩

theorem sameCtl_wr (m : Mach) (a v : Nat) : SameCtl m (m.wr a v) := ⟨rfl, rfl, rfl⟩

theorem sameCtl_loadVec (m : Mach) (v : Nat) : SameCtl m (Sse.loadVec m v).2 := by
  unfold Sse.loadVec
  exact (((sameCtl_rd _ _).trans (sameCtl_rd _ _)).trans (sameCtl_rd _ _)).trans
    (sameCtl_rd _ _)

theorem sameCtl_storeVec (m : Mach) (v : Nat) (s : List Nat) :
    SameCtl m (Sse.storeVec m v s) := by
  unfold Sse.storeVec
  exact (((sameCtl_wr _ _ _).trans (sameCtl_wr _ _ _)).trans (sameCtl_wr _ _ _)).trans
    (sameCtl_wr _ _ _)

theorem sameCtl_mixVec (m : Mach) (s : List Nat) (p f t : Nat) :
    SameCtl m (Sse.mixVec m s p f t).1 := by
  unfold Sse.mixVec
  exact ((sameCtl_loadVec _ _).trans (sameCtl_loadVec _ _)).trans (sameCtl_storeVec _ _ _)

theorem sameCtl_hashBlocksInner (h : Sse.HB) : SameCtl h.m (Sse.hashBlocksInner h).m := by
  unfold Sse.hashBlocksInner
  exact (sameCtl_mixVec _ _ _ _ _).trans (sameCtl_mixVec _ _ _ _ _)

theorem sameCtl_hashBlocksSub (sub prevAddr mask : Nat) (h : Sse.HB) :
    SameCtl h.m (Sse.hashBlocksSub sub prevAddr mask h).m := by
  unfold Sse.hashBlocksSub
  exact forLoop_inv (fun x : Sse.HB => SameCtl h.m x.m) _
    (fun _ x hx => hx.trans (sameCtl_hashBlocksInner x)) _ _ (sameCtl_rd h.m _)

theorem sameCtl_hashBlocksRep (n sub prevAddr mask : Nat) (h : Sse.HB) :
    SameCtl h.m (forLoop n (fun _ y => Sse.hashBlocksSub sub prevAddr mask y) h).m :=
  forLoop_inv (fun x : Sse.HB => SameCtl h.m x.m) _
    (fun _ y hy => hy.trans (sameCtl_hashBlocksSub _ _ _ y)) n h (SameCtl.refl h.m)

theorem sameCtl_hashBlocks (m : Mach) (state : List Nat) (blocklen sub fromAddr toAddr
    repetitions : Nat) :
    SameCtl m (Sse.hashBlocks m state blocklen sub fromAddr toAddr repetitions).1 := by
  unfold Sse.hashBlocks
  exact forLoop_inv (fun x : Sse.HB => SameCtl m x.m) _
    (fun _ x hx => hx.trans (sameCtl_hashBlocksRep _ _ _ _
      { x with f := fromAddr / 4, t := toAddr / 4 })) repetitions
    { m := m, s1 := (List.range 4).map (fun k => state.getD k 0),
      s2 := (List.range 4).map (fun k => state.getD (k + 4) 0), f := 0, t := 0, p := 0 }
    (SameCtl.refl m)

theorem hashMultItoState_none (env : Env) (i : Nat) (m : Mach) (s : List Nat) :
    Sse.hashMultItoState env i m s = none ↔ m.completedMultiplies ≤ i := by
  unfold Sse.hashMultItoState
  by_cases h : i ≥ m.completedMultiplies
  · simp only [h, if_true, true_iff]
  · rw [if_neg h]
    constructor
    · intro hh; exact absurd hh (by simp)
    · intro hh; exact absurd hh h

theorem hashMultItoState_some (env : Env) (i : Nat) (m : Mach) (s : List Nat)
    (r : Mach × List Nat) (h : Sse.hashMultItoState env i m s = some r) :
    r.1.mem = m.mem ∧ SameCtl m r.1 ∧ readsM r.1.trace = readsM m.trace := by
  unfold Sse.hashMultItoState at h
  by_cases hc : i ≥ m.completedMultiplies
  · simp [hc] at h
  · simp only [hc, if_false, Option.some.injEq] at h
    subst h
    have key := forLoop_inv
      (fun x : Mach × List Nat => x.1.mem = m.mem ∧ SameCtl m x.1
        ∧ readsM x.1.trace = readsM m.trace)
      (fun k (ms : Mach × List Nat) =>
        ((ms.1.rdH (u32 (i * 8 + k))).2,
          ms.2.set k (ms.2.getD k 0 ^^^ (ms.1.rdH (u32 (i * 8 + k))).1)))
      (fun k x hx => ⟨hx.1, hx.2.1.trans ⟨rfl, rfl, rfl⟩, hx.2.2⟩) 8 (m, s)
      ⟨rfl, SameCtl.refl m, rfl⟩
    exact key

theorem hashWithoutPasswordStep_same (env1 env2 : Env) (c1 c2 : Sse.Common) (start i : Nat)
    (hb : c1.blocklen = c2.blocklen) (hr : c1.repetitions = c2.repetitions)
    (a b : Sse.WS) (h : WSSame a b) :
    WSSame (Sse.hashWithoutPasswordStep env1 c1 start i a)
      (Sse.hashWithoutPasswordStep env2 c2 start i b) := by
  obtain ⟨hm, hn, ht, hs, hc, htr⟩ := h
  unfold Sse.hashWithoutPasswordStep
  rw [← hs]
  by_cases hst : a.stuck = true
  · simp only [hst, if_true]
    exact ⟨hm, hn, ht, hs, hc, htr⟩
  · simp only [hst, if_false, Bool.false_eq_true]
    rw [hb]
    by_cases hz : c2.blocklen = 0
    · simp only [hz, if_true]
      exact ⟨hm, hn, ht, rfl, hc, htr⟩
    simp only [hz, if_false]
    have hbr := hashBlocks_reads_same a.m b.m a.state b.state c2.blocklen
      (u64 (start + u64 (c2.blocklen * Sse.reversePosOf i
        (Sse.slideWindow i (b.mask, b.numBits)).1 (Sse.slideWindow i (b.mask, b.numBits)).2)))
      b.toAddr c2.repetitions htr
    have hca := (sameCtl_hashBlocks a.m a.state c2.blocklen c2.blocklen
      (u64 (start + u64 (c2.blocklen * Sse.reversePosOf i
        (Sse.slideWindow i (b.mask, b.numBits)).1 (Sse.slideWindow i (b.mask, b.numBits)).2)))
      b.toAddr c2.repetitions).1
    have hcb := (sameCtl_hashBlocks b.m b.state c2.blocklen c2.blocklen
      (u64 (start + u64 (c2.blocklen * Sse.reversePosOf i
        (Sse.slideWindow i (b.mask, b.numBits)).1 (Sse.slideWindow i (b.mask, b.numBits)).2)))
      b.toAddr c2.repetitions).1
    rw [hm, hn, ht, hr]
    cases h1 : Sse.hashMultItoState env1 i _ _ with
    | none =>
      have n1 := (hashMultItoState_none _ _ _ _).1 h1
      have n2 := (hashMultItoState_none env2 i
        (Sse.hashBlocks b.m b.state c2.blocklen c2.blocklen
          (u64 (start + u64 (c2.blocklen * Sse.reversePosOf i
            (Sse.slideWindow i (b.mask, b.numBits)).1
            (Sse.slideWindow i (b.mask, b.numBits)).2))) b.toAddr c2.repetitions).1
        (Sse.hashBlocks b.m b.state c2.blocklen c2.blocklen
          (u64 (start + u64 (c2.blocklen * Sse.reversePosOf i
            (Sse.slideWindow i (b.mask, b.numBits)).1
            (Sse.slideWindow i (b.mask, b.numBits)).2))) b.toAddr c2.repetitions).2).2
        (by omega)
      rw [n2]
      exact ⟨rfl, rfl, rfl, rfl, by simp only; omega, hbr⟩
    | some r1 =>
      have f1 := hashMultItoState_some _ _ _ _ _ h1
      cases h2 : Sse.hashMultItoState env2 i _ _ with
      | none =>
        have n2 := (hashMultItoState_none _ _ _ _).1 h2
        have n1 : Sse.hashMultItoState env1 i
          (Sse.hashBlocks a.m a.state c2.blocklen c2.blocklen
            (u64 (start + u64 (c2.blocklen * Sse.reversePosOf i
              (Sse.slideWindow i (b.mask, b.numBits)).1
              (Sse.slideWindow i (b.mask, b.numBits)).2))) b.toAddr c2.repetitions).1
          (Sse.hashBlocks a.m a.state c2.blocklen c2.blocklen
            (u64 (start + u64 (c2.blocklen * Sse.reversePosOf i
              (Sse.slideWindow i (b.mask, b.numBits)).1
              (Sse.slideWindow i (b.mask, b.numBits)).2))) b.toAddr c2.repetitions).2 = none :=
          (hashMultItoState_none _ _ _ _).2 (by omega)
        rw [n1] at h1
        exact absurd h1 (by simp)
      | some r2 =>
        have f2 := hashMultItoState_some _ _ _ _ _ h2
        refine ⟨rfl, rfl, rfl, rfl, ?_, ?_⟩
        · simp only; rw [← f1.2.1.1, ← f2.2.1.1]; omega
        · simp only; rw [f1.2.2, f2.2.2]; exact hbr

theorem forLoop_wr_reads (n : Nat) (start : Nat) (val : Nat → Nat) (m : Mach) :
    readsM (forLoop n (fun i (x : Mach) => x.wr (start + i) (val i)) m).trace
      = readsM m.trace := by
  induction n with
  | zero => rfl
  | succ n ih => simp only [forLoop, readsM_wr, ih]

theorem forLoop_ind {σ : Type} (P : Nat → σ → Prop) (body : Nat → σ → σ) (n : Nat)
    (hstep : ∀ i s, i < n → P i s → P (i + 1) (body i s)) (s : σ) (h0 : P 0 s) :
    P n (forLoop n body s) := by
  induction n with
  | zero => exact h0
  | succ n ih =>
    exact hstep n _ (Nat.lt_succ_self n)
      (ih (fun i s hi hp => hstep i s (Nat.lt_succ_of_lt hi) hp))

/-! ## The pacer: its count and what it leaves unchanged -/

theorem multHashStep_frame (env : Env) (c : Sse.Common) (ms : Mach × List Nat) :
    (Sse.multHashStep env c ms).1.mem = ms.1.mem
      ∧ levelsOf (Sse.multHashStep env c ms).1.trace = levelsOf ms.1.trace
      ∧ (Sse.multHashStep env c ms).1.completedMultiplies
          = u32 (ms.1.completedMultiplies + 1) := by
  unfold Sse.multHashStep
  have key := forLoop_inv
    (fun x : Mach => x.mem = ms.1.mem ∧ levelsOf x.trace = levelsOf ms.1.trace
      ∧ x.completedMultiplies = ms.1.completedMultiplies)
    (fun j (m : Mach) => m.wrH (u32 (8 * m.completedMultiplies + j))
      ((Sse.hashState env (forLoop (Sse.multRounds c) (fun _ s => Sse.multRound s) ms.2)).getD
        j 0))
    (fun j x hx => ⟨hx.1, hx.2.1, hx.2.2⟩) 8 ms.1 ⟨rfl, rfl, rfl⟩
  refine ⟨key.1, key.2.1, ?_⟩
  simp only
  rw [key.2.2]

theorem multHash_frame (env : Env) (c : Sse.Common) (m : Mach)
    (h0 : m.completedMultiplies = 0) :
    (Sse.multHash env c m).mem = m.mem
      ∧ levelsOf (Sse.multHash env c m).trace = levelsOf m.trace
      ∧ (Sse.multHash env c m).completedMultiplies = u32 (c.numblocks * 2) := by
  unfold Sse.multHash
  have hlt : u32 (c.numblocks * 2) < 2 ^ 32 := Nat.mod_lt _ (by norm_num)
  have key := forLoop_ind
    (fun k (x : Mach × List Nat) => x.1.mem = m.mem ∧ levelsOf x.1.trace = levelsOf m.trace
      ∧ x.1.completedMultiplies = k)
    (fun _ ms => Sse.multHashStep env c ms) (u32 (c.numblocks * 2))
    (fun k x hk hx => by
      have f := multHashStep_frame env c x
      refine ⟨f.1.trans hx.1, f.2.1.trans hx.2.1, ?_⟩
      rw [f.2.2, hx.2.2]
      unfold u32
      exact Nat.mod_eq_of_lt (by omega))
    (m, (List.range 8).map (be32dec_vect
      (env.hashOut 32 (c.hash.take c.hashSize) (be32enc (u32 c.parallelism)))))
    ⟨rfl, rfl, h0⟩
  exact key

/-! ## The workers: control state and waiting -/

theorem sameCtl_fill (n start : Nat) (val : Nat → Nat) (m : Mach) :
    SameCtl m (forLoop n (fun i (x : Mach) => x.wr (start + i) (val i)) m) :=
  forLoop_inv (fun x : Mach => SameCtl m x) _ (fun _ x hx => hx.trans (sameCtl_wr x _ _))
    n m (SameCtl.refl m)

theorem hashWithoutPasswordStep_ctl (env : Env) (c : Sse.Common) (start i : Nat) (w : Sse.WS) :
    SameCtl w.m (Sse.hashWithoutPasswordStep env c start i w).m := by
  unfold Sse.hashWithoutPasswordStep
  by_cases hst : w.stuck = true
  · simp only [hst, if_true]; exact SameCtl.refl _
  · simp only [hst, if_false, Bool.false_eq_true]
    split
    · exact SameCtl.refl _
    · cases h1 : Sse.hashMultItoState env i _ _ with
      | none => exact sameCtl_hashBlocks _ _ _ _ _ _ _
      | some r =>
        exact (sameCtl_hashBlocks _ _ _ _ _ _ _).trans (hashMultItoState_some _ _ _ _ _ h1).2.1

theorem hashWithoutPasswordStep_free (env : Env) (c : Sse.Common) (start i : Nat) (w : Sse.WS)
    (hbl : c.blocklen ≠ 0) (hs : w.stuck = false) (hi : i < w.m.completedMultiplies) :
    (Sse.hashWithoutPasswordStep env c start i w).stuck = false := by
  unfold Sse.hashWithoutPasswordStep
  simp only [hs, hbl, if_false, Bool.false_eq_true]
  cases h1 : Sse.hashMultItoState env i _ _ with
  | none =>
    have := (hashMultItoState_none _ _ _ _).1 h1
    rw [← (sameCtl_hashBlocks _ _ _ _ _ _ _).1] at this
    omega
  | some r => rfl

theorem hashWithoutPasswordStep_stuck (env : Env) (c : Sse.Common) (start i : Nat) (w : Sse.WS)
    (hi : w.m.completedMultiplies ≤ i) :
    (Sse.hashWithoutPasswordStep env c start i w).stuck = true := by
  unfold Sse.hashWithoutPasswordStep
  by_cases hst : w.stuck = true
  · simp only [hst, if_true]
  · simp only [hst, if_false, Bool.false_eq_true]
    split
    · rfl
    have hn : Sse.hashMultItoState env i
        (Sse.hashBlocks w.m w.state c.blocklen c.blocklen
          (u64 (start + u64 (c.blocklen * Sse.reversePosOf i
            (Sse.slideWindow i (w.mask, w.numBits)).1
            (Sse.slideWindow i (w.mask, w.numBits)).2))) w.toAddr c.repetitions).1
        (Sse.hashBlocks w.m w.state c.blocklen c.blocklen
          (u64 (start + u64 (c.blocklen * Sse.reversePosOf i
            (Sse.slideWindow i (w.mask, w.numBits)).1
            (Sse.slideWindow i (w.mask, w.numBits)).2))) w.toAddr c.repetitions).2 = none := by
      rw [hashMultItoState_none, ← (sameCtl_hashBlocks _ _ _ _ _ _ _).1]
      exact hi
    rw [hn]

theorem hashWithoutPasswordStep_sticky (env : Env) (c : Sse.Common) (start i : Nat)
    (w : Sse.WS) (hs : w.stuck = true) :
    (Sse.hashWithoutPasswordStep env c start i w).stuck = true := by
  unfold Sse.hashWithoutPasswordStep
  simp only [hs, if_true]

theorem hashWithoutPassword_ctl (env : Env) (c : Sse.Common) (p : Nat) (m : Mach) :
    SameCtl m (Sse.hashWithoutPassword env c p m).1 := by
  unfold Sse.hashWithoutPassword
  exact forLoop_inv (fun w : Sse.WS => SameCtl m w.m) _
    (fun _ w hw => hw.trans (hashWithoutPasswordStep_ctl env c _ _ w)) _ _
    (sameCtl_fill _ _ _ m)

theorem hashWithoutPasswordLoop_free (env : Env) (c : Sse.Common) (start n : Nat) (m : Mach)
    (hbl : c.blocklen ≠ 0) (w0 : Sse.WS) (h0 : SameCtl m w0.m) (hs : w0.stuck = false)
    (hn : n = 0 ∨ n < m.completedMultiplies) :
    SameCtl m (forLoop n (fun k w => Sse.hashWithoutPasswordStep env c start (k + 1) w) w0).m
      ∧ (forLoop n (fun k w => Sse.hashWithoutPasswordStep env c start (k + 1) w) w0).stuck
          = false :=
  forLoop_ind (fun _ (w : Sse.WS) => SameCtl m w.m ∧ w.stuck = false)
    (fun k w => Sse.hashWithoutPasswordStep env c start (k + 1) w) n
    (fun k w hk hw => ⟨hw.1.trans (hashWithoutPasswordStep_ctl env c _ _ w),
      hashWithoutPasswordStep_free env c _ _ w hbl hw.2 (by rw [← hw.1.1]; omega)⟩)
    w0 ⟨h0, hs⟩

theorem hashWithoutPassword_free (env : Env) (c : Sse.Common) (hbl : c.blocklen ≠ 0)
    (p : Nat) (m : Mach) (h : c.numblocks ≤ m.completedMultiplies) :
    (Sse.hashWithoutPassword env c p m).2 = false := by
  unfold Sse.hashWithoutPassword
  exact And.right (hashWithoutPasswordLoop_free env c _ _ m hbl _
    (by exact sameCtl_fill _ _ _ m) (by rfl) (by omega))

theorem hashWithoutPasswordLoop_stuck (env : Env) (c : Sse.Common) (start n : Nat) (m : Mach)
    (w0 : Sse.WS) (h0 : SameCtl m w0.m) :
    SameCtl m (forLoop n (fun k w => Sse.hashWithoutPasswordStep env c start (k + 1) w) w0).m
      ∧ (m.completedMultiplies ≤ n ∧ 1 ≤ n →
        (forLoop n (fun k w => Sse.hashWithoutPasswordStep env c start (k + 1) w) w0).stuck
          = true) :=
  forLoop_ind (fun k (w : Sse.WS) => SameCtl m w.m ∧
      (m.completedMultiplies ≤ k ∧ 1 ≤ k → w.stuck = true))
    (fun k w => Sse.hashWithoutPasswordStep env c start (k + 1) w) n
    (fun k w hk hw => ⟨hw.1.trans (hashWithoutPasswordStep_ctl env c _ _ w), fun hk2 => by
      by_cases hprev : m.completedMultiplies ≤ k ∧ 1 ≤ k
      · exact hashWithoutPasswordStep_sticky env c _ _ w (hw.2 hprev)
      · exact hashWithoutPasswordStep_stuck env c _ _ w (by rw [← hw.1.1]; omega)⟩)
    w0 ⟨h0, fun h => by omega⟩

theorem hashWithoutPassword_stuck (env : Env) (c : Sse.Common) (p : Nat) (m : Mach)
    (h1 : m.completedMultiplies ≤ c.numblocks - 1) (h2 : 2 ≤ c.numblocks) :
    (Sse.hashWithoutPassword env c p m).2 = true := by
  unfold Sse.hashWithoutPassword
  exact And.right (hashWithoutPasswordLoop_stuck env c _ _ m _
    (by exact sameCtl_fill _ _ _ m)) ⟨h1, by omega⟩

theorem hashWithPasswordStep_ctl (env : Env) (c : Sse.Common) (p start i : Nat) (w : Sse.PS) :
    SameCtl w.m (Sse.hashWithPasswordStep env c p start i w).m := by
  unfold Sse.hashWithPasswordStep
  by_cases hst : w.stuck = true
  · simp only [hst, if_true]; exact SameCtl.refl _
  · simp only [hst, if_false, Bool.false_eq_true]
    split
    · exact SameCtl.refl _
    · cases h1 : Sse.hashMultItoState env i _ _ with
      | none => exact sameCtl_hashBlocks _ _ _ _ _ _ _
      | some r =>
        exact (sameCtl_hashBlocks _ _ _ _ _ _ _).trans (hashMultItoState_some _ _ _ _ _ h1).2.1

theorem hashWithPasswordStep_free (env : Env) (c : Sse.Common) (p start i : Nat) (w : Sse.PS)
    (hsb : c.subBlocklen ≠ 0) (hs : w.stuck = false) (hi : i < w.m.completedMultiplies) :
    (Sse.hashWithPasswordStep env c p start i w).stuck = false := by
  unfold Sse.hashWithPasswordStep
  simp only [hs, hsb, if_false, Bool.false_eq_true]
  cases h1 : Sse.hashMultItoState env i _ _ with
  | none =>
    have := (hashMultItoState_none _ _ _ _).1 h1
    rw [← (sameCtl_hashBlocks _ _ _ _ _ _ _).1] at this
    omega
  | some r => rfl

theorem hashWithPasswordLoop_free (env : Env) (c : Sse.Common) (p start n : Nat) (m : Mach)
    (hsb : c.subBlocklen ≠ 0) (w0 : Sse.PS) (h0 : SameCtl m w0.m) (hs : w0.stuck = false)
    (hn : n ≤ m.completedMultiplies) :
    SameCtl m (forLoop n (fun i w => Sse.hashWithPasswordStep env c p start i w) w0).m
      ∧ (forLoop n (fun i w => Sse.hashWithPasswordStep env c p start i w) w0).stuck
          = false :=
  forLoop_ind (fun _ (w : Sse.PS) => SameCtl m w.m ∧ w.stuck = false)
    (fun i w => Sse.hashWithPasswordStep env c p start i w) n
    (fun k w hk hw => ⟨hw.1.trans (hashWithPasswordStep_ctl env c p _ _ w),
      hashWithPasswordStep_free env c p _ _ w hsb hw.2 (by rw [← hw.1.1]; omega)⟩)
    w0 ⟨h0, hs⟩

theorem hashWithPassword_ctl (env : Env) (c : Sse.Common) (p : Nat) (m : Mach) :
    SameCtl m (Sse.hashWithPassword env c p m).1 := by
  unfold Sse.hashWithPassword
  exact forLoop_inv (fun w : Sse.PS => SameCtl m w.m) _
    (fun _ w hw => hw.trans (hashWithPasswordStep_ctl env c p _ _ w)) _ _ (SameCtl.refl m)

theorem hashWithPassword_free (env : Env) (c : Sse.Common) (hsb : c.subBlocklen ≠ 0)
    (p : Nat) (m : Mach) (h : c.numblocks ≤ m.completedMultiplies) :
    (Sse.hashWithPassword env c p m).2 = false := by
  unfold Sse.hashWithPassword
  exact And.right (hashWithPasswordLoop_free env c p _ _ m hsb _
    (by exact SameCtl.refl m) (by rfl) h)

theorem runWorkers_free (worker : Nat → Mach → Mach × Bool) (nb parallelism : Nat) (m : Mach)
    (hctl : ∀ p x, SameCtl x (worker p x).1)
    (hfree : ∀ p x, nb ≤ x.completedMultiplies → (worker p x).2 = false)
    (h : nb ≤ m.completedMultiplies) :
    SameCtl m (Sse.runWorkers worker parallelism m).1
      ∧ (Sse.runWorkers worker parallelism m).2 = false := by
  unfold Sse.runWorkers
  exact forLoop_inv (fun x : Mach × Bool => SameCtl m x.1 ∧ x.2 = false)
    (fun p (x : Mach × Bool) => ((worker p x.1).1, x.2 || (worker p x.1).2))
    (fun p x hx => ⟨hx.1.trans (hctl p x.1), by
      show (x.2 || (worker p x.1).2) = false
      rw [hx.2, hfree p x.1 (by rw [← hx.1.1]; exact h)]
      rfl⟩) parallelism (m, false)
    ⟨SameCtl.refl m, rfl⟩

theorem runWorkers_stuck (worker : Nat → Mach → Mach × Bool) (parallelism : Nat) (m : Mach)
    (hp : 1 ≤ parallelism) (h : (worker 0 m).2 = true) :
    (Sse.runWorkers worker parallelism m).2 = true := by
  unfold Sse.runWorkers
  have key := forLoop_ind (fun k (x : Mach × Bool) => (k = 0 ∧ x.1 = m) ∨ (1 ≤ k ∧ x.2 = true))
    (fun p (x : Mach × Bool) => ((worker p x.1).1, x.2 || (worker p x.1).2)) parallelism
    (fun k x hk hx => by
      right
      refine ⟨by omega, ?_⟩
      show (x.2 || (worker k x.1).2) = true
      rcases hx with ⟨h0, hm⟩ | ⟨_, hs⟩
      · subst h0; rw [hm, h]; simp
      · rw [hs]; rfl)
    (m, false) (Or.inl ⟨rfl, rfl⟩)
  rcases key with ⟨h0, _⟩ | ⟨_, hs⟩
  · omega
  · exact hs

/-! ## `combineHashes` reads only -/

theorem readWords_frame (m : Mach) (pos n : Nat) :
    (Sse.readWords m pos n).mem = m.mem ∧ SameCtl m (Sse.readWords m pos n) := by
  unfold Sse.readWords
  exact forLoop_inv (fun x : Mach => x.mem = m.mem ∧ SameCtl m x)
    (fun i (x : Mach) => (x.rd (pos + i)).2)
    (fun i x hx => ⟨hx.1, hx.2.trans (sameCtl_rd x _)⟩) n m ⟨rfl, SameCtl.refl m⟩

theorem combineHashes_frame (env : Env) (hash : List Nat) (hashSize : Nat) (m : Mach)
    (blocklen numblocks parallelism : Nat) :
    (Sse.combineHashes env hash hashSize m blocklen numblocks parallelism).1.mem = m.mem
      ∧ SameCtl m (Sse.combineHashes env hash hashSize m blocklen numblocks parallelism).1 := by
  unfold Sse.combineHashes
  exact forLoop_inv (fun x : Mach × List Nat => x.1.mem = m.mem ∧ SameCtl m x.1)
    (fun p mh => Sse.combineStep env hashSize blocklen numblocks p mh)
    (fun p x hx => by
      unfold Sse.combineStep
      exact ⟨(readWords_frame x.1 _ _).1.trans hx.1, hx.2.trans (readWords_frame x.1 _ _).2⟩)
    parallelism (m, hash) ⟨rfl, SameCtl.refl m⟩

/-! ## One garlic level never hangs below `2^31` blocks -/

theorem garlicLevel_result (env : Env) (c : Sse.Common) (g : Nat) (m : Mach)
    (hnb : c.numblocks < 2 ^ 31) (hbl : c.blocklen ≠ 0) (hsb : c.subBlocklen ≠ 0) :
    (levelThreadsOk env g c.parallelism = false
        ∧ Sse.garlicLevel env c g m = Sse.LevelResult.createFailed)
      ∨ (levelThreadsOk env g c.parallelism = true
        ∧ ∃ m1 hash1, Sse.garlicLevel env c g m = Sse.LevelResult.done m1 hash1
          ∧ levelsOf m1.trace = (g, c.numblocks) :: levelsOf m.trace) := by
  unfold Sse.garlicLevel levelThreadsOk
  by_cases h0 : env.threadOk g 0 = true
  · by_cases h1 : Sse.threadsOk env g 1 c.parallelism = true
    · have hpacer := multHash_frame env c (m.startLevel g c.numblocks) rfl
      have hN : c.numblocks ≤
          (Sse.multHash env c (m.startLevel g c.numblocks)).completedMultiplies := by
        rw [hpacer.2.2]
        unfold u32
        rw [Nat.mod_eq_of_lt (by omega)]
        omega
      have hr2 := runWorkers_free (Sse.hashWithoutPassword env c) c.numblocks c.parallelism _
        (hashWithoutPassword_ctl env c) (hashWithoutPassword_free env c hbl) hN
      have hN2 : c.numblocks ≤ (Sse.runWorkers (Sse.hashWithoutPassword env c) c.parallelism
          (Sse.multHash env c (m.startLevel g c.numblocks))).1.completedMultiplies := by
        rw [← hr2.1.1]; exact hN
      have hr3 := runWorkers_free (Sse.hashWithPassword env c) c.numblocks c.parallelism _
        (hashWithPassword_ctl env c) (hashWithPassword_free env c hsb) hN2
      by_cases h2 : Sse.threadsOk env g (1 + c.parallelism) c.parallelism = true
      · right
        simp only [h0, h1, h2, hr2.2, hr3.2, Bool.not_true, Bool.false_eq_true, if_false,
          Bool.and_self, true_and]
        refine ⟨_, _, rfl, ?_⟩
        rw [← (combineHashes_frame _ _ _ _ _ _ _).2.2.2, ← hr3.1.2.2, ← hr2.1.2.2, hpacer.2.1]
        rfl
      · left
        simp [h0, h1, h2, hr2.2]
    · left
      simp [h0, h1]
  · left
    simp [h0]

/-! ## The garlic loop returns -/

theorem u8_succ (i stopGarlic : Nat) (hi : i ≤ stopGarlic) (hstop : stopGarlic < 255) :
    u8 (i + 1) = i + 1 := by
  unfold u8; exact Nat.mod_eq_of_lt (by omega)

theorem pow_split (nb stopGarlic i : Nat) (hlt : i < stopGarlic) :
    nb * 2 * 2 ^ (stopGarlic - (i + 1)) = nb * 2 ^ (stopGarlic - i) := by
  have : stopGarlic - i = (stopGarlic - (i + 1)) + 1 := by omega
  rw [this, pow_succ]; ring

theorem garlicLoop_returns (env : Env) (stopGarlic : Nat) (skip : Bool)
    (hstop : stopGarlic < 255) :
    ∀ (fuel i : Nat) (c : Sse.Common) (m : Mach),
      (i ≤ stopGarlic → c.numblocks * 2 ^ (stopGarlic - i) < 2 ^ 31) →
      c.blocklen ≠ 0 → c.subBlocklen ≠ 0 →
      stopGarlic + 1 - i < fuel →
      ∃ b h m1, Sse.garlicLoop env stopGarlic skip fuel i c m = some (b, h, m1)
        ∧ (b = true ↔ ∀ g, i ≤ g → g ≤ stopGarlic →
            levelThreadsOk env g c.parallelism = true)
        ∧ (b = true → levelsOf m1.trace
            = (scheduleFrom (stopGarlic + 1 - i) i c.numblocks).reverse ++ levelsOf m.trace) := by
  intro fuel
  induction fuel with
  | zero => intro i c m _ _ _ h; omega
  | succ fuel ih =>
    intro i c m hb hbl hsb hf
    by_cases hi : i ≤ stopGarlic
    · have hnb : c.numblocks < 2 ^ 31 := by
        have h1 := hb hi
        have h2 : 1 ≤ 2 ^ (stopGarlic - i) := Nat.one_le_two_pow
        calc c.numblocks = c.numblocks * 1 := (Nat.mul_one _).symm
          _ ≤ c.numblocks * 2 ^ (stopGarlic - i) := Nat.mul_le_mul_left _ h2
          _ < 2 ^ 31 := h1
      simp only [Sse.garlicLoop, hi, if_true]
      rcases garlicLevel_result env c i m hnb hbl hsb with ⟨hno, hres⟩ | ⟨hyes, m1, hash1, hres, hlev⟩
      · rw [hres]
        refine ⟨false, c.hash, m, rfl, ?_, ?_⟩
        · constructor
          · intro h; exact absurd h (by simp)
          · intro h; have := h i (le_refl i) hi; rw [hno] at this; exact absurd this (by simp)
        · intro h; exact absurd h (by simp)
      · rw [hres]
        simp only [u8_succ i stopGarlic hi hstop]
        have hdouble : u32 (c.numblocks * 2) = c.numblocks * 2 := by
          unfold u32; exact Nat.mod_eq_of_lt (by omega)
        obtain ⟨b, h, m2, hrun, hiff, hsched⟩ := ih (i + 1)
          { c with hash := (if (decide (i < stopGarlic) || !skip) = true
                            then Sse.rehash env hash1 c.hashSize [i] else hash1),
                   numblocks := u32 (c.numblocks * 2) } m1
          (by
            intro hle
            simp only [hdouble]
            rw [pow_split c.numblocks stopGarlic i (by omega)]
            exact hb hi)
          hbl hsb (by omega)
        refine ⟨b, h, m2, hrun, ?_, ?_⟩
        · rw [hiff]
          constructor
          · intro hall g hg1 hg2
            by_cases hgi : g = i
            · subst hgi; exact hyes
            · exact hall g (by omega) hg2
          · intro hall g hg1 hg2
            exact hall g (by omega) hg2
        · intro hbt
          rw [hsched hbt, hlev]
          have hcount : stopGarlic + 1 - i = (stopGarlic + 1 - (i + 1)) + 1 := by omega
          rw [hcount]
          simp [scheduleFrom]
    · simp only [Sse.garlicLoop, hi, if_false]
      refine ⟨true, c.hash, m, rfl, ?_, ?_⟩
      · constructor
        · intro _ g hg1 hg2; omega
        · intro _; rfl
      · intro _
        have : stopGarlic + 1 - i = 0 := by omega
        rw [this]; rfl

theorem threadsOk_iff (env : Env) (g base parallelism : Nat) :
    Sse.threadsOk env g base parallelism = true
      ↔ ∀ p, p < parallelism → env.threadOk g (base + p) = true := by
  unfold Sse.threadsOk
  simp [List.all_eq_true]

theorem levelThreadsOk_iff (env : Env) (g parallelism : Nat) :
    levelThreadsOk env g parallelism = true
      ↔ (env.threadOk g 0 = true ∧ ∀ p, p < parallelism →
          env.threadOk g (1 + p) = true ∧ env.threadOk g (1 + parallelism + p) = true) := by
  unfold levelThreadsOk
  simp only [Bool.and_eq_true, threadsOk_iff]
  constructor
  · rintro ⟨⟨h0, h1⟩, h2⟩
    exact ⟨h0, fun p hp => ⟨h1 p hp, h2 p hp⟩⟩
  · rintro ⟨h0, h⟩
    exact ⟨⟨h0, fun p hp => (h p hp).1⟩, fun p hp => (h p hp).2⟩

theorem blocklen_ne_zero (parallelism blockSize : Nat)
    (hdiv : u32 (2 * parallelism * (blockSize / 4)) ≠ 0) : blockSize / 4 ≠ 0 := by
  intro h
  apply hdiv
  rw [h, Nat.mul_zero]
  rfl

theorem subBlocklen_ne_zero (blockSize subBlockSize : Nat) (hbl : blockSize / 4 ≠ 0)
    (hsub : subBlockSize = 0 ∨ 4 ≤ subBlockSize) :
    (if subBlockSize ≠ 0 then subBlockSize / 4 else blockSize / 4) ≠ 0 := by
  rcases hsub with h | h
  · rw [if_neg (by omega)]; exact hbl
  · rw [if_pos (by omega)]
    have : 1 ≤ subBlockSize / 4 := (Nat.le_div_iff_mul_le (by norm_num)).2 (by omega)
    omega

theorem TigerKDF_returns (env : Env) (fuel : Nat) (m : Mach) (hash : List Nat)
    (hashSize memSize multipliesPerBlock startGarlic stopGarlic blockSize subBlockSize
      parallelism repetitions : Nat) (skip : Bool)
    (hstop : stopGarlic < 255)
    (hdiv : u32 (2 * parallelism * (blockSize / 4)) ≠ 0)
    (hsub : subBlockSize = 0 ∨ 4 ≤ subBlockSize)
    (hnb : Sse.numblocksStart memSize blockSize parallelism startGarlic
      * 2 ^ (stopGarlic - startGarlic) < 2 ^ 31)
    (hfuel : stopGarlic + 1 - startGarlic < fuel) :
    ∃ b h m1, Sse.TigerKDF env fuel m hash hashSize memSize multipliesPerBlock startGarlic
        stopGarlic blockSize subBlockSize parallelism repetitions skip = some (b, h, m1)
      ∧ (b = true ↔ AllSucceed env startGarlic stopGarlic parallelism)
      ∧ (b = true → levelsOf m1.trace
          = (scheduleFrom (stopGarlic + 1 - startGarlic) startGarlic
              (Sse.numblocksStart memSize blockSize parallelism startGarlic)).reverse
            ++ levelsOf m.trace) := by
  unfold Sse.TigerKDF AllSucceed
  simp only [hdiv, if_false]
  by_cases h0 : env.allocOk 0 = true
  · by_cases h1 : env.allocOk 1 = true
    · by_cases h2 : env.allocOk 2 = true
      · by_cases h3 : env.allocOk 3 = true
        · simp only [h0, h1, h2, h3, Bool.not_true, Bool.false_eq_true, if_false, true_and]
          obtain ⟨b, h, m1, hrun, hiff, hsched⟩ := garlicLoop_returns env stopGarlic skip hstop
            fuel startGarlic
            { hash := hash, hashSize := hashSize, parallelism := parallelism,
              blocklen := blockSize / 4,
              subBlocklen := if subBlockSize ≠ 0 then subBlockSize / 4 else blockSize / 4,
              numblocks := Sse.numblocksStart memSize blockSize parallelism startGarlic,
              repetitions := repetitions,
              multipliesPerBlock := Sse.roundMultiplies multipliesPerBlock } m
            (fun _ => hnb) (blocklen_ne_zero parallelism blockSize hdiv)
            (subBlocklen_ne_zero blockSize subBlockSize
              (blocklen_ne_zero parallelism blockSize hdiv) hsub) hfuel
          refine ⟨b, h, m1, hrun, ?_, hsched⟩
          rw [hiff]
          constructor
          · intro hall g hg1 hg2
            exact (levelThreadsOk_iff env g parallelism).1 (hall g hg1 hg2)
          · intro hall g hg1 hg2
            exact (levelThreadsOk_iff env g parallelism).2 (hall g hg1 hg2)
        · exact ⟨false, hash, m, by simp [h0, h1, h2, h3], by simp [h3], by simp⟩
      · exact ⟨false, hash, m, by simp [h0, h1, h2], by simp [h2], by simp⟩
    · exact ⟨false, hash, m, by simp [h0, h1], by simp [h1], by simp⟩
  · exact ⟨false, hash, m, by simp [h0], by simp [h0], by simp⟩

/-! ## The wait that never ends: `2^31` blocks or more -/

theorem garlicLevel_hang (env : Env) (c : Sse.Common) (g : Nat) (m : Mach)
    (h0 : env.threadOk g 0 = true) (h1 : Sse.threadsOk env g 1 c.parallelism = true)
    (hp : 1 ≤ c.parallelism) (hlo : 2 ^ 31 ≤ c.numblocks) (hhi : c.numblocks < 2 ^ 32) :
    Sse.garlicLevel env c g m = Sse.LevelResult.hang := by
  unfold Sse.garlicLevel
  have hpacer := multHash_frame env c (m.startLevel g c.numblocks) rfl
  have hN : (Sse.multHash env c (m.startLevel g c.numblocks)).completedMultiplies
      ≤ c.numblocks - 1 := by
    rw [hpacer.2.2]
    unfold u32
    have : c.numblocks * 2 % 2 ^ 32 = c.numblocks * 2 - 2 ^ 32 := by
      rw [Nat.mod_eq_sub_mod (by omega)]
      exact Nat.mod_eq_of_lt (by omega)
    omega
  have hstuck := runWorkers_stuck (Sse.hashWithoutPassword env c) c.parallelism
    (Sse.multHash env c (m.startLevel g c.numblocks)) hp
    (hashWithoutPassword_stuck env c 0 _ hN (by omega))
  simp only [h0, h1, hstuck, Bool.not_true, Bool.false_eq_true, if_false, if_true]

theorem TigerKDF_hang (env : Env) (fuel : Nat) (m : Mach) (hash : List Nat)
    (hashSize memSize multipliesPerBlock g blockSize subBlockSize parallelism
      repetitions : Nat) (skip : Bool)
    (a0 : env.allocOk 0 = true) (a1 : env.allocOk 1 = true) (a2 : env.allocOk 2 = true)
    (a3 : env.allocOk 3 = true)
    (h0 : env.threadOk g 0 = true) (h1 : Sse.threadsOk env g 1 parallelism = true)
    (hp : 1 ≤ parallelism)
    (hlo : 2 ^ 31 ≤ Sse.numblocksStart memSize blockSize parallelism g) :
    Sse.TigerKDF env fuel m hash hashSize memSize multipliesPerBlock g g blockSize
      subBlockSize parallelism repetitions skip = none := by
  unfold Sse.TigerKDF
  have hhi : Sse.numblocksStart memSize blockSize parallelism g < 2 ^ 32 := by
    unfold Sse.numblocksStart u32
    exact Nat.mod_lt _ (by norm_num)
  have hl := garlicLevel_hang env
    { hash := hash, hashSize := hashSize, parallelism := parallelism,
      blocklen := blockSize / 4,
      subBlocklen := if subBlockSize ≠ 0 then subBlockSize / 4 else blockSize / 4,
      numblocks := Sse.numblocksStart memSize blockSize parallelism g,
      repetitions := repetitions,
      multipliesPerBlock := Sse.roundMultiplies multipliesPerBlock } g m h0 h1 hp hlo hhi
  by_cases hd : u32 (2 * parallelism * (blockSize / 4)) = 0
  · simp [hd]
  · simp only [hd, if_false, a0, a1, a2, a3, Bool.not_true, Bool.false_eq_true]
    cases fuel with
    | zero => rfl
    | succ f =>
      unfold Sse.garlicLoop
      rw [if_pos (le_refl g), hl]

/-- C5 (failing input): with `memSize = 1`, `blockSize = 32`, one worker and garlic level
27 the block count is `2^31` and every allocation and thread creation succeeds, yet
`TigerKDF` does not return, whatever the fuel: the pacer bound `numblocks*2` wraps to 0 and
the first wait for a checkpoint never ends. -/
theorem C5_no_return_at_2_pow_31_blocks (fuel : Nat) (m : Mach) (hash : List Nat)
    (hashSize : Nat) :
    Sse.numblocksStart 1 32 1 27 = 2 ^ 31
      ∧ AllSucceed demoEnv 27 27 1
      ∧ Sse.TigerKDF demoEnv fuel m hash hashSize 1 0 27 27 32 32 1 1 false = none :=
  ⟨by decide, ⟨rfl, rfl, rfl, rfl, fun _ _ _ => ⟨rfl, fun _ _ => ⟨rfl, rfl⟩⟩⟩,
    TigerKDF_hang demoEnv fuel m hash hashSize 1 0 27 32 32 1 1 false rfl rfl rfl rfl rfl rfl
      (le_refl 1) (by decide)⟩

/-! ## Client/server split -/

set_option maxRecDepth 100000 in
/-- C6 (failing input): with `startGarlic = 0`, `stopGarlic = 1` and thread creation
failing at garlic level 1, `TigerKDF` returns false, but the hash buffer, `[0, 0, 0, 0]` on
entry, holds the result of garlic level 0. -/
theorem C6_false_with_changed_hash :
    (Sse.TigerKDF failAfterLevel0 3 (freshMach 0) [0, 0, 0, 0] 4 1 0 0 1 512 32 1 1 false).map
        (fun r => (r.1, r.2.1))
      = some (false, [101, 108, 115, 122]) := by
  decide

theorem demoEnv_allSucceed (startGarlic stopGarlic parallelism : Nat) :
    AllSucceed demoEnv startGarlic stopGarlic parallelism :=
  ⟨rfl, rfl, rfl, rfl, fun _ _ _ => ⟨rfl, fun _ _ => ⟨rfl, rfl⟩⟩⟩

/-! ## Time-cost expansion of the reference variant -/

/-- C8: for `timeCost ≤ 30` the reference `TigerKDF` sets `multiplies = timeCost`,
`repetitions = 1` when `timeCost < 8` and `multiplies = 8`,
`repetitions = 2^(timeCost - 8)` otherwise; so `multiplies ≤ 8`, `repetitions ≥ 1`, and
every index `k < multiplies` is an index of the 8-word `origState`. -/
theorem C8_time_cost_expansion (timeCost : Nat) (h : timeCost ≤ 30) :
    (timeCost < 8 → Ref.expandTimeCost timeCost = (timeCost, 1))
      ∧ (8 ≤ timeCost → Ref.expandTimeCost timeCost = (8, 2 ^ (timeCost - 8)))
      ∧ (Ref.expandTimeCost timeCost).1 ≤ 8
      ∧ 1 ≤ (Ref.expandTimeCost timeCost).2
      ∧ ∀ (origState : List Nat) (k : Nat), origState.length = 8 →
          k < (Ref.expandTimeCost timeCost).1 → k < origState.length := by
  have hsh : 8 ≤ timeCost → u32 (1 <<< (timeCost - 8)) = 2 ^ (timeCost - 8) := by
    intro _
    rw [Nat.shiftLeft_eq, Nat.one_mul]
    unfold u32
    exact Nat.mod_eq_of_lt (Nat.pow_lt_pow_right (by norm_num) (by omega))
  unfold Ref.expandTimeCost
  by_cases hlt : timeCost < 8
  · rw [if_pos hlt]
    refine ⟨fun _ => rfl, fun h8 => by omega, ?_, le_refl 1, ?_⟩
    · show timeCost ≤ 8
      omega
    · intro origState k hl hk
      have hk2 : k < timeCost := hk
      omega
  · rw [if_neg hlt, hsh (by omega)]
    refine ⟨fun h8 => by omega, fun _ => rfl, le_refl 8, Nat.one_le_two_pow, ?_⟩
    intro origState k hl hk
    have hk2 : k < 8 := hk
    omega

/-- Witness of C8 at `timeCost = 12`: `multiplies = 8` and `repetitions = 16`. -/
theorem C8_time_cost_expansion_witness :
    12 ≤ 30 ∧ Ref.expandTimeCost 12 = (8, 16) :=
  ⟨by decide, ((C8_time_cost_expansion 12 (by decide)).2.1 (by decide)).trans (by decide)⟩

/-! ## Block count per garlic level -/

theorem u32_u64 (x : Nat) : u32 (u64 x) = u32 x := by
  unfold u32 u64
  exact Nat.mod_mod_of_dvd x (Nat.pow_dvd_pow 2 (by norm_num))

theorem u32_mul_u32 (a b : Nat) : u32 (u32 a * b) = u32 (a * b) := by
  unfold u32
  rw [Nat.mul_mod, Nat.mod_mod, ← Nat.mul_mod]

theorem scheduleFrom_eq (n : Nat) : ∀ (i nb : Nat),
    scheduleFrom n i (u32 nb) = (List.range n).map (fun k => (i + k, u32 (nb * 2 ^ k))) := by
  induction n with
  | zero => intro i nb; rfl
  | succ n ih =>
    intro i nb
    rw [scheduleFrom, u32_mul_u32, ih (i + 1) (nb * 2), List.range_succ_eq_map]
    simp only [List.map_cons, List.map_map, pow_zero, Nat.mul_one, Nat.add_zero]
    congr 1
    apply List.map_congr_left
    intro k _
    simp only [Function.comp, Nat.succ_eq_add_one, pow_succ]
    congr 1
    · omega
    · congr 1; ring

theorem numblocksStart_eq (memSize blockSize parallelism startGarlic : Nat)
    (hmem : memSize < 2 ^ 32) :
    Sse.numblocksStart memSize blockSize parallelism startGarlic
      = u32 (256 * memSize / u32 (2 * parallelism * (blockSize / 4)) * 2 ^ startGarlic) := by
  unfold Sse.numblocksStart
  rw [u32_u64, Nat.shiftLeft_eq]
  have h1 : u64 (1024 * memSize) = 1024 * memSize := by
    unfold u64; exact Nat.mod_eq_of_lt (by omega)
  have h2 : 1024 * memSize / 4 = 256 * memSize := by omega
  rw [h1, h2]

set_option maxRecDepth 100000 in
/-- C9 (as stated) fails: with `memSize = 1`, `blockSize = 32`, `parallelism = 9` and
`startGarlic = stopGarlic = 1` the level runs with `numblocks = 2`, while
`floor((256 * 2^1) / (2 * 9 * 8)) = 3`. -/
theorem C9_floor_after_doubling_differs :
    (Sse.TigerKDF demoEnv 2 (freshMach 0) [0, 0, 0, 0] 4 1 0 1 1 32 32 9 1 false).map
        (fun r => (r.1, levelsOf r.2.2.trace)) = some (true, [(1, 2)])
      ∧ (256 * 1 * 2 ^ 1) / (2 * 9 * (32 / 4)) = 3 := by
  decide

/-! ## The tail read of `combineHashes` -/

theorem garlicLevel_done (env : Env) (c : Sse.Common) (g : Nat) (m : Mach)
    (hnb : c.numblocks < 2 ^ 31) (hbl : c.blocklen ≠ 0) (hsb : c.subBlocklen ≠ 0)
    (hok : levelThreadsOk env g c.parallelism = true) :
    ∃ m3, Sse.garlicLevel env c g m
      = Sse.LevelResult.done
          (Sse.combineHashes env c.hash c.hashSize m3 c.blocklen c.numblocks c.parallelism).1
          (Sse.combineHashes env c.hash c.hashSize m3 c.blocklen c.numblocks c.parallelism).2 := by
  unfold levelThreadsOk at hok
  simp only [Bool.and_eq_true] at hok
  obtain ⟨⟨h0, h1⟩, h2⟩ := hok
  unfold Sse.garlicLevel
  have hpacer := multHash_frame env c (m.startLevel g c.numblocks) rfl
  have hN : c.numblocks ≤
      (Sse.multHash env c (m.startLevel g c.numblocks)).completedMultiplies := by
    rw [hpacer.2.2]
    unfold u32
    rw [Nat.mod_eq_of_lt (by omega)]
    omega
  have hr2 := runWorkers_free (Sse.hashWithoutPassword env c) c.numblocks c.parallelism _
    (hashWithoutPassword_ctl env c) (hashWithoutPassword_free env c hbl) hN
  have hN2 : c.numblocks ≤ (Sse.runWorkers (Sse.hashWithoutPassword env c) c.parallelism
      (Sse.multHash env c (m.startLevel g c.numblocks))).1.completedMultiplies := by
    rw [← hr2.1.1]; exact hN
  have hr3 := runWorkers_free (Sse.hashWithPassword env c) c.numblocks c.parallelism _
    (hashWithPassword_ctl env c) (hashWithPassword_free env c hsb) hN2
  simp only [h0, h1, h2, hr2.2, hr3.2, Bool.not_true, Bool.false_eq_true, if_false]
  exact ⟨_, rfl⟩

theorem readWords_trace (m : Mach) (pos : Nat) : ∀ (n : Nat),
    (∀ e, e ∈ m.trace → e ∈ (Sse.readWords m pos n).trace)
      ∧ ∀ k, k < n → Ev.rdM (pos + k) ∈ (Sse.readWords m pos n).trace := by
  intro n
  induction n with
  | zero => exact ⟨fun e he => he, fun k hk => by omega⟩
  | succ n ih =>
    have hstep : (Sse.readWords m pos (n + 1)).trace
        = Ev.rdM (pos + n) :: (Sse.readWords m pos n).trace := rfl
    rw [hstep]
    refine ⟨fun e he => List.mem_cons_of_mem _ (ih.1 e he), fun k hk => ?_⟩
    by_cases hkn : k = n
    · subst hkn; exact List.mem_cons_self _ _
    · exact List.mem_cons_of_mem _ (ih.2 k (by omega))

theorem combineHashes_trace (env : Env) (hash : List Nat) (hashSize : Nat) (m : Mach)
    (blocklen numblocks : Nat) : ∀ (parallelism : Nat),
    (∀ e, e ∈ m.trace →
        e ∈ (forLoop parallelism (fun p mh =>
          Sse.combineStep env hashSize blocklen numblocks p mh) (m, hash)).1.trace)
      ∧ ∀ p k, p < parallelism → k < hashSize / 4 →
          Ev.rdM (Sse.combinePos hashSize blocklen numblocks p + k)
            ∈ (forLoop parallelism (fun p mh =>
                Sse.combineStep env hashSize blocklen numblocks p mh) (m, hash)).1.trace := by
  intro parallelism
  induction parallelism with
  | zero => exact ⟨fun e he => he, fun p k hp => by omega⟩
  | succ n ih =>
    have hstep : (forLoop (n + 1) (fun p mh =>
          Sse.combineStep env hashSize blocklen numblocks p mh) (m, hash)).1.trace
        = (Sse.readWords (forLoop n (fun p mh =>
            Sse.combineStep env hashSize blocklen numblocks p mh) (m, hash)).1
            (Sse.combinePos hashSize blocklen numblocks n) (hashSize / 4)).trace := rfl
    rw [hstep]
    refine ⟨fun e he => (readWords_trace _ _ _).1 e (ih.1 e he), fun p k hp hk => ?_⟩
    by_cases hpn : p = n
    · subst hpn; exact (readWords_trace _ _ _).2 k hk
    · exact (readWords_trace _ _ _).1 _ (ih.2 p k (by omega) hk)

/-- C10 (failing input): with `memSize = 1`, `blockSize = 32`, `hashSize = 32`,
`parallelism = 2` and garlic level 27 (so `numblocks = 2^30` and `memlen = 2^35` words)
the run returns true after `combineHashes` has read `M` at word index `2^64 - 8` for worker
1: in 32 bits `2*(p+1)*numblocks` wraps to 0, so the tail position is `0 - 8`. -/
theorem C10_tail_read_outside_allocation (m : Mach) (hash : List Nat) :
    Sse.numblocksStart 1 32 2 27 = 2 ^ 30
      ∧ Sse.memlenOf 1 32 2 27 27 = 2 ^ 35
      ∧ Sse.combinePos 32 8 (2 ^ 30) 1 = 2 ^ 64 - 8
      ∧ ∃ h m1, Sse.TigerKDF demoEnv 2 m hash 32 1 0 27 27 32 32 2 1 false
            = some (true, h, m1)
          ∧ Ev.rdM (2 ^ 64 - 8) ∈ m1.trace := by
  have hn : Sse.numblocksStart 1 32 2 27 = 2 ^ 30 := by decide
  have hpos : Sse.combinePos 32 8 (2 ^ 30) 1 = 2 ^ 64 - 8 := by decide
  refine ⟨hn, by decide, hpos, ?_⟩
  have hd : u32 (2 * 2 * (32 / 4)) ≠ 0 := by decide
  have a0 : demoEnv.allocOk 0 = true := rfl
  have a1 : demoEnv.allocOk 1 = true := rfl
  have a2 : demoEnv.allocOk 2 = true := rfl
  have a3 : demoEnv.allocOk 3 = true := rfl
  unfold Sse.TigerKDF
  simp only [hd, a0, a1, a2, a3, if_false, Bool.not_true, Bool.false_eq_true]
  obtain ⟨m3, hl⟩ := garlicLevel_done demoEnv
    { hash := hash, hashSize := 32, parallelism := 2, blocklen := 32 / 4,
      subBlocklen := if 32 ≠ 0 then 32 / 4 else 32 / 4,
      numblocks := Sse.numblocksStart 1 32 2 27, repetitions := 1,
      multipliesPerBlock := Sse.roundMultiplies 0 } 27 m
    (by rw [hn]; norm_num) (show (32 / 4 : Nat) ≠ 0 by decide)
    (show (if (32 : Nat) ≠ 0 then 32 / 4 else 32 / 4) ≠ 0 by decide) rfl
  unfold Sse.garlicLoop
  rw [if_pos (le_refl 27), hl]
  have hu : u8 (27 + 1) = 28 := by decide
  simp only [hu]
  unfold Sse.garlicLoop
  rw [if_neg (by decide)]
  refine ⟨_, _, rfl, ?_⟩
  have key := (combineHashes_trace demoEnv hash 32 m3 (32 / 4)
    (Sse.numblocksStart 1 32 2 27) 2).2 1 0 (by decide) (by decide)
  rw [hn] at key
  have h8 : (32 : Nat) / 4 = 8 := by decide
  rw [h8, hpos] at key
  unfold Sse.combineHashes
  simp only [h8, hn]
  exact key

/-- C3: the sequence of word addresses of `M` read by `hashWithoutPassword` is the same for
any two runs with the same worker index, `numblocks`, `blocklen` and `repetitions` (and the
same pacer count, which in a level depends on `numblocks` only), whatever the hash, the
memory contents, the checkpoint contents and the other fields are. -/
theorem C3_resistant_reads_independent (env1 env2 : Env) (c1 c2 : Sse.Common) (p : Nat)
    (m1 m2 : Mach)
    (hn : c1.numblocks = c2.numblocks) (hb : c1.blocklen = c2.blocklen)
    (hr : c1.repetitions = c2.repetitions)
    (hc : m1.completedMultiplies = m2.completedMultiplies) (ht : m1.trace = m2.trace) :
    readsM (Sse.hashWithoutPassword env1 c1 p m1).1.trace
      = readsM (Sse.hashWithoutPassword env2 c2 p m2).1.trace := by
  unfold Sse.hashWithoutPassword
  simp only [hn, hb]
  refine (show WSSame _ _ from ?_).2.2.2.2.2
  apply forLoop_rel WSSame _ _
    (fun k a b hab => hashWithoutPasswordStep_same env1 env2 c1 c2 _ (k + 1) hb hr a b hab)
  refine ⟨rfl, rfl, rfl, rfl, ?_, by simp only [forLoop_wr_reads, ht]⟩
  simp only
  rw [← (forLoop_inv (fun x : Mach => SameCtl m1 x) _ (fun _ x hx => hx.trans (sameCtl_wr x _ _))
    c2.blocklen m1 (SameCtl.refl m1)).1,
    ← (forLoop_inv (fun x : Mach => SameCtl m2 x) _ (fun _ x hx => hx.trans (sameCtl_wr x _ _))
    c2.blocklen m2 (SameCtl.refl m2)).1]
  exact hc

set_option maxRecDepth 100000 in
/-- Witness of C3: worker 0 with 4 blocks of 8 words, run on two different hashes,
memories and checkpoint contents, reads the same 51 addresses. -/
theorem C3_resistant_reads_independent_witness :
    (readsM (Sse.hashWithoutPassword demoEnv
        { hash := [1, 2, 3, 4], hashSize := 4, parallelism := 1, blocklen := 8,
          subBlocklen := 8, numblocks := 4, repetitions := 1, multipliesPerBlock := 8 } 0
        { freshMach 0 with completedMultiplies := 8 }).1.trace).length = 51
    ∧ readsM (Sse.hashWithoutPassword demoEnv
        { hash := [1, 2, 3, 4], hashSize := 4, parallelism := 1, blocklen := 8,
          subBlocklen := 8, numblocks := 4, repetitions := 1, multipliesPerBlock := 8 } 0
        { freshMach 0 with completedMultiplies := 8 }).1.trace
      = readsM (Sse.hashWithoutPassword demoEnv
        { hash := [9, 9, 9, 9, 9, 9, 9, 9], hashSize := 8, parallelism := 3, blocklen := 8,
          subBlocklen := 8, numblocks := 4, repetitions := 1, multipliesPerBlock := 16 } 0
        { freshMach 77 with completedMultiplies := 8 }).1.trace :=
  ⟨by decide, C3_resistant_reads_independent demoEnv demoEnv _ _ 0 _ _ rfl rfl rfl rfl rfl⟩

/-! ## The block mixer on two memories that agree where it reads -/

theorem forLoop_rel_ind {σ τ : Type} (R : Nat → σ → τ → Prop) (f : Nat → σ → σ)
    (g : Nat → τ → τ) (n : Nat)
    (hstep : ∀ i a b, i < n → R i a b → R (i + 1) (f i a) (g i b)) (a : σ) (b : τ)
    (h0 : R 0 a b) : R n (forLoop n f a) (forLoop n g b) := by
  induction n with
  | zero => exact h0
  | succ n ih =>
    exact hstep n _ _ (Nat.lt_succ_self n)
      (ih (fun i a b hi hr => hstep i a b (Nat.lt_succ_of_lt hi) hr))

theorem loadVec_fst (m : Mach) (v : Nat) :
    (Sse.loadVec m v).1
      = [m.mem (4 * v), m.mem (4 * v + 1), m.mem (4 * v + 2), m.mem (4 * v + 3)] := rfl

theorem loadVec_mem (m : Mach) (v : Nat) : (Sse.loadVec m v).2.mem = m.mem := rfl

theorem storeVec_mem (m : Mach) (v : Nat) (s : List Nat) (a : Nat) :
    (Sse.storeVec m v s).mem a
      = if a = 4 * v + 3 then s.getD 3 0 else if a = 4 * v + 2 then s.getD 2 0
        else if a = 4 * v + 1 then s.getD 1 0 else if a = 4 * v then s.getD 0 0
        else m.mem a := rfl

theorem mixVec_agree (S : Nat → Prop) (m1 m2 : Mach) (s : List Nat) (p f t : Nat)
    (hS : ∀ a, S a → m1.mem a = m2.mem a)
    (hp : ∀ k, k < 4 → S (4 * p + k)) (hf : ∀ k, k < 4 → S (4 * f + k)) :
    (Sse.mixVec m1 s p f t).2 = (Sse.mixVec m2 s p f t).2
      ∧ ∀ a, (S a ∨ (4 * t ≤ a ∧ a < 4 * t + 4)) →
          (Sse.mixVec m1 s p f t).1.mem a = (Sse.mixVec m2 s p f t).1.mem a := by
  have hpv : (Sse.loadVec m1 p).1 = (Sse.loadVec m2 p).1 := by
    rw [loadVec_fst, loadVec_fst, hS (4 * p) (hp 0 (by omega)), hS _ (hp 1 (by omega)),
      hS _ (hp 2 (by omega)), hS _ (hp 3 (by omega))]
  have hfv : (Sse.loadVec (Sse.loadVec m1 p).2 f).1 = (Sse.loadVec (Sse.loadVec m2 p).2 f).1 := by
    rw [loadVec_fst, loadVec_fst, loadVec_mem, loadVec_mem, hS (4 * f) (hf 0 (by omega)),
      hS _ (hf 1 (by omega)), hS _ (hf 2 (by omega)), hS _ (hf 3 (by omega))]
  have hs : (Sse.mixVec m1 s p f t).2 = (Sse.mixVec m2 s p f t).2 := by
    unfold Sse.mixVec
    simp only [hpv, hfv]
  refine ⟨hs, fun a ha => ?_⟩
  have e1 : (Sse.mixVec m1 s p f t).1 = Sse.storeVec (Sse.loadVec (Sse.loadVec m1 p).2 f).2 t
      (Sse.mixVec m1 s p f t).2 := rfl
  have e2 : (Sse.mixVec m2 s p f t).1 = Sse.storeVec (Sse.loadVec (Sse.loadVec m2 p).2 f).2 t
      (Sse.mixVec m2 s p f t).2 := rfl
  rw [e1, e2, storeVec_mem, storeVec_mem, hs, loadVec_mem, loadVec_mem, loadVec_mem,
    loadVec_mem]
  by_cases h3 : a = 4 * t + 3
  · simp only [h3, if_true]
  · by_cases h2 : a = 4 * t + 2
    · simp [h2]
    · by_cases h1 : a = 4 * t + 1
      · simp [h1]
      · by_cases h0 : a = 4 * t
        · simp [h0]
        · simp only [h3, h2, h1, h0, if_false]
          rcases ha with ha | ha
          · exact hS a ha
          · omega

theorem hashBlocksInner_agree (S : Nat → Prop) (T0 : Nat) (x y : Sse.HB)
    (h : HBAgree (fun a => S a ∨ (T0 ≤ a ∧ a < 4 * x.t)) x y)
    (hp : ∀ k, k < 8 → S (4 * x.p + k)) (hf : ∀ k, k < 8 → S (4 * x.f + k)) :
    HBAgree (fun a => S a ∨ (T0 ≤ a ∧ a < 4 * (x.t + 2)))
      (Sse.hashBlocksInner x) (Sse.hashBlocksInner y) := by
  obtain ⟨h1, h2, hf', ht', hp', hm⟩ := h
  have A := mixVec_agree (fun a => S a ∨ (T0 ≤ a ∧ a < 4 * x.t)) x.m y.m x.s1 x.p x.f x.t hm
    (fun k hk => Or.inl (hp k (by omega))) (fun k hk => Or.inl (hf k (by omega)))
  have B := mixVec_agree
    (fun a => (S a ∨ (T0 ≤ a ∧ a < 4 * x.t)) ∨ (4 * x.t ≤ a ∧ a < 4 * x.t + 4))
    (Sse.mixVec x.m x.s1 x.p x.f x.t).1 (Sse.mixVec y.m x.s1 x.p x.f x.t).1 x.s2
    (x.p + 1) (x.f + 1) (x.t + 1) A.2
    (fun k hk => Or.inl (Or.inl (by
      have := hp (4 + k) (by omega)
      rw [show 4 * (x.p + 1) + k = 4 * x.p + (4 + k) by ring]; exact this)))
    (fun k hk => Or.inl (Or.inl (by
      have := hf (4 + k) (by omega)
      rw [show 4 * (x.f + 1) + k = 4 * x.f + (4 + k) by ring]; exact this)))
  unfold Sse.hashBlocksInner
  rw [← h1, ← h2, ← hf', ← ht', ← hp']
  refine ⟨A.1, B.1, rfl, rfl, rfl, fun a ha => ?_⟩
  apply B.2
  rcases ha with ha | ⟨ha1, ha2⟩
  · exact Or.inl (Or.inl (Or.inl ha))
  · by_cases c1 : a < 4 * x.t
    · exact Or.inl (Or.inl (Or.inr ⟨ha1, c1⟩))
    · by_cases c2 : a < 4 * x.t + 4
      · exact Or.inl (Or.inr ⟨by omega, c2⟩)
      · exact Or.inr ⟨by omega, by omega⟩

theorem hashBlocksInner_regs (x : Sse.HB) :
    (Sse.hashBlocksInner x).f = x.f + 2 ∧ (Sse.hashBlocksInner x).t = x.t + 2
      ∧ (Sse.hashBlocksInner x).p = x.p + 2 := ⟨rfl, rfl, rfl⟩

theorem hashBlocksInnerLoop_agree (S : Nat → Prop) (T0 n f0 t0 p0 : Nat)
    (hp : ∀ k, k < 8 * n → S (4 * p0 + k)) (hf : ∀ k, k < 8 * n → S (4 * f0 + k))
    (x y : Sse.HB) (hx : x.f = f0 ∧ x.t = t0 ∧ x.p = p0)
    (h : HBAgree (fun a => S a ∨ (T0 ≤ a ∧ a < 4 * t0)) x y) :
    HBAgree (fun a => S a ∨ (T0 ≤ a ∧ a < 4 * (t0 + 2 * n)))
        (forLoop n (fun _ z => Sse.hashBlocksInner z) x)
        (forLoop n (fun _ z => Sse.hashBlocksInner z) y)
      ∧ (forLoop n (fun _ z => Sse.hashBlocksInner z) x).f = f0 + 2 * n
      ∧ (forLoop n (fun _ z => Sse.hashBlocksInner z) x).t = t0 + 2 * n := by
  have key := forLoop_rel_ind
    (fun j (a b : Sse.HB) => HBAgree (fun z => S z ∨ (T0 ≤ z ∧ z < 4 * (t0 + 2 * j))) a b
      ∧ a.f = f0 + 2 * j ∧ a.t = t0 + 2 * j ∧ a.p = p0 + 2 * j)
    (fun _ z => Sse.hashBlocksInner z) (fun _ z => Sse.hashBlocksInner z) n
    (fun j a b hj hr => by
      obtain ⟨hag, haf, hat, hap⟩ := hr
      have hag2 : HBAgree (fun z => S z ∨ (T0 ≤ z ∧ z < 4 * a.t)) a b := by
        rw [hat]; exact hag
      have step := hashBlocksInner_agree S T0 a b hag2
        (fun k hk => by
          rw [hap, show 4 * (p0 + 2 * j) + k = 4 * p0 + (8 * j + k) by ring]
          exact hp _ (by omega))
        (fun k hk => by
          rw [haf, show 4 * (f0 + 2 * j) + k = 4 * f0 + (8 * j + k) by ring]
          exact hf _ (by omega))
      have regs := hashBlocksInner_regs a
      refine ⟨?_, by rw [regs.1, haf]; ring, by rw [regs.2.1, hat]; ring,
        by rw [regs.2.2, hap]; ring⟩
      rw [hat] at step
      rw [show t0 + 2 * (j + 1) = t0 + 2 * j + 2 by ring]
      exact step)
    x y ⟨by simpa using h, by simp [hx.1], by simp [hx.2.1], by simp [hx.2.2]⟩
  exact ⟨key.1, key.2.1, key.2.2.1⟩

theorem hashBlocksSub_agree (S : Nat → Prop) (T0 s8 prevAddr mask f0 t0 : Nat)
    (hs8 : 1 ≤ s8)
    (hf : ∀ k, k < 8 * s8 → S (4 * f0 + k))
    (hp : ∀ r k, k < 8 * s8 →
      S (4 * (prevAddr / 4 + u32 ((8 * s8 / 4) * (r &&& mask))) + k))
    (x y : Sse.HB) (hx : x.f = f0 ∧ x.t = t0)
    (h : HBAgree (fun a => S a ∨ (T0 ≤ a ∧ a < 4 * t0)) x y) :
    HBAgree (fun a => S a ∨ (T0 ≤ a ∧ a < 4 * (t0 + 2 * s8)))
        (Sse.hashBlocksSub (8 * s8) prevAddr mask x)
        (Sse.hashBlocksSub (8 * s8) prevAddr mask y)
      ∧ (Sse.hashBlocksSub (8 * s8) prevAddr mask x).f = f0 + 2 * s8
      ∧ (Sse.hashBlocksSub (8 * s8) prevAddr mask x).t = t0 + 2 * s8 := by
  obtain ⟨h1, h2, hf', ht', hp', hm⟩ := h
  have hr : x.m.mem (4 * x.f) = y.m.mem (4 * y.f) := by
    rw [← hf']
    apply hm
    left
    have := hf 0 (by omega)
    rw [hx.1]; exact this
  unfold Sse.hashBlocksSub
  have h8 : 8 * s8 / 8 = s8 := Nat.mul_div_cancel_left s8 (by norm_num)
  simp only [h8]
  have e1 : (x.m.rd (4 * x.f)).1 = x.m.mem (4 * x.f) := rfl
  have e2 : (y.m.rd (4 * y.f)).1 = y.m.mem (4 * y.f) := rfl
  rw [e1, e2, ← hr]
  exact hashBlocksInnerLoop_agree S T0 s8 f0 t0
    (prevAddr / 4 + u32 ((8 * s8 / 4) * (x.m.mem (4 * x.f) &&& mask)))
    (fun k hk => hp _ k hk) hf _ _ ⟨hx.1, hx.2, rfl⟩
    ⟨h1, h2, hf', ht', rfl, hm⟩

theorem hashBlocksSubLoop_agree (S : Nat → Prop) (s8 ns prevAddr mask f0 t0 : Nat)
    (hs8 : 1 ≤ s8)
    (hf : ∀ k, k < 8 * s8 * ns → S (4 * f0 + k))
    (hp : ∀ r k, k < 8 * s8 →
      S (4 * (prevAddr / 4 + u32 ((8 * s8 / 4) * (r &&& mask))) + k))
    (x y : Sse.HB) (hx : x.f = f0 ∧ x.t = t0)
    (h : HBAgree S x y) :
    HBAgree (fun a => S a ∨ (4 * t0 ≤ a ∧ a < 4 * t0 + 8 * s8 * ns))
        (forLoop ns (fun _ z => Sse.hashBlocksSub (8 * s8) prevAddr mask z) x)
        (forLoop ns (fun _ z => Sse.hashBlocksSub (8 * s8) prevAddr mask z) y) := by
  have key := forLoop_rel_ind
    (fun i (a b : Sse.HB) =>
      HBAgree (fun z => S z ∨ (4 * t0 ≤ z ∧ z < 4 * (t0 + 2 * s8 * i))) a b
        ∧ a.f = f0 + 2 * s8 * i ∧ a.t = t0 + 2 * s8 * i)
    (fun _ z => Sse.hashBlocksSub (8 * s8) prevAddr mask z)
    (fun _ z => Sse.hashBlocksSub (8 * s8) prevAddr mask z) ns
    (fun i a b hi hr => by
      obtain ⟨hag, haf, hat⟩ := hr
      have step := hashBlocksSub_agree S (4 * t0) s8 prevAddr mask (f0 + 2 * s8 * i)
        (t0 + 2 * s8 * i) hs8
        (fun k hk => by
          rw [show 4 * (f0 + 2 * s8 * i) + k = 4 * f0 + (8 * s8 * i + k) by ring]
          apply hf
          calc 8 * s8 * i + k < 8 * s8 * i + 8 * s8 := by omega
            _ = 8 * s8 * (i + 1) := by ring
            _ ≤ 8 * s8 * ns := Nat.mul_le_mul_left _ hi)
        hp a b ⟨haf, hat⟩ hag
      refine ⟨?_, by rw [step.2.1]; ring, by rw [step.2.2]; ring⟩
      rw [show t0 + 2 * s8 * (i + 1) = t0 + 2 * s8 * i + 2 * s8 by ring]
      exact step.1)
    x y ⟨⟨h.1, h.2.1, h.2.2.1, h.2.2.2.1, h.2.2.2.2.1,
          fun a ha => h.2.2.2.2.2 a (by
            rcases ha with ha | ⟨ha1, ha2⟩
            · exact ha
            · simp at ha2; omega)⟩, by simp [hx.1], by simp [hx.2]⟩
  obtain ⟨⟨k1, k2, k3, k4, k5, k6⟩, _, _⟩ := key
  refine ⟨k1, k2, k3, k4, k5, fun a ha => k6 a ?_⟩
  rcases ha with ha | ⟨ha1, ha2⟩
  · exact Or.inl ha
  · exact Or.inr ⟨ha1, by
      calc a < 4 * t0 + 8 * s8 * ns := ha2
        _ = 4 * (t0 + 2 * s8 * ns) := by ring⟩

theorem hashBlocks_agree (S : Nat → Prop) (m1 m2 : Mach) (state : List Nat)
    (blocklen sub fromAddr toAddr rep s8 ns : Nat)
    (hsub : sub = 8 * s8) (hbl : blocklen = 8 * s8 * ns) (hs8 : 1 ≤ s8) (hns : 1 ≤ ns)
    (hblt : blocklen < 2 ^ 32)
    (h4f : 4 ∣ fromAddr) (h4t : 4 ∣ toAddr) (hto : blocklen ≤ toAddr) (hto64 : toAddr < 2 ^ 64)
    (hprev : ∀ a, toAddr - blocklen ≤ a → a < toAddr → S a)
    (hfrom : ∀ a, fromAddr ≤ a → a < fromAddr + blocklen → S a)
    (hS : ∀ a, S a → m1.mem a = m2.mem a) :
    (Sse.hashBlocks m1 state blocklen sub fromAddr toAddr rep).2
        = (Sse.hashBlocks m2 state blocklen sub fromAddr toAddr rep).2
      ∧ ∀ a, (S a ∨ (1 ≤ rep ∧ toAddr ≤ a ∧ a < toAddr + blocklen)) →
          (Sse.hashBlocks m1 state blocklen sub fromAddr toAddr rep).1.mem a
            = (Sse.hashBlocks m2 state blocklen sub fromAddr toAddr rep).1.mem a := by
  obtain ⟨F0, hF0⟩ := h4f
  obtain ⟨TT0, hTT0⟩ := h4t
  have hs8ns : 1 ≤ s8 * ns := Nat.mul_pos hs8 hns
  have hnumSub : blocklen / sub = ns := by
    rw [hbl, hsub]; exact Nat.mul_div_cancel_left ns (by omega)
  have hmask : u32 (ns + 2 ^ 32 - 1) = ns - 1 := by
    unfold u32
    have hnslt : ns < 2 ^ 32 := by
      have : ns ≤ 8 * s8 * ns := Nat.le_mul_of_pos_left ns (by omega)
      omega
    have : ns + 2 ^ 32 - 1 = (ns - 1) + 2 ^ 32 := by omega
    rw [this, Nat.add_mod_right]
    exact Nat.mod_eq_of_lt (by omega)
  have hprevA : u64 (toAddr + 2 ^ 64 - blocklen) = toAddr - blocklen := by
    unfold u64
    have : toAddr + 2 ^ 64 - blocklen = (toAddr - blocklen) + 2 ^ 64 := by omega
    rw [this, Nat.add_mod_right]
    exact Nat.mod_eq_of_lt (by omega)
  have hfdiv : fromAddr / 4 = F0 := by rw [hF0]; exact Nat.mul_div_cancel_left F0 (by norm_num)
  have htdiv : toAddr / 4 = TT0 := by rw [hTT0]; exact Nat.mul_div_cancel_left TT0 (by norm_num)
  have hprange : ∀ r k, k < 8 * s8 →
      S (4 * ((toAddr - blocklen) / 4 + u32 ((8 * s8 / 4) * (r &&& (ns - 1)))) + k) := by
    intro r k hk
    have hq : r &&& (ns - 1) ≤ ns - 1 := Nat.and_le_right
    have h84 : 8 * s8 / 4 = 2 * s8 := by omega
    have hmul : 2 * s8 * (r &&& (ns - 1)) ≤ 2 * s8 * (ns - 1) := Nat.mul_le_mul_left _ hq
    have hexp : 8 * s8 * ns = 8 * s8 * (ns - 1) + 8 * s8 := by
      have : ns = (ns - 1) + 1 := by omega
      calc 8 * s8 * ns = 8 * s8 * ((ns - 1) + 1) := by rw [← this]
        _ = 8 * s8 * (ns - 1) + 8 * s8 := by ring
    have hu : u32 (2 * s8 * (r &&& (ns - 1))) = 2 * s8 * (r &&& (ns - 1)) := by
      unfold u32
      apply Nat.mod_eq_of_lt
      have : 2 * s8 * (ns - 1) ≤ 8 * s8 * (ns - 1) := by
        apply Nat.mul_le_mul_right; omega
      omega
    have hpd : (toAddr - blocklen) / 4 = TT0 - 2 * s8 * ns := by
      rw [hTT0, hbl]
      have : 4 * TT0 - 8 * s8 * ns = 4 * (TT0 - 2 * s8 * ns) := by
        rw [Nat.mul_sub]; ring_nf
      rw [this]; exact Nat.mul_div_cancel_left _ (by norm_num)
    have hge : 2 * s8 * ns ≤ TT0 := by
      have h1 : 8 * s8 * ns ≤ 4 * TT0 := by rw [← hbl, ← hTT0]; exact hto
      have h2 : 8 * s8 * ns = 4 * (2 * s8 * ns) := by ring
      omega
    rw [h84, hu, hpd]
    apply hprev
    · rw [hTT0, hbl]
      have h2 : 8 * s8 * ns = 4 * (2 * s8 * ns) := by ring
      omega
    · rw [hTT0]
      have h2 : 8 * s8 * ns = 4 * (2 * s8 * ns) := by ring
      have h3 : 8 * s8 * (ns - 1) = 4 * (2 * s8 * (ns - 1)) := by ring
      omega
  unfold Sse.hashBlocks
  simp only [hnumSub, hmask, hprevA, hfdiv, htdiv]
  have key := forLoop_rel_ind
    (fun k (a b : Sse.HB) =>
      HBAgree (fun z => S z ∨ (1 ≤ k ∧ toAddr ≤ z ∧ z < toAddr + blocklen)) a b)
    (fun _ (x : Sse.HB) => forLoop ns (fun _ z =>
      Sse.hashBlocksSub sub (toAddr - blocklen) (ns - 1) z) { x with f := F0, t := TT0 })
    (fun _ (x : Sse.HB) => forLoop ns (fun _ z =>
      Sse.hashBlocksSub sub (toAddr - blocklen) (ns - 1) z) { x with f := F0, t := TT0 })
    rep
    (fun k a b hk hr => by
      obtain ⟨r1, r2, r3, r4, r5, r6⟩ := hr
      have step := hashBlocksSubLoop_agree
        (fun z => S z ∨ (1 ≤ k ∧ toAddr ≤ z ∧ z < toAddr + blocklen)) s8 ns
        (toAddr - blocklen) (ns - 1) F0 TT0 hs8
        (fun j hj => Or.inl (hfrom _ (by omega) (by rw [hF0, hbl]; omega)))
        (fun r j hj => Or.inl (hprange r j hj))
        { a with f := F0, t := TT0 } { b with f := F0, t := TT0 } ⟨rfl, rfl⟩
        ⟨r1, r2, rfl, rfl, r5, r6⟩
      rw [hsub]
      obtain ⟨k1, k2, k3, k4, k5, k6⟩ := step
      refine ⟨k1, k2, k3, k4, k5, fun z hz => k6 z ?_⟩
      rcases hz with hz | ⟨_, hz1, hz2⟩
      · exact Or.inl (Or.inl hz)
      · exact Or.inr ⟨by omega, by omega⟩)
    { m := m1, s1 := (List.range 4).map (fun k => state.getD k 0),
      s2 := (List.range 4).map (fun k => state.getD (k + 4) 0), f := 0, t := 0, p := 0 }
    { m := m2, s1 := (List.range 4).map (fun k => state.getD k 0),
      s2 := (List.range 4).map (fun k => state.getD (k + 4) 0), f := 0, t := 0, p := 0 }
    ⟨rfl, rfl, rfl, rfl, rfl, fun z hz => by
      rcases hz with hz | ⟨h0, _⟩
      · exact hS z hz
      · omega⟩
  obtain ⟨k1, k2, _, _, _, k6⟩ := key
  refine ⟨?_, fun a ha => k6 a ha⟩
  simp only [k1, k2]

/-! ## Folding a checkpoint on two machines with the same pacer state -/

theorem MhAgree.of_sameCtl {nb : Nat} {a b a1 b1 : Mach} (h : MhAgree nb a b)
    (ha : SameCtl a a1) (hb : SameCtl b b1) : MhAgree nb a1 b1 := by
  refine ⟨by rw [← ha.1, ← hb.1]; exact h.1, fun i k hi hk => ?_⟩
  rw [← ha.2.1, ← hb.2.1]
  exact h.2 i k hi hk

theorem hashMultItoState_agree (env : Env) (i : Nat) (a b : Mach) (s : List Nat)
    (hi : i < a.completedMultiplies) (hcm : a.completedMultiplies = b.completedMultiplies)
    (hmh : ∀ k, k < 8 → a.multHashes (u32 (i * 8 + k)) = b.multHashes (u32 (i * 8 + k))) :
    ∃ ra rb, Sse.hashMultItoState env i a s = some ra
      ∧ Sse.hashMultItoState env i b s = some rb ∧ ra.2 = rb.2
      ∧ ra.1.mem = a.mem ∧ rb.1.mem = b.mem ∧ SameCtl a ra.1 ∧ SameCtl b rb.1 := by
  have hna : ¬ (i ≥ a.completedMultiplies) := by omega
  have hnb : ¬ (i ≥ b.completedMultiplies) := by omega
  have ea : Sse.hashMultItoState env i a s = some
      ((forLoop 8 (fun k (ms : Mach × List Nat) =>
        ((ms.1.rdH (u32 (i * 8 + k))).2,
          ms.2.set k (ms.2.getD k 0 ^^^ (ms.1.rdH (u32 (i * 8 + k))).1))) (a, s)).1,
       Sse.hashState env (forLoop 8 (fun k (ms : Mach × List Nat) =>
        ((ms.1.rdH (u32 (i * 8 + k))).2,
          ms.2.set k (ms.2.getD k 0 ^^^ (ms.1.rdH (u32 (i * 8 + k))).1))) (a, s)).2) := by
    unfold Sse.hashMultItoState
    rw [if_neg hna]
  have eb : Sse.hashMultItoState env i b s = some
      ((forLoop 8 (fun k (ms : Mach × List Nat) =>
        ((ms.1.rdH (u32 (i * 8 + k))).2,
          ms.2.set k (ms.2.getD k 0 ^^^ (ms.1.rdH (u32 (i * 8 + k))).1))) (b, s)).1,
       Sse.hashState env (forLoop 8 (fun k (ms : Mach × List Nat) =>
        ((ms.1.rdH (u32 (i * 8 + k))).2,
          ms.2.set k (ms.2.getD k 0 ^^^ (ms.1.rdH (u32 (i * 8 + k))).1))) (b, s)).2) := by
    unfold Sse.hashMultItoState
    rw [if_neg hnb]
  have key := forLoop_rel_ind
    (fun _ (x y : Mach × List Nat) => x.2 = y.2 ∧ x.1.multHashes = a.multHashes
      ∧ y.1.multHashes = b.multHashes)
    (fun k (ms : Mach × List Nat) =>
        ((ms.1.rdH (u32 (i * 8 + k))).2,
          ms.2.set k (ms.2.getD k 0 ^^^ (ms.1.rdH (u32 (i * 8 + k))).1)))
    (fun k (ms : Mach × List Nat) =>
        ((ms.1.rdH (u32 (i * 8 + k))).2,
          ms.2.set k (ms.2.getD k 0 ^^^ (ms.1.rdH (u32 (i * 8 + k))).1)))
    8
    (fun k x y hk hr => by
      obtain ⟨h1, h2, h3⟩ := hr
      refine ⟨?_, h2, h3⟩
      have v1 : (x.1.rdH (u32 (i * 8 + k))).1 = x.1.multHashes (u32 (i * 8 + k)) := rfl
      have v2 : (y.1.rdH (u32 (i * 8 + k))).1 = y.1.multHashes (u32 (i * 8 + k)) := rfl
      show x.2.set k (x.2.getD k 0 ^^^ (x.1.rdH (u32 (i * 8 + k))).1)
        = y.2.set k (y.2.getD k 0 ^^^ (y.1.rdH (u32 (i * 8 + k))).1)
      rw [v1, v2, h1, h2, h3, hmh k hk])
    (a, s) (b, s) ⟨rfl, rfl, rfl⟩
  have fa := hashMultItoState_some env i a s _ ea
  have fb := hashMultItoState_some env i b s _ eb
  exact ⟨_, _, ea, eb, by simp only [key.1], fa.1, fb.1, fa.2.1, fb.2.1⟩

/-! ## The sliding window stays below the block index -/

theorem reverse_lt (x n : Nat) (hn : n ≤ 32) : Sse.reverse x n < 2 ^ n := by
  unfold Sse.reverse
  by_cases h0 : n = 0
  · simp [h0]
  · simp only [h0, if_false]
    rw [Nat.shiftRight_eq_div_pow]
    apply Nat.div_lt_of_lt_mul
    rw [← pow_add, show 32 - n + n = 32 by omega]
    apply Nat.or_lt_two_pow
    · exact Nat.mod_lt _ (by norm_num)
    · rw [Nat.shiftRight_eq_div_pow]
      apply lt_of_le_of_lt (Nat.div_le_self _ _)
      exact lt_of_le_of_lt Nat.and_le_right (by norm_num)

theorem slideWindow_inv (i mask numBits : Nat) (hm : mask = 2 ^ numBits) (hle : mask ≤ i)
    (hi : i < 2 ^ 31) :
    (Sse.slideWindow i (mask, numBits)).1 = 2 ^ (Sse.slideWindow i (mask, numBits)).2
      ∧ (Sse.slideWindow i (mask, numBits)).1 ≤ i
      ∧ (Sse.slideWindow i (mask, numBits)).2 < 32 := by
  have hnb : numBits < 31 := by
    by_contra hc
    have : 2 ^ 31 ≤ 2 ^ numBits := Nat.pow_le_pow_right (by norm_num) (by omega)
    omega
  have hsh : u32 (mask <<< 1) = 2 * mask := by
    rw [Nat.shiftLeft_eq, pow_one]
    unfold u32
    rw [Nat.mod_eq_of_lt (by omega)]; ring
  unfold Sse.slideWindow
  simp only [hsh]
  by_cases hc : 2 * mask ≤ i
  · rw [if_pos hc]
    have hu : u32 (numBits + 1) = numBits + 1 := by
      unfold u32; exact Nat.mod_eq_of_lt (by omega)
    refine ⟨by rw [hu, hm, pow_succ]; ring, hc, by rw [hu]; omega⟩
  · rw [if_neg hc]
    exact ⟨hm, hle, by omega⟩

theorem reversePosOf_lt (i mask numBits : Nat) (hm : mask = 2 ^ numBits) (hle : mask ≤ i)
    (hnb : numBits < 32) : Sse.reversePosOf i mask numBits < i := by
  unfold Sse.reversePosOf
  have hu : u8 numBits = numBits := by
    unfold u8; exact Nat.mod_eq_of_lt (by omega)
  rw [hu]
  have hr := reverse_lt i numBits (by omega)
  by_cases hc : u32 (Sse.reverse i numBits + mask) < i
  · simp only [hc, if_true]
  · simp only [hc, if_false]
    omega

/-! ## The resistant pass on two memories -/

theorem hashWithoutPasswordStep_eq (env : Env) (c : Sse.Common) (start i : Nat) (w : Sse.WS)
    (hbl : c.blocklen ≠ 0)
    (hs : w.stuck = false) (r : Mach × List Nat)
    (hr : Sse.hashMultItoState env i
      (Sse.hashBlocks w.m w.state c.blocklen c.blocklen
        (u64 (start + u64 (c.blocklen * Sse.reversePosOf i
          (Sse.slideWindow i (w.mask, w.numBits)).1 (Sse.slideWindow i (w.mask, w.numBits)).2)))
        w.toAddr c.repetitions).1
      (Sse.hashBlocks w.m w.state c.blocklen c.blocklen
        (u64 (start + u64 (c.blocklen * Sse.reversePosOf i
          (Sse.slideWindow i (w.mask, w.numBits)).1 (Sse.slideWindow i (w.mask, w.numBits)).2)))
        w.toAddr c.repetitions).2 = some r) :
    Sse.hashWithoutPasswordStep env c start i w
      = { m := r.1, state := r.2, mask := (Sse.slideWindow i (w.mask, w.numBits)).1,
          numBits := (Sse.slideWindow i (w.mask, w.numBits)).2,
          toAddr := u64 (w.toAddr + c.blocklen), stuck := false } := by
  unfold Sse.hashWithoutPasswordStep
  simp only [hs, hbl, Bool.false_eq_true, if_false]
  rw [hr]

theorem valid_bounds (c : Sse.Common) (hv : c.Valid) :
    c.numblocks < 2 ^ 31 ∧ 2 * c.parallelism * c.numblocks * c.blocklen < 2 ^ 64
      ∧ 8 ∣ c.blocklen ∧ 1 ≤ c.blocklen := by
  obtain ⟨⟨s8, ns, hs8, hns, hsub, hbl⟩, hblt, hrep, hnb, hhs, hpar, hov⟩ := hv
  refine ⟨?_, ?_, ⟨s8 * ns, by rw [hbl]; ring⟩, ?_⟩
  · have : 2 * c.numblocks ≤ 2 * c.parallelism * c.numblocks := by
      calc 2 * c.numblocks = 2 * 1 * c.numblocks := by ring
        _ ≤ 2 * c.parallelism * c.numblocks :=
          Nat.mul_le_mul_right _ (Nat.mul_le_mul_left _ hpar)
    omega
  · calc 2 * c.parallelism * c.numblocks * c.blocklen
        < 2 ^ 32 * 2 ^ 32 := Nat.mul_lt_mul'' hov hblt
      _ = 2 ^ 64 := by norm_num
  · rw [hbl]
    have : 1 ≤ s8 * ns := Nat.mul_pos hs8 hns
    calc 1 ≤ s8 * ns := this
      _ ≤ 8 * (s8 * ns) := Nat.le_mul_of_pos_left _ (by norm_num)
      _ = 8 * s8 * ns := by ring

theorem valid_nonzero (c : Sse.Common) (hv : c.Valid) :
    c.blocklen ≠ 0 ∧ c.subBlocklen ≠ 0 := by
  have hb := (valid_bounds c hv).2.2.2
  obtain ⟨⟨s8, ns, hs8, hns, hsub, hbl⟩, _⟩ := hv
  exact ⟨by omega, by omega⟩

theorem region_bound (c : Sse.Common) (k j : Nat)
    (hk : k < 2 * c.parallelism) (hj : j ≤ c.numblocks) :
    k * c.numblocks * c.blocklen + j * c.blocklen
      ≤ 2 * c.parallelism * c.numblocks * c.blocklen := by
  have h1 : k * c.numblocks + j ≤ 2 * c.parallelism * c.numblocks := by
    calc k * c.numblocks + j ≤ k * c.numblocks + c.numblocks := by omega
      _ = (k + 1) * c.numblocks := by ring
      _ ≤ 2 * c.parallelism * c.numblocks := Nat.mul_le_mul_right _ hk
  calc k * c.numblocks * c.blocklen + j * c.blocklen
      = (k * c.numblocks + j) * c.blocklen := by ring
    _ ≤ 2 * c.parallelism * c.numblocks * c.blocklen := Nat.mul_le_mul_right _ h1

theorem hashWithoutPasswordStep_agree (env : Env) (c : Sse.Common) (start i : Nat)
    (S : Nat → Prop) (hv : c.Valid) (h4 : 4 ∣ start)
    (hend : start + c.numblocks * c.blocklen < 2 ^ 64)
    (hi1 : 1 ≤ i) (hi : i < c.numblocks) (w1 w2 : Sse.WS)
    (h : WSAgree c.numblocks S w1 w2) (hto : w1.toAddr = start + i * c.blocklen)
    (hmask : w1.mask = 2 ^ w1.numBits) (hmle : w1.mask ≤ i)
    (hS : ∀ a, start ≤ a → a < start + i * c.blocklen → S a) :
    WSAgree c.numblocks
        (fun a => S a ∨ (start + i * c.blocklen ≤ a ∧ a < start + (i + 1) * c.blocklen))
        (Sse.hashWithoutPasswordStep env c start i w1)
        (Sse.hashWithoutPasswordStep env c start i w2)
      ∧ (Sse.hashWithoutPasswordStep env c start i w1).toAddr = start + (i + 1) * c.blocklen
      ∧ (Sse.hashWithoutPasswordStep env c start i w1).mask
          = 2 ^ (Sse.hashWithoutPasswordStep env c start i w1).numBits
      ∧ (Sse.hashWithoutPasswordStep env c start i w1).mask ≤ i := by
  have hnz := valid_nonzero c hv
  obtain ⟨hst, hmk, hnbits, htoe, hs1, hs2, hmem, hmh, hcm⟩ := h
  have hb := valid_bounds c hv
  obtain ⟨⟨s8, ns, hs8, hns, hsub, hbl⟩, hblt, hrep, hnb1, hhs, hpar, hov⟩ := hv
  have hwin := slideWindow_inv i w1.mask w1.numBits hmask hmle (by omega)
  have hrp := reversePosOf_lt i _ _ hwin.1 hwin.2.1 hwin.2.2
  -- the source address
  have hmul1 : c.blocklen * Sse.reversePosOf i (Sse.slideWindow i (w1.mask, w1.numBits)).1
      (Sse.slideWindow i (w1.mask, w1.numBits)).2 + c.blocklen ≤ i * c.blocklen := by
    calc c.blocklen * Sse.reversePosOf i (Sse.slideWindow i (w1.mask, w1.numBits)).1
          (Sse.slideWindow i (w1.mask, w1.numBits)).2 + c.blocklen
        = (Sse.reversePosOf i (Sse.slideWindow i (w1.mask, w1.numBits)).1
          (Sse.slideWindow i (w1.mask, w1.numBits)).2 + 1) * c.blocklen := by ring
      _ ≤ i * c.blocklen := Nat.mul_le_mul_right _ hrp
  have hmul2 : i * c.blocklen + c.blocklen ≤ c.numblocks * c.blocklen := by
    calc i * c.blocklen + c.blocklen = (i + 1) * c.blocklen := by ring
      _ ≤ c.numblocks * c.blocklen := Nat.mul_le_mul_right _ hi
  have hfrom : u64 (start + u64 (c.blocklen * Sse.reversePosOf i
      (Sse.slideWindow i (w1.mask, w1.numBits)).1 (Sse.slideWindow i (w1.mask, w1.numBits)).2))
      = start + c.blocklen * Sse.reversePosOf i
      (Sse.slideWindow i (w1.mask, w1.numBits)).1
      (Sse.slideWindow i (w1.mask, w1.numBits)).2 := by
    unfold u64
    rw [Nat.mod_eq_of_lt (a := c.blocklen * _) (by omega)]
    exact Nat.mod_eq_of_lt (by omega)
  have h4bl : 4 ∣ c.blocklen := ⟨2 * s8 * ns, by rw [hbl]; ring⟩
  have hi1bl : c.blocklen ≤ i * c.blocklen := Nat.le_mul_of_pos_left _ hi1
  have HB := hashBlocks_agree S w1.m w2.m w1.state c.blocklen c.blocklen
    (start + c.blocklen * Sse.reversePosOf i
      (Sse.slideWindow i (w1.mask, w1.numBits)).1 (Sse.slideWindow i (w1.mask, w1.numBits)).2)
    w1.toAddr c.repetitions (s8 * ns) 1 (by rw [hbl]; ring) (by rw [hbl]; ring)
    (Nat.mul_pos hs8 hns) (le_refl 1) hblt
    (Dvd.dvd.add h4 (Dvd.dvd.mul_right h4bl _))
    (by rw [hto]; exact Dvd.dvd.add h4 (Dvd.dvd.mul_left h4bl _))
    (by rw [hto]; omega) (by rw [hto]; omega)
    (fun a ha1 ha2 => hS a (by rw [hto] at ha1; omega) (by rw [hto] at ha2; omega))
    (fun a ha1 ha2 => hS a (by omega) (by omega))
    hmem
  -- the checkpoint
  have c1 := sameCtl_hashBlocks w1.m w1.state c.blocklen c.blocklen
    (start + c.blocklen * Sse.reversePosOf i
      (Sse.slideWindow i (w1.mask, w1.numBits)).1 (Sse.slideWindow i (w1.mask, w1.numBits)).2)
    w1.toAddr c.repetitions
  have c2 := sameCtl_hashBlocks w2.m w1.state c.blocklen c.blocklen
    (start + c.blocklen * Sse.reversePosOf i
      (Sse.slideWindow i (w1.mask, w1.numBits)).1 (Sse.slideWindow i (w1.mask, w1.numBits)).2)
    w1.toAddr c.repetitions
  have hmh2 := hmh.of_sameCtl c1 c2
  obtain ⟨ra, rb, ea, eb, hsame, hma, hmb, hca, hcb⟩ := hashMultItoState_agree env i _ _
    (Sse.hashBlocks w1.m w1.state c.blocklen c.blocklen
      (start + c.blocklen * Sse.reversePosOf i
        (Sse.slideWindow i (w1.mask, w1.numBits)).1
        (Sse.slideWindow i (w1.mask, w1.numBits)).2) w1.toAddr c.repetitions).2
    (by rw [← c1.1]; omega) hmh2.1 (fun k hk => hmh2.2 i k hi hk)
  rw [HB.1] at eb
  have e1 := hashWithoutPasswordStep_eq env c start i w1 hnz.1 hs1 ra (by rw [hfrom]; exact ea)
  have e2 := hashWithoutPasswordStep_eq env c start i w2 hnz.1 hs2 rb
    (by rw [← hst, ← hmk, ← hnbits, ← htoe, hfrom]; exact eb)
  rw [e1, e2]
  have htoA : u64 (w1.toAddr + c.blocklen) = start + (i + 1) * c.blocklen := by
    unfold u64
    rw [hto, Nat.mod_eq_of_lt (by omega)]; ring
  refine ⟨⟨hsame, by rw [hmk, hnbits], by rw [hmk, hnbits], by rw [htoe], rfl, rfl, ?_,
    hmh2.of_sameCtl hca hcb, by rw [← hca.1, ← c1.1]; exact hcm⟩, htoA, hwin.1, hwin.2.1⟩
  intro a ha
  show ra.1.mem a = rb.1.mem a
  rw [hma, hmb]
  apply HB.2
  rcases ha with ha | ⟨ha1, ha2⟩
  · exact Or.inl ha
  · exact Or.inr ⟨hrep, by rw [hto]; exact ha1, by
      rw [hto]
      calc a < start + (i + 1) * c.blocklen := ha2
        _ = start + i * c.blocklen + c.blocklen := by ring⟩

theorem fill_agree (S : Nat → Prop) (start : Nat) (val : Nat → Nat) (a b : Mach)
    (h : ∀ x, S x → a.mem x = b.mem x) (n : Nat) :
    ∀ x, (S x ∨ (start ≤ x ∧ x < start + n)) →
      (forLoop n (fun i (m : Mach) => m.wr (start + i) (val i)) a).mem x
        = (forLoop n (fun i (m : Mach) => m.wr (start + i) (val i)) b).mem x := by
  induction n with
  | zero =>
    intro x hx
    rcases hx with hx | ⟨h1, h2⟩
    · exact h x hx
    · omega
  | succ n ih =>
    intro x hx
    show (if x = start + n then val n else
        (forLoop n (fun i (m : Mach) => m.wr (start + i) (val i)) a).mem x)
      = (if x = start + n then val n else
        (forLoop n (fun i (m : Mach) => m.wr (start + i) (val i)) b).mem x)
    by_cases hxe : x = start + n
    · simp only [hxe, if_true]
    · simp only [hxe, if_false]
      apply ih
      rcases hx with hx | ⟨h1, h2⟩
      · exact Or.inl hx
      · exact Or.inr ⟨h1, by omega⟩

theorem wsAgree_mono {nb : Nat} {S S1 : Nat → Prop} {w1 w2 : Sse.WS}
    (h : WSAgree nb S w1 w2) (hsub : ∀ a, S1 a → S a) : WSAgree nb S1 w1 w2 :=
  ⟨h.1, h.2.1, h.2.2.1, h.2.2.2.1, h.2.2.2.2.1, h.2.2.2.2.2.1,
    fun a ha => h.2.2.2.2.2.2.1 a (hsub a ha), h.2.2.2.2.2.2.2.1, h.2.2.2.2.2.2.2.2⟩

theorem hashWithoutPassword_agree (env : Env) (c : Sse.Common) (p : Nat) (S : Nat → Prop)
    (hv : c.Valid) (hp : p < c.parallelism) (a b : Mach)
    (hmem : ∀ x, S x → a.mem x = b.mem x) (hmh : MhAgree c.numblocks a b)
    (hcm : c.numblocks ≤ a.completedMultiplies) :
    (∀ x, (S x ∨ (2 * p * c.numblocks * c.blocklen ≤ x
          ∧ x < (2 * p + 1) * c.numblocks * c.blocklen)) →
        (Sse.hashWithoutPassword env c p a).1.mem x
          = (Sse.hashWithoutPassword env c p b).1.mem x)
      ∧ MhAgree c.numblocks (Sse.hashWithoutPassword env c p a).1
          (Sse.hashWithoutPassword env c p b).1 := by
  have hb := valid_bounds c hv
  have hv' := hv
  obtain ⟨⟨s8, ns, hs8, hns, hsub, hbl⟩, hblt, hrep, hnb1, hhs, hpar, hov⟩ := hv
  have hreg := region_bound c (2 * p) c.numblocks (by omega) (le_refl _)
  have h2p : u32 (2 * p) = 2 * p := by
    unfold u32
    apply Nat.mod_eq_of_lt
    have : 2 * p * 1 ≤ 2 * c.parallelism * c.numblocks :=
      Nat.mul_le_mul (by omega) hnb1
    omega
  have hstart : u64 (u32 (2 * p) * c.numblocks * c.blocklen)
      = 2 * p * c.numblocks * c.blocklen := by
    rw [h2p]; unfold u64
    apply Nat.mod_eq_of_lt
    have : 0 < c.numblocks * c.blocklen := Nat.mul_pos hnb1 hb.2.2.2
    omega
  have h4 : 4 ∣ 2 * p * c.numblocks * c.blocklen :=
    Dvd.dvd.mul_left ⟨2 * s8 * ns, by rw [hbl]; ring⟩ _
  have hbl1 : c.blocklen ≤ c.numblocks * c.blocklen := Nat.le_mul_of_pos_left _ hnb1
  have key := forLoop_rel_ind
    (fun k (w1 w2 : Sse.WS) =>
      WSAgree c.numblocks (fun x => S x ∨ (2 * p * c.numblocks * c.blocklen ≤ x
          ∧ x < 2 * p * c.numblocks * c.blocklen + (k + 1) * c.blocklen)) w1 w2
        ∧ w1.toAddr = 2 * p * c.numblocks * c.blocklen + (k + 1) * c.blocklen
        ∧ w1.mask = 2 ^ w1.numBits ∧ w1.mask ≤ k + 1)
    (fun k w => Sse.hashWithoutPasswordStep env c (2 * p * c.numblocks * c.blocklen) (k + 1) w)
    (fun k w => Sse.hashWithoutPasswordStep env c (2 * p * c.numblocks * c.blocklen) (k + 1) w)
    (c.numblocks - 1)
    (fun k w1 w2 hk hr => by
      obtain ⟨hag, hto, hmask, hmle⟩ := hr
      have step := hashWithoutPasswordStep_agree env c (2 * p * c.numblocks * c.blocklen)
        (k + 1) _ hv' h4 (by omega) (by omega) (by omega) w1 w2 hag hto hmask hmle
        (fun x hx1 hx2 => Or.inr ⟨hx1, hx2⟩)
      refine ⟨wsAgree_mono step.1 ?_, step.2.1, step.2.2.1, Nat.le_succ_of_le step.2.2.2⟩
      intro x hx
      rcases hx with hx | ⟨hx1, hx2⟩
      · exact Or.inl (Or.inl hx)
      · by_cases hc : x < 2 * p * c.numblocks * c.blocklen + (k + 1) * c.blocklen
        · exact Or.inl (Or.inr ⟨hx1, hc⟩)
        · exact Or.inr ⟨by omega, hx2⟩)
    { m := forLoop c.blocklen (fun i (x : Mach) =>
        x.wr (2 * p * c.numblocks * c.blocklen + i)
          (be32dec_vect (env.hashOut (c.blocklen * 4) (c.hash.take c.hashSize) (be32enc p)) i)) a,
      state := [1, 1, 1, 1, 1, 1, 1, 1], mask := 1, numBits := 0,
      toAddr := u64 (2 * p * c.numblocks * c.blocklen + c.blocklen), stuck := false }
    { m := forLoop c.blocklen (fun i (x : Mach) =>
        x.wr (2 * p * c.numblocks * c.blocklen + i)
          (be32dec_vect (env.hashOut (c.blocklen * 4) (c.hash.take c.hashSize) (be32enc p)) i)) b,
      state := [1, 1, 1, 1, 1, 1, 1, 1], mask := 1, numBits := 0,
      toAddr := u64 (2 * p * c.numblocks * c.blocklen + c.blocklen), stuck := false }
    ⟨⟨rfl, rfl, rfl, rfl, rfl, rfl, fun x hx => fill_agree S _ _ a b hmem c.blocklen x (by
          rcases hx with hx | ⟨hx1, hx2⟩
          · exact Or.inl hx
          · exact Or.inr ⟨hx1, by omega⟩),
        hmh.of_sameCtl (sameCtl_fill _ _ _ a) (sameCtl_fill _ _ _ b),
        by rw [← (sameCtl_fill _ _ _ a).1]; exact hcm⟩,
      by unfold u64; rw [Nat.mod_eq_of_lt (by omega)]; ring, rfl, le_refl 1⟩
  unfold Sse.hashWithoutPassword
  simp only [hstart]
  obtain ⟨hag, _, _, _⟩ := key
  obtain ⟨_, _, _, _, _, _, hm, hmhf, _⟩ := hag
  refine ⟨fun x hx => hm x ?_, hmhf⟩
  rcases hx with hx | ⟨hx1, hx2⟩
  · exact Or.inl hx
  · refine Or.inr ⟨hx1, ?_⟩
    have : c.numblocks - 1 + 1 = c.numblocks := by omega
    rw [this]
    calc x < (2 * p + 1) * c.numblocks * c.blocklen := hx2
      _ = 2 * p * c.numblocks * c.blocklen + c.numblocks * c.blocklen := by ring

/-! ## The unpredictable pass on two memories -/

theorem distance_le (i nb v3 : Nat) (h1 : 1 ≤ nb) (h2 : i + nb ≤ 2 ^ 32) (hv3 : v3 < 2 ^ 32) :
    u32 (u64 (u32 (i + nb + 2 ^ 32 - 1) * v3) >>> 32) ≤ i + nb - 1 := by
  have hX : u32 (i + nb + 2 ^ 32 - 1) = i + nb - 1 := by
    unfold u32
    have : i + nb + 2 ^ 32 - 1 = (i + nb - 1) + 2 ^ 32 := by omega
    rw [this, Nat.add_mod_right]
    exact Nat.mod_eq_of_lt (by omega)
  rw [hX]
  have hprod : (i + nb - 1) * v3 < 2 ^ 64 := by
    calc (i + nb - 1) * v3 ≤ (i + nb - 1) * 2 ^ 32 := Nat.mul_le_mul_left _ (le_of_lt hv3)
      _ < 2 ^ 32 * 2 ^ 32 := Nat.mul_lt_mul_of_pos_right (by omega) (by norm_num)
      _ = 2 ^ 64 := by norm_num
  have hu : u64 ((i + nb - 1) * v3) = (i + nb - 1) * v3 := by
    unfold u64; exact Nat.mod_eq_of_lt hprod
  rw [hu, Nat.shiftRight_eq_div_pow]
  have hd : (i + nb - 1) * v3 / 2 ^ 32 ≤ i + nb - 1 := by
    apply Nat.div_le_of_le_mul
    calc (i + nb - 1) * v3 ≤ (i + nb - 1) * 2 ^ 32 := Nat.mul_le_mul_left _ (le_of_lt hv3)
      _ = 2 ^ 32 * (i + nb - 1) := by ring
  unfold u32
  rw [Nat.mod_eq_of_lt (by omega)]
  exact hd

theorem v3_lt (v : Nat) : u64 (v * (u64 (v * v) >>> 32)) >>> 32 < 2 ^ 32 := by
  rw [Nat.shiftRight_eq_div_pow]
  apply Nat.div_lt_of_lt_mul
  have : u64 (v * (u64 (v * v) >>> 32)) < 2 ^ 64 := Nat.mod_lt _ (by norm_num)
  calc u64 (v * (u64 (v * v) >>> 32)) < 2 ^ 64 := this
    _ = 2 ^ 32 * 2 ^ 32 := by norm_num

theorem fromAddrWithPassword_range (c : Sse.Common) (p i v : Nat) (hv : c.Valid)
    (hp : p < c.parallelism) (hi : i < c.numblocks) :
    4 ∣ Sse.fromAddrWithPassword c p ((2 * p + 1) * c.numblocks * c.blocklen) i v
      ∧ ∀ a, Sse.fromAddrWithPassword c p ((2 * p + 1) * c.numblocks * c.blocklen) i v ≤ a →
          a < Sse.fromAddrWithPassword c p ((2 * p + 1) * c.numblocks * c.blocklen) i v
                + c.blocklen →
          (InFirstHalf c a ∨ ((2 * p + 1) * c.numblocks * c.blocklen ≤ a
              ∧ a < (2 * p + 1) * c.numblocks * c.blocklen + i * c.blocklen)) := by
  have hb := valid_bounds c hv
  obtain ⟨⟨s8, ns, hs8, hns, hsub, hbl⟩, hblt, hrep, hnb1, hhs, hpar, hov⟩ := hv
  have h4bl : 4 ∣ c.blocklen := ⟨2 * s8 * ns, by rw [hbl]; ring⟩
  have hD := distance_le i c.numblocks (u64 (v * (u64 (v * v) >>> 32)) >>> 32) hnb1
    (by omega) (v3_lt v)
  have hreg := region_bound c (2 * p + 1) c.numblocks (by omega) (le_refl _)
  unfold Sse.fromAddrWithPassword
  simp only
  by_cases hc : u32 (u64 (u32 (i + c.numblocks + 2 ^ 32 - 1)
      * (u64 (v * (u64 (v * v) >>> 32)) >>> 32)) >>> 32) < i
  · rw [if_pos hc]
    have hj : u32 (i - 1 - u32 (u64 (u32 (i + c.numblocks + 2 ^ 32 - 1)
        * (u64 (v * (u64 (v * v) >>> 32)) >>> 32)) >>> 32))
        = i - 1 - u32 (u64 (u32 (i + c.numblocks + 2 ^ 32 - 1)
        * (u64 (v * (u64 (v * v) >>> 32)) >>> 32)) >>> 32) := by
      unfold u32; exact Nat.mod_eq_of_lt (by omega)
    rw [hj]
    generalize u32 (u64 (u32 (i + c.numblocks + 2 ^ 32 - 1)
        * (u64 (v * (u64 (v * v) >>> 32)) >>> 32)) >>> 32) = D at hc hD ⊢
    have hjb : (i - 1 - D) * c.blocklen + c.blocklen ≤ i * c.blocklen := by
      calc (i - 1 - D) * c.blocklen + c.blocklen = (i - 1 - D + 1) * c.blocklen := by ring
        _ ≤ i * c.blocklen := Nat.mul_le_mul_right _ (by omega)
    have hib : i * c.blocklen ≤ c.numblocks * c.blocklen :=
      Nat.mul_le_mul_right _ (le_of_lt hi)
    have hreg2 : (2 * p + 1) * c.numblocks * c.blocklen + c.numblocks * c.blocklen
        ≤ 2 * c.parallelism * c.numblocks * c.blocklen := hreg
    have e : u64 ((2 * p + 1) * c.numblocks * c.blocklen + u64 ((i - 1 - D) * c.blocklen))
        = (2 * p + 1) * c.numblocks * c.blocklen + (i - 1 - D) * c.blocklen := by
      unfold u64
      rw [Nat.mod_eq_of_lt (a := (i - 1 - D) * c.blocklen) (by omega)]
      exact Nat.mod_eq_of_lt (by omega)
    rw [e]
    refine ⟨Dvd.dvd.add (Dvd.dvd.mul_left h4bl _) (Dvd.dvd.mul_left h4bl _), ?_⟩
    intro a ha1 ha2
    exact Or.inr ⟨by omega, by omega⟩
  · rw [if_neg hc]
    generalize u32 (u64 (u32 (i + c.numblocks + 2 ^ 32 - 1)
        * (u64 (v * (u64 (v * v) >>> 32)) >>> 32)) >>> 32) = D at hc hD ⊢
    have hq : u32 (p + i) % c.parallelism < c.parallelism := Nat.mod_lt _ (by omega)
    generalize u32 (p + i) % c.parallelism = q at hq ⊢
    have hbv : u32 (c.numblocks + 2 ^ 33 - 1 - (D - i)) = c.numblocks - 1 - (D - i) := by
      unfold u32
      have : c.numblocks + 2 ^ 33 - 1 - (D - i)
          = (c.numblocks - 1 - (D - i)) + 2 ^ 32 * 2 := by omega
      rw [this, Nat.add_mul_mod_self_left]
      exact Nat.mod_eq_of_lt (by omega)
    rw [hbv]
    have hqn : 2 * c.numblocks * q + c.numblocks ≤ 2 * c.parallelism * c.numblocks := by
      calc 2 * c.numblocks * q + c.numblocks = (2 * q + 1) * c.numblocks := by ring
        _ ≤ (2 * c.parallelism) * c.numblocks := Nat.mul_le_mul_right _ (by omega)
    have h2nq : u32 (2 * c.numblocks * q) = 2 * c.numblocks * q := by
      unfold u32; exact Nat.mod_eq_of_lt (by omega)
    rw [h2nq]
    have hsum : u32 (2 * c.numblocks * q + (c.numblocks - 1 - (D - i)))
        = 2 * c.numblocks * q + (c.numblocks - 1 - (D - i)) := by
      unfold u32; exact Nat.mod_eq_of_lt (by omega)
    rw [hsum]
    have hle : (2 * c.numblocks * q + (c.numblocks - 1 - (D - i))) * c.blocklen + c.blocklen
        ≤ (2 * q + 1) * c.numblocks * c.blocklen := by
      calc (2 * c.numblocks * q + (c.numblocks - 1 - (D - i))) * c.blocklen + c.blocklen
          = (2 * c.numblocks * q + (c.numblocks - 1 - (D - i)) + 1) * c.blocklen := by ring
        _ ≤ ((2 * q + 1) * c.numblocks) * c.blocklen :=
            Nat.mul_le_mul_right _ (by
              have : (2 * q + 1) * c.numblocks = 2 * c.numblocks * q + c.numblocks := by ring
              omega)
    have hreg3 : (2 * q + 1) * c.numblocks * c.blocklen
        ≤ 2 * c.parallelism * c.numblocks * c.blocklen :=
      Nat.mul_le_mul_right _ (Nat.mul_le_mul_right _ (by omega))
    have e : u64 ((2 * c.numblocks * q + (c.numblocks - 1 - (D - i))) * c.blocklen)
        = (2 * c.numblocks * q + (c.numblocks - 1 - (D - i))) * c.blocklen := by
      unfold u64; exact Nat.mod_eq_of_lt (by omega)
    rw [e]
    refine ⟨Dvd.dvd.mul_left h4bl _, ?_⟩
    intro a ha1 ha2
    left
    refine ⟨q, hq, ?_, by omega⟩
    calc 2 * q * c.numblocks * c.blocklen = (2 * c.numblocks * q) * c.blocklen := by ring
      _ ≤ (2 * c.numblocks * q + (c.numblocks - 1 - (D - i))) * c.blocklen :=
          Nat.mul_le_mul_right _ (by omega)
      _ ≤ a := ha1

theorem hashWithPasswordStep_eq (env : Env) (c : Sse.Common) (p start i : Nat) (w : Sse.PS)
    (hsb : c.subBlocklen ≠ 0)
    (hs : w.stuck = false) (r : Mach × List Nat)
    (hr : Sse.hashMultItoState env i
      (Sse.hashBlocks w.m w.state c.blocklen c.subBlocklen
        (Sse.fromAddrWithPassword c p start i (w.state.getD 0 0)) w.toAddr c.repetitions).1
      (Sse.hashBlocks w.m w.state c.blocklen c.subBlocklen
        (Sse.fromAddrWithPassword c p start i (w.state.getD 0 0)) w.toAddr c.repetitions).2
      = some r) :
    Sse.hashWithPasswordStep env c p start i w
      = { m := r.1, state := r.2, toAddr := u64 (w.toAddr + c.blocklen), stuck := false } := by
  unfold Sse.hashWithPasswordStep
  simp only [hs, hsb, Bool.false_eq_true, if_false]
  rw [hr]

theorem psAgree_mono {nb : Nat} {S S1 : Nat → Prop} {w1 w2 : Sse.PS}
    (h : PSAgree nb S w1 w2) (hsub : ∀ a, S1 a → S a) : PSAgree nb S1 w1 w2 :=
  ⟨h.1, h.2.1, h.2.2.1, h.2.2.2.1, fun a ha => h.2.2.2.2.1 a (hsub a ha), h.2.2.2.2.2.1,
    h.2.2.2.2.2.2⟩

theorem hashWithPasswordStep_agree (env : Env) (c : Sse.Common) (p i : Nat)
    (S : Nat → Prop) (hv : c.Valid) (hp : p < c.parallelism) (hi : i < c.numblocks)
    (w1 w2 : Sse.PS) (h : PSAgree c.numblocks S w1 w2)
    (hto : w1.toAddr = (2 * p + 1) * c.numblocks * c.blocklen + i * c.blocklen)
    (hSF : ∀ a, InFirstHalf c a → S a)
    (hSO : ∀ a, (2 * p + 1) * c.numblocks * c.blocklen ≤ a →
      a < (2 * p + 1) * c.numblocks * c.blocklen + i * c.blocklen → S a) :
    PSAgree c.numblocks
        (fun a => S a ∨ ((2 * p + 1) * c.numblocks * c.blocklen + i * c.blocklen ≤ a
          ∧ a < (2 * p + 1) * c.numblocks * c.blocklen + (i + 1) * c.blocklen))
        (Sse.hashWithPasswordStep env c p ((2 * p + 1) * c.numblocks * c.blocklen) i w1)
        (Sse.hashWithPasswordStep env c p ((2 * p + 1) * c.numblocks * c.blocklen) i w2)
      ∧ (Sse.hashWithPasswordStep env c p ((2 * p + 1) * c.numblocks * c.blocklen) i w1).toAddr
          = (2 * p + 1) * c.numblocks * c.blocklen + (i + 1) * c.blocklen := by
  obtain ⟨hst, htoe, hs1, hs2, hmem, hmh, hcm⟩ := h
  have hnz := valid_nonzero c hv
  have hb := valid_bounds c hv
  have hrange := fromAddrWithPassword_range c p i (w1.state.getD 0 0) hv hp hi
  obtain ⟨⟨s8, ns, hs8, hns, hsub, hbl⟩, hblt, hrep, hnb1, hhs, hpar, hov⟩ := hv
  have h4bl : 4 ∣ c.blocklen := ⟨2 * s8 * ns, by rw [hbl]; ring⟩
  have hreg := region_bound c (2 * p + 1) c.numblocks (by omega) (le_refl _)
  have hmul2 : i * c.blocklen + c.blocklen ≤ c.numblocks * c.blocklen := by
    calc i * c.blocklen + c.blocklen = (i + 1) * c.blocklen := by ring
      _ ≤ c.numblocks * c.blocklen := Nat.mul_le_mul_right _ hi
  have hbl1 : c.blocklen ≤ c.numblocks * c.blocklen := Nat.le_mul_of_pos_left _ hnb1
  have hsplit : (2 * p + 1) * c.numblocks * c.blocklen
      = 2 * p * c.numblocks * c.blocklen + c.numblocks * c.blocklen := by ring
  have HB := hashBlocks_agree S w1.m w2.m w1.state c.blocklen c.subBlocklen
    (Sse.fromAddrWithPassword c p ((2 * p + 1) * c.numblocks * c.blocklen) i
      (w1.state.getD 0 0))
    w1.toAddr c.repetitions s8 ns hsub hbl hs8 hns hblt hrange.1
    (by rw [hto]; exact Dvd.dvd.add (Dvd.dvd.mul_left h4bl _) (Dvd.dvd.mul_left h4bl _))
    (by rw [hto]; omega) (by rw [hto]; omega)
    (fun a ha1 ha2 => by
      rw [hto] at ha1 ha2
      by_cases hlow : a < (2 * p + 1) * c.numblocks * c.blocklen
      · exact hSF a ⟨p, hp, by omega, hlow⟩
      · exact hSO a (by omega) ha2)
    (fun a ha1 ha2 => by
      rcases hrange.2 a ha1 ha2 with hf | ⟨ho1, ho2⟩
      · exact hSF a hf
      · exact hSO a ho1 ho2)
    hmem
  have c1 := sameCtl_hashBlocks w1.m w1.state c.blocklen c.subBlocklen
    (Sse.fromAddrWithPassword c p ((2 * p + 1) * c.numblocks * c.blocklen) i
      (w1.state.getD 0 0)) w1.toAddr c.repetitions
  have c2 := sameCtl_hashBlocks w2.m w1.state c.blocklen c.subBlocklen
    (Sse.fromAddrWithPassword c p ((2 * p + 1) * c.numblocks * c.blocklen) i
      (w1.state.getD 0 0)) w1.toAddr c.repetitions
  have hmh2 := hmh.of_sameCtl c1 c2
  obtain ⟨ra, rb, ea, eb, hsame, hma, hmb, hca, hcb⟩ := hashMultItoState_agree env i _ _
    (Sse.hashBlocks w1.m w1.state c.blocklen c.subBlocklen
      (Sse.fromAddrWithPassword c p ((2 * p + 1) * c.numblocks * c.blocklen) i
        (w1.state.getD 0 0)) w1.toAddr c.repetitions).2
    (by rw [← c1.1]; omega) hmh2.1 (fun k hk => hmh2.2 i k hi hk)
  rw [HB.1] at eb
  have e1 := hashWithPasswordStep_eq env c p _ i w1 hnz.2 hs1 ra ea
  have e2 := hashWithPasswordStep_eq env c p _ i w2 hnz.2 hs2 rb
    (by rw [← hst, ← htoe]; exact eb)
  rw [e1, e2]
  have htoA : u64 (w1.toAddr + c.blocklen)
      = (2 * p + 1) * c.numblocks * c.blocklen + (i + 1) * c.blocklen := by
    unfold u64
    rw [hto, Nat.mod_eq_of_lt (by omega)]; ring
  refine ⟨⟨hsame, by rw [htoe], rfl, rfl, ?_, hmh2.of_sameCtl hca hcb,
    by rw [← hca.1, ← c1.1]; exact hcm⟩, htoA⟩
  intro a ha
  show ra.1.mem a = rb.1.mem a
  rw [hma, hmb]
  apply HB.2
  rcases ha with ha | ⟨ha1, ha2⟩
  · exact Or.inl ha
  · exact Or.inr ⟨hrep, by rw [hto]; exact ha1, by
      rw [hto]
      calc a < (2 * p + 1) * c.numblocks * c.blocklen + (i + 1) * c.blocklen := ha2
        _ = (2 * p + 1) * c.numblocks * c.blocklen + i * c.blocklen + c.blocklen := by ring⟩

theorem hashWithPassword_agree (env : Env) (c : Sse.Common) (p : Nat) (S : Nat → Prop)
    (hv : c.Valid) (hp : p < c.parallelism) (a b : Mach)
    (hSF : ∀ x, InFirstHalf c x → S x)
    (hmem : ∀ x, S x → a.mem x = b.mem x) (hmh : MhAgree c.numblocks a b)
    (hcm : c.numblocks ≤ a.completedMultiplies) :
    (∀ x, (S x ∨ ((2 * p + 1) * c.numblocks * c.blocklen ≤ x
          ∧ x < (2 * p + 2) * c.numblocks * c.blocklen)) →
        (Sse.hashWithPassword env c p a).1.mem x
          = (Sse.hashWithPassword env c p b).1.mem x)
      ∧ MhAgree c.numblocks (Sse.hashWithPassword env c p a).1
          (Sse.hashWithPassword env c p b).1 := by
  have hb := valid_bounds c hv
  have hv' := hv
  obtain ⟨⟨s8, ns, hs8, hns, hsub, hbl⟩, hblt, hrep, hnb1, hhs, hpar, hov⟩ := hv
  have hreg := region_bound c (2 * p + 1) c.numblocks (by omega) (le_refl _)
  have h2p : u32 (2 * p + 1) = 2 * p + 1 := by
    unfold u32
    apply Nat.mod_eq_of_lt
    have : (2 * p + 1) * 1 ≤ 2 * c.parallelism * c.numblocks :=
      Nat.mul_le_mul (by omega) hnb1
    omega
  have hstart : u64 (u32 (2 * p + 1) * c.numblocks * c.blocklen)
      = (2 * p + 1) * c.numblocks * c.blocklen := by
    rw [h2p]; unfold u64
    apply Nat.mod_eq_of_lt
    have : 0 < c.numblocks * c.blocklen := Nat.mul_pos hnb1 hb.2.2.2
    omega
  have key := forLoop_rel_ind
    (fun k (w1 w2 : Sse.PS) =>
      PSAgree c.numblocks (fun x => S x ∨ ((2 * p + 1) * c.numblocks * c.blocklen ≤ x
          ∧ x < (2 * p + 1) * c.numblocks * c.blocklen + k * c.blocklen)) w1 w2
        ∧ w1.toAddr = (2 * p + 1) * c.numblocks * c.blocklen + k * c.blocklen)
    (fun i w => Sse.hashWithPasswordStep env c p ((2 * p + 1) * c.numblocks * c.blocklen) i w)
    (fun i w => Sse.hashWithPasswordStep env c p ((2 * p + 1) * c.numblocks * c.blocklen) i w)
    c.numblocks
    (fun k w1 w2 hk hr => by
      obtain ⟨hag, hto⟩ := hr
      have step := hashWithPasswordStep_agree env c p k _ hv' hp hk w1 w2 hag hto
        (fun x hx => Or.inl (hSF x hx)) (fun x hx1 hx2 => Or.inr ⟨hx1, hx2⟩)
      refine ⟨psAgree_mono step.1 ?_, step.2⟩
      intro x hx
      rcases hx with hx | ⟨hx1, hx2⟩
      · exact Or.inl (Or.inl hx)
      · by_cases hc : x < (2 * p + 1) * c.numblocks * c.blocklen + k * c.blocklen
        · exact Or.inl (Or.inr ⟨hx1, hc⟩)
        · exact Or.inr ⟨by omega, hx2⟩)
    { m := a, state := [1, 1, 1, 1, 1, 1, 1, 1],
      toAddr := (2 * p + 1) * c.numblocks * c.blocklen, stuck := false }
    { m := b, state := [1, 1, 1, 1, 1, 1, 1, 1],
      toAddr := (2 * p + 1) * c.numblocks * c.blocklen, stuck := false }
    ⟨⟨rfl, rfl, rfl, rfl, fun x hx => hmem x (by
          rcases hx with hx | ⟨hx1, hx2⟩
          · exact hx
          · omega), hmh, hcm⟩, by simp⟩
  unfold Sse.hashWithPassword
  simp only [hstart]
  obtain ⟨hag, _⟩ := key
  obtain ⟨_, _, _, _, hm, hmhf, _⟩ := hag
  refine ⟨fun x hx => hm x ?_, hmhf⟩
  rcases hx with hx | ⟨hx1, hx2⟩
  · exact Or.inl hx
  · refine Or.inr ⟨hx1, ?_⟩
    calc x < (2 * p + 2) * c.numblocks * c.blocklen := hx2
      _ = (2 * p + 1) * c.numblocks * c.blocklen + c.numblocks * c.blocklen := by ring

/-! ## The pacer on two machines -/

theorem multHashStep_agree (env : Env) (c : Sse.Common) (k : Nat) (x y : Mach × List Nat)
    (hst : x.2 = y.2) (hx : x.1.completedMultiplies = k) (hy : y.1.completedMultiplies = k)
    (hag : ∀ i j, i < k → j < 8 →
      x.1.multHashes (u32 (i * 8 + j)) = y.1.multHashes (u32 (i * 8 + j))) :
    (Sse.multHashStep env c x).2 = (Sse.multHashStep env c y).2
      ∧ ∀ i j, i < k + 1 → j < 8 →
          (Sse.multHashStep env c x).1.multHashes (u32 (i * 8 + j))
            = (Sse.multHashStep env c y).1.multHashes (u32 (i * 8 + j)) := by
  have key := forLoop_rel_ind
    (fun n (a b : Mach) => a.completedMultiplies = k ∧ b.completedMultiplies = k
      ∧ ∀ z, ((∃ i j, i < k ∧ j < 8 ∧ z = u32 (i * 8 + j)) ∨ (∃ j, j < n ∧ z = u32 (8 * k + j)))
          → a.multHashes z = b.multHashes z)
    (fun j (m : Mach) => m.wrH (u32 (8 * m.completedMultiplies + j))
      ((Sse.hashState env (forLoop (Sse.multRounds c) (fun _ s => Sse.multRound s) x.2)).getD
        j 0))
    (fun j (m : Mach) => m.wrH (u32 (8 * m.completedMultiplies + j))
      ((Sse.hashState env (forLoop (Sse.multRounds c) (fun _ s => Sse.multRound s) x.2)).getD
        j 0))
    8
    (fun n a b hn hr => by
      obtain ⟨ha, hb, hz⟩ := hr
      refine ⟨ha, hb, fun z hzz => ?_⟩
      show (if z = u32 (8 * a.completedMultiplies + n) then _ else a.multHashes z)
        = (if z = u32 (8 * b.completedMultiplies + n) then _ else b.multHashes z)
      rw [ha, hb]
      by_cases he : z = u32 (8 * k + n)
      · simp only [he, if_true]
      · simp only [he, if_false]
        apply hz
        rcases hzz with h1 | ⟨j, hj, hzj⟩
        · exact Or.inl h1
        · refine Or.inr ⟨j, ?_, hzj⟩
          by_contra hcon
          have : j = n := by omega
          subst this
          exact he hzj)
    x.1 y.1 ⟨hx, hy, fun z hz => by
      rcases hz with ⟨i, j, hi, hj, rfl⟩ | ⟨j, hj, _⟩
      · exact hag i j hi hj
      · omega⟩
  unfold Sse.multHashStep
  rw [← hst]
  refine ⟨rfl, fun i j hi hj => ?_⟩
  apply key.2.2
  by_cases hik : i < k
  · exact Or.inl ⟨i, j, hik, hj, rfl⟩
  · have : i = k := by omega
    subst this
    exact Or.inr ⟨j, hj, by rw [Nat.mul_comm]⟩

theorem multHash_agree (env : Env) (c : Sse.Common) (a b : Mach)
    (ha : a.completedMultiplies = 0) (hb : b.completedMultiplies = 0) :
    ∀ i j, i < u32 (c.numblocks * 2) → j < 8 →
      (Sse.multHash env c a).multHashes (u32 (i * 8 + j))
        = (Sse.multHash env c b).multHashes (u32 (i * 8 + j)) := by
  have hlt : u32 (c.numblocks * 2) < 2 ^ 32 := Nat.mod_lt _ (by norm_num)
  have key := forLoop_rel_ind
    (fun k (x y : Mach × List Nat) => x.2 = y.2 ∧ x.1.completedMultiplies = k
      ∧ y.1.completedMultiplies = k
      ∧ ∀ i j, i < k → j < 8 →
          x.1.multHashes (u32 (i * 8 + j)) = y.1.multHashes (u32 (i * 8 + j)))
    (fun _ ms => Sse.multHashStep env c ms) (fun _ ms => Sse.multHashStep env c ms)
    (u32 (c.numblocks * 2))
    (fun k x y hk hr => by
      obtain ⟨h1, h2, h3, h4⟩ := hr
      have step := multHashStep_agree env c k x y h1 h2 h3 h4
      have fx := multHashStep_frame env c x
      have fy := multHashStep_frame env c y
      refine ⟨step.1, ?_, ?_, step.2⟩
      · rw [fx.2.2, h2]; unfold u32; exact Nat.mod_eq_of_lt (by omega)
      · rw [fy.2.2, h3]; unfold u32; exact Nat.mod_eq_of_lt (by omega))
    (a, (List.range 8).map (be32dec_vect
      (env.hashOut 32 (c.hash.take c.hashSize) (be32enc (u32 c.parallelism)))))
    (b, (List.range 8).map (be32dec_vect
      (env.hashOut 32 (c.hash.take c.hashSize) (be32enc (u32 c.parallelism)))))
    ⟨rfl, ha, hb, fun i j hi => by omega⟩
  unfold Sse.multHash
  exact key.2.2.2

/-! ## `combineHashes` on two memories that agree on the tails -/

theorem be32enc_vect_congr (f g : Nat → Nat) (len : Nat)
    (h : ∀ i, i < len / 4 → f i = g i) : be32enc_vect f len = be32enc_vect g len := by
  unfold be32enc_vect
  apply List.map_congr_left
  intro j hj
  have hj2 : j < 4 * (len / 4) := List.mem_range.1 hj
  rw [h (j / 4) (by omega)]

theorem combinePos_eq (c : Sse.Common) (hv : c.Valid) (p : Nat) (hp : p < c.parallelism) :
    Sse.combinePos c.hashSize c.blocklen c.numblocks p + c.hashSize / 4
        = (2 * p + 2) * c.numblocks * c.blocklen
      ∧ (2 * p + 1) * c.numblocks * c.blocklen
        ≤ Sse.combinePos c.hashSize c.blocklen c.numblocks p := by
  have hb := valid_bounds c hv
  obtain ⟨⟨s8, ns, hs8, hns, hsub, hbl⟩, hblt, hrep, hnb1, hhs, hpar, hov⟩ := hv
  have hreg := region_bound c (2 * p + 1) c.numblocks (by omega) (le_refl _)
  have hbl1 : c.blocklen ≤ c.numblocks * c.blocklen := Nat.le_mul_of_pos_left _ hnb1
  have hle : 2 * (p + 1) * c.numblocks ≤ 2 * c.parallelism * c.numblocks :=
    Nat.mul_le_mul_right _ (by omega)
  have hlt32 : 2 * (p + 1) * c.numblocks < 2 ^ 32 := by
    rcases Nat.lt_or_ge (2 * (p + 1) * c.numblocks) (2 ^ 32) with h | h
    · exact h
    · omega
  unfold Sse.combinePos
  have hu : u32 (2 * (p + 1) * c.numblocks) = 2 * (p + 1) * c.numblocks := by
    unfold u32; exact Nat.mod_eq_of_lt hlt32
  rw [hu]
  have hsplit : 2 * (p + 1) * c.numblocks * c.blocklen
      = (2 * p + 1) * c.numblocks * c.blocklen + c.numblocks * c.blocklen := by ring
  have hsplit2 : (2 * p + 2) * c.numblocks * c.blocklen
      = (2 * p + 1) * c.numblocks * c.blocklen + c.numblocks * c.blocklen := by ring
  have e : u64 (2 * (p + 1) * c.numblocks * c.blocklen + 2 ^ 64 - c.hashSize / 4)
      = 2 * (p + 1) * c.numblocks * c.blocklen - c.hashSize / 4 := by
    unfold u64
    have : 2 * (p + 1) * c.numblocks * c.blocklen + 2 ^ 64 - c.hashSize / 4
        = (2 * (p + 1) * c.numblocks * c.blocklen - c.hashSize / 4) + 2 ^ 64 := by omega
    rw [this, Nat.add_mod_right]
    exact Nat.mod_eq_of_lt (by omega)
  rw [e]
  constructor
  · omega
  · omega

theorem combineHashes_agree (env : Env) (c : Sse.Common) (hv : c.Valid) (hash : List Nat)
    (a b : Mach)
    (hmem : ∀ x p, p < c.parallelism → (2 * p + 1) * c.numblocks * c.blocklen ≤ x →
      x < (2 * p + 2) * c.numblocks * c.blocklen → a.mem x = b.mem x) :
    (Sse.combineHashes env hash c.hashSize a c.blocklen c.numblocks c.parallelism).2
      = (Sse.combineHashes env hash c.hashSize b c.blocklen c.numblocks c.parallelism).2 := by
  have key := forLoop_rel_ind
    (fun _ (x y : Mach × List Nat) => x.2 = y.2 ∧ x.1.mem = a.mem ∧ y.1.mem = b.mem)
    (fun p mh => Sse.combineStep env c.hashSize c.blocklen c.numblocks p mh)
    (fun p mh => Sse.combineStep env c.hashSize c.blocklen c.numblocks p mh)
    c.parallelism
    (fun p x y hp hr => by
      obtain ⟨h1, h2, h3⟩ := hr
      have hpos := combinePos_eq c hv p hp
      have henc : be32enc_vect (fun i => x.1.mem
            (Sse.combinePos c.hashSize c.blocklen c.numblocks p + i)) c.hashSize
          = be32enc_vect (fun i => y.1.mem
            (Sse.combinePos c.hashSize c.blocklen c.numblocks p + i)) c.hashSize := by
        apply be32enc_vect_congr
        intro i hi
        rw [h2, h3]
        exact hmem _ p hp (by omega) (by omega)
      refine ⟨?_, (readWords_frame x.1 _ _).1.trans h2, (readWords_frame y.1 _ _).1.trans h3⟩
      unfold Sse.combineStep
      simp only [henc, h1])
    (a, hash) (b, hash) ⟨rfl, rfl, rfl⟩
  unfold Sse.combineHashes
  simp only [key.1]

/-! ## One garlic level does not depend on the initial memory -/

theorem runResistant_agree (env : Env) (c : Sse.Common) (hv : c.Valid) (a b : Mach)
    (hmh : MhAgree c.numblocks a b) (hcm : c.numblocks ≤ a.completedMultiplies) :
    (∀ x, InFirstHalf c x →
        (Sse.runWorkers (Sse.hashWithoutPassword env c) c.parallelism a).1.mem x
          = (Sse.runWorkers (Sse.hashWithoutPassword env c) c.parallelism b).1.mem x)
      ∧ MhAgree c.numblocks (Sse.runWorkers (Sse.hashWithoutPassword env c) c.parallelism a).1
          (Sse.runWorkers (Sse.hashWithoutPassword env c) c.parallelism b).1
      ∧ c.numblocks
          ≤ (Sse.runWorkers (Sse.hashWithoutPassword env c) c.parallelism a).1.completedMultiplies
      := by
  have key := forLoop_rel_ind
    (fun k (x y : Mach × Bool) =>
      (∀ z, (∃ q, q < k ∧ 2 * q * c.numblocks * c.blocklen ≤ z
            ∧ z < (2 * q + 1) * c.numblocks * c.blocklen) → x.1.mem z = y.1.mem z)
        ∧ MhAgree c.numblocks x.1 y.1 ∧ c.numblocks ≤ x.1.completedMultiplies)
    (fun p (x : Mach × Bool) => ((Sse.hashWithoutPassword env c p x.1).1,
      x.2 || (Sse.hashWithoutPassword env c p x.1).2))
    (fun p (x : Mach × Bool) => ((Sse.hashWithoutPassword env c p x.1).1,
      x.2 || (Sse.hashWithoutPassword env c p x.1).2))
    c.parallelism
    (fun k x y hk hr => by
      obtain ⟨h1, h2, h3⟩ := hr
      have step := hashWithoutPassword_agree env c k _ hv hk x.1 y.1 h1 h2 h3
      refine ⟨fun z hz => step.1 z ?_, step.2, ?_⟩
      · obtain ⟨q, hq, hz1, hz2⟩ := hz
        by_cases hqk : q < k
        · exact Or.inl ⟨q, hqk, hz1, hz2⟩
        · have : q = k := by omega
          subst this
          exact Or.inr ⟨hz1, hz2⟩
      · show c.numblocks ≤ (Sse.hashWithoutPassword env c k x.1).1.completedMultiplies
        rw [← (hashWithoutPassword_ctl env c k x.1).1]; exact h3)
    (a, false) (b, false) ⟨fun z hz => by obtain ⟨q, hq, _⟩ := hz; omega, hmh, hcm⟩
  unfold Sse.runWorkers
  exact ⟨fun x hx => key.1 x hx, key.2.1, key.2.2⟩

theorem runUnpredictable_agree (env : Env) (c : Sse.Common) (hv : c.Valid) (a b : Mach)
    (hF : ∀ x, InFirstHalf c x → a.mem x = b.mem x)
    (hmh : MhAgree c.numblocks a b) (hcm : c.numblocks ≤ a.completedMultiplies) :
    ∀ x p, p < c.parallelism → (2 * p + 1) * c.numblocks * c.blocklen ≤ x →
      x < (2 * p + 2) * c.numblocks * c.blocklen →
      (Sse.runWorkers (Sse.hashWithPassword env c) c.parallelism a).1.mem x
        = (Sse.runWorkers (Sse.hashWithPassword env c) c.parallelism b).1.mem x := by
  have key := forLoop_rel_ind
    (fun k (x y : Mach × Bool) =>
      (∀ z, (InFirstHalf c z ∨ (∃ q, q < k ∧ (2 * q + 1) * c.numblocks * c.blocklen ≤ z
            ∧ z < (2 * q + 2) * c.numblocks * c.blocklen)) → x.1.mem z = y.1.mem z)
        ∧ MhAgree c.numblocks x.1 y.1 ∧ c.numblocks ≤ x.1.completedMultiplies)
    (fun p (x : Mach × Bool) => ((Sse.hashWithPassword env c p x.1).1,
      x.2 || (Sse.hashWithPassword env c p x.1).2))
    (fun p (x : Mach × Bool) => ((Sse.hashWithPassword env c p x.1).1,
      x.2 || (Sse.hashWithPassword env c p x.1).2))
    c.parallelism
    (fun k x y hk hr => by
      obtain ⟨h1, h2, h3⟩ := hr
      have step := hashWithPassword_agree env c k _ hv hk x.1 y.1
        (fun z hz => Or.inl hz) h1 h2 h3
      refine ⟨fun z hz => step.1 z ?_, step.2, ?_⟩
      · rcases hz with hz | ⟨q, hq, hz1, hz2⟩
        · exact Or.inl (Or.inl hz)
        · by_cases hqk : q < k
          · exact Or.inl (Or.inr ⟨q, hqk, hz1, hz2⟩)
          · have : q = k := by omega
            subst this
            exact Or.inr ⟨hz1, hz2⟩
      · show c.numblocks ≤ (Sse.hashWithPassword env c k x.1).1.completedMultiplies
        rw [← (hashWithPassword_ctl env c k x.1).1]; exact h3)
    (a, false) (b, false) ⟨fun z hz => by
      rcases hz with hz | ⟨q, hq, _⟩
      · exact hF z hz
      · omega, hmh, hcm⟩
  unfold Sse.runWorkers
  intro x p hp hx1 hx2
  exact key.1 x (Or.inr ⟨p, hp, hx1, hx2⟩)

theorem levelHash_agree (env : Env) (c : Sse.Common) (hv : c.Valid) (g1 g2 : Nat)
    (a b : Mach) : levelHash env c g1 a = levelHash env c g2 b := by
  have hb := valid_bounds c hv
  have pa := multHash_frame env c (a.startLevel g1 c.numblocks) rfl
  have pb := multHash_frame env c (b.startLevel g2 c.numblocks) rfl
  have hN : u32 (c.numblocks * 2) = c.numblocks * 2 := by
    unfold u32; exact Nat.mod_eq_of_lt (by omega)
  have hmh : MhAgree c.numblocks (Sse.multHash env c (a.startLevel g1 c.numblocks))
      (Sse.multHash env c (b.startLevel g2 c.numblocks)) := by
    refine ⟨by rw [pa.2.2, pb.2.2], fun i k hi hk => ?_⟩
    exact multHash_agree env c _ _ rfl rfl i k (by rw [hN]; omega) hk
  have hcm : c.numblocks
      ≤ (Sse.multHash env c (a.startLevel g1 c.numblocks)).completedMultiplies := by
    rw [pa.2.2, hN]; omega
  have r1 := runResistant_agree env c hv _ _ hmh hcm
  have r2 := runUnpredictable_agree env c hv _ _ r1.1 r1.2.1 r1.2.2
  unfold levelHash levelMach
  exact combineHashes_agree env c hv c.hash _ _ r2

theorem garlicLevel_done_eq (env : Env) (c : Sse.Common) (g : Nat) (m : Mach)
    (hnb : c.numblocks < 2 ^ 31) (hbl : c.blocklen ≠ 0) (hsb : c.subBlocklen ≠ 0)
    (hok : levelThreadsOk env g c.parallelism = true) :
    Sse.garlicLevel env c g m
      = Sse.LevelResult.done
          (Sse.combineHashes env c.hash c.hashSize (levelMach env c g m) c.blocklen
            c.numblocks c.parallelism).1
          (levelHash env c g m) := by
  unfold levelThreadsOk at hok
  simp only [Bool.and_eq_true] at hok
  obtain ⟨⟨h0, h1⟩, h2⟩ := hok
  unfold Sse.garlicLevel
  have hpacer := multHash_frame env c (m.startLevel g c.numblocks) rfl
  have hN : c.numblocks ≤
      (Sse.multHash env c (m.startLevel g c.numblocks)).completedMultiplies := by
    rw [hpacer.2.2]
    unfold u32
    rw [Nat.mod_eq_of_lt (by omega)]
    omega
  have hr2 := runWorkers_free (Sse.hashWithoutPassword env c) c.numblocks c.parallelism _
    (hashWithoutPassword_ctl env c) (hashWithoutPassword_free env c hbl) hN
  have hN2 : c.numblocks ≤ (Sse.runWorkers (Sse.hashWithoutPassword env c) c.parallelism
      (Sse.multHash env c (m.startLevel g c.numblocks))).1.completedMultiplies := by
    rw [← hr2.1.1]; exact hN
  have hr3 := runWorkers_free (Sse.hashWithPassword env c) c.numblocks c.parallelism _
    (hashWithPassword_ctl env c) (hashWithPassword_free env c hsb) hN2
  simp only [h0, h1, h2, hr2.2, hr3.2, Bool.not_true, Bool.false_eq_true, if_false]
  rfl

/-! ## The garlic loop does not depend on the initial memory -/

theorem or_one_odd (r : Nat) : (r ||| 1) % 2 = 1 := by
  rw [Nat.or_mod_two_eq_one]; right; rfl

theorem coprime_or_one (r : Nat) : Nat.Coprime (2 ^ 32) (r ||| 1) := by
  apply Nat.Coprime.pow_left
  rw [Nat.coprime_two_left]
  exact Nat.odd_iff.2 (or_one_odd r)

theorem chainStep_lt (randVal c v : Nat) (hc : c < 2 ^ 32) :
    Ref.chainStep randVal c v < 2 ^ 32 := by
  unfold Ref.chainStep
  exact Nat.xor_lt_two_pow (Nat.mod_lt _ (by norm_num)) hc

theorem chainStep_bijOn (randVal c : Nat) (hc : c < 2 ^ 32) :
    Set.BijOn (Ref.chainStep randVal c) (Set.Iio (2 ^ 32)) (Set.Iio (2 ^ 32)) := by
  refine ⟨fun v _ => chainStep_lt randVal c v hc, ?_, ?_⟩
  · intro v1 h1 v2 h2 he
    unfold Ref.chainStep at he
    have h3 : u32 (v1 * (randVal ||| 1)) = u32 (v2 * (randVal ||| 1)) :=
      Nat.xor_left_injective he
    have h4 : v1 ≡ v2 [MOD 2 ^ 32] :=
      Nat.ModEq.cancel_right_of_coprime (coprime_or_one randVal) h3
    have h5 := h4
    unfold Nat.ModEq at h5
    rw [Nat.mod_eq_of_lt h1, Nat.mod_eq_of_lt h2] at h5
    exact h5
  · intro w hw
    obtain ⟨ainv, hainv⟩ := Nat.exists_mul_emod_eq_one_of_coprime
      (coprime_or_one randVal).symm (by norm_num)
    refine ⟨((w ^^^ c) * ainv) % 2 ^ 32, Nat.mod_lt _ (by norm_num), ?_⟩
    unfold Ref.chainStep u32
    have hwc : w ^^^ c < 2 ^ 32 := Nat.xor_lt_two_pow hw hc
    have : ((w ^^^ c) * ainv) % 2 ^ 32 * (randVal ||| 1) % 2 ^ 32 = w ^^^ c := by
      rw [Nat.mod_mul_mod, Nat.mul_assoc, Nat.mul_comm ainv, Nat.mul_mod, hainv, Nat.mul_one,
        Nat.mod_mod, Nat.mod_eq_of_lt hwc]
    rw [this, Nat.xor_assoc, Nat.xor_self, Nat.xor_zero]

theorem getD_lt_of_forall (l : List Nat) (b : Nat) (h : ∀ c ∈ l, c < b) (hb : 0 < b) (k : Nat) :
    l.getD k 0 < b := by
  rw [List.getD_eq_getElem?_getD]
  cases hk : l[k]? with
  | none => exact hb
  | some x => exact h x (List.getElem?_mem hk)

theorem multChain_bijOn (randVal : Nat) (origState : List Nat)
    (horig : ∀ c ∈ origState, c < 2 ^ 32) : ∀ multiplies : Nat,
    Set.BijOn (Ref.multChain multiplies randVal origState) (Set.Iio (2 ^ 32))
      (Set.Iio (2 ^ 32)) := by
  intro multiplies
  induction multiplies with
  | zero => exact Set.bijOn_id _
  | succ n ih =>
    exact (chainStep_bijOn randVal (origState.getD n 0)
      (getD_lt_of_forall origState _ horig (by norm_num) n)).comp ih

/-- C17: the chain step `v -> (v * (randVal | 1)) XOR c` of the reference `hashBlocks` is a
bijection of the 32-bit words for every `randVal` and every 32-bit `c`; so is the chain of
any depth `multiplies` for a fixed `randVal` and `origState`, and so is the chain over any
sequence of `randVal` values (one per sub-block group). -/
theorem C17_chain_bijective (origState : List Nat) (horig : ∀ c ∈ origState, c < 2 ^ 32) :
    (∀ randVal c, c < 2 ^ 32 →
        Set.BijOn (Ref.chainStep randVal c) (Set.Iio (2 ^ 32)) (Set.Iio (2 ^ 32)))
      ∧ (∀ multiplies randVal,
        Set.BijOn (Ref.multChain multiplies randVal origState) (Set.Iio (2 ^ 32))
          (Set.Iio (2 ^ 32)))
      ∧ ∀ (multiplies : Nat) (randVals : List Nat),
        Set.BijOn
          (fun v => randVals.foldl (fun x r => Ref.multChain multiplies r origState x) v)
          (Set.Iio (2 ^ 32)) (Set.Iio (2 ^ 32)) := by
  refine ⟨fun randVal c hc => chainStep_bijOn randVal c hc,
    fun multiplies randVal => multChain_bijOn randVal origState horig multiplies, ?_⟩
  intro multiplies randVals
  induction randVals with
  | nil => exact Set.bijOn_id _
  | cons r rs ih => exact ih.comp (multChain_bijOn r origState horig multiplies)

/-- C17 (witness): the chain for `origState = [1, 2, 3, 4, 5, 6, 7, 8]`. -/
theorem C17_chain_bijective_witness :
    (∀ c ∈ [1, 2, 3, 4, 5, 6, 7, 8], c < 2 ^ 32)
      ∧ Set.BijOn (Ref.multChain 8 5 [1, 2, 3, 4, 5, 6, 7, 8]) (Set.Iio (2 ^ 32))
          (Set.Iio (2 ^ 32)) :=
  ⟨by decide, (C17_chain_bijective [1, 2, 3, 4, 5, 6, 7, 8] (by decide)).2.1 8 5⟩

theorem rotl8_eq (x : Nat) (hx : x < 2 ^ 32) :
    Ref.rotl8 x = (x * 2 ^ 8) % 2 ^ 32 + x / 2 ^ 24 := by
  unfold Ref.rotl8 u32
  rw [Nat.shiftRight_eq_div_pow, Nat.shiftLeft_eq]
  have h1 : x * 2 ^ 8 % 2 ^ 32 = 2 ^ 8 * (x % 2 ^ 24) := by
    rw [show (2 : Nat) ^ 32 = 2 ^ 24 * 2 ^ 8 by norm_num, Nat.mul_mod_mul_right, Nat.mul_comm]
  have h2 : x / 2 ^ 24 < 2 ^ 8 := Nat.div_lt_of_lt_mul (by omega)
  rw [h1, Nat.lor_comm, ← Nat.mul_add_lt_is_or h2]

theorem getD_set (l : List Nat) (k j y : Nat) (h : k < l.length) :
    (l.set k y).getD j 0 = if j = k then y else l.getD j 0 := by
  rw [List.getD_eq_getElem?_getD, List.getD_eq_getElem?_getD, List.getElem?_set]
  by_cases hjk : j = k
  · subst hjk; rw [if_pos rfl, if_pos h, if_pos rfl]; rfl
  · rw [if_neg (Ne.symm hjk), if_neg hjk]

theorem ref_group_spec (multiplies randVal : Nat) (origState : List Nat) (h : Ref.RB)
    (hlen : h.state.length = 8)
    (halias : ∀ j k, j < k → k < 8 → h.t + j ≠ h.p + k ∧ h.t + j ≠ h.f + k) :
    ∀ k, k < 8 →
      (Ref.hashBlocksGroup multiplies randVal origState h).state.getD k 0
          = Ref.rotl8 (u32 (h.state.getD k 0 + h.mem (h.p + k)) ^^^ h.mem (h.f + k))
        ∧ (Ref.hashBlocksGroup multiplies randVal origState h).mem (h.t + k)
          = Ref.rotl8 (u32 (h.state.getD k 0 + h.mem (h.p + k)) ^^^ h.mem (h.f + k)) := by
  have key := forLoop_ind
    (fun n (x : Ref.RB) => x.p = h.p + n ∧ x.f = h.f + n ∧ x.t = h.t + n
      ∧ x.state.length = 8
      ∧ (∀ j, j < n →
          x.state.getD j 0
              = Ref.rotl8 (u32 (h.state.getD j 0 + h.mem (h.p + j)) ^^^ h.mem (h.f + j))
            ∧ x.mem (h.t + j)
              = Ref.rotl8 (u32 (h.state.getD j 0 + h.mem (h.p + j)) ^^^ h.mem (h.f + j)))
      ∧ (∀ j, n ≤ j → x.state.getD j 0 = h.state.getD j 0)
      ∧ (∀ a, (a < h.t ∨ h.t + n ≤ a) → x.mem a = h.mem a))
    (fun k x => Ref.mixWord k x) 8
    (fun n x hn hx => by
      obtain ⟨hp, hf, ht, hl, hdone, hrest, hmem⟩ := hx
      have hpn : x.mem x.p = h.mem (h.p + n) := by
        rw [hp]
        apply hmem
        by_contra hc
        have := (halias (h.p + n - h.t) n (by omega) hn).1
        omega
      have hfn : x.mem x.f = h.mem (h.f + n) := by
        rw [hf]
        apply hmem
        by_contra hc
        have := (halias (h.f + n - h.t) n (by omega) hn).2
        omega
      unfold Ref.mixWord
      refine ⟨by simp only [hp]; omega, by simp only [hf]; omega, by simp only [ht]; omega,
        by simp only [List.length_set]; exact hl, ?_, ?_, ?_⟩
      · intro j hj
        simp only
        rw [getD_set _ _ _ _ (by omega), hpn, hfn, hrest n (le_refl n), ht]
        by_cases hjn : j = n
        · subst hjn
          rw [if_pos rfl, if_pos rfl]
          exact ⟨rfl, rfl⟩
        · rw [if_neg hjn, if_neg (by omega)]
          exact hdone j (by omega)
      · intro j hj
        simp only
        rw [getD_set _ _ _ _ (by omega), if_neg (by omega)]
        exact hrest j (by omega)
      · intro a ha
        simp only
        rw [ht, if_neg (by omega)]
        exact hmem a (by omega))
    { h with v := Ref.multChain multiplies randVal origState h.v }
    ⟨rfl, rfl, rfl, hlen, fun j hj => absurd hj (by omega), fun _ _ => rfl, fun _ _ => rfl⟩
  intro k hk
  exact key.2.2.2.2.1 k hk

/-- C16 (as stated) fails: the reference `hashBlocks` with an all-ones state on zero memory
(`blocklen = subBlocklen = 8`, one repetition, no multiplications, `hashWithSalt` replaced by
the identity) leaves 256 in every state word and in the eight words at `toAddr = 16`: the
rotation of `(1 + 0) XOR 0 = 1` by 8 bits, while the rotation by 7 bits is 128. -/
theorem C16_ref_rotation_not_by_7 :
    (Ref.hashBlocks (fun s _ => s) (fun _ => 0) [1, 1, 1, 1, 1, 1, 1, 1] 8 8 8 0 8 16 0 1 0 1
        0).map (fun r => (r.2, (List.range 8).map (fun k => r.1 (16 + k))))
      = some ([256, 256, 256, 256, 256, 256, 256, 256],
          [256, 256, 256, 256, 256, 256, 256, 256])
    ∧ Scalar.rotl7 (u32 (1 + 0) ^^^ 0) = 128 := by
  decide

/-- C16 (amended): in the reference `hashBlocks`, for every group of 8 words whose
destination words do not overlap the source words still to be read, and every `k` in
`0..7`, the new `state[k]` is the 32-bit left rotation by 8 bits of
`x = (state[k] + M[p + k]) XOR M[f + k]`, that is `(x << 8) | (x >> 24)`, which is
`(x * 2^8) mod 2^32 + x div 2^24`, and that value is stored at `M[t + k]`. -/
theorem C16_ref_mix_rotates_left_by_8 (multiplies randVal : Nat) (origState : List Nat)
    (h : Ref.RB) (hlen : h.state.length = 8) (hmem : ∀ a, h.mem a < 2 ^ 32)
    (halias : ∀ j k, j < k → k < 8 → h.t + j ≠ h.p + k ∧ h.t + j ≠ h.f + k) :
    ∀ k, k < 8 →
      (Ref.hashBlocksGroup multiplies randVal origState h).state.getD k 0
          = ((u32 (h.state.getD k 0 + h.mem (h.p + k)) ^^^ h.mem (h.f + k)) * 2 ^ 8) % 2 ^ 32
            + (u32 (h.state.getD k 0 + h.mem (h.p + k)) ^^^ h.mem (h.f + k)) / 2 ^ 24
        ∧ (Ref.hashBlocksGroup multiplies randVal origState h).mem (h.t + k)
          = (Ref.hashBlocksGroup multiplies randVal origState h).state.getD k 0 := by
  intro k hk
  have hspec := ref_group_spec multiplies randVal origState h hlen halias k hk
  have hx : u32 (h.state.getD k 0 + h.mem (h.p + k)) ^^^ h.mem (h.f + k) < 2 ^ 32 :=
    Nat.xor_lt_two_pow (Nat.mod_lt _ (by norm_num)) (hmem _)
  rw [hspec.2, hspec.1]
  exact ⟨rotl8_eq _ hx, rfl⟩

/-- C16 (witness): the group at `p = 0`, `f = 8`, `t = 16` on zero memory with an all-ones
state; every state word becomes `256`. -/
theorem C16_ref_mix_rotates_left_by_8_witness :
    (Ref.hashBlocksGroup 0 0 []
        { mem := fun _ => 0, state := [1, 1, 1, 1, 1, 1, 1, 1], v := 1, f := 8, t := 16,
          p := 0 }).state.getD 3 0
      = ((u32 (1 + 0) ^^^ 0) * 2 ^ 8) % 2 ^ 32 + (u32 (1 + 0) ^^^ 0) / 2 ^ 24 :=
  (C16_ref_mix_rotates_left_by_8 0 0 []
    { mem := fun _ => 0, state := [1, 1, 1, 1, 1, 1, 1, 1], v := 1, f := 8, t := 16, p := 0 }
    rfl (fun _ => show (0 : Nat) < 2 ^ 32 by decide)
    (fun j k _ _ => ⟨by show 16 + j ≠ 0 + k; omega, by show 16 + j ≠ 8 + k; omega⟩)
    3 (by decide)).1

/-! ## Worker seeding -/

theorem fill_mem (n start : Nat) (val : Nat → Nat) (m : Mach) :
    ∀ i, i < n →
      (forLoop n (fun i (x : Mach) => x.wr (start + i) (val i)) m).mem (start + i) = val i := by
  induction n with
  | zero => intro i hi; omega
  | succ n ih =>
    intro i hi
    show (if start + i = start + n then val n else _) = val i
    by_cases h : i = n
    · subst h; rw [if_pos rfl]
    · rw [if_neg (by omega)]; exact ih i (by omega)

/-- C18 (as stated) fails: the state with which a worker enters its resistant pass, and
the one with which it enters its unpredictable pass, never differ between two hashes, two
workers, two environments or two machines. -/
theorem C18_worker_state_never_differs :
    ¬ ∃ (env1 env2 : Env) (c1 c2 : Sse.Common) (p1 p2 : Nat) (m1 m2 : Mach),
        (Sse.hashWithoutPasswordInit env1 c1 p1 m1).state
            ≠ (Sse.hashWithoutPasswordInit env2 c2 p2 m2).state
          ∨ (Sse.hashWithPasswordInit c1 p1 m1).state
            ≠ (Sse.hashWithPasswordInit c2 p2 m2).state := by
  rintro ⟨env1, env2, c1, c2, p1, p2, m1, m2, h | h⟩
  · exact h rfl
  · exact h rfl

/-- C18 (amended): both passes of every worker start from the constant state
`{1, 1, 1, 1, 1, 1, 1, 1}`, whatever the hash and the worker index.  The running hash and
`p` enter through the first block of the worker's resistant region only, which is filled
with the big-endian words of `H(blocklen*4 bytes, hash, salt = be32enc(p))`. -/
theorem C18_worker_state_is_all_ones (env : Env) (c : Sse.Common) (p : Nat) (m : Mach) :
    Sse.hashWithoutPassword env c p m
        = ((forLoop (c.numblocks - 1) (fun k w =>
              Sse.hashWithoutPasswordStep env c (u64 (u32 (2 * p) * c.numblocks * c.blocklen))
                (k + 1) w) (Sse.hashWithoutPasswordInit env c p m)).m,
           (forLoop (c.numblocks - 1) (fun k w =>
              Sse.hashWithoutPasswordStep env c (u64 (u32 (2 * p) * c.numblocks * c.blocklen))
                (k + 1) w) (Sse.hashWithoutPasswordInit env c p m)).stuck)
      ∧ Sse.hashWithPassword env c p m
        = ((forLoop c.numblocks (fun i w =>
              Sse.hashWithPasswordStep env c p
                (u64 (u32 (2 * p + 1) * c.numblocks * c.blocklen)) i w)
              (Sse.hashWithPasswordInit c p m)).m,
           (forLoop c.numblocks (fun i w =>
              Sse.hashWithPasswordStep env c p
                (u64 (u32 (2 * p + 1) * c.numblocks * c.blocklen)) i w)
              (Sse.hashWithPasswordInit c p m)).stuck)
      ∧ (Sse.hashWithoutPasswordInit env c p m).state = [1, 1, 1, 1, 1, 1, 1, 1]
      ∧ (Sse.hashWithPasswordInit c p m).state = [1, 1, 1, 1, 1, 1, 1, 1]
      ∧ ∀ i, i < c.blocklen →
          (Sse.hashWithoutPasswordInit env c p m).m.mem
              (u64 (u32 (2 * p) * c.numblocks * c.blocklen) + i)
            = be32dec_vect
                (env.hashOut (c.blocklen * 4) (c.hash.take c.hashSize) (be32enc p)) i :=
  ⟨rfl, rfl, rfl, rfl, fun i hi => fill_mem c.blocklen _ _ m i hi⟩

/-! ## Multiplications of the pacer -/

theorem roundMultiplies_eq (mpb : Nat) (h : mpb < 2 ^ 32) :
    Sse.roundMultiplies mpb = (if 8 * (mpb / 8) = 0 then 8 else 8 * (mpb / 8))
      ∧ 8 ∣ Sse.roundMultiplies mpb := by
  have hu : u32 (8 * (mpb / 8)) = 8 * (mpb / 8) := by
    unfold u32; exact Nat.mod_eq_of_lt (by omega)
  unfold Sse.roundMultiplies
  rw [hu]
  refine ⟨rfl, ?_⟩
  split
  · exact dvd_refl 8
  · exact Dvd.intro _ rfl

/-! ## The sliding window of the resistant pass -/

theorem slideWindow_hi (i mask numBits : Nat) (hpos : 1 ≤ mask) (hle : mask ≤ i)
    (hprev : i ≤ 2 * mask) (hi : i < 2 ^ 31) :
    i < 2 * (Sse.slideWindow i (mask, numBits)).1 := by
  have hsh : u32 (mask <<< 1) = 2 * mask % 2 ^ 32 := by
    rw [Nat.shiftLeft_eq, pow_one]
    unfold u32
    rw [Nat.mul_comm]
  unfold Sse.slideWindow
  simp only [hsh]
  by_cases hc : 2 * mask % 2 ^ 32 ≤ i
  · rw [if_pos hc]
    show i < 2 * (2 * mask % 2 ^ 32)
    by_cases hm : 2 * mask < 2 ^ 32
    · rw [Nat.mod_eq_of_lt hm] at hc ⊢
      omega
    · exfalso
      have hmod := Nat.mod_lt (2 * mask) (show 0 < 2 ^ 32 by norm_num)
      omega
  · rw [if_neg hc]
    show i < 2 * mask
    by_cases hm : 2 * mask < 2 ^ 32
    · rw [Nat.mod_eq_of_lt hm] at hc
      omega
    · omega

theorem windowAt_succ (i : Nat) :
    Sse.windowAt (i + 1) = Sse.slideWindow (i + 1) (Sse.windowAt i) := rfl

theorem windowAt_inv : ∀ i, i + 1 < 2 ^ 31 →
    (Sse.windowAt (i + 1)).1 = 2 ^ (Sse.windowAt (i + 1)).2
      ∧ (Sse.windowAt (i + 1)).1 ≤ i + 1
      ∧ i + 1 < 2 * (Sse.windowAt (i + 1)).1
      ∧ (Sse.windowAt (i + 1)).2 < 32 := by
  intro i
  induction i with
  | zero => intro _; decide
  | succ i ih =>
    intro hi
    obtain ⟨h1, h2, h3, h4⟩ := ih (by omega)
    rw [windowAt_succ (i + 1)]
    have hinv := slideWindow_inv (i + 1 + 1) (Sse.windowAt (i + 1)).1 (Sse.windowAt (i + 1)).2
      h1 (by omega) hi
    have hhi := slideWindow_hi (i + 1 + 1) (Sse.windowAt (i + 1)).1 (Sse.windowAt (i + 1)).2
      (by rw [h1]; exact Nat.one_le_two_pow) (by omega) (by omega) hi
    exact ⟨hinv.1, hinv.2.1, hhi, hinv.2.2⟩

theorem reversePosOf_ge (i mask numBits : Nat) (hm : mask = 2 ^ numBits) (hle : mask ≤ i)
    (hhi : i < 2 * mask) (hi : i < 2 ^ 31) (hnb : numBits < 32) :
    i - mask ≤ Sse.reversePosOf i mask numBits := by
  unfold Sse.reversePosOf
  have hu : u8 numBits = numBits := by
    unfold u8; exact Nat.mod_eq_of_lt (by omega)
  rw [hu]
  have hr := reverse_lt i numBits (by omega)
  have hu2 : u32 (Sse.reverse i numBits + mask) = Sse.reverse i numBits + mask := by
    unfold u32; exact Nat.mod_eq_of_lt (by omega)
  simp only [hu2]
  by_cases hc : Sse.reverse i numBits + mask < i
  · rw [if_pos hc]; omega
  · rw [if_neg hc]; omega

theorem hashWithoutPasswordLoop_window (env : Env) (c : Sse.Common) (start : Nat) (w0 : Sse.WS)
    (hm : w0.mask = 1) (hn : w0.numBits = 0) (n : Nat) :
    (forLoop n (fun k w => Sse.hashWithoutPasswordStep env c start (k + 1) w) w0).stuck = false →
      ((forLoop n (fun k w => Sse.hashWithoutPasswordStep env c start (k + 1) w) w0).mask,
        (forLoop n (fun k w => Sse.hashWithoutPasswordStep env c start (k + 1) w) w0).numBits)
        = Sse.windowAt n :=
  forLoop_ind (fun k (w : Sse.WS) => w.stuck = false → (w.mask, w.numBits) = Sse.windowAt k)
    (fun k w => Sse.hashWithoutPasswordStep env c start (k + 1) w) n
    (fun k w _ hw => by
      show (Sse.hashWithoutPasswordStep env c start (k + 1) w).stuck = false →
        ((Sse.hashWithoutPasswordStep env c start (k + 1) w).mask,
          (Sse.hashWithoutPasswordStep env c start (k + 1) w).numBits) = Sse.windowAt (k + 1)
      unfold Sse.hashWithoutPasswordStep
      by_cases hst : w.stuck = true
      · simp only [hst, if_true]
        intro h; exact absurd h (by simp)
      · have hsf : w.stuck = false := by simpa using hst
        have hwin : (w.mask, w.numBits) = Sse.windowAt k := hw hsf
        simp only [hsf, Bool.false_eq_true, if_false]
        split
        · intro h; exact absurd h (by simp)
        · rw [windowAt_succ, ← hwin]
          cases h1 : Sse.hashMultItoState env (k + 1) _ _ with
          | none => intro h; exact absurd h (by simp)
          | some r => intro _; rfl)
    w0 (fun _ => by rw [hm, hn]; rfl)

/-! ## Checkpoints read by the workers -/

set_option maxRecDepth 100000 in
/-- C19 (the code at `memSize = 1`, `blockSize = 512`, one worker, garlic level 1, which
runs with `numblocks = 2`): the pacer writes the checkpoint slots 0, 1, 2, 3 (eight words
each); the worker reads slot 1 in its resistant pass, then slots 0 and 1 in its
unpredictable pass.  Slot 1 is read twice, slots 2 and 3 are never read. -/
theorem C19_slot_read_twice_and_slots_unread :
    (Sse.TigerKDF demoEnv 2 (freshMach 0) [0, 0, 0, 0] 4 1 0 1 1 512 32 1 1 false).map
        (fun r => (levelsOf r.2.2.trace, (readsH r.2.2.trace).reverse.map (fun a => a / 8),
          (writesH r.2.2.trace).reverse.map (fun a => a / 8)))
      = some ([(1, 2)],
          [1, 1, 1, 1, 1, 1, 1, 1, 0, 0, 0, 0, 0, 0, 0, 0, 1, 1, 1, 1, 1, 1, 1, 1],
          [0, 0, 0, 0, 0, 0, 0, 0, 1, 1, 1, 1, 1, 1, 1, 1, 2, 2, 2, 2, 2, 2, 2, 2,
            3, 3, 3, 3, 3, 3, 3, 3]) := by
  decide

/-! ## Source block of the unpredictable pass at `2^30` blocks -/

set_option maxRecDepth 100000 in
/-- C13 (the code at `memSize = 3`, `blockSize = 32`, `parallelism = 3`, garlic level 26,
which runs with `numblocks = 2^30`): worker 2 at block 0 with its initial `state[0] = 1`
has `distance = 0`, so `q = 2` and `b = 2^30 - 1`; the claimed source is word
`(2 * 2^30 * 2 + b) * 8` in the first half of worker 2, but `2*numblocks*q` wraps to 0 in
32 bits and the code reads from word `b * 8`, in the first half of worker 0. -/
theorem C13_cross_worker_source_wraps :
    Sse.numblocksStart 3 32 3 26 = 2 ^ 30
      ∧ (Sse.hashWithPasswordInit (initCommon [0, 0, 0, 0] 4 3 0 26 32 32 3 1) 2
          (freshMach 0)).state.getD 0 0 = 1
      ∧ Sse.fromAddrWithPassword (initCommon [0, 0, 0, 0] 4 3 0 26 32 32 3 1) 2
          ((2 * 2 + 1) * 2 ^ 30 * 8) 0 1 = (2 ^ 30 - 1) * 8
      ∧ (2 * 2 ^ 30 * ((2 + 0) % 3) + (2 ^ 30 - 1 - (0 - 0))) * 8 = (2 ^ 32 + 2 ^ 30 - 1) * 8
      ∧ (2 ^ 30 - 1) * 8 < (2 * 0 + 1) * 2 ^ 30 * 8 := by
  decide

/-! ## Tail position of `combineHashes` at `2^30` blocks -/

set_option maxRecDepth 100000 in
/-- C11 (the code at `hashSize = 32`, `blocklen = 8`, `numblocks = 2^30`,
`parallelism = 2`): for worker 1 the claimed tail starts at word `2^35 - 8`, but
`2*(p+1)*numblocks` wraps to 0 in 32 bits and `combineHashes` reads at word `2^64 - 8`.  On
a memory holding 1 at word `2^64 - 8` and 0 elsewhere the resulting hash differs from the
claimed `H(hash')`. -/
theorem C11_tail_position_wraps :
    Sse.combinePos 32 8 (2 ^ 30) 1 = 2 ^ 64 - 8
      ∧ 2 * (1 + 1) * 2 ^ 30 * 8 - 32 / 4 = 2 ^ 35 - 8
      ∧ (Sse.combineHashes demoEnv (List.replicate 32 0) 32 (markedMach (2 ^ 64 - 8)) 8
          (2 ^ 30) 2).2
        = [103, 110, 117, 124, 131, 138, 145, 152, 159, 166, 173, 180, 187, 194, 201, 208,
            215, 222, 229, 236, 243, 250, 6, 13, 20, 27, 34, 41, 48, 55, 62, 69]
      ∧ Sse.rehash demoEnv ((List.range 32).map (fun j =>
          ((List.replicate 32 0).getD j 0 + ((List.range 2).map (fun p =>
            (be32enc_vect (fun i => (markedMach (2 ^ 64 - 8)).mem
              (2 * (p + 1) * 2 ^ 30 * 8 - 32 / 4 + i)) 32).getD j 0)).sum) % 256)) 32 []
        = [144, 151, 158, 165, 172, 179, 186, 193, 200, 207, 214, 221, 228, 235, 242, 249,
            5, 12, 19, 26, 33, 40, 47, 54, 61, 68, 75, 82, 89, 96, 103, 110] := by
  decide

/-! ## Source block of the unpredictable pass below the 32-bit wrap -/

theorem fromAddrWithPassword_spec (c : Sse.Common) (p i v : Nat)
    (hp : p < c.parallelism) (hi : i < c.numblocks) (hv : v < 2 ^ 32)
    (hno : 2 * c.parallelism * c.numblocks < 2 ^ 32)
    (h64 : 2 * c.parallelism * c.numblocks * c.blocklen < 2 ^ 64) :
    ((i + c.numblocks - 1) * (v * (v * v / 2 ^ 32) / 2 ^ 32) / 2 ^ 32 < i →
        Sse.fromAddrWithPassword c p ((2 * p + 1) * c.numblocks * c.blocklen) i v
          = (2 * p + 1) * c.numblocks * c.blocklen
            + (i - 1 - (i + c.numblocks - 1) * (v * (v * v / 2 ^ 32) / 2 ^ 32) / 2 ^ 32)
              * c.blocklen)
      ∧ (i ≤ (i + c.numblocks - 1) * (v * (v * v / 2 ^ 32) / 2 ^ 32) / 2 ^ 32 →
        (i + c.numblocks - 1) * (v * (v * v / 2 ^ 32) / 2 ^ 32) / 2 ^ 32 - i
            ≤ c.numblocks - 1
          ∧ Sse.fromAddrWithPassword c p ((2 * p + 1) * c.numblocks * c.blocklen) i v
            = (2 * c.numblocks * ((p + i) % c.parallelism)
                + (c.numblocks - 1
                  - ((i + c.numblocks - 1) * (v * (v * v / 2 ^ 32) / 2 ^ 32) / 2 ^ 32 - i)))
              * c.blocklen) := by
  have hpar : 1 ≤ c.parallelism := by omega
  have hnb1 : 1 ≤ c.numblocks := by omega
  have hnb : 2 * c.numblocks < 2 ^ 32 := by
    have : 2 * 1 * c.numblocks ≤ 2 * c.parallelism * c.numblocks :=
      Nat.mul_le_mul_right _ (Nat.mul_le_mul_left _ hpar)
    omega
  have hpp : 2 * c.parallelism ≤ 2 * c.parallelism * c.numblocks :=
    Nat.le_mul_of_pos_right _ hnb1
  -- the 64-bit intermediate values do not wrap
  have hvv : v * v < 2 ^ 64 := by
    calc v * v ≤ v * 2 ^ 32 := Nat.mul_le_mul_left _ (le_of_lt hv)
      _ < 2 ^ 32 * 2 ^ 32 := Nat.mul_lt_mul_of_pos_right hv (by norm_num)
      _ = 2 ^ 64 := by norm_num
  have hv2 : v * v / 2 ^ 32 < 2 ^ 32 := Nat.div_lt_of_lt_mul (by omega)
  have hvv2 : v * (v * v / 2 ^ 32) < 2 ^ 64 := by
    calc v * (v * v / 2 ^ 32) ≤ v * 2 ^ 32 := Nat.mul_le_mul_left _ (le_of_lt hv2)
      _ < 2 ^ 32 * 2 ^ 32 := Nat.mul_lt_mul_of_pos_right hv (by norm_num)
      _ = 2 ^ 64 := by norm_num
  have hv3 : v * (v * v / 2 ^ 32) / 2 ^ 32 < 2 ^ 32 := Nat.div_lt_of_lt_mul (by omega)
  have e3 : u64 (v * (u64 (v * v) >>> 32)) >>> 32 = v * (v * v / 2 ^ 32) / 2 ^ 32 := by
    unfold u64
    rw [Nat.mod_eq_of_lt hvv, Nat.shiftRight_eq_div_pow (v * v) 32, Nat.mod_eq_of_lt hvv2,
      Nat.shiftRight_eq_div_pow]
  have hX : u32 (i + c.numblocks + 2 ^ 32 - 1) = i + c.numblocks - 1 := by
    unfold u32
    have : i + c.numblocks + 2 ^ 32 - 1 = (i + c.numblocks - 1) + 2 ^ 32 := by omega
    rw [this, Nat.add_mod_right]
    exact Nat.mod_eq_of_lt (by omega)
  have hprod : (i + c.numblocks - 1) * (v * (v * v / 2 ^ 32) / 2 ^ 32) < 2 ^ 64 := by
    calc (i + c.numblocks - 1) * (v * (v * v / 2 ^ 32) / 2 ^ 32)
        ≤ (i + c.numblocks - 1) * 2 ^ 32 := Nat.mul_le_mul_left _ (le_of_lt hv3)
      _ < 2 ^ 32 * 2 ^ 32 := Nat.mul_lt_mul_of_pos_right (by omega) (by norm_num)
      _ = 2 ^ 64 := by norm_num
  have hDle : (i + c.numblocks - 1) * (v * (v * v / 2 ^ 32) / 2 ^ 32) / 2 ^ 32
      ≤ i + c.numblocks - 1 := by
    apply Nat.div_le_of_le_mul
    calc (i + c.numblocks - 1) * (v * (v * v / 2 ^ 32) / 2 ^ 32)
        ≤ (i + c.numblocks - 1) * 2 ^ 32 := Nat.mul_le_mul_left _ (le_of_lt hv3)
      _ = 2 ^ 32 * (i + c.numblocks - 1) := by ring
  have hDlt : i + c.numblocks - 1 = 0
      ∨ (i + c.numblocks - 1) * (v * (v * v / 2 ^ 32) / 2 ^ 32) / 2 ^ 32
        < i + c.numblocks - 1 := by
    by_cases h0 : i + c.numblocks - 1 = 0
    · exact Or.inl h0
    · right
      apply Nat.div_lt_of_lt_mul
      calc (i + c.numblocks - 1) * (v * (v * v / 2 ^ 32) / 2 ^ 32)
          < (i + c.numblocks - 1) * 2 ^ 32 := Nat.mul_lt_mul_of_pos_left hv3 (by omega)
        _ = 2 ^ 32 * (i + c.numblocks - 1) := by ring
  have eD : u32 (u64 (u32 (i + c.numblocks + 2 ^ 32 - 1)
      * (u64 (v * (u64 (v * v) >>> 32)) >>> 32)) >>> 32)
      = (i + c.numblocks - 1) * (v * (v * v / 2 ^ 32) / 2 ^ 32) / 2 ^ 32 := by
    rw [e3, hX]
    unfold u64 u32
    rw [Nat.mod_eq_of_lt hprod, Nat.shiftRight_eq_div_pow, Nat.mod_eq_of_lt (by omega)]
  have hreg := region_bound c (2 * p + 1) c.numblocks (by omega) (le_refl _)
  unfold Sse.fromAddrWithPassword
  simp only [eD]
  generalize (i + c.numblocks - 1) * (v * (v * v / 2 ^ 32) / 2 ^ 32) / 2 ^ 32 = D
    at hDle hDlt ⊢
  constructor
  · intro hc
    rw [if_pos hc]
    have hj : u32 (i - 1 - D) = i - 1 - D := by
      unfold u32; exact Nat.mod_eq_of_lt (by omega)
    rw [hj]
    have hjb : (i - 1 - D) * c.blocklen + c.blocklen ≤ i * c.blocklen := by
      calc (i - 1 - D) * c.blocklen + c.blocklen = (i - 1 - D + 1) * c.blocklen := by ring
        _ ≤ i * c.blocklen := Nat.mul_le_mul_right _ (by omega)
    have hib : i * c.blocklen ≤ c.numblocks * c.blocklen :=
      Nat.mul_le_mul_right _ (le_of_lt hi)
    unfold u64
    rw [Nat.mod_eq_of_lt (a := (i - 1 - D) * c.blocklen) (by omega)]
    exact Nat.mod_eq_of_lt (by omega)
  · intro hc
    rw [if_neg (by omega)]
    have hpi : u32 (p + i) = p + i := by
      unfold u32; exact Nat.mod_eq_of_lt (by omega)
    rw [hpi]
    have hq : (p + i) % c.parallelism < c.parallelism := Nat.mod_lt _ (by omega)
    generalize (p + i) % c.parallelism = q at hq ⊢
    have hbv : u32 (c.numblocks + 2 ^ 33 - 1 - (D - i)) = c.numblocks - 1 - (D - i) := by
      unfold u32
      have : c.numblocks + 2 ^ 33 - 1 - (D - i)
          = (c.numblocks - 1 - (D - i)) + 2 ^ 32 * 2 := by omega
      rw [this, Nat.add_mul_mod_self_left]
      exact Nat.mod_eq_of_lt (by omega)
    rw [hbv]
    have hqn : 2 * c.numblocks * q + c.numblocks ≤ 2 * c.parallelism * c.numblocks := by
      calc 2 * c.numblocks * q + c.numblocks = (2 * q + 1) * c.numblocks := by ring
        _ ≤ (2 * c.parallelism) * c.numblocks := Nat.mul_le_mul_right _ (by omega)
    have h2nq : u32 (2 * c.numblocks * q) = 2 * c.numblocks * q := by
      unfold u32; exact Nat.mod_eq_of_lt (by omega)
    rw [h2nq]
    have hsum : u32 (2 * c.numblocks * q + (c.numblocks - 1 - (D - i)))
        = 2 * c.numblocks * q + (c.numblocks - 1 - (D - i)) := by
      unfold u32; exact Nat.mod_eq_of_lt (by omega)
    rw [hsum]
    refine ⟨by omega, ?_⟩
    have hle : (2 * c.numblocks * q + (c.numblocks - 1 - (D - i))) * c.blocklen
        ≤ 2 * c.parallelism * c.numblocks * c.blocklen :=
      Nat.mul_le_mul_right _ (by omega)
    unfold u64; exact Nat.mod_eq_of_lt (by omega)

/-! ## `combineHashes` below the 32-bit wrap -/

theorem combinePos_nowrap (hashSize blocklen numblocks parallelism p : Nat)
    (hp : p < parallelism) (hno : 2 * parallelism * numblocks < 2 ^ 32)
    (h64 : 2 * parallelism * numblocks * blocklen < 2 ^ 64)
    (hfit : hashSize / 4 ≤ 2 * numblocks * blocklen) :
    Sse.combinePos hashSize blocklen numblocks p
      = 2 * (p + 1) * numblocks * blocklen - hashSize / 4 := by
  have h1 : 2 * (p + 1) * numblocks ≤ 2 * parallelism * numblocks :=
    Nat.mul_le_mul_right _ (by omega)
  have hu : u32 (2 * (p + 1) * numblocks) = 2 * (p + 1) * numblocks := by
    unfold u32; exact Nat.mod_eq_of_lt (by omega)
  have h2 : 2 * (p + 1) * numblocks * blocklen ≤ 2 * parallelism * numblocks * blocklen :=
    Nat.mul_le_mul_right _ h1
  have h3 : 2 * numblocks * blocklen ≤ 2 * (p + 1) * numblocks * blocklen :=
    Nat.mul_le_mul_right _ (Nat.mul_le_mul_right _ (by omega))
  unfold Sse.combinePos
  rw [hu]
  unfold u64
  have : 2 * (p + 1) * numblocks * blocklen + 2 ^ 64 - hashSize / 4
      = (2 * (p + 1) * numblocks * blocklen - hashSize / 4) + 2 ^ 64 := by omega
  rw [this, Nat.add_mod_right]
  exact Nat.mod_eq_of_lt (by omega)

theorem getD_map_range (f : Nat → Nat) (n i : Nat) (h : i < n) :
    ((List.range n).map f).getD i 0 = f i := by
  rw [List.getD_eq_getElem _ _ (by simp [h])]
  simp

theorem sum_range_succ_map (k : Nat) (f : Nat → Nat) :
    ((List.range (k + 1)).map f).sum = ((List.range k).map f).sum + f k := by
  rw [List.range_succ, List.map_append, List.sum_append]; simp

theorem combineStep_spec (env : Env) (hashSize blocklen numblocks p : Nat)
    (mh : Mach × List Nat) (h4 : 4 ∣ hashSize) :
    (Sse.combineStep env hashSize blocklen numblocks p mh).1.mem = mh.1.mem
      ∧ (Sse.combineStep env hashSize blocklen numblocks p mh).2
        = (List.range hashSize).map (fun j => (mh.2.getD j 0
            + (be32enc_vect (fun i => mh.1.mem
                (Sse.combinePos hashSize blocklen numblocks p + i)) hashSize).getD j 0) % 256)
          ++ mh.2.drop hashSize := by
  unfold Sse.combineStep
  refine ⟨(readWords_frame mh.1 _ _).1, ?_⟩
  simp only
  congr 1
  apply List.map_congr_left
  intro j hj
  have hj2 : j < hashSize := List.mem_range.1 hj
  have hlen : (be32enc_vect (fun i => mh.1.mem
      (Sse.combinePos hashSize blocklen numblocks p + i)) hashSize).length = hashSize := by
    unfold be32enc_vect
    rw [List.length_map, List.length_range]
    exact Nat.mul_div_cancel' h4
  rw [hlen, if_pos hj2]

theorem combineHashes_spec (env : Env) (hash : List Nat) (hashSize : Nat) (m : Mach)
    (blocklen numblocks parallelism : Nat) (h4 : 4 ∣ hashSize) (hpar : 1 ≤ parallelism)
    (hno : 2 * parallelism * numblocks < 2 ^ 32)
    (h64 : 2 * parallelism * numblocks * blocklen < 2 ^ 64)
    (hfit : hashSize / 4 ≤ 2 * numblocks * blocklen) :
    (Sse.combineHashes env hash hashSize m blocklen numblocks parallelism).1.mem = m.mem
      ∧ (Sse.combineHashes env hash hashSize m blocklen numblocks parallelism).2
        = Sse.rehash env ((List.range hashSize).map (fun j => (hash.getD j 0
            + ((List.range parallelism).map (fun p =>
                (be32enc_vect (fun i => m.mem
                  (2 * (p + 1) * numblocks * blocklen - hashSize / 4 + i)) hashSize).getD j 0)
              ).sum) % 256) ++ hash.drop hashSize) hashSize [] := by
  have key := forLoop_ind
    (fun k (x : Mach × List Nat) => x.1.mem = m.mem ∧ (k = 0 → x.2 = hash)
      ∧ (1 ≤ k → x.2 = (List.range hashSize).map (fun j => (hash.getD j 0
            + ((List.range k).map (fun p =>
                (be32enc_vect (fun i => m.mem
                  (2 * (p + 1) * numblocks * blocklen - hashSize / 4 + i)) hashSize).getD j 0)
              ).sum) % 256) ++ hash.drop hashSize))
    (fun p mh => Sse.combineStep env hashSize blocklen numblocks p mh) parallelism
    (fun k x hk hx => by
      obtain ⟨hmem, hzero, hpos⟩ := hx
      have hs := combineStep_spec env hashSize blocklen numblocks k x h4
      rw [hmem, combinePos_nowrap hashSize blocklen numblocks parallelism k hk hno h64 hfit]
        at hs
      refine ⟨hs.1, fun h => absurd h (by omega), fun _ => ?_⟩
      show (Sse.combineStep env hashSize blocklen numblocks k x).2 = _
      rw [hs.2]
      by_cases hk0 : k = 0
      · subst hk0
        rw [hzero rfl]
        congr 1
      · rw [hpos (by omega), List.drop_left' (by simp)]
        congr 1
        apply List.map_congr_left
        intro j hj
        have hj2 : j < hashSize := List.mem_range.1 hj
        rw [List.getD_append _ _ _ _ (by simp [hj2]), getD_map_range _ _ _ hj2,
          Nat.mod_add_mod, sum_range_succ_map, Nat.add_assoc])
    (m, hash) ⟨rfl, fun _ => rfl, fun h => absurd h (by omega)⟩
  obtain ⟨k1, _, k3⟩ := key
  refine ⟨k1, ?_⟩
  show Sse.rehash env (forLoop parallelism
    (fun p mh => Sse.combineStep env hashSize blocklen numblocks p mh) (m, hash)).2 hashSize []
    = _
  rw [k3 hpar]

/-! ## Where the workers write -/

theorem WritesIn.reflW (lo hi : Nat) (m : Mach) : WritesIn lo hi m m := fun _ h => Or.inl h

theorem WritesIn.transW {lo hi : Nat} {a b c : Mach} (h1 : WritesIn lo hi a b)
    (h2 : WritesIn lo hi b c) : WritesIn lo hi a c := fun x hx => by
  rcases h2 x hx with h | h
  · exact h1 x h
  · exact Or.inr h

theorem writesIn_rd (lo hi : Nat) (m : Mach) (a : Nat) : WritesIn lo hi m (m.rd a).2 := by
  intro x hx
  left
  simpa [Mach.rd] using hx

theorem writesIn_rdH (lo hi : Nat) (m : Mach) (a : Nat) : WritesIn lo hi m (m.rdH a).2 := by
  intro x hx
  left
  simpa [Mach.rdH] using hx

theorem writesIn_wr (lo hi : Nat) (m : Mach) (a v : Nat) (h1 : lo ≤ a) (h2 : a < hi) :
    WritesIn lo hi m (m.wr a v) := by
  intro x hx
  have : x = a ∨ Ev.wrM x ∈ m.trace := by simpa [Mach.wr] using hx
  rcases this with h | h
  · right; subst h; exact ⟨h1, h2⟩
  · left; exact h

theorem writesIn_loadVec (lo hi : Nat) (m : Mach) (v : Nat) :
    WritesIn lo hi m (Sse.loadVec m v).2 := by
  unfold Sse.loadVec
  exact (((writesIn_rd lo hi _ _).transW (writesIn_rd lo hi _ _)).transW
    (writesIn_rd lo hi _ _)).transW (writesIn_rd lo hi _ _)

theorem writesIn_storeVec (lo hi : Nat) (m : Mach) (v : Nat) (s : List Nat)
    (h1 : lo ≤ 4 * v) (h2 : 4 * v + 4 ≤ hi) : WritesIn lo hi m (Sse.storeVec m v s) := by
  unfold Sse.storeVec
  exact (((writesIn_wr lo hi _ _ _ (by omega) (by omega)).transW
    (writesIn_wr lo hi _ _ _ (by omega) (by omega))).transW
    (writesIn_wr lo hi _ _ _ (by omega) (by omega))).transW
    (writesIn_wr lo hi _ _ _ (by omega) (by omega))

theorem writesIn_mixVec (lo hi : Nat) (m : Mach) (s : List Nat) (p f t : Nat)
    (h1 : lo ≤ 4 * t) (h2 : 4 * t + 4 ≤ hi) : WritesIn lo hi m (Sse.mixVec m s p f t).1 := by
  unfold Sse.mixVec
  exact ((writesIn_loadVec lo hi _ _).transW (writesIn_loadVec lo hi _ _)).transW
    (writesIn_storeVec lo hi _ _ _ h1 h2)

theorem writesIn_hashBlocksInner (lo hi : Nat) (h : Sse.HB)
    (h1 : lo ≤ 4 * h.t) (h2 : 4 * h.t + 8 ≤ hi) :
    WritesIn lo hi h.m (Sse.hashBlocksInner h).m := by
  unfold Sse.hashBlocksInner
  exact (writesIn_mixVec lo hi _ _ _ _ _ h1 (by omega)).transW
    (writesIn_mixVec lo hi _ _ _ _ _ (by omega) (by omega))

theorem writesIn_innerLoop (lo hi t0 : Nat) (m : Mach) (n : Nat) (x : Sse.HB)
    (hx : x.t = t0) (hm : WritesIn lo hi m x.m) (h1 : lo ≤ 4 * t0)
    (h2 : 4 * t0 + 8 * n ≤ hi) :
    WritesIn lo hi m (forLoop n (fun _ z => Sse.hashBlocksInner z) x).m
      ∧ (forLoop n (fun _ z => Sse.hashBlocksInner z) x).t = t0 + 2 * n :=
  forLoop_ind (fun k (z : Sse.HB) => WritesIn lo hi m z.m ∧ z.t = t0 + 2 * k)
    (fun _ z => Sse.hashBlocksInner z) n
    (fun k z hk hz => ⟨hz.1.transW (writesIn_hashBlocksInner lo hi z
        (by rw [hz.2]; omega) (by rw [hz.2]; omega)),
      by show z.t + 2 = t0 + 2 * (k + 1); rw [hz.2]; ring⟩)
    x ⟨hm, by rw [hx]; rfl⟩

theorem writesIn_hashBlocksSub (lo hi t0 : Nat) (m : Mach) (sub prevAddr mask : Nat)
    (x : Sse.HB) (hx : x.t = t0) (hm : WritesIn lo hi m x.m) (h1 : lo ≤ 4 * t0)
    (h2 : 4 * t0 + 8 * (sub / 8) ≤ hi) :
    WritesIn lo hi m (Sse.hashBlocksSub sub prevAddr mask x).m
      ∧ (Sse.hashBlocksSub sub prevAddr mask x).t = t0 + 2 * (sub / 8) := by
  unfold Sse.hashBlocksSub
  exact writesIn_innerLoop lo hi t0 m (sub / 8) _ hx (hm.transW (writesIn_rd lo hi _ _)) h1 h2

theorem writesIn_subLoop (lo hi t0 : Nat) (m : Mach) (sub prevAddr mask ns : Nat)
    (x : Sse.HB) (hx : x.t = t0) (hm : WritesIn lo hi m x.m) (h1 : lo ≤ 4 * t0)
    (h2 : 4 * t0 + 8 * (sub / 8) * ns ≤ hi) :
    WritesIn lo hi m (forLoop ns (fun _ y => Sse.hashBlocksSub sub prevAddr mask y) x).m :=
  (forLoop_ind (fun k (z : Sse.HB) => WritesIn lo hi m z.m ∧ z.t = t0 + 2 * (sub / 8) * k)
    (fun _ y => Sse.hashBlocksSub sub prevAddr mask y) ns
    (fun k z hk hz => by
      have hle : 8 * (sub / 8) * (k + 1) ≤ 8 * (sub / 8) * ns :=
        Nat.mul_le_mul_left _ (by omega)
      have e : 8 * (sub / 8) * (k + 1) = 8 * (sub / 8) * k + 8 * (sub / 8) := by ring
      have e2 : 4 * (t0 + 2 * (sub / 8) * k) = 4 * t0 + 8 * (sub / 8) * k := by ring
      have hs := writesIn_hashBlocksSub lo hi (t0 + 2 * (sub / 8) * k) m sub prevAddr mask z
        hz.2 hz.1 (by omega) (by omega)
      exact ⟨hs.1, by rw [hs.2]; ring⟩)
    x ⟨hm, by rw [hx]; ring⟩).1

theorem writesIn_hashBlocks (lo hi : Nat) (m : Mach) (state : List Nat)
    (blocklen sub fromAddr toAddr repetitions : Nat) (h1 : lo ≤ 4 * (toAddr / 4))
    (h2 : 4 * (toAddr / 4) + 8 * (sub / 8) * (blocklen / sub) ≤ hi) :
    WritesIn lo hi m (Sse.hashBlocks m state blocklen sub fromAddr toAddr repetitions).1 := by
  unfold Sse.hashBlocks
  exact forLoop_inv (fun x : Sse.HB => WritesIn lo hi m x.m) _
    (fun _ x hx => writesIn_subLoop lo hi (toAddr / 4) m sub _ _ (blocklen / sub)
      { x with f := fromAddr / 4, t := toAddr / 4 } rfl hx h1 h2) repetitions
    { m := m, s1 := (List.range 4).map (fun k => state.getD k 0),
      s2 := (List.range 4).map (fun k => state.getD (k + 4) 0), f := 0, t := 0, p := 0 }
    (WritesIn.reflW lo hi m)

theorem writesIn_hashMultItoState (lo hi : Nat) (env : Env) (i : Nat) (m : Mach)
    (s : List Nat) (r : Mach × List Nat) (h : Sse.hashMultItoState env i m s = some r) :
    WritesIn lo hi m r.1 := by
  unfold Sse.hashMultItoState at h
  by_cases hc : i ≥ m.completedMultiplies
  · rw [if_pos hc] at h; exact absurd h (by simp)
  · rw [if_neg hc] at h
    simp only [Option.some.injEq] at h
    rw [← h]
    exact forLoop_inv (fun x : Mach × List Nat => WritesIn lo hi m x.1)
      (fun k (ms : Mach × List Nat) =>
        ((ms.1.rdH (u32 (i * 8 + k))).2,
          ms.2.set k (ms.2.getD k 0 ^^^ (ms.1.rdH (u32 (i * 8 + k))).1)))
      (fun k x hx => hx.transW (writesIn_rdH lo hi x.1 _)) 8 (m, s) (WritesIn.reflW lo hi m)

theorem writesIn_fill (lo hi : Nat) (n start : Nat) (val : Nat → Nat) (m : Mach)
    (h1 : lo ≤ start) (h2 : start + n ≤ hi) :
    WritesIn lo hi m (forLoop n (fun i (x : Mach) => x.wr (start + i) (val i)) m) :=
  forLoop_ind (fun _ (x : Mach) => WritesIn lo hi m x)
    (fun i (x : Mach) => x.wr (start + i) (val i)) n
    (fun k x hk hx => hx.transW (writesIn_wr lo hi x _ _ (by omega) (by omega))) m
    (WritesIn.reflW lo hi m)

theorem block_le (k n nb bl : Nat) (h : n ≤ nb) :
    k * nb * bl + n * bl ≤ (k + 1) * nb * bl := by
  have : n * bl ≤ nb * bl := Nat.mul_le_mul_right _ h
  have e : (k + 1) * nb * bl = k * nb * bl + nb * bl := by ring
  omega

theorem hashWithoutPasswordStep_writes (env : Env) (c : Sse.Common) (p k : Nat) (m : Mach)
    (w : Sse.WS) (h4 : 4 ∣ c.blocklen) (hk : k + 2 ≤ c.numblocks)
    (h64 : (2 * p + 1) * c.numblocks * c.blocklen < 2 ^ 64)
    (hw : WritesIn (2 * p * c.numblocks * c.blocklen) ((2 * p + 1) * c.numblocks * c.blocklen)
      m w.m)
    (hto : w.stuck = false →
      w.toAddr = 2 * p * c.numblocks * c.blocklen + (k + 1) * c.blocklen) :
    WritesIn (2 * p * c.numblocks * c.blocklen) ((2 * p + 1) * c.numblocks * c.blocklen) m
        (Sse.hashWithoutPasswordStep env c (2 * p * c.numblocks * c.blocklen) (k + 1) w).m
      ∧ ((Sse.hashWithoutPasswordStep env c (2 * p * c.numblocks * c.blocklen) (k + 1)
            w).stuck = false →
          (Sse.hashWithoutPasswordStep env c (2 * p * c.numblocks * c.blocklen) (k + 1)
            w).toAddr = 2 * p * c.numblocks * c.blocklen + (k + 1 + 1) * c.blocklen) := by
  unfold Sse.hashWithoutPasswordStep
  by_cases hst : w.stuck = true
  · simp only [hst, if_true]
    exact ⟨hw, fun h => absurd h (by simp)⟩
  · have hsf : w.stuck = false := by simpa using hst
    have hto2 := hto hsf
    simp only [hsf, Bool.false_eq_true, if_false]
    split
    · exact ⟨hw, fun h => absurd h (by simp)⟩
    · have hb1 := block_le (2 * p) (k + 2) c.numblocks c.blocklen hk
      have e1 : (k + 2) * c.blocklen = (k + 1) * c.blocklen + c.blocklen := by ring
      have h4to : 4 ∣ w.toAddr := by
        rw [hto2]
        exact Dvd.dvd.add (Dvd.dvd.mul_left h4 _) (Dvd.dvd.mul_left h4 _)
      have hdiv : 8 * (c.blocklen / 8) * (c.blocklen / c.blocklen) ≤ c.blocklen := by
        have a1 : c.blocklen / c.blocklen ≤ 1 := by
          rcases Nat.eq_zero_or_pos c.blocklen with h0 | h0
          · rw [h0]; decide
          · rw [Nat.div_self h0]
        have a2 : 8 * (c.blocklen / 8) ≤ c.blocklen := Nat.mul_div_le _ _
        calc 8 * (c.blocklen / 8) * (c.blocklen / c.blocklen)
            ≤ 8 * (c.blocklen / 8) * 1 := Nat.mul_le_mul_left _ a1
          _ ≤ c.blocklen := by omega
      have hhb := writesIn_hashBlocks (2 * p * c.numblocks * c.blocklen)
        ((2 * p + 1) * c.numblocks * c.blocklen) w.m w.state c.blocklen c.blocklen
        (u64 (2 * p * c.numblocks * c.blocklen + u64 (c.blocklen * Sse.reversePosOf (k + 1)
          (Sse.slideWindow (k + 1) (w.mask, w.numBits)).1
          (Sse.slideWindow (k + 1) (w.mask, w.numBits)).2)))
        w.toAddr c.repetitions
        (by rw [Nat.mul_div_cancel' h4to, hto2]; omega)
        (by rw [Nat.mul_div_cancel' h4to, hto2]; omega)
      cases h1 : Sse.hashMultItoState env (k + 1) _ _ with
      | none => exact ⟨hw.transW hhb, fun h => absurd h (by simp)⟩
      | some r =>
        refine ⟨(hw.transW hhb).transW (writesIn_hashMultItoState _ _ env _ _ _ r h1), fun _ => ?_⟩
        show u64 (w.toAddr + c.blocklen) = _
        rw [hto2]
        unfold u64
        rw [Nat.mod_eq_of_lt (by omega)]
        ring

theorem hashWithoutPassword_writes (env : Env) (c : Sse.Common) (p : Nat) (m : Mach)
    (h4 : 4 ∣ c.blocklen) (hp : p < c.parallelism) (hpar : c.parallelism ≤ 2 ^ 31)
    (hnb : 1 ≤ c.numblocks)
    (h64 : 2 * c.parallelism * c.numblocks * c.blocklen < 2 ^ 64) :
    WritesIn (2 * p * c.numblocks * c.blocklen) ((2 * p + 1) * c.numblocks * c.blocklen) m
      (Sse.hashWithoutPassword env c p m).1 := by
  have hreg : (2 * p + 1) * c.numblocks * c.blocklen
      ≤ 2 * c.parallelism * c.numblocks * c.blocklen :=
    Nat.mul_le_mul_right _ (Nat.mul_le_mul_right _ (by omega))
  have hlo : 2 * p * c.numblocks * c.blocklen ≤ (2 * p + 1) * c.numblocks * c.blocklen :=
    Nat.mul_le_mul_right _ (Nat.mul_le_mul_right _ (by omega))
  have hstart : u64 (u32 (2 * p) * c.numblocks * c.blocklen)
      = 2 * p * c.numblocks * c.blocklen := by
    have : u32 (2 * p) = 2 * p := by unfold u32; exact Nat.mod_eq_of_lt (by omega)
    rw [this]; unfold u64; exact Nat.mod_eq_of_lt (by omega)
  have hb1 := block_le (2 * p) 1 c.numblocks c.blocklen hnb
  unfold Sse.hashWithoutPassword
  simp only [hstart]
  have key := forLoop_ind
    (fun k (w : Sse.WS) =>
      WritesIn (2 * p * c.numblocks * c.blocklen) ((2 * p + 1) * c.numblocks * c.blocklen)
          m w.m
        ∧ (w.stuck = false →
            w.toAddr = 2 * p * c.numblocks * c.blocklen + (k + 1) * c.blocklen))
    (fun k w => Sse.hashWithoutPasswordStep env c (2 * p * c.numblocks * c.blocklen) (k + 1) w)
    (c.numblocks - 1)
    (fun k w hk hw => hashWithoutPasswordStep_writes env c p k m w h4 (by omega) (by omega)
      hw.1 hw.2)
    { m := forLoop c.blocklen (fun i (x : Mach) => x.wr (2 * p * c.numblocks * c.blocklen + i)
            (be32dec_vect (env.hashOut (c.blocklen * 4) (c.hash.take c.hashSize) (be32enc p))
              i)) m,
      state := [1, 1, 1, 1, 1, 1, 1, 1], mask := 1, numBits := 0,
      toAddr := u64 (2 * p * c.numblocks * c.blocklen + c.blocklen), stuck := false }
    ⟨writesIn_fill _ _ _ _ _ m (le_refl _) (by omega), fun _ => by
      show u64 (2 * p * c.numblocks * c.blocklen + c.blocklen) = _
      unfold u64
      rw [Nat.mod_eq_of_lt (by omega)]
      ring⟩
  exact key.1

theorem hashWithPasswordStep_writes (env : Env) (c : Sse.Common) (p k : Nat) (m : Mach)
    (w : Sse.PS) (h4 : 4 ∣ c.blocklen) (hk : k + 1 ≤ c.numblocks)
    (h64 : (2 * p + 2) * c.numblocks * c.blocklen < 2 ^ 64)
    (hw : WritesIn ((2 * p + 1) * c.numblocks * c.blocklen)
      ((2 * p + 2) * c.numblocks * c.blocklen) m w.m)
    (hto : w.stuck = false →
      w.toAddr = (2 * p + 1) * c.numblocks * c.blocklen + k * c.blocklen) :
    WritesIn ((2 * p + 1) * c.numblocks * c.blocklen) ((2 * p + 2) * c.numblocks * c.blocklen)
        m (Sse.hashWithPasswordStep env c p ((2 * p + 1) * c.numblocks * c.blocklen) k w).m
      ∧ ((Sse.hashWithPasswordStep env c p ((2 * p + 1) * c.numblocks * c.blocklen) k
            w).stuck = false →
          (Sse.hashWithPasswordStep env c p ((2 * p + 1) * c.numblocks * c.blocklen) k
            w).toAddr = (2 * p + 1) * c.numblocks * c.blocklen + (k + 1) * c.blocklen) := by
  unfold Sse.hashWithPasswordStep
  by_cases hst : w.stuck = true
  · simp only [hst, if_true]
    exact ⟨hw, fun h => absurd h (by simp)⟩
  · have hsf : w.stuck = false := by simpa using hst
    have hto2 := hto hsf
    simp only [hsf, Bool.false_eq_true, if_false]
    split
    · exact ⟨hw, fun h => absurd h (by simp)⟩
    · have hb1 : (2 * p + 1) * c.numblocks * c.blocklen + (k + 1) * c.blocklen
          ≤ (2 * p + 2) * c.numblocks * c.blocklen :=
        block_le (2 * p + 1) (k + 1) c.numblocks c.blocklen hk
      have e1 : (k + 1) * c.blocklen = k * c.blocklen + c.blocklen := by ring
      have h4to : 4 ∣ w.toAddr := by
        rw [hto2]
        exact Dvd.dvd.add (Dvd.dvd.mul_left h4 _) (Dvd.dvd.mul_left h4 _)
      have hdiv : 8 * (c.subBlocklen / 8) * (c.blocklen / c.subBlocklen) ≤ c.blocklen := by
        have a2 : 8 * (c.subBlocklen / 8) ≤ c.subBlocklen := Nat.mul_div_le _ _
        calc 8 * (c.subBlocklen / 8) * (c.blocklen / c.subBlocklen)
            ≤ c.subBlocklen * (c.blocklen / c.subBlocklen) := Nat.mul_le_mul_right _ a2
          _ ≤ c.blocklen := Nat.mul_div_le _ _
      have hhb := writesIn_hashBlocks ((2 * p + 1) * c.numblocks * c.blocklen)
        ((2 * p + 2) * c.numblocks * c.blocklen) w.m w.state c.blocklen c.subBlocklen
        (Sse.fromAddrWithPassword c p ((2 * p + 1) * c.numblocks * c.blocklen) k
          (w.state.getD 0 0))
        w.toAddr c.repetitions
        (by rw [Nat.mul_div_cancel' h4to, hto2]; omega)
        (by rw [Nat.mul_div_cancel' h4to, hto2]; omega)
      cases h1 : Sse.hashMultItoState env k _ _ with
      | none => exact ⟨hw.transW hhb, fun h => absurd h (by simp)⟩
      | some r =>
        refine ⟨(hw.transW hhb).transW (writesIn_hashMultItoState _ _ env _ _ _ r h1), fun _ => ?_⟩
        show u64 (w.toAddr + c.blocklen) = _
        rw [hto2]
        unfold u64
        rw [Nat.mod_eq_of_lt (by omega)]
        ring

theorem hashWithPassword_writes (env : Env) (c : Sse.Common) (p : Nat) (m : Mach)
    (h4 : 4 ∣ c.blocklen) (hp : p < c.parallelism) (hpar : c.parallelism ≤ 2 ^ 31)
    (h64 : 2 * c.parallelism * c.numblocks * c.blocklen < 2 ^ 64) :
    WritesIn ((2 * p + 1) * c.numblocks * c.blocklen) ((2 * p + 2) * c.numblocks * c.blocklen)
      m (Sse.hashWithPassword env c p m).1 := by
  have hreg : (2 * p + 2) * c.numblocks * c.blocklen
      ≤ 2 * c.parallelism * c.numblocks * c.blocklen :=
    Nat.mul_le_mul_right _ (Nat.mul_le_mul_right _ (by omega))
  have hlo : (2 * p + 1) * c.numblocks * c.blocklen ≤ (2 * p + 2) * c.numblocks * c.blocklen :=
    Nat.mul_le_mul_right _ (Nat.mul_le_mul_right _ (by omega))
  have hstart : u64 (u32 (2 * p + 1) * c.numblocks * c.blocklen)
      = (2 * p + 1) * c.numblocks * c.blocklen := by
    have : u32 (2 * p + 1) = 2 * p + 1 := by unfold u32; exact Nat.mod_eq_of_lt (by omega)
    rw [this]; unfold u64; exact Nat.mod_eq_of_lt (by omega)
  unfold Sse.hashWithPassword
  simp only [hstart]
  have key := forLoop_ind
    (fun k (w : Sse.PS) =>
      WritesIn ((2 * p + 1) * c.numblocks * c.blocklen)
          ((2 * p + 2) * c.numblocks * c.blocklen) m w.m
        ∧ (w.stuck = false →
            w.toAddr = (2 * p + 1) * c.numblocks * c.blocklen + k * c.blocklen))
    (fun i w => Sse.hashWithPasswordStep env c p ((2 * p + 1) * c.numblocks * c.blocklen) i w)
    c.numblocks
    (fun k w hk hw => hashWithPasswordStep_writes env c p k m w h4 (by omega) (by omega)
      hw.1 hw.2)
    { m := m, state := [1, 1, 1, 1, 1, 1, 1, 1],
      toAddr := (2 * p + 1) * c.numblocks * c.blocklen, stuck := false }
    ⟨WritesIn.reflW _ _ m, fun _ => by
      show (2 * p + 1) * c.numblocks * c.blocklen = _
      ring⟩
  exact key.1

theorem regions_disjoint (n k1 k2 a : Nat) (hne : k1 ≠ k2)
    (h1 : k1 * n ≤ a ∧ a < (k1 + 1) * n) (h2 : k2 * n ≤ a ∧ a < (k2 + 1) * n) : False := by
  rcases Nat.lt_or_gt_of_ne hne with h | h
  · have : (k1 + 1) * n ≤ k2 * n := Nat.mul_le_mul_right _ h
    omega
  · have : (k2 + 1) * n ≤ k1 * n := Nat.mul_le_mul_right _ h
    omega

set_option maxRecDepth 100000 in
/-- C12 (as stated) fails: with `blockSize = 36` (`blocklen = 9`, not a multiple of 4),
`subBlockSize = 32`, `memSize = 1` and one worker, the level runs with 14 blocks, the
unpredictable region of worker 0 starts at word `126`, and the first block written by the
unpredictable pass is `124 .. 131`: the vector cursor `toAddr/4` rounds down, so words 124
and 125 of the resistant region are overwritten. -/
theorem C12_unaligned_block_written_outside :
    (initCommon [0, 0, 0, 0] 4 1 0 0 36 32 1 1).numblocks = 14
      ∧ (initCommon [0, 0, 0, 0] 4 1 0 0 36 32 1 1).blocklen = 9
      ∧ (2 * 0 + 1) * 14 * 9 = 126
      ∧ (writesM (Sse.hashWithPassword demoEnv (initCommon [0, 0, 0, 0] 4 1 0 0 36 32 1 1) 0
          (Sse.runWorkers
            (Sse.hashWithoutPassword demoEnv (initCommon [0, 0, 0, 0] 4 1 0 0 36 32 1 1)) 1
            (Sse.multHash demoEnv (initCommon [0, 0, 0, 0] 4 1 0 0 36 32 1 1)
              ((freshMach 0).startLevel 0 14))).1.clearTrace).1.trace).reverse.take 8
        = [124, 125, 126, 127, 128, 129, 130, 131] := by
  decide

/-- C12 (amended): at a garlic level with `numblocks ≥ 1`, `blocklen` a multiple of 4, at
most `2^31` workers and `2*parallelism*numblocks*blocklen < 2^64`, every word written by
resistant-pass worker `p` lies in `[2*p*numblocks*blocklen, (2*p+1)*numblocks*blocklen)`,
every word written by unpredictable-pass worker `p` lies in
`[(2*p+1)*numblocks*blocklen, 2*(p+1)*numblocks*blocklen)`, and the regions
`[k*numblocks*blocklen, (k+1)*numblocks*blocklen)` are pairwise disjoint. -/
theorem C12_write_regions (env : Env) (c : Sse.Common) (p : Nat) (m : Mach)
    (h4 : 4 ∣ c.blocklen) (hp : p < c.parallelism) (hpar : c.parallelism ≤ 2 ^ 31)
    (hnb : 1 ≤ c.numblocks)
    (h64 : 2 * c.parallelism * c.numblocks * c.blocklen < 2 ^ 64) :
    (∀ a, Ev.wrM a ∈ (Sse.hashWithoutPassword env c p m).1.trace →
        Ev.wrM a ∈ m.trace
          ∨ (2 * p * c.numblocks * c.blocklen ≤ a
            ∧ a < (2 * p + 1) * c.numblocks * c.blocklen))
      ∧ (∀ a, Ev.wrM a ∈ (Sse.hashWithPassword env c p m).1.trace →
        Ev.wrM a ∈ m.trace
          ∨ ((2 * p + 1) * c.numblocks * c.blocklen ≤ a
            ∧ a < (2 * p + 2) * c.numblocks * c.blocklen))
      ∧ ∀ k1 k2 a, k1 ≠ k2 →
          ¬ ((k1 * (c.numblocks * c.blocklen) ≤ a ∧ a < (k1 + 1) * (c.numblocks * c.blocklen))
            ∧ (k2 * (c.numblocks * c.blocklen) ≤ a
              ∧ a < (k2 + 1) * (c.numblocks * c.blocklen))) :=
  ⟨hashWithoutPassword_writes env c p m h4 hp hpar hnb h64,
    hashWithPassword_writes env c p m h4 hp hpar h64,
    fun k1 k2 a hne h => regions_disjoint _ k1 k2 a hne h.1 h.2⟩

/-- C12 (witness): worker 0 of a level with one block of 128 words writes only words
`128 .. 255` in its unpredictable pass. -/
theorem C12_write_regions_witness :
    (4 ∣ (initCommon [0, 0, 0, 0] 4 1 0 0 512 32 1 1).blocklen
      ∧ 0 < (initCommon [0, 0, 0, 0] 4 1 0 0 512 32 1 1).parallelism
      ∧ 1 ≤ (initCommon [0, 0, 0, 0] 4 1 0 0 512 32 1 1).numblocks)
    ∧ ∀ a, Ev.wrM a ∈ (Sse.hashWithPassword demoEnv
          (initCommon [0, 0, 0, 0] 4 1 0 0 512 32 1 1) 0 (freshMach 0)).1.trace →
      Ev.wrM a ∈ (freshMach 0).trace
        ∨ ((2 * 0 + 1) * (initCommon [0, 0, 0, 0] 4 1 0 0 512 32 1 1).numblocks
              * (initCommon [0, 0, 0, 0] 4 1 0 0 512 32 1 1).blocklen ≤ a
          ∧ a < (2 * 0 + 2) * (initCommon [0, 0, 0, 0] 4 1 0 0 512 32 1 1).numblocks
              * (initCommon [0, 0, 0, 0] 4 1 0 0 512 32 1 1).blocklen) :=
  ⟨by decide,
    (C12_write_regions demoEnv (initCommon [0, 0, 0, 0] 4 1 0 0 512 32 1 1) 0 (freshMach 0)
      (by decide) (by decide) (by decide) (by decide) (by decide)).2.1⟩

/-! ## The SIMD block mixer and the scalar definition -/

theorem list8_eq (l : List Nat) (h : l.length = 8) :
    l = [l.getD 0 0, l.getD 1 0, l.getD 2 0, l.getD 3 0, l.getD 4 0, l.getD 5 0, l.getD 6 0,
      l.getD 7 0] := by
  match l, h with
  | [_, _, _, _, _, _, _, _], _ => rfl

theorem rotateStmt_zero (s : List Nat) : Sse.rotateStmt s = [0, 0, 0, 0] := by
  unfold Sse.rotateStmt Sse.mm_srl_epi32 Sse.mm_sll_epi32 Sse.shiftRightVal Sse.shiftLeftVal
  rw [if_pos (by decide), if_pos (by decide)]
  rfl

theorem mixVec_zero (m : Mach) (s : List Nat) (p f t : Nat) :
    (Sse.mixVec m s p f t).2 = [0, 0, 0, 0] := by
  unfold Sse.mixVec
  exact rotateStmt_zero _

theorem hashBlocksInner_zero (h : Sse.HB) :
    (Sse.hashBlocksInner h).s1 = [0, 0, 0, 0] ∧ (Sse.hashBlocksInner h).s2 = [0, 0, 0, 0] :=
  ⟨mixVec_zero h.m h.s1 h.p h.f h.t,
    mixVec_zero (Sse.mixVec h.m h.s1 h.p h.f h.t).1 h.s2 (h.p + 1) (h.f + 1) (h.t + 1)⟩

theorem hashBlocks_state_zero (m : Mach) (state : List Nat)
    (blocklen subBlocklen fromAddr toAddr repetitions : Nat)
    (hrep : 1 ≤ repetitions) (hns : 1 ≤ blocklen / subBlocklen) (hsub : 1 ≤ subBlocklen / 8) :
    (Sse.hashBlocks m state blocklen subBlocklen fromAddr toAddr repetitions).2
      = [0, 0, 0, 0, 0, 0, 0, 0] := by
  obtain ⟨r, hr⟩ : ∃ r, repetitions = r + 1 := ⟨repetitions - 1, by omega⟩
  obtain ⟨n, hn⟩ : ∃ n, blocklen / subBlocklen = n + 1 := ⟨blocklen / subBlocklen - 1, by omega⟩
  obtain ⟨k, hk⟩ : ∃ k, subBlocklen / 8 = k + 1 := ⟨subBlocklen / 8 - 1, by omega⟩
  unfold Sse.hashBlocks
  simp only [hr, hn, forLoop]
  unfold Sse.hashBlocksSub
  simp only [hk, forLoop]
  rw [(hashBlocksInner_zero _).1, (hashBlocksInner_zero _).2]
  rfl

set_option maxRecDepth 100000 in
/-- C15 (failing input): the statement under `Rotate left 7` leaves 0 in every lane,
whatever the vector, because `_mm_srl_epi32` and `_mm_sll_epi32` take their count from the
low 64 bits of `_mm_set_epi32(25, 25, 25, 25)` and `_mm_set_epi32(7, 7, 7, 7)`, which
exceed 31.  So with at least one repetition, one sub-block and one group the state that
`hashBlocks` of `tigerkdf-sse.c` returns is all zeros; on a memory of ones with
`state = {1, ..., 8}`, `blocklen = subBlocklen = 8`, `fromAddr = 0`, `toAddr = 8` and one
repetition it stores zeros at words 8 .. 15, while the scalar loop of the specification
gives `rotl7((state[k] + 1) XOR 1)`. -/
theorem C15_simd_rotation_leaves_zero :
    (∀ s, Sse.rotateStmt s = [0, 0, 0, 0])
      ∧ (∀ m state blocklen subBlocklen fromAddr toAddr repetitions,
          1 ≤ repetitions → 1 ≤ blocklen / subBlocklen → 1 ≤ subBlocklen / 8 →
          (Sse.hashBlocks m state blocklen subBlocklen fromAddr toAddr repetitions).2
            = [0, 0, 0, 0, 0, 0, 0, 0])
      ∧ (Sse.hashBlocks (freshMach 1) [1, 2, 3, 4, 5, 6, 7, 8] 8 8 0 8 1).2
          = [0, 0, 0, 0, 0, 0, 0, 0]
      ∧ (List.range 8).map (fun k =>
            (Sse.hashBlocks (freshMach 1) [1, 2, 3, 4, 5, 6, 7, 8] 8 8 0 8 1).1.mem (8 + k))
          = [0, 0, 0, 0, 0, 0, 0, 0]
      ∧ (Scalar.hashBlocks (freshMach 1).mem [1, 2, 3, 4, 5, 6, 7, 8] 8 8 0 8 1).2
          = [384, 256, 640, 512, 896, 768, 1152, 1024]
      ∧ (List.range 8).map (fun k =>
            (Scalar.hashBlocks (freshMach 1).mem [1, 2, 3, 4, 5, 6, 7, 8] 8 8 0 8 1).1 (8 + k))
          = [384, 256, 640, 512, 896, 768, 1152, 1024] :=
  ⟨rotateStmt_zero, hashBlocks_state_zero, by decide, by decide, by decide, by decide⟩

/-! ## The two bit-reversal routines -/

theorem testBit_u32 (x j : Nat) : (u32 x).testBit j = (decide (j < 32) && x.testBit j) := by
  unfold u32; rw [Nat.testBit_mod_two_pow]

theorem testBit_hi (x : Nat) (hx : x < 2 ^ 32) (k : Nat) (hk : 32 ≤ k) : x.testBit k = false :=
  Nat.testBit_lt_two_pow (lt_of_lt_of_le hx (Nat.pow_le_pow_right (by decide) hk))

theorem testBit_mask (M : Nat) (P : Nat → Bool) (hM : M < 2 ^ 32)
    (h : ∀ j, j < 32 → M.testBit j = P j) (j : Nat) :
    M.testBit j = (decide (j < 32) && P j) := by
  by_cases hj : j < 32
  · simp [hj, h j hj]
  · simp [hj, testBit_hi M hM j (by omega)]

theorem testBit_ff (j : Nat) : Nat.testBit 0xff j = (decide (j < 32) && decide (j < 8)) :=
  testBit_mask _ (fun j => decide (j < 8)) (by decide) (by decide) j

theorem testBit_ff00 (j : Nat) :
    Nat.testBit 0xff00 j = (decide (j < 32) && decide (8 ≤ j ∧ j < 16)) :=
  testBit_mask _ (fun j => decide (8 ≤ j ∧ j < 16)) (by decide) (by decide) j

theorem testBit_0f (j : Nat) :
    Nat.testBit 0x0f0f0f0f j = (decide (j < 32) && decide (j % 8 < 4)) :=
  testBit_mask _ (fun j => decide (j % 8 < 4)) (by decide) (by decide) j

theorem testBit_f0 (j : Nat) :
    Nat.testBit 0xf0f0f0f0 j = (decide (j < 32) && decide (4 ≤ j % 8)) :=
  testBit_mask _ (fun j => decide (4 ≤ j % 8)) (by decide) (by decide) j

theorem testBit_33 (j : Nat) :
    Nat.testBit 0x33333333 j = (decide (j < 32) && decide (j % 4 < 2)) :=
  testBit_mask _ (fun j => decide (j % 4 < 2)) (by decide) (by decide) j

theorem testBit_cc (j : Nat) :
    Nat.testBit 0xcccccccc j = (decide (j < 32) && decide (2 ≤ j % 4)) :=
  testBit_mask _ (fun j => decide (2 ≤ j % 4)) (by decide) (by decide) j

theorem testBit_55 (j : Nat) :
    Nat.testBit 0x55555555 j = (decide (j < 32) && decide (j % 2 < 1)) :=
  testBit_mask _ (fun j => decide (j % 2 < 1)) (by decide) (by decide) j

theorem testBit_aa (j : Nat) :
    Nat.testBit 0xaaaaaaaa j = (decide (j < 32) && decide (1 ≤ j % 2)) :=
  testBit_mask _ (fun j => decide (1 ≤ j % 2)) (by decide) (by decide) j

theorem bswap_32_testBit (x : Nat) (hx : x < 2 ^ 32) (j : Nat) :
    (Sse.bswap_32 x).testBit j = (decide (j < 32) && x.testBit (8 * (3 - j / 8) + j % 8)) := by
  unfold Sse.bswap_32
  have hhi := testBit_hi x hx
  by_cases hj : j < 32
  · interval_cases j <;>
      simp [-Nat.testBit_zero, testBit_u32, Nat.testBit_or, Nat.testBit_and,
        Nat.testBit_shiftLeft, Nat.testBit_shiftRight, testBit_ff, testBit_ff00, hhi]
  · have h1 : ¬ (j < 8) := by omega
    have h2 : ¬ (j < 16) := by omega
    have h3 := hhi (8 + j) (by omega)
    have h4 := hhi (24 + j) (by omega)
    have h5 : ¬ (j - 8 < 16) := by omega
    simp [-Nat.testBit_zero, testBit_u32, Nat.testBit_or, Nat.testBit_and,
      Nat.testBit_shiftLeft, Nat.testBit_shiftRight, testBit_ff, testBit_ff00, hj, h1, h2, h3,
      h4, h5]

theorem swap4_testBit (y j : Nat) :
    (u32 ((y &&& 0x0f0f0f0f) <<< 4) ||| ((y &&& 0xf0f0f0f0) >>> 4)).testBit j
      = (decide (j < 32) && y.testBit (if j % 8 < 4 then j + 4 else j - 4)) := by
  by_cases hj : j < 32
  · interval_cases j <;>
      simp [-Nat.testBit_zero, testBit_u32, Nat.testBit_or, Nat.testBit_and,
        Nat.testBit_shiftLeft, Nat.testBit_shiftRight, testBit_0f, testBit_f0]
  · have h1 : ¬ (4 + j < 32) := by omega
    simp [-Nat.testBit_zero, testBit_u32, Nat.testBit_or, Nat.testBit_and,
      Nat.testBit_shiftLeft, Nat.testBit_shiftRight, testBit_f0, hj, h1]

theorem swap2_testBit (y j : Nat) :
    (u32 ((y &&& 0x33333333) <<< 2) ||| ((y &&& 0xcccccccc) >>> 2)).testBit j
      = (decide (j < 32) && y.testBit (if j % 4 < 2 then j + 2 else j - 2)) := by
  by_cases hj : j < 32
  · interval_cases j <;>
      simp [-Nat.testBit_zero, testBit_u32, Nat.testBit_or, Nat.testBit_and,
        Nat.testBit_shiftLeft, Nat.testBit_shiftRight, testBit_33, testBit_cc]
  · have h1 : ¬ (2 + j < 32) := by omega
    simp [-Nat.testBit_zero, testBit_u32, Nat.testBit_or, Nat.testBit_and,
      Nat.testBit_shiftLeft, Nat.testBit_shiftRight, testBit_cc, hj, h1]

theorem swap1_testBit (y j : Nat) :
    (u32 ((y &&& 0x55555555) <<< 1) ||| ((y &&& 0xaaaaaaaa) >>> 1)).testBit j
      = (decide (j < 32) && y.testBit (if j % 2 < 1 then j + 1 else j - 1)) := by
  by_cases hj : j < 32
  · interval_cases j <;>
      simp [-Nat.testBit_zero, testBit_u32, Nat.testBit_or, Nat.testBit_and,
        Nat.testBit_shiftLeft, Nat.testBit_shiftRight, testBit_55, testBit_aa]
  · have h1 : ¬ (1 + j < 32) := by omega
    simp [-Nat.testBit_zero, testBit_u32, Nat.testBit_or, Nat.testBit_and,
      Nat.testBit_shiftLeft, Nat.testBit_shiftRight, testBit_aa, hj, h1]

theorem sse_reverse_testBit (x n : Nat) (hx : x < 2 ^ 32) (hn : n ≤ 32) (j : Nat) :
    (Sse.reverse x n).testBit j = (decide (j < n) && x.testBit (n - 1 - j)) := by
  by_cases h0 : n = 0
  · subst h0; simp [Sse.reverse]
  · unfold Sse.reverse
    simp only [h0, if_false]
    rw [Nat.testBit_shiftRight, swap1_testBit, swap2_testBit, swap4_testBit,
      bswap_32_testBit x hx]
    by_cases hj : j < n
    · have h1 : 32 - n + j < 32 := by omega
      obtain ⟨k, hk⟩ : ∃ k, k = 32 - n + j := ⟨_, rfl⟩
      have h2 : n - 1 - j = 31 - k := by omega
      rw [← hk] at h1 ⊢
      rw [h2]
      interval_cases k <;> simp [-Nat.testBit_zero, hj]
    · have h1 : ¬ (32 - n + j < 32) := by omega
      simp [hj, h1]

theorem ref_reverse_loop (x : Nat) : ∀ n, n ≤ 32 →
    (forLoop n (fun _ (rv : Nat × Nat) => (u32 (rv.1 <<< 1) ||| (rv.2 &&& 1), rv.2 >>> 1))
        (0, x)).2 = x >>> n
      ∧ ∀ j, (forLoop n (fun _ (rv : Nat × Nat) =>
          (u32 (rv.1 <<< 1) ||| (rv.2 &&& 1), rv.2 >>> 1)) (0, x)).1.testBit j
          = (decide (j < n) && x.testBit (n - 1 - j)) := by
  intro n
  induction n with
  | zero => intro _; simp [forLoop]
  | succ n ih =>
    intro hn
    obtain ⟨hv, hr⟩ := ih (by omega)
    refine ⟨?_, ?_⟩
    · show (forLoop n _ (0, x)).2 >>> 1 = _
      rw [hv, ← Nat.shiftRight_add]
    · intro j
      show (u32 ((forLoop n _ (0, x)).1 <<< 1) ||| ((forLoop n _ (0, x)).2 &&& 1)).testBit j = _
      rw [hv, Nat.testBit_or, testBit_u32, Nat.testBit_shiftLeft, Nat.testBit_and]
      cases j with
      | zero =>
        have h1 : Nat.testBit 1 0 = true := by decide
        simp [-Nat.testBit_zero, Nat.testBit_shiftRight, h1]
      | succ j =>
        rw [Nat.add_sub_cancel, hr j]
        have h1 : Nat.testBit 1 (j + 1) = false := by
          rw [Nat.testBit_succ]; simp
        have h2 : n - (j + 1) = n - 1 - j := by omega
        by_cases hj : j < n
        · have h3 : j + 1 < 32 := by omega
          simp [h1, h2, hj, h3]
        · simp [h1, hj]

theorem ref_reverse_testBit (x n : Nat) (hn : n ≤ 32) (j : Nat) :
    (Ref.reverse x n).testBit j = (decide (j < n) && x.testBit (n - 1 - j)) :=
  (ref_reverse_loop x n hn).2 j

/-- C27: for every 32-bit `x` and every `n ≤ 32`, `reverse(x, n)` of `tigerkdf-sse.c`
equals `reverse(x, n)` of `tigerkdf-ref.c`, and bit `j` of both is bit `n - 1 - j` of `x`
when `j < n` and 0 otherwise. -/
theorem C27_bit_reversals_agree (x n : Nat) (hx : x < 2 ^ 32) (hn : n ≤ 32) :
    Sse.reverse x n = Ref.reverse x n
      ∧ (∀ j, (Sse.reverse x n).testBit j = (decide (j < n) && x.testBit (n - 1 - j)))
      ∧ ∀ j, (Ref.reverse x n).testBit j = (decide (j < n) && x.testBit (n - 1 - j)) := by
  refine ⟨?_, sse_reverse_testBit x n hx hn, ref_reverse_testBit x n hn⟩
  apply Nat.eq_of_testBit_eq
  intro j
  rw [sse_reverse_testBit x n hx hn, ref_reverse_testBit x n hn]

/-- C27 at `x = 0x80000001`, `n = 32` and at `x = 6`, `n = 3`: both routines return
`0x80000001` and `3`. -/
theorem C27_bit_reversals_agree_witness :
    ((0x80000001 : Nat) < 2 ^ 32 ∧ 32 ≤ 32)
      ∧ Sse.reverse 0x80000001 32 = Ref.reverse 0x80000001 32
      ∧ Sse.reverse 6 3 = 3 ∧ Ref.reverse 6 3 = 3 :=
  ⟨by decide, (C27_bit_reversals_agree 0x80000001 32 (by decide) (by decide)).1, by decide,
    by decide⟩

/-! ## Window tracking and distinct sources within a window -/

theorem windowAt_log (i : Nat) (h1 : 1 ≤ i) (hi : i < 2 ^ 31) :
    Sse.windowAt i = (2 ^ Nat.log 2 i, Nat.log 2 i) := by
  obtain ⟨k, rfl⟩ : ∃ k, i = k + 1 := ⟨i - 1, by omega⟩
  obtain ⟨hm, hle, hlt, _⟩ := windowAt_inv k hi
  have hlog : Nat.log 2 (k + 1) = (Sse.windowAt (k + 1)).2 := by
    apply Nat.log_eq_of_pow_le_of_lt_pow
    · rw [← hm]; exact hle
    · rw [pow_succ, ← hm]; omega
  rw [hlog, ← hm]

/-- C29: in the block loop of `hashWithoutPassword` entered with `mask = 1` and
`numBits = 0`, after the window update of iteration `i` (`1 ≤ i < numblocks ≤ 2^30`) of a
worker that is not waiting, `numBits = floor(log2 i)` and `mask = 2^numBits`, the highest
power of two not above `i`. -/
theorem C29_window_invariant (env : Env) (c : Sse.Common) (p : Nat) (m : Mach) (i : Nat)
    (h1 : 1 ≤ i) (hi : i < c.numblocks) (hnb : c.numblocks ≤ 2 ^ 30)
    (hrun : (forLoop i (fun k w => Sse.hashWithoutPasswordStep env c
        (u64 (u32 (2 * p) * c.numblocks * c.blocklen)) (k + 1) w)
      (Sse.hashWithoutPasswordInit env c p m)).stuck = false) :
    (forLoop i (fun k w => Sse.hashWithoutPasswordStep env c
        (u64 (u32 (2 * p) * c.numblocks * c.blocklen)) (k + 1) w)
      (Sse.hashWithoutPasswordInit env c p m)).numBits = Nat.log 2 i
    ∧ (forLoop i (fun k w => Sse.hashWithoutPasswordStep env c
        (u64 (u32 (2 * p) * c.numblocks * c.blocklen)) (k + 1) w)
      (Sse.hashWithoutPasswordInit env c p m)).mask = 2 ^ Nat.log 2 i
    ∧ 2 ^ Nat.log 2 i ≤ i ∧ i < 2 * 2 ^ Nat.log 2 i
    ∧ Sse.slideWindow i (Sse.windowAt (i - 1)) = (2 ^ Nat.log 2 i, Nat.log 2 i) := by
  have hw := hashWithoutPasswordLoop_window env c
    (u64 (u32 (2 * p) * c.numblocks * c.blocklen)) (Sse.hashWithoutPasswordInit env c p m)
    rfl rfl i hrun
  have hlog := windowAt_log i h1 (by omega)
  rw [hlog] at hw
  have h2 := congrArg Prod.fst hw
  have h3 := congrArg Prod.snd hw
  refine ⟨h3, h2, Nat.pow_log_le_self 2 (by omega), ?_, ?_⟩
  · have := Nat.lt_pow_succ_log_self (by decide : 1 < 2) i
    rw [pow_succ] at this; omega
  · obtain ⟨k, rfl⟩ : ∃ k, i = k + 1 := ⟨i - 1, by omega⟩
    rw [← hlog]; rfl

set_option maxRecDepth 100000 in
/-- C29 at `memSize = 1`, `blockSize = 32`, `parallelism = 4` (4 blocks per worker), worker
0 after the pacer has run, iteration 3: `numBits = 1` and `mask = 2`. -/
theorem C29_window_invariant_witness :
    ((1 ≤ 3 ∧ 3 < (initCommon [0, 0, 0, 0] 4 1 0 0 32 32 4 1).numblocks
        ∧ (initCommon [0, 0, 0, 0] 4 1 0 0 32 32 4 1).numblocks ≤ 2 ^ 30)
      ∧ (forLoop 3 (fun k w => Sse.hashWithoutPasswordStep demoEnv
            (initCommon [0, 0, 0, 0] 4 1 0 0 32 32 4 1)
            (u64 (u32 (2 * 0) * (initCommon [0, 0, 0, 0] 4 1 0 0 32 32 4 1).numblocks
              * (initCommon [0, 0, 0, 0] 4 1 0 0 32 32 4 1).blocklen)) (k + 1) w)
          (Sse.hashWithoutPasswordInit demoEnv (initCommon [0, 0, 0, 0] 4 1 0 0 32 32 4 1) 0
            (Sse.multHash demoEnv (initCommon [0, 0, 0, 0] 4 1 0 0 32 32 4 1)
              (freshMach 0)))).stuck = false)
      ∧ (forLoop 3 (fun k w => Sse.hashWithoutPasswordStep demoEnv
            (initCommon [0, 0, 0, 0] 4 1 0 0 32 32 4 1)
            (u64 (u32 (2 * 0) * (initCommon [0, 0, 0, 0] 4 1 0 0 32 32 4 1).numblocks
              * (initCommon [0, 0, 0, 0] 4 1 0 0 32 32 4 1).blocklen)) (k + 1) w)
          (Sse.hashWithoutPasswordInit demoEnv (initCommon [0, 0, 0, 0] 4 1 0 0 32 32 4 1) 0
            (Sse.multHash demoEnv (initCommon [0, 0, 0, 0] 4 1 0 0 32 32 4 1)
              (freshMach 0)))).numBits = Nat.log 2 3
      ∧ Nat.log 2 3 = 1 :=
  ⟨⟨by decide, by decide⟩,
    (C29_window_invariant demoEnv (initCommon [0, 0, 0, 0] 4 1 0 0 32 32 4 1) 0
      (Sse.multHash demoEnv (initCommon [0, 0, 0, 0] 4 1 0 0 32 32 4 1) (freshMach 0)) 3
      (by decide) (by decide) (by decide) (by decide)).1,
    Nat.log_eq_of_pow_le_of_lt_pow (by decide) (by decide)⟩

theorem testBit_top (k i : Nat) (h1 : 2 ^ k ≤ i) (h2 : i < 2 ^ (k + 1)) :
    i.testBit k = true := by
  rw [Nat.testBit_to_div_mod]
  have h3 : i / 2 ^ k = 1 :=
    Nat.div_eq_of_lt_le (by simpa using h1) (by rw [pow_succ] at h2; omega)
  simp [h3]

theorem reverse_injOn_window (k i j : Nat) (hk : k ≤ 32) (hi : 2 ^ k ≤ i) (hi2 : i < 2 ^ (k + 1))
    (hj : 2 ^ k ≤ j) (hj2 : j < 2 ^ (k + 1)) (hx : i < 2 ^ 32) (hy : j < 2 ^ 32)
    (h : Sse.reverse i k = Sse.reverse j k) : i = j := by
  apply Nat.eq_of_testBit_eq
  intro b
  rcases Nat.lt_trichotomy b k with hb | hb | hb
  · have h1 := sse_reverse_testBit i k hx hk (k - 1 - b)
    have h2 := sse_reverse_testBit j k hy hk (k - 1 - b)
    rw [h] at h1
    rw [h1] at h2
    have h3 : k - 1 - b < k := by omega
    have h4 : k - 1 - (k - 1 - b) = b := by omega
    simpa [h3, h4] using h2
  · subst hb
    rw [testBit_top b i hi hi2, testBit_top b j hj hj2]
  · rw [Nat.testBit_lt_two_pow (lt_of_lt_of_le hi2 (Nat.pow_le_pow_right (by decide) hb)),
      Nat.testBit_lt_two_pow (lt_of_lt_of_le hj2 (Nat.pow_le_pow_right (by decide) hb))]

/-- C28: in the resistant pass, two different block indices `i`, `j` of the same window
`[2^k, 2^(k+1))` (below `numblocks ≤ 2^30`) are processed with `mask = 2^k`, `numBits = k`
and get different source blocks `reversePos`; the source blocks of a window are distinct
modulo `2^k`, and each is an earlier block. -/
theorem C28_window_sources_distinct (k i j numblocks : Nat) (hnb : numblocks ≤ 2 ^ 30)
    (hi : 2 ^ k ≤ i) (hi2 : i < 2 ^ (k + 1)) (hin : i < numblocks)
    (hj : 2 ^ k ≤ j) (hj2 : j < 2 ^ (k + 1)) (hjn : j < numblocks) (hne : i ≠ j) :
    Sse.windowAt i = (2 ^ k, k) ∧ Sse.windowAt j = (2 ^ k, k)
      ∧ Sse.reversePosOf i (Sse.windowAt i).1 (Sse.windowAt i).2
          ≠ Sse.reversePosOf j (Sse.windowAt j).1 (Sse.windowAt j).2
      ∧ Sse.reversePosOf i (Sse.windowAt i).1 (Sse.windowAt i).2 % 2 ^ k
          ≠ Sse.reversePosOf j (Sse.windowAt j).1 (Sse.windowAt j).2 % 2 ^ k
      ∧ Sse.reversePosOf i (Sse.windowAt i).1 (Sse.windowAt i).2 < i
      ∧ Sse.reversePosOf j (Sse.windowAt j).1 (Sse.windowAt j).2 < j := by
  have hpos : 1 ≤ 2 ^ k := Nat.one_le_two_pow
  have hk : k < 30 := by
    by_contra hc
    have : 2 ^ 30 ≤ 2 ^ k := Nat.pow_le_pow_right (by decide) (by omega)
    omega
  have hli : Nat.log 2 i = k := Nat.log_eq_of_pow_le_of_lt_pow hi hi2
  have hlj : Nat.log 2 j = k := Nat.log_eq_of_pow_le_of_lt_pow hj hj2
  have hwi : Sse.windowAt i = (2 ^ k, k) := by
    rw [windowAt_log i (by omega) (by omega), hli]
  have hwj : Sse.windowAt j = (2 ^ k, k) := by
    rw [windowAt_log j (by omega) (by omega), hlj]
  have hk8 : u8 k = k := Nat.mod_eq_of_lt (by omega)
  have hrne : Sse.reverse i k ≠ Sse.reverse j k := fun h =>
    hne (reverse_injOn_window k i j (by omega) hi hi2 hj hj2 (by omega) (by omega) h)
  have h2k : 2 ^ k ≤ 2 ^ 29 := Nat.pow_le_pow_right (by decide) (by omega)
  have hmod : ∀ x, x < 2 ^ k → u32 (x + 2 ^ k) = x + 2 ^ k := fun x hx =>
    Nat.mod_eq_of_lt (by omega)
  have hval : ∀ x, 2 ^ k ≤ x → x < 2 ^ (k + 1) →
      Sse.reversePosOf x (2 ^ k) k % 2 ^ k = Sse.reverse x k
        ∧ Sse.reversePosOf x (2 ^ k) k < x := by
    intro x hx hx2
    have hr : Sse.reverse x k < 2 ^ k := reverse_lt x k (by omega)
    unfold Sse.reversePosOf
    simp only [hk8, hmod _ hr]
    split
    · refine ⟨?_, by assumption⟩
      rw [Nat.add_mod_right, Nat.mod_eq_of_lt hr]
    · exact ⟨Nat.mod_eq_of_lt hr, by omega⟩
  rw [hwi, hwj]
  have hmne : Sse.reversePosOf i (2 ^ k) k % 2 ^ k ≠ Sse.reversePosOf j (2 ^ k) k % 2 ^ k := by
    rw [(hval i hi hi2).1, (hval j hj hj2).1]; exact hrne
  exact ⟨rfl, rfl, fun h => hmne (by rw [h]), hmne, (hval i hi hi2).2, (hval j hj hj2).2⟩

/-- C28 at the window `[4, 8)` with `numblocks = 8`: blocks 5 and 6 read the source blocks
2 and 5. -/
theorem C28_window_sources_distinct_witness :
    ((8 : Nat) ≤ 2 ^ 30 ∧ 2 ^ 2 ≤ 5 ∧ 5 < 2 ^ (2 + 1) ∧ 5 < 8 ∧ 2 ^ 2 ≤ 6 ∧ 6 < 2 ^ (2 + 1)
        ∧ 6 < 8 ∧ 5 ≠ 6)
      ∧ Sse.reversePosOf 5 (Sse.windowAt 5).1 (Sse.windowAt 5).2
          ≠ Sse.reversePosOf 6 (Sse.windowAt 6).1 (Sse.windowAt 6).2
      ∧ Sse.reversePosOf 5 (Sse.windowAt 5).1 (Sse.windowAt 5).2 = 2
      ∧ Sse.reversePosOf 6 (Sse.windowAt 6).1 (Sse.windowAt 6).2 = 5 :=
  ⟨by decide, (C28_window_sources_distinct 2 5 6 8 (by decide) (by decide) (by decide)
      (by decide) (by decide) (by decide) (by decide) (by decide)).2.2.1, by decide, by decide⟩

/-! ## The pacer round is reversible -/

theorem multRound_eq_stmts (s : List Nat) (hs : s.length = 8) :
    Sse.multRound s = Sse.multStmt 7 (Sse.multStmt 6 (Sse.multStmt 5 (Sse.multStmt 4
      (Sse.multStmt 3 (Sse.multStmt 2 (Sse.multStmt 1 (Sse.multStmt 0 s))))))) := by
  rw [list8_eq s hs]
  rfl

theorem list_ext_getD (s t : List Nat) (hl : s.length = t.length)
    (h : ∀ i, s.getD i 0 = t.getD i 0) : s = t := by
  apply List.ext_getElem hl
  intro i h1 h2
  have := h i
  rwa [List.getD_eq_getElem _ _ h1, List.getD_eq_getElem _ _ h2] at this

theorem words8_getD (s : List Nat) (hs : s ∈ Words8) (i : Nat) : s.getD i 0 < 2 ^ 32 :=
  getD_lt_of_forall s _ hs.2 (by decide) i

theorem multStmt_bijOn (k : Nat) (hk : k < 8) : Set.BijOn (Sse.multStmt k) Words8 Words8 := by
  have ha : (k + 1) % 8 ≠ k := by omega
  have hb : (k + 2) % 8 ≠ k := by omega
  have hc : ∀ s : List Nat, s ∈ Words8 → s.getD ((k + 2) % 8) 0 >>> 1 < 2 ^ 32 := by
    intro s hs
    rw [Nat.shiftRight_eq_div_pow]
    exact lt_of_le_of_lt (Nat.div_le_self _ _) (words8_getD s hs _)
  have hval : ∀ s : List Nat, Sse.multStmt k s
      = s.set k (Ref.chainStep (s.getD ((k + 1) % 8) 0) (s.getD ((k + 2) % 8) 0 >>> 1)
          (s.getD k 0)) := fun _ => rfl
  have hset : ∀ (s : List Nat) (y : Nat), s ∈ Words8 → y < 2 ^ 32 → s.set k y ∈ Words8 := by
    intro s y hs hy
    refine ⟨by rw [List.length_set]; exact hs.1, ?_⟩
    intro x hx
    rcases List.mem_or_eq_of_mem_set hx with h | h
    · exact hs.2 x h
    · rw [h]; exact hy
  refine ⟨?_, ?_, ?_⟩
  · intro s hs
    rw [hval]
    exact hset s _ hs (chainStep_lt _ _ _ (hc s hs))
  · intro s hs t ht hst
    rw [hval, hval] at hst
    have hks : k < s.length := by rw [hs.1]; exact hk
    have hkt : k < t.length := by rw [ht.1]; exact hk
    have hget : ∀ i, i ≠ k → s.getD i 0 = t.getD i 0 := by
      intro i hi
      have := congrArg (fun l => l.getD i 0) hst
      simp only [getD_set _ _ _ _ hks, getD_set _ _ _ _ hkt, if_neg hi] at this
      exact this
    have hkk := congrArg (fun l => l.getD k 0) hst
    simp only [getD_set _ _ _ _ hks, getD_set _ _ _ _ hkt, if_true] at hkk
    rw [hget _ ha, hget _ hb] at hkk
    have hinj := (chainStep_bijOn (t.getD ((k + 1) % 8) 0) (t.getD ((k + 2) % 8) 0 >>> 1)
      (hc t ht)).injOn
    have hk2 : s.getD k 0 = t.getD k 0 :=
      hinj (words8_getD s hs k) (words8_getD t ht k) hkk
    apply list_ext_getD s t (by rw [hs.1, ht.1])
    intro i
    by_cases hi : i = k
    · rw [hi]; exact hk2
    · exact hget i hi
  · intro t ht
    have hkt : k < t.length := by rw [ht.1]; exact hk
    obtain ⟨x, hx, hxe⟩ := (chainStep_bijOn (t.getD ((k + 1) % 8) 0)
      (t.getD ((k + 2) % 8) 0 >>> 1) (hc t ht)).surjOn (words8_getD t ht k)
    have hs : t.set k x ∈ Words8 := hset t x ht hx
    have hks : k < (t.set k x).length := by rw [hs.1]; exact hk
    refine ⟨t.set k x, hs, ?_⟩
    rw [hval]
    apply list_ext_getD _ _ (by rw [List.length_set, hs.1, ht.1])
    intro i
    rw [getD_set _ _ _ _ hks, getD_set _ _ _ _ hkt, getD_set _ _ _ _ hkt,
      getD_set _ _ _ _ hkt, if_neg ha, if_neg hb, if_pos rfl, hxe]
    by_cases hi : i = k
    · rw [if_pos hi, hi]
    · rw [if_neg hi, getD_set _ _ _ _ hkt, if_neg hi]

/-- C26: the body of the `j` loop of `multHash` (the eight statements in sequence,
statements 6 and 7 using the updated `state[0]` and `state[1]`) is a bijection on 8-tuples
of 32-bit words, and so is each of its statements. -/
theorem C26_pacer_round_bijective :
    Set.BijOn Sse.multRound Words8 Words8
      ∧ (∀ s, s.length = 8 → Sse.multRound s
          = Sse.multStmt 7 (Sse.multStmt 6 (Sse.multStmt 5 (Sse.multStmt 4
              (Sse.multStmt 3 (Sse.multStmt 2 (Sse.multStmt 1 (Sse.multStmt 0 s))))))))
      ∧ ∀ k, k < 8 → Set.BijOn (Sse.multStmt k) Words8 Words8 := by
  refine ⟨?_, multRound_eq_stmts, multStmt_bijOn⟩
  have h := (multStmt_bijOn 7 (by decide)).comp ((multStmt_bijOn 6 (by decide)).comp
    ((multStmt_bijOn 5 (by decide)).comp ((multStmt_bijOn 4 (by decide)).comp
    ((multStmt_bijOn 3 (by decide)).comp ((multStmt_bijOn 2 (by decide)).comp
    ((multStmt_bijOn 1 (by decide)).comp (multStmt_bijOn 0 (by decide))))))))
  refine h.congr ?_
  intro s hs
  exact (multRound_eq_stmts s hs.1).symm

/-! ## What the block mixer reads and writes -/

theorem touches_refl (R W C : Nat → Prop) (m : Mach) (hC : ∀ x, ¬ C x) : Touches R W C m m :=
  ⟨⟨[], rfl, fun _ he => absurd he (List.not_mem_nil _), fun x hx => absurd hx (hC x)⟩,
    fun _ _ => rfl⟩

theorem touches_trans {R W C1 C2 : Nat → Prop} (C : Nat → Prop) {a b c : Mach}
    (h1 : Touches R W C1 a b) (h2 : Touches R W C2 b c) (hC : ∀ x, C x → C1 x ∨ C2 x) :
    Touches R W C a c := by
  obtain ⟨⟨e1, ht1, hev1, hc1⟩, hm1⟩ := h1
  obtain ⟨⟨e2, ht2, hev2, hc2⟩, hm2⟩ := h2
  refine ⟨⟨e2 ++ e1, by rw [ht2, ht1, List.append_assoc], ?_, ?_⟩, ?_⟩
  · intro e he
    rcases List.mem_append.1 he with h | h
    · exact hev2 e h
    · exact hev1 e h
  · intro x hx
    rcases hC x hx with h | h
    · exact List.mem_append.2 (Or.inr (hc1 x h))
    · exact List.mem_append.2 (Or.inl (hc2 x h))
  · intro x hx
    rw [hm2 x hx, hm1 x hx]

theorem touches_mono {R W C R2 W2 C2 : Nat → Prop} {a b : Mach} (h : Touches R W C a b)
    (hR : ∀ x, R x → R2 x) (hW : ∀ x, W x → W2 x) (hC : ∀ x, C2 x → C x) :
    Touches R2 W2 C2 a b := by
  obtain ⟨⟨e, ht, hev, hc⟩, hm⟩ := h
  refine ⟨⟨e, ht, ?_, fun x hx => hc x (hC x hx)⟩, fun x hx => hm x (fun hw => hx (hW x hw))⟩
  intro ev hev2
  rcases hev ev hev2 with ⟨x, h1, h2⟩ | ⟨x, h1, h2⟩
  · exact Or.inl ⟨x, h1, hR x h2⟩
  · exact Or.inr ⟨x, h1, hW x h2⟩

theorem touches_rd (R W C : Nat → Prop) (m : Mach) (a : Nat) (hR : R a) (hC : ∀ x, ¬ C x) :
    Touches R W C m (m.rd a).2 :=
  ⟨⟨[Ev.rdM a], rfl, fun _ he => Or.inl ⟨a, List.mem_singleton.1 he, hR⟩,
    fun x hx => absurd hx (hC x)⟩, fun _ _ => rfl⟩

theorem touches_wr (R W C : Nat → Prop) (m : Mach) (a v : Nat) (hW : W a)
    (hC : ∀ x, C x → x = a) : Touches R W C m (m.wr a v) := by
  refine ⟨⟨[Ev.wrM a], rfl, fun _ he => Or.inr ⟨a, List.mem_singleton.1 he, hW⟩, ?_⟩, ?_⟩
  · intro x hx
    rw [hC x hx]
    exact List.mem_singleton.2 rfl
  · intro x hx
    have hne : x ≠ a := fun h => hx (h ▸ hW)
    show (if x = a then v else m.mem x) = m.mem x
    rw [if_neg hne]

theorem touches_loadVec (R W C : Nat → Prop) (m : Mach) (v : Nat)
    (hR : ∀ k, k < 4 → R (4 * v + k)) (hC : ∀ x, ¬ C x) :
    Touches R W C m (Sse.loadVec m v).2 := by
  unfold Sse.loadVec
  have hf : ∀ x, C x → C x ∨ C x := fun x hx => Or.inl hx
  exact touches_trans C (touches_trans C (touches_trans C
    (touches_rd R W C _ _ (hR 0 (by decide)) hC)
    (touches_rd R W C _ _ (hR 1 (by decide)) hC) hf)
    (touches_rd R W C _ _ (hR 2 (by decide)) hC) hf)
    (touches_rd R W C _ _ (hR 3 (by decide)) hC) hf

theorem touches_storeVec (R W : Nat → Prop) (m : Mach) (v : Nat) (s : List Nat)
    (hW : ∀ k, k < 4 → W (4 * v + k)) :
    Touches R W (fun a => 4 * v ≤ a ∧ a < 4 * v + 4) m (Sse.storeVec m v s) := by
  unfold Sse.storeVec
  exact touches_trans _ (touches_trans (fun a => 4 * v ≤ a ∧ a < 4 * v + 3)
    (touches_trans (fun a => 4 * v ≤ a ∧ a < 4 * v + 2)
    (touches_wr R W (fun a => a = 4 * v) _ _ _ (hW 0 (by decide)) (fun _ h => h))
    (touches_wr R W (fun a => a = 4 * v + 1) _ _ _ (hW 1 (by decide)) (fun _ h => h))
    (fun x hx => by omega))
    (touches_wr R W (fun a => a = 4 * v + 2) _ _ _ (hW 2 (by decide)) (fun _ h => h))
    (fun x hx => by omega))
    (touches_wr R W (fun a => a = 4 * v + 3) _ _ _ (hW 3 (by decide)) (fun _ h => h))
    (fun x hx => by omega)

theorem touches_mixVec (R W : Nat → Prop) (m : Mach) (s : List Nat) (p f t : Nat)
    (hRp : ∀ k, k < 4 → R (4 * p + k)) (hRf : ∀ k, k < 4 → R (4 * f + k))
    (hW : ∀ k, k < 4 → W (4 * t + k)) :
    Touches R W (fun a => 4 * t ≤ a ∧ a < 4 * t + 4) m (Sse.mixVec m s p f t).1 := by
  unfold Sse.mixVec
  exact touches_trans _ (touches_trans (fun _ => False)
    (touches_loadVec R W (fun _ => False) _ _ hRp (fun _ h => h))
    (touches_loadVec R W (fun _ => False) _ _ hRf (fun _ h => h)) (fun _ h => Or.inl h))
    (touches_storeVec R W _ _ _ hW) (fun _ h => Or.inr h)

theorem touches_hashBlocksInner (R W : Nat → Prop) (h : Sse.HB)
    (hRp : ∀ k, k < 8 → R (4 * h.p + k)) (hRf : ∀ k, k < 8 → R (4 * h.f + k))
    (hW : ∀ k, k < 8 → W (4 * h.t + k)) :
    Touches R W (fun a => 4 * h.t ≤ a ∧ a < 4 * h.t + 8) h.m (Sse.hashBlocksInner h).m := by
  unfold Sse.hashBlocksInner
  refine touches_trans _
    (touches_mixVec R W h.m h.s1 h.p h.f h.t (fun k hk => hRp k (by omega))
      (fun k hk => hRf k (by omega)) (fun k hk => hW k (by omega)))
    (touches_mixVec R W _ h.s2 (h.p + 1) (h.f + 1) (h.t + 1)
      (fun k hk => by have := hRp (4 + k) (by omega); rwa [show 4 * (h.p + 1) + k
        = 4 * h.p + (4 + k) by ring])
      (fun k hk => by have := hRf (4 + k) (by omega); rwa [show 4 * (h.f + 1) + k
        = 4 * h.f + (4 + k) by ring])
      (fun k hk => by have := hW (4 + k) (by omega); rwa [show 4 * (h.t + 1) + k
        = 4 * h.t + (4 + k) by ring]))
    (fun x hx => by omega)

theorem touches_innerLoop (R W : Nat → Prop) (n f0 t0 p0 : Nat) (x : Sse.HB)
    (hx : x.f = f0 ∧ x.t = t0 ∧ x.p = p0)
    (hRp : ∀ k, k < 8 * n → R (4 * p0 + k)) (hRf : ∀ k, k < 8 * n → R (4 * f0 + k))
    (hW : ∀ k, k < 8 * n → W (4 * t0 + k)) :
    Touches R W (fun a => 4 * t0 ≤ a ∧ a < 4 * t0 + 8 * n) x.m
        (forLoop n (fun _ z => Sse.hashBlocksInner z) x).m
      ∧ (forLoop n (fun _ z => Sse.hashBlocksInner z) x).f = f0 + 2 * n
      ∧ (forLoop n (fun _ z => Sse.hashBlocksInner z) x).t = t0 + 2 * n
      ∧ (forLoop n (fun _ z => Sse.hashBlocksInner z) x).p = p0 + 2 * n :=
  forLoop_ind (fun k (z : Sse.HB) =>
      Touches R W (fun a => 4 * t0 ≤ a ∧ a < 4 * t0 + 8 * k) x.m z.m
        ∧ z.f = f0 + 2 * k ∧ z.t = t0 + 2 * k ∧ z.p = p0 + 2 * k)
    (fun _ z => Sse.hashBlocksInner z) n
    (fun k z hk hz => by
      obtain ⟨h1, h2, h3, h4⟩ := hz
      refine ⟨touches_trans _ h1 (touches_hashBlocksInner R W z
        (fun j hj => by rw [h4, show 4 * (p0 + 2 * k) + j = 4 * p0 + (8 * k + j) by ring]
                        exact hRp _ (by omega))
        (fun j hj => by rw [h2, show 4 * (f0 + 2 * k) + j = 4 * f0 + (8 * k + j) by ring]
                        exact hRf _ (by omega))
        (fun j hj => by rw [h3, show 4 * (t0 + 2 * k) + j = 4 * t0 + (8 * k + j) by ring]
                        exact hW _ (by omega)))
        (fun a ha => by rw [h3]; omega), ?_, ?_, ?_⟩
      · show z.f + 2 = _; rw [h2]; ring
      · show z.t + 2 = _; rw [h3]; ring
      · show z.p + 2 = _; rw [h4]; ring)
    x ⟨touches_refl R W _ x.m (fun a ha => by omega), by rw [hx.1]; rfl, by rw [hx.2.1]; rfl,
      by rw [hx.2.2]; rfl⟩

theorem touches_hashBlocksSub (R W : Nat → Prop) (sub prevAddr mask : Nat) (h : Sse.HB)
    (hR0 : R (4 * h.f))
    (hRp : ∀ k, k < 8 * (sub / 8) →
      R (4 * (prevAddr / 4 + u32 ((sub / 4) * (h.m.mem (4 * h.f) &&& mask))) + k))
    (hRf : ∀ k, k < 8 * (sub / 8) → R (4 * h.f + k))
    (hW : ∀ k, k < 8 * (sub / 8) → W (4 * h.t + k)) :
    Touches R W (fun a => 4 * h.t ≤ a ∧ a < 4 * h.t + 8 * (sub / 8)) h.m
        (Sse.hashBlocksSub sub prevAddr mask h).m
      ∧ (Sse.hashBlocksSub sub prevAddr mask h).f = h.f + 2 * (sub / 8)
      ∧ (Sse.hashBlocksSub sub prevAddr mask h).t = h.t + 2 * (sub / 8) := by
  unfold Sse.hashBlocksSub
  have key := touches_innerLoop R W (sub / 8) h.f h.t
    (prevAddr / 4 + u32 ((sub / 4) * ((h.m.rd (4 * h.f)).1 &&& mask)))
    { h with m := (h.m.rd (4 * h.f)).2,
             p := prevAddr / 4 + u32 ((sub / 4) * ((h.m.rd (4 * h.f)).1 &&& mask)) }
    ⟨rfl, rfl, rfl⟩ hRp hRf hW
  exact ⟨touches_trans _ (touches_rd R W (fun _ => False) h.m (4 * h.f) hR0 (fun _ hx => hx))
    key.1 (fun _ hx => Or.inr hx), key.2.1, key.2.2.1⟩

theorem touches_subLoop (R W : Nat → Prop) (sub prevAddr mask ns f0 t0 : Nat) (x : Sse.HB)
    (hx : x.f = f0 ∧ x.t = t0) (hR0 : ∀ k, k < ns → R (4 * f0 + 8 * (sub / 8) * k))
    (hRp : ∀ v k, k < 8 * (sub / 8) → R (4 * (prevAddr / 4 + u32 ((sub / 4) * (v &&& mask))) + k))
    (hRf : ∀ k, k < 8 * (sub / 8) * ns → R (4 * f0 + k))
    (hW : ∀ k, k < 8 * (sub / 8) * ns → W (4 * t0 + k)) :
    Touches R W (fun a => 4 * t0 ≤ a ∧ a < 4 * t0 + 8 * (sub / 8) * ns) x.m
      (forLoop ns (fun _ y => Sse.hashBlocksSub sub prevAddr mask y) x).m :=
  (forLoop_ind (fun k (z : Sse.HB) =>
      Touches R W (fun a => 4 * t0 ≤ a ∧ a < 4 * t0 + 8 * (sub / 8) * k) x.m z.m
        ∧ z.f = f0 + 2 * (sub / 8) * k ∧ z.t = t0 + 2 * (sub / 8) * k)
    (fun _ y => Sse.hashBlocksSub sub prevAddr mask y) ns
    (fun k z hk hz => by
      obtain ⟨h1, h2, h3⟩ := hz
      have hle : 8 * (sub / 8) * (k + 1) ≤ 8 * (sub / 8) * ns :=
        Nat.mul_le_mul_left _ (by omega)
      have e : 8 * (sub / 8) * (k + 1) = 8 * (sub / 8) * k + 8 * (sub / 8) := by ring
      have ef : ∀ j, 4 * (f0 + 2 * (sub / 8) * k) + j = 4 * f0 + (8 * (sub / 8) * k + j) :=
        fun j => by ring
      have et : ∀ j, 4 * (t0 + 2 * (sub / 8) * k) + j = 4 * t0 + (8 * (sub / 8) * k + j) :=
        fun j => by ring
      have et0 : ∀ u, 4 * (u + 2 * (sub / 8) * k) = 4 * u + 8 * (sub / 8) * k :=
        fun u => by ring
      have hsub := touches_hashBlocksSub R W sub prevAddr mask z
        (by have := hR0 k hk; rw [h2, et0 f0]; exact this)
        (fun j hj => hRp _ j hj)
        (fun j hj => by rw [h2, ef]; exact hRf _ (by omega))
        (fun j hj => by rw [h3, et]; exact hW _ (by omega))
      refine ⟨touches_trans _ h1 hsub.1 (fun a ha => by
        have ha2 : 4 * t0 ≤ a ∧ a < 4 * t0 + 8 * (sub / 8) * (k + 1) := ha
        show (4 * t0 ≤ a ∧ a < 4 * t0 + 8 * (sub / 8) * k)
          ∨ (4 * z.t ≤ a ∧ a < 4 * z.t + 8 * (sub / 8))
        rw [h3, et0 t0]; rw [e] at ha2; omega), ?_, ?_⟩
      · rw [hsub.2.1, h2]; ring
      · rw [hsub.2.2, h3]; ring)
    x ⟨touches_refl R W _ x.m (fun a ha => by omega), by rw [hx.1]; ring,
      by rw [hx.2]; ring⟩).1

theorem touches_hashBlocks (R W : Nat → Prop) (m : Mach) (state : List Nat)
    (blocklen sub fromAddr toAddr repetitions : Nat)
    (hR0 : ∀ k, k < blocklen / sub → R (4 * (fromAddr / 4) + 8 * (sub / 8) * k))
    (hRp : ∀ v k, k < 8 * (sub / 8) → R (4 * (u64 (toAddr + 2 ^ 64 - blocklen) / 4
      + u32 ((sub / 4) * (v &&& u32 (blocklen / sub + 2 ^ 32 - 1)))) + k))
    (hRf : ∀ k, k < 8 * (sub / 8) * (blocklen / sub) → R (4 * (fromAddr / 4) + k))
    (hW : ∀ k, k < 8 * (sub / 8) * (blocklen / sub) → W (4 * (toAddr / 4) + k)) :
    Touches R W (fun a => 1 ≤ repetitions ∧ 4 * (toAddr / 4) ≤ a
        ∧ a < 4 * (toAddr / 4) + 8 * (sub / 8) * (blocklen / sub)) m
      (Sse.hashBlocks m state blocklen sub fromAddr toAddr repetitions).1 := by
  unfold Sse.hashBlocks
  exact forLoop_ind (fun k (z : Sse.HB) => Touches R W (fun a => 1 ≤ k ∧ 4 * (toAddr / 4) ≤ a
        ∧ a < 4 * (toAddr / 4) + 8 * (sub / 8) * (blocklen / sub)) m z.m)
    (fun _ x => forLoop (blocklen / sub) (fun _ y => Sse.hashBlocksSub sub
        (u64 (toAddr + 2 ^ 64 - blocklen)) (u32 (blocklen / sub + 2 ^ 32 - 1)) y)
      { x with f := fromAddr / 4, t := toAddr / 4 }) repetitions
    (fun k z hk hz => touches_trans _ hz
      (touches_subLoop R W sub _ _ (blocklen / sub) (fromAddr / 4) (toAddr / 4)
        { z with f := fromAddr / 4, t := toAddr / 4 } ⟨rfl, rfl⟩ hR0 hRp hRf hW)
      (fun a ha => Or.inr ha.2))
    { m := m, s1 := (List.range 4).map (fun k => state.getD k 0),
      s2 := (List.range 4).map (fun k => state.getD (k + 4) 0), f := 0, t := 0, p := 0 }
    (touches_refl R W _ m (fun a ha => by omega))

theorem pow2_blocks (blocklen sub : Nat) (hb : ∃ a, blocklen = 2 ^ a) (hs : ∃ b, sub = 2 ^ b)
    (h8 : 8 ≤ sub) (hle : sub ≤ blocklen) :
    ∃ s8 ns, 1 ≤ s8 ∧ 1 ≤ ns ∧ sub = 8 * s8 ∧ blocklen = 8 * s8 * ns := by
  obtain ⟨a, rfl⟩ := hb
  obtain ⟨b, rfl⟩ := hs
  have hb3 : 3 ≤ b := by
    by_contra hc
    have : b = 0 ∨ b = 1 ∨ b = 2 := by omega
    rcases this with h | h | h <;> subst h <;> simp at h8
  have hab : b ≤ a := by
    by_contra hc
    have : 2 ^ a < 2 ^ b := Nat.pow_lt_pow_right (by decide) (by omega)
    omega
  refine ⟨2 ^ (b - 3), 2 ^ (a - b), Nat.one_le_two_pow, Nat.one_le_two_pow, ?_, ?_⟩
  · rw [show (8 : Nat) = 2 ^ 3 by rfl, ← pow_add]; congr 1; omega
  · rw [show (8 : Nat) = 2 ^ 3 by rfl, ← pow_add, ← pow_add]; congr 1; omega

theorem hashBlocks_zero (m : Mach) (state : List Nat) (blocklen sub fromAddr toAddr : Nat)
    (hlen : state.length = 8) :
    Sse.hashBlocks m state blocklen sub fromAddr toAddr 0 = (m, state) := by
  obtain ⟨a, b, c, d, e, f, g, h, rfl⟩ : ∃ a b c d e f g h, state = [a, b, c, d, e, f, g, h] :=
    ⟨_, _, _, _, _, _, _, _, list8_eq state hlen⟩
  rfl

/-- C25: for power-of-two `blocklen` and `subBlocklen` with `8 ≤ subBlocklen ≤ blocklen`
and a destination aligned to a vector (`4 ∣ toAddr`, as in every call), a call of
`hashBlocks` with `repetitions ≥ 1` writes exactly the words `toAddr .. toAddr + blocklen - 1`
of `M`, each of them, and leaves every other word of `M` as it was; with `repetitions = 0`
it returns the machine and the state unchanged. -/
theorem C25_block_mixer_frame (m : Mach) (state : List Nat)
    (blocklen subBlocklen fromAddr toAddr repetitions : Nat)
    (hb : ∃ a, blocklen = 2 ^ a) (hs : ∃ b, subBlocklen = 2 ^ b) (h8 : 8 ≤ subBlocklen)
    (hle : subBlocklen ≤ blocklen) (h4 : 4 ∣ toAddr) (hlen : state.length = 8) :
    (1 ≤ repetitions →
        (∃ ext, (Sse.hashBlocks m state blocklen subBlocklen fromAddr toAddr
              repetitions).1.trace = ext ++ m.trace
            ∧ ∀ a, Ev.wrM a ∈ ext ↔ (toAddr ≤ a ∧ a < toAddr + blocklen))
          ∧ ∀ a, ¬ (toAddr ≤ a ∧ a < toAddr + blocklen) →
              (Sse.hashBlocks m state blocklen subBlocklen fromAddr toAddr repetitions).1.mem a
                = m.mem a)
      ∧ Sse.hashBlocks m state blocklen subBlocklen fromAddr toAddr 0 = (m, state) := by
  refine ⟨?_, hashBlocks_zero m state blocklen subBlocklen fromAddr toAddr hlen⟩
  intro hrep
  obtain ⟨s8, ns, hs8, hns, rfl, rfl⟩ := pow2_blocks blocklen subBlocklen hb hs h8 hle
  have e1 : 8 * s8 / 8 = s8 := Nat.mul_div_cancel_left _ (by decide)
  have e2 : 8 * s8 * ns / (8 * s8) = ns := Nat.mul_div_cancel_left _ (by omega)
  have e3 : 4 * (toAddr / 4) = toAddr := Nat.mul_div_cancel' h4
  obtain ⟨⟨ext, ht, hev, hc⟩, hm⟩ := touches_hashBlocks (fun _ => True)
    (fun a => toAddr ≤ a ∧ a < toAddr + 8 * s8 * ns) m state (8 * s8 * ns) (8 * s8) fromAddr
    toAddr repetitions (fun _ _ => trivial) (fun _ _ _ => trivial) (fun _ _ => trivial)
    (fun k hk => by rw [e1, e2] at hk; rw [e3]; exact ⟨by omega, by omega⟩)
  refine ⟨⟨ext, ht, fun a => ⟨?_, ?_⟩⟩, hm⟩
  · intro ha
    rcases hev _ ha with ⟨x, h1, _⟩ | ⟨x, h1, h2⟩
    · exact absurd h1 (by simp)
    · have : a = x := by simpa using h1
      rw [this]; exact h2
  · intro ha
    apply hc
    rw [e1, e2, e3]
    exact ⟨hrep, ha.1, ha.2⟩

/-- C25 at `blocklen = subBlocklen = 8`, `toAddr = 8`, one repetition, on memory holding 0:
word 16, outside the destination block, is unchanged. -/
theorem C25_block_mixer_frame_witness :
    ((∃ a, 8 = 2 ^ a) ∧ (∃ b, 8 = 2 ^ b) ∧ 8 ≤ 8 ∧ 4 ∣ 8
        ∧ [1, 1, 1, 1, 1, 1, 1, 1].length = 8 ∧ 1 ≤ 1)
      ∧ (Sse.hashBlocks (freshMach 0) [1, 1, 1, 1, 1, 1, 1, 1] 8 8 0 8 1).1.mem 16
          = (freshMach 0).mem 16 :=
  ⟨⟨⟨3, by decide⟩, ⟨3, by decide⟩, by decide, by decide, by decide, by decide⟩,
    ((C25_block_mixer_frame (freshMach 0) [1, 1, 1, 1, 1, 1, 1, 1] 8 8 0 8 1 ⟨3, by decide⟩
      ⟨3, by decide⟩ (by decide) (by decide) (by decide) (by decide)).1 (by decide)).2 16
      (by decide)⟩

theorem pCursor_spec (s8 ns toAddr v : Nat) (hs8 : 1 ≤ s8) (hns : 1 ≤ ns)
    (hbl : 8 * s8 * ns < 2 ^ 32) (h4 : 4 ∣ toAddr) (hto : 8 * s8 * ns ≤ toAddr)
    (hto64 : toAddr < 2 ^ 64) :
    u64 (toAddr + 2 ^ 64 - 8 * s8 * ns) = toAddr - 8 * s8 * ns
      ∧ 4 * (u64 (toAddr + 2 ^ 64 - 8 * s8 * ns) / 4
          + u32 ((8 * s8 / 4) * (v &&& u32 (8 * s8 * ns / (8 * s8) + 2 ^ 32 - 1))))
        = toAddr - 8 * s8 * ns + 8 * s8 * (v &&& (8 * s8 * ns / (8 * s8) - 1))
      ∧ toAddr - 8 * s8 * ns + 8 * s8 * (v &&& (8 * s8 * ns / (8 * s8) - 1)) + 8 * s8 ≤ toAddr := by
  have e2 : 8 * s8 * ns / (8 * s8) = ns := Nat.mul_div_cancel_left _ (by omega)
  have e4 : 8 * s8 / 4 = 2 * s8 := by omega
  have hns32 : ns < 2 ^ 32 := by
    have : ns ≤ 8 * s8 * ns := Nat.le_mul_of_pos_left _ (by omega)
    omega
  have hmask : u32 (ns + 2 ^ 32 - 1) = ns - 1 := by
    unfold u32
    rw [show ns + 2 ^ 32 - 1 = (ns - 1) + 2 ^ 32 by omega, Nat.add_mod_right]
    exact Nat.mod_eq_of_lt (by omega)
  have hprev : u64 (toAddr + 2 ^ 64 - 8 * s8 * ns) = toAddr - 8 * s8 * ns := by
    unfold u64
    rw [show toAddr + 2 ^ 64 - 8 * s8 * ns = (toAddr - 8 * s8 * ns) + 2 ^ 64 by omega,
      Nat.add_mod_right]
    exact Nat.mod_eq_of_lt (by omega)
  have hand : v &&& (ns - 1) ≤ ns - 1 := Nat.and_le_right
  have hmul : 8 * s8 * (v &&& (ns - 1)) ≤ 8 * s8 * (ns - 1) := Nat.mul_le_mul_left _ hand
  have hexp : 8 * s8 * ns = 8 * s8 * (ns - 1) + 8 * s8 := by
    obtain ⟨n, rfl⟩ : ∃ n, ns = n + 1 := ⟨ns - 1, by omega⟩
    simp [Nat.mul_add]
  have h4b : 4 ∣ 8 * s8 * ns := ⟨2 * s8 * ns, by ring⟩
  have h4p : 4 ∣ toAddr - 8 * s8 * ns := (Nat.dvd_sub' h4 h4b)
  have hu : u32 (2 * s8 * (v &&& (ns - 1))) = 2 * s8 * (v &&& (ns - 1)) := by
    apply Nat.mod_eq_of_lt
    have : 4 * (2 * s8 * (v &&& (ns - 1))) = 8 * s8 * (v &&& (ns - 1)) := by ring
    omega
  refine ⟨hprev, ?_, ?_⟩
  · rw [hprev, e2, e4, hmask, hu, Nat.mul_add, Nat.mul_div_cancel' h4p,
      show 4 * (2 * s8 * (v &&& (ns - 1))) = 8 * s8 * (v &&& (ns - 1)) by ring]
  · rw [e2]; omega

/-- C24: for power-of-two `blocklen` and `subBlocklen` with `8 ≤ subBlocklen ≤ blocklen`
and a destination block boundary `toAddr` (aligned to a vector, at least `blocklen`), the
cursor `p` that `hashBlocks` sets from any word `randVal` read at `f` is the word address
`prevAddr + subBlocklen*(randVal AND (numSubBlocks - 1))` with `prevAddr = toAddr - blocklen`,
and the `subBlocklen` words from there lie in `[prevAddr, prevAddr + blocklen)`.  One
sub-block step reads only its source sub-block at `f` and those words, and a whole call
reads only the source block and the previous block. -/
theorem C24_intra_block_pointer (h : Sse.HB) (state : List Nat)
    (blocklen subBlocklen fromAddr toAddr repetitions : Nat)
    (hb : ∃ a, blocklen = 2 ^ a) (hs : ∃ b, subBlocklen = 2 ^ b) (h8 : 8 ≤ subBlocklen)
    (hle : subBlocklen ≤ blocklen) (hbl : blocklen < 2 ^ 32) (h4 : 4 ∣ toAddr)
    (hto : blocklen ≤ toAddr) (hto64 : toAddr < 2 ^ 64) :
    u64 (toAddr + 2 ^ 64 - blocklen) = toAddr - blocklen
      ∧ (∀ randVal,
          4 * (u64 (toAddr + 2 ^ 64 - blocklen) / 4 + u32 ((subBlocklen / 4)
              * (randVal &&& u32 (blocklen / subBlocklen + 2 ^ 32 - 1))))
            = toAddr - blocklen + subBlocklen * (randVal &&& (blocklen / subBlocklen - 1))
          ∧ ∀ k, k < subBlocklen →
              toAddr - blocklen
                  ≤ toAddr - blocklen
                    + subBlocklen * (randVal &&& (blocklen / subBlocklen - 1)) + k
                ∧ toAddr - blocklen
                    + subBlocklen * (randVal &&& (blocklen / subBlocklen - 1)) + k
                  < toAddr - blocklen + blocklen)
      ∧ (∃ ext, (Sse.hashBlocksSub subBlocklen (u64 (toAddr + 2 ^ 64 - blocklen))
              (u32 (blocklen / subBlocklen + 2 ^ 32 - 1)) h).m.trace = ext ++ h.m.trace
            ∧ ∀ a, Ev.rdM a ∈ ext →
                (4 * h.f ≤ a ∧ a < 4 * h.f + subBlocklen)
                  ∨ (toAddr - blocklen + subBlocklen
                        * (h.m.mem (4 * h.f) &&& (blocklen / subBlocklen - 1)) ≤ a
                      ∧ a < toAddr - blocklen + subBlocklen
                        * (h.m.mem (4 * h.f) &&& (blocklen / subBlocklen - 1)) + subBlocklen))
      ∧ ∃ ext, (Sse.hashBlocks h.m state blocklen subBlocklen fromAddr toAddr
              repetitions).1.trace = ext ++ h.m.trace
            ∧ ∀ a, Ev.rdM a ∈ ext →
                (4 * (fromAddr / 4) ≤ a ∧ a < 4 * (fromAddr / 4) + blocklen)
                  ∨ (toAddr - blocklen ≤ a ∧ a < toAddr) := by
  obtain ⟨s8, ns, hs8, hns, rfl, rfl⟩ := pow2_blocks blocklen subBlocklen hb hs h8 hle
  have e1 : 8 * s8 / 8 = s8 := Nat.mul_div_cancel_left _ (by decide)
  have e2 : 8 * s8 * ns / (8 * s8) = ns := Nat.mul_div_cancel_left _ (by omega)
  have hp := fun v => pCursor_spec s8 ns toAddr v hs8 hns hbl h4 hto hto64
  have hrd : ∀ (R : Nat → Prop) (a b : Mach) (W C : Nat → Prop), Touches R W C a b →
      ∃ ext, b.trace = ext ++ a.trace ∧ ∀ x, Ev.rdM x ∈ ext → R x := by
    intro R a b W C ht
    obtain ⟨⟨ext, h1, h2, _⟩, _⟩ := ht
    refine ⟨ext, h1, fun x hx => ?_⟩
    rcases h2 _ hx with ⟨y, h3, h4⟩ | ⟨y, h3, _⟩
    · have : x = y := by simpa using h3
      rw [this]; exact h4
    · exact absurd h3 (by simp)
  refine ⟨(hp 0).1, fun v => ⟨(hp v).2.1, fun k hk => ⟨by omega, ?_⟩⟩, ?_, ?_⟩
  · have := (hp v).2.2; omega
  · apply hrd _ _ _ (fun _ => True) _
    refine (touches_hashBlocksSub _ _ (8 * s8) _ _ h (Or.inl ⟨le_refl _, by omega⟩) ?_ ?_
      (fun _ _ => trivial)).1
    · intro k hk
      rw [e1] at hk
      right
      rw [show 4 * (u64 (toAddr + 2 ^ 64 - 8 * s8 * ns) / 4 + u32 (8 * s8 / 4
          * (h.m.mem (4 * h.f) &&& u32 (8 * s8 * ns / (8 * s8) + 2 ^ 32 - 1)))) + k
        = 4 * (u64 (toAddr + 2 ^ 64 - 8 * s8 * ns) / 4 + u32 (8 * s8 / 4
          * (h.m.mem (4 * h.f) &&& u32 (8 * s8 * ns / (8 * s8) + 2 ^ 32 - 1)))) + k from rfl,
        (hp (h.m.mem (4 * h.f))).2.1]
      omega
    · intro k hk
      rw [e1] at hk
      left; omega
  · apply hrd _ _ _ (fun _ => True) _
    refine touches_hashBlocks _ _ h.m state (8 * s8 * ns) (8 * s8) fromAddr toAddr repetitions
      ?_ ?_ ?_ (fun _ _ => trivial)
    · intro k hk
      rw [e1]
      rw [e2] at hk
      have hle : 8 * s8 * (k + 1) ≤ 8 * s8 * ns := Nat.mul_le_mul_left _ (by omega)
      have e : 8 * s8 * (k + 1) = 8 * s8 * k + 8 * s8 := by ring
      left; omega
    · intro v k hk
      rw [e1] at hk
      right
      rw [(hp v).2.1]
      have := (hp v).2.2
      omega
    · intro k hk
      rw [e1, e2] at hk
      left; omega

/-- C24 at `blocklen = 16`, `subBlocklen = 8`, `toAddr = 16`: for `randVal = 7` the cursor
`p` is at word `0 + 8 * (7 AND 1) = 8`, inside the previous block `[0, 16)`. -/
theorem C24_intra_block_pointer_witness :
    ((∃ a, 16 = 2 ^ a) ∧ (∃ b, 8 = 2 ^ b) ∧ 8 ≤ 8 ∧ 8 ≤ 16 ∧ 16 < 2 ^ 32 ∧ 4 ∣ 16 ∧ 16 ≤ 16
        ∧ 16 < 2 ^ 64)
      ∧ 4 * (u64 (16 + 2 ^ 64 - 16) / 4 + u32 ((8 / 4) * (7 &&& u32 (16 / 8 + 2 ^ 32 - 1))))
          = 16 - 16 + 8 * (7 &&& (16 / 8 - 1))
      ∧ 16 - 16 + 8 * (7 &&& (16 / 8 - 1)) = 8 :=
  ⟨⟨⟨4, by decide⟩, ⟨3, by decide⟩, by decide, by decide, by decide, by decide, by decide,
      by decide⟩,
    ((C24_intra_block_pointer
      { m := freshMach 0, s1 := [1, 1, 1, 1], s2 := [1, 1, 1, 1], f := 0, t := 4, p := 0 }
      [1, 1, 1, 1, 1, 1, 1, 1] 16 8 0 16 1 ⟨4, by decide⟩ ⟨3, by decide⟩ (by decide)
      (by decide) (by decide) (by decide) (by decide) (by decide)).2.1 7).1, by decide⟩

/-! ## Publication of the checkpoints -/

theorem multHashStep_eq_publish (env : Env) (c : Sse.Common) (ms : Mach × List Nat) :
    Sse.multHashStep env c ms
      = (Sse.multHashIncrement (Sse.multHashPublish env c ms).1,
          (Sse.multHashPublish env c ms).2) := rfl

theorem multHash_eq_seed (env : Env) (c : Sse.Common) (m : Mach) :
    Sse.multHash env c m
      = (forLoop (u32 (c.numblocks * 2)) (fun _ ms => Sse.multHashStep env c ms)
          (m, Sse.multHashSeed env c)).1 := rfl

theorem multHashPublish_spec (env : Env) (c : Sse.Common) (m : Mach) (st : List Nat) :
    (Sse.multHashPublish env c (m, st)).1.trace
        = [Ev.wrH (u32 (8 * m.completedMultiplies + 7)),
            Ev.wrH (u32 (8 * m.completedMultiplies + 6)),
            Ev.wrH (u32 (8 * m.completedMultiplies + 5)),
            Ev.wrH (u32 (8 * m.completedMultiplies + 4)),
            Ev.wrH (u32 (8 * m.completedMultiplies + 3)),
            Ev.wrH (u32 (8 * m.completedMultiplies + 2)),
            Ev.wrH (u32 (8 * m.completedMultiplies + 1)),
            Ev.wrH (u32 (8 * m.completedMultiplies + 0))] ++ m.trace
      ∧ (Sse.multHashPublish env c (m, st)).1.completedMultiplies = m.completedMultiplies
      ∧ (Sse.multHashPublish env c (m, st)).1.mem = m.mem
      ∧ ∀ a, (∀ j, j < 8 → a ≠ u32 (8 * m.completedMultiplies + j)) →
          (Sse.multHashPublish env c (m, st)).1.multHashes a = m.multHashes a := by
  refine ⟨rfl, rfl, rfl, ?_⟩
  intro a ha
  show (if a = u32 (8 * m.completedMultiplies + 7) then _ else
    if a = u32 (8 * m.completedMultiplies + 6) then _ else
    if a = u32 (8 * m.completedMultiplies + 5) then _ else
    if a = u32 (8 * m.completedMultiplies + 4) then _ else
    if a = u32 (8 * m.completedMultiplies + 3) then _ else
    if a = u32 (8 * m.completedMultiplies + 2) then _ else
    if a = u32 (8 * m.completedMultiplies + 1) then _ else
    if a = u32 (8 * m.completedMultiplies + 0) then _ else m.multHashes a) = _
  rw [if_neg (ha 7 (by decide)), if_neg (ha 6 (by decide)), if_neg (ha 5 (by decide)),
    if_neg (ha 4 (by decide)), if_neg (ha 3 (by decide)), if_neg (ha 2 (by decide)),
    if_neg (ha 1 (by decide)), if_neg (ha 0 (by decide))]

theorem mem_writesH (a : Nat) : ∀ tr : List Ev, a ∈ writesH tr ↔ Ev.wrH a ∈ tr := by
  intro tr
  induction tr with
  | nil => simp [writesH]
  | cons e tr ih =>
    cases e <;> simp [writesH, ih]

theorem mem_slotWords (a : Nat) : ∀ k, a ∈ slotWords k ↔ a < 8 * k := by
  intro k
  induction k with
  | zero => simp [slotWords]
  | succ k ih =>
    simp only [slotWords, List.mem_append, ih, List.mem_cons, List.mem_singleton,
      List.not_mem_nil, or_false]
    omega

theorem slotWords_nodup : ∀ k, (slotWords k).Nodup := by
  intro k
  induction k with
  | zero => simp [slotWords]
  | succ k ih =>
    unfold slotWords
    rw [List.nodup_append]
    refine ⟨by simp, ih, ?_⟩
    intro a h1 h2
    rw [mem_slotWords] at h2
    simp only [List.mem_cons, List.mem_singleton, List.not_mem_nil, or_false] at h1
    omega

theorem writesH_onlyM (ext : List Ev)
    (h : ∀ e ∈ ext, (∃ x, e = Ev.rdM x) ∨ (∃ x, e = Ev.wrM x)) (t : List Ev) :
    writesH (ext ++ t) = writesH t ∧ foldsAfterWrites (ext ++ t) = foldsAfterWrites t := by
  induction ext with
  | nil => exact ⟨rfl, rfl⟩
  | cons e ext ih =>
    have ih2 := ih (fun e he => h e (List.mem_cons_of_mem _ he))
    rcases h e (List.mem_cons_self _ _) with ⟨x, rfl⟩ | ⟨x, rfl⟩
    · exact ⟨ih2.1, ih2.2⟩
    · exact ⟨ih2.1, ih2.2⟩

theorem touches_onlyM {R W C : Nat → Prop} {a b : Mach} (h : Touches R W C a b) :
    ∃ ext, b.trace = ext ++ a.trace
      ∧ ∀ e ∈ ext, (∃ x, e = Ev.rdM x) ∨ (∃ x, e = Ev.wrM x) := by
  obtain ⟨⟨ext, h1, h2, _⟩, _⟩ := h
  refine ⟨ext, h1, fun e he => ?_⟩
  rcases h2 e he with ⟨x, hx, _⟩ | ⟨x, hx, _⟩
  · exact Or.inl ⟨x, hx⟩
  · exact Or.inr ⟨x, hx⟩

theorem touches_fill (n start : Nat) (val : Nat → Nat) (m : Mach) :
    Touches (fun _ => True) (fun _ => True) (fun _ => False) m
      (forLoop n (fun i (x : Mach) => x.wr (start + i) (val i)) m) :=
  forLoop_inv (fun x : Mach => Touches (fun _ => True) (fun _ => True) (fun _ => False) m x)
    (fun i (x : Mach) => x.wr (start + i) (val i))
    (fun _ x hx => touches_trans _ hx
      (touches_wr (fun _ => True) (fun _ => True) (fun _ => False) x _ _ trivial
        (fun _ h => absurd h (fun h2 => h2)))
      (fun _ h => Or.inl h)) n m
    (touches_refl _ _ _ m (fun _ h => h))

theorem hashMultItoState_trace (env : Env) (i : Nat) (m : Mach) (s : List Nat)
    (r : Mach × List Nat) (h : Sse.hashMultItoState env i m s = some r) :
    i < m.completedMultiplies
      ∧ r.1.trace = [Ev.rdH (u32 (i * 8 + 7)), Ev.rdH (u32 (i * 8 + 6)),
          Ev.rdH (u32 (i * 8 + 5)), Ev.rdH (u32 (i * 8 + 4)), Ev.rdH (u32 (i * 8 + 3)),
          Ev.rdH (u32 (i * 8 + 2)), Ev.rdH (u32 (i * 8 + 1)), Ev.rdH (u32 (i * 8 + 0))]
          ++ m.trace
      ∧ r.1.completedMultiplies = m.completedMultiplies
      ∧ r.1.multHashes = m.multHashes := by
  unfold Sse.hashMultItoState at h
  by_cases hc : i ≥ m.completedMultiplies
  · simp [hc] at h
  · simp only [hc, if_false, Option.some.injEq] at h
    subst h
    have key := forLoop_ind
      (fun k (x : Mach × List Nat) =>
        x.1.trace = (List.range k).reverse.map (fun j => Ev.rdH (u32 (i * 8 + j))) ++ m.trace
          ∧ x.1.completedMultiplies = m.completedMultiplies
          ∧ x.1.multHashes = m.multHashes)
      (fun k (ms : Mach × List Nat) =>
        ((ms.1.rdH (u32 (i * 8 + k))).2,
          ms.2.set k (ms.2.getD k 0 ^^^ (ms.1.rdH (u32 (i * 8 + k))).1))) 8
      (fun k x _ hx => ⟨by
        show Ev.rdH (u32 (i * 8 + k)) :: x.1.trace = _
        rw [hx.1, List.range_succ, List.reverse_append]
        rfl, hx.2.1, hx.2.2⟩) (m, s)
      ⟨rfl, rfl, rfl⟩
    exact ⟨by omega, key.1, key.2.1, key.2.2⟩

theorem publicationInv_step (env : Env) (c : Sse.Common) (t0 : List Ev) (s s2 : Sys)
    (hN : u32 (c.numblocks * 2) ≤ 2 ^ 29)
    (hinv : PublicationInv t0 (u32 (c.numblocks * 2)) s) (hstep : LevelStep env c s s2) :
    PublicationInv t0 (u32 (c.numblocks * 2)) s2
      ∧ s.m.completedMultiplies ≤ s2.m.completedMultiplies
      ∧ s2.m.completedMultiplies ≤ s.m.completedMultiplies + 1
      ∧ ∀ a, a < 8 * s.m.completedMultiplies → s2.m.multHashes a = s.m.multHashes a := by
  obtain ⟨h1, h2, h3, ext, h4, h5, h6⟩ := hinv
  have hmix : ∀ m2 : Mach, Touches (fun _ => True) (fun _ => True) (fun _ => False) s.m m2 →
      SameCtl s.m m2 →
      PublicationInv t0 (u32 (c.numblocks * 2)) { s with m := m2 }
        ∧ s.m.completedMultiplies ≤ m2.completedMultiplies
        ∧ m2.completedMultiplies ≤ s.m.completedMultiplies + 1
        ∧ ∀ a, a < 8 * s.m.completedMultiplies → m2.multHashes a = s.m.multHashes a := by
    intro m2 ht hs
    obtain ⟨e, he1, he2⟩ := touches_onlyM ht
    have hw := writesH_onlyM e he2 ext
    refine ⟨⟨hs.1.symm.trans h1, h2, h3, e ++ ext, by rw [he1, h4, List.append_assoc],
      hw.1.trans h5, hw.2.trans h6⟩, by rw [hs.1], by rw [hs.1]; omega,
      fun a _ => by rw [hs.2.1]⟩
  cases hstep with
  | publish hst hlt =>
    have hp := multHashPublish_spec env c s.m s.pacerState
    have hu : ∀ j, j < 8 → u32 (8 * s.m.completedMultiplies + j) = 8 * s.pacerI + j := by
      intro j hj
      rw [h1]
      exact Nat.mod_eq_of_lt (by omega)
    refine ⟨⟨hp.2.1.trans h1, h2, fun _ => hlt, _ ++ ext, by rw [hp.1, h4, List.append_assoc],
      ?_, ?_⟩, by rw [hp.2.1], by rw [hp.2.1]; omega, ?_⟩
    · show _ = slotWords (s.pacerI + 1)
      rw [hst] at h5
      simp only [Bool.false_eq_true, if_false, Nat.add_zero] at h5
      have key : ∀ a7 a6 a5 a4 a3 a2 a1 a0 : Nat,
          writesH ([Ev.wrH a7, Ev.wrH a6, Ev.wrH a5, Ev.wrH a4, Ev.wrH a3, Ev.wrH a2,
            Ev.wrH a1, Ev.wrH a0] ++ ext)
            = [a7, a6, a5, a4, a3, a2, a1, a0] ++ writesH ext := fun _ _ _ _ _ _ _ _ => rfl
      rw [key, h5, hu 7 (by decide), hu 6 (by decide), hu 5 (by decide), hu 4 (by decide),
        hu 3 (by decide), hu 2 (by decide), hu 1 (by decide), hu 0 (by decide)]
      rfl
    · simpa [foldsAfterWrites] using h6
    · intro a ha
      apply hp.2.2.2
      intro j hj
      rw [hu j hj]
      rw [h1] at ha
      omega
  | increment hst =>
    have hlt := h3 hst
    have hcm : u32 (s.m.completedMultiplies + 1) = s.pacerI + 1 := by
      rw [h1]; exact Nat.mod_eq_of_lt (by omega)
    refine ⟨⟨hcm, by show s.pacerI + 1 ≤ _; omega, fun h => absurd h (by simp), ext, h4, ?_,
      h6⟩, ?_, ?_, fun _ _ => rfl⟩
    · rw [hst] at h5
      simpa using h5
    · show s.m.completedMultiplies ≤ u32 (s.m.completedMultiplies + 1)
      rw [hcm, h1]; omega
    · show u32 (s.m.completedMultiplies + 1) ≤ _
      rw [hcm, h1]
  | fill start n val =>
    exact hmix _ (touches_fill n start val s.m) (sameCtl_fill n start val s.m)
  | mix state blocklen sub fromAddr toAddr repetitions =>
    exact hmix _
      (touches_mono (touches_hashBlocks (fun _ => True) (fun _ => True) s.m state blocklen sub
        fromAddr toAddr repetitions (fun _ _ => trivial) (fun _ _ _ => trivial)
        (fun _ _ => trivial) (fun _ _ => trivial)) (fun _ h => h) (fun _ h => h)
        (fun _ h => absurd h (fun h2 => h2)))
      (sameCtl_hashBlocks s.m state blocklen sub fromAddr toAddr repetitions)
  | fold iteration state r hr =>
    obtain ⟨g1, g2, g3, g4⟩ := hashMultItoState_trace env iteration s.m state r hr
    have hu : ∀ j, j < 8 → Ev.wrH (u32 (iteration * 8 + j)) ∈ ext := by
      intro j hj
      rw [← mem_writesH, h5, mem_slotWords]
      rw [h1] at g1
      have : u32 (iteration * 8 + j) = iteration * 8 + j := Nat.mod_eq_of_lt (by omega)
      rw [this]; omega
    refine ⟨⟨g3.trans h1, h2, h3, _ ++ ext, by rw [g2, h4, List.append_assoc], ?_, ?_⟩,
      by rw [g3], by rw [g3]; omega, fun _ _ => by rw [g4]⟩
    · simpa [writesH] using h5
    · have hu0 : Ev.wrH (u32 (iteration * 8)) ∈ ext := hu 0 (by decide)
      simp [foldsAfterWrites, h6, hu 7 (by decide), hu 6 (by decide), hu 5 (by decide),
        hu 4 (by decide), hu 3 (by decide), hu 2 (by decide), hu 1 (by decide), hu0]

theorem publicationInv_start (env : Env) (c : Sse.Common) (g : Nat) (m : Mach) :
    PublicationInv (m.startLevel g c.numblocks).trace (u32 (c.numblocks * 2))
      (levelStart env c g m) :=
  ⟨rfl, Nat.zero_le _, fun h => absurd h (by simp [levelStart]), [], rfl, rfl, rfl⟩

theorem publicationInv_reach (env : Env) (c : Sse.Common) (t0 : List Ev) (s s2 : Sys)
    (hN : u32 (c.numblocks * 2) ≤ 2 ^ 29)
    (hinv : PublicationInv t0 (u32 (c.numblocks * 2)) s)
    (hreach : Relation.ReflTransGen (LevelStep env c) s s2) :
    PublicationInv t0 (u32 (c.numblocks * 2)) s2
      ∧ s.m.completedMultiplies ≤ s2.m.completedMultiplies
      ∧ ∀ a, a < 8 * s.m.completedMultiplies → s2.m.multHashes a = s.m.multHashes a := by
  induction hreach with
  | refl => exact ⟨hinv, le_refl _, fun _ _ => rfl⟩
  | tail _ hstep ih =>
    obtain ⟨i1, i2, i3⟩ := ih
    obtain ⟨j1, j2, _, j4⟩ := publicationInv_step env c t0 _ _ hN i1 hstep
    exact ⟨j1, le_trans i2 j2, fun a ha => by rw [j4 a (by omega), i3 a ha]⟩

theorem pacer_path (env : Env) (c : Sse.Common) : ∀ (k : Nat) (m : Mach) (st : List Nat),
    k ≤ u32 (c.numblocks * 2) →
    Relation.ReflTransGen (LevelStep env c)
      { m := m, pacerState := st, pacerI := 0, stored := false }
      { m := (forLoop k (fun _ ms => Sse.multHashStep env c ms) (m, st)).1,
        pacerState := (forLoop k (fun _ ms => Sse.multHashStep env c ms) (m, st)).2,
        pacerI := k, stored := false } := by
  intro k
  induction k with
  | zero => intro m st _; exact Relation.ReflTransGen.refl
  | succ k ih =>
    intro m st hk
    refine ((ih m st (by omega)).tail (LevelStep.publish _ rfl (by show k < _; omega))).tail ?_
    exact LevelStep.increment _ rfl

theorem pacerWords_succ (k : Nat) :
    Sse.pacerWords (k + 1)
      = [u32 (8 * u32 k + 7), u32 (8 * u32 k + 6), u32 (8 * u32 k + 5), u32 (8 * u32 k + 4),
          u32 (8 * u32 k + 3), u32 (8 * u32 k + 2), u32 (8 * u32 k + 1), u32 (8 * u32 k + 0)]
        ++ Sse.pacerWords k := rfl

theorem pacer_trace (env : Env) (c : Sse.Common) (m : Mach) (st : List Nat)
    (h0 : m.completedMultiplies = 0) : ∀ k : Nat,
    (forLoop k (fun _ ms => Sse.multHashStep env c ms) (m, st)).1.completedMultiplies = u32 k
      ∧ ∃ ext, (forLoop k (fun _ ms => Sse.multHashStep env c ms) (m, st)).1.trace
            = ext ++ m.trace
          ∧ writesH ext = Sse.pacerWords k := by
  intro k
  induction k with
  | zero => exact ⟨h0, [], rfl, rfl⟩
  | succ k ih =>
    obtain ⟨h1, ext, h2, h3⟩ := ih
    have hp := multHashPublish_spec env c
      (forLoop k (fun _ ms => Sse.multHashStep env c ms) (m, st)).1
      (forLoop k (fun _ ms => Sse.multHashStep env c ms) (m, st)).2
    refine ⟨?_, [Ev.wrH (u32 (8 * u32 k + 7)), Ev.wrH (u32 (8 * u32 k + 6)),
      Ev.wrH (u32 (8 * u32 k + 5)), Ev.wrH (u32 (8 * u32 k + 4)), Ev.wrH (u32 (8 * u32 k + 3)),
      Ev.wrH (u32 (8 * u32 k + 2)), Ev.wrH (u32 (8 * u32 k + 1)),
      Ev.wrH (u32 (8 * u32 k + 0))] ++ ext, ?_, ?_⟩
    · show u32 ((Sse.multHashPublish env c
        (forLoop k (fun _ ms => Sse.multHashStep env c ms) (m, st))).1.completedMultiplies + 1)
        = u32 (k + 1)
      rw [hp.2.1, h1]
      unfold u32
      rw [Nat.add_mod, Nat.mod_mod, ← Nat.add_mod]
    · show (Sse.multHashPublish env c
        (forLoop k (fun _ ms => Sse.multHashStep env c ms) (m, st))).1.trace = _
      rw [hp.1, h2, h1, List.append_assoc]
    · have key : ∀ a7 a6 a5 a4 a3 a2 a1 a0 : Nat,
          writesH ([Ev.wrH a7, Ev.wrH a6, Ev.wrH a5, Ev.wrH a4, Ev.wrH a3, Ev.wrH a2,
            Ev.wrH a1, Ev.wrH a0] ++ ext)
            = [a7, a6, a5, a4, a3, a2, a1, a0] ++ writesH ext := fun _ _ _ _ _ _ _ _ => rfl
      rw [key, h3, pacerWords_succ]

theorem pacerWords_count_mono (a : Nat) : ∀ j k, j ≤ k →
    (Sse.pacerWords j).count a ≤ (Sse.pacerWords k).count a := by
  intro j k hjk
  induction hjk with
  | refl => exact le_refl _
  | step _ ih =>
    rw [pacerWords_succ, List.count_append]
    omega

theorem pacerWords_count_two (K : Nat) (hK : u32 (8 * u32 K + 0) = 0) (hK1 : 1 ≤ K)
    (k : Nat) (hk : K + 1 ≤ k) : 2 ≤ (Sse.pacerWords k).count 0 := by
  have h1 : 1 ≤ (Sse.pacerWords K).count 0 := by
    refine le_trans ?_ (pacerWords_count_mono 0 1 K hK1)
    decide
  have h2 : 2 ≤ (Sse.pacerWords (K + 1)).count 0 := by
    rw [pacerWords_succ, List.count_append, hK]
    have : 1 ≤ List.count 0 [u32 (8 * u32 K + 7), u32 (8 * u32 K + 6), u32 (8 * u32 K + 5),
        u32 (8 * u32 K + 4), u32 (8 * u32 K + 3), u32 (8 * u32 K + 2), u32 (8 * u32 K + 1),
        0] := by
      rw [List.one_le_count_iff]
      simp
    omega
  exact le_trans h2 (pacerWords_count_mono 0 _ _ hk)

theorem pacer_stores_word_twice (env : Env) (c : Sse.Common) (g : Nat) (m : Mach)
    (hnb : c.numblocks = 2 ^ 29) :
    ∃ s ext, Relation.ReflTransGen (LevelStep env c) (levelStart env c g m) s
      ∧ s.m = Sse.multHash env c (m.startLevel g c.numblocks)
      ∧ s.m.trace = ext ++ (m.startLevel g c.numblocks).trace
      ∧ 2 ≤ (writesH ext).count 0 := by
  have hN : u32 (c.numblocks * 2) = 2 ^ 30 := by rw [hnb]; decide
  obtain ⟨_, ext, h2, h3⟩ := pacer_trace env c (m.startLevel g c.numblocks)
    (Sse.multHashSeed env c) rfl (u32 (c.numblocks * 2))
  refine ⟨_, ext, pacer_path env c (u32 (c.numblocks * 2)) (m.startLevel g c.numblocks)
    (Sse.multHashSeed env c) (le_refl _), rfl, h2, ?_⟩
  rw [h3, hN]
  exact pacerWords_count_two (2 ^ 29) (by decide) (by decide) (2 ^ 30) (by decide)

set_option maxRecDepth 100000 in
/-- C23 (the code at `memSize = 1`, `blockSize = 32`, `parallelism = 1`, garlic level 25,
which runs with `numblocks = 2^29`): the pacer publishes `2^30` checkpoints, and since the
index `8*completedMultiplies + j` is computed in 32 bits, checkpoint `2^29` is stored over
the words of slot 0: in the state reached when the pacer has finished, word 0 of
`multHashes` has been stored at least twice since the start of the level. -/
theorem C23_checkpoint_slot_stored_twice :
    (initCommon [0, 0, 0, 0] 4 1 0 25 32 32 1 1).numblocks = 2 ^ 29
      ∧ u32 (8 * 2 ^ 29 + 0) = 0
      ∧ ∀ (env : Env) (m : Mach), ∃ s ext,
          Relation.ReflTransGen (LevelStep env (initCommon [0, 0, 0, 0] 4 1 0 25 32 32 1 1))
              (levelStart env (initCommon [0, 0, 0, 0] 4 1 0 25 32 32 1 1) 25 m) s
            ∧ s.m = Sse.multHash env (initCommon [0, 0, 0, 0] 4 1 0 25 32 32 1 1)
                (m.startLevel 25 (initCommon [0, 0, 0, 0] 4 1 0 25 32 32 1 1).numblocks)
            ∧ s.m.trace = ext
                ++ (m.startLevel 25 (initCommon [0, 0, 0, 0] 4 1 0 25 32 32 1 1).numblocks).trace
            ∧ 2 ≤ (writesH ext).count 0 :=
  ⟨by decide, by decide, fun env m =>
    pacer_stores_word_twice env (initCommon [0, 0, 0, 0] 4 1 0 25 32 32 1 1) 25 m (by decide)⟩

theorem publication_order (env : Env) (c : Sse.Common) (g : Nat) (m : Mach) (s : Sys)
    (hnb : c.numblocks ≤ 2 ^ 28)
    (hreach : Relation.ReflTransGen (LevelStep env c) (levelStart env c g m) s) :
    s.m.completedMultiplies = s.pacerI ∧ s.pacerI ≤ 2 * c.numblocks
      ∧ (∃ ext, s.m.trace = ext ++ (m.startLevel g c.numblocks).trace
          ∧ writesH ext = slotWords (s.pacerI + if s.stored then 1 else 0)
          ∧ (writesH ext).Nodup ∧ foldsAfterWrites ext = true)
      ∧ (∀ s2, LevelStep env c s s2 →
          s.m.completedMultiplies ≤ s2.m.completedMultiplies
            ∧ s2.m.completedMultiplies ≤ s.m.completedMultiplies + 1)
      ∧ (∀ s2, Relation.ReflTransGen (LevelStep env c) s s2 →
          ∀ a, a < 8 * s.m.completedMultiplies → s2.m.multHashes a = s.m.multHashes a)
      ∧ ∀ iteration state r, Sse.hashMultItoState env iteration s.m state = some r →
          iteration < s.m.completedMultiplies := by
  have hN : u32 (c.numblocks * 2) = 2 * c.numblocks := by
    unfold u32; rw [Nat.mul_comm]; exact Nat.mod_eq_of_lt (by omega)
  have hN2 : u32 (c.numblocks * 2) ≤ 2 ^ 29 := by rw [hN]; omega
  obtain ⟨hinv, _, _⟩ := publicationInv_reach env c _ _ s hN2
    (publicationInv_start env c g m) hreach
  have hinv2 := hinv
  obtain ⟨h1, h2, _, ext, h4, h5, h6⟩ := hinv
  refine ⟨h1, by rw [← hN]; exact h2, ⟨ext, h4, h5, by rw [h5]; exact slotWords_nodup _, h6⟩,
    ?_, ?_, ?_⟩
  · intro s2 hs
    obtain ⟨_, j2, j3, _⟩ := publicationInv_step env c _ s s2 hN2 hinv2 hs
    exact ⟨j2, j3⟩
  · intro s2 hs
    exact (publicationInv_reach env c _ s s2 hN2 hinv2 hs).2.2
  · intro iteration state r hr
    exact (hashMultItoState_trace env iteration s.m state r hr).1

/-! ## Reference variant: addresses of the resistant pass and slice folding -/

set_option maxRecDepth 100000 in
/-- C21 (the code at `parallelism = 2`, worker 0, `blocklen = 8`, `blocksPerThread = 8`,
slice 0): the only block of the slice has `fromAddr = 0 < completedBlocks*blocklen`, so
`hashBlocks` adds `(state[0] % 2)*blocksPerThread`; with `state[0] = 0` the source address
is word 0, with `state[0] = 1` it is word 8, on the same memory and with `prevAddr = 0` in
both runs. -/
theorem C21_ref_source_depends_on_state :
    (Ref.hashWithoutPassword demoHashWithSalt (fun _ => 0) [0, 0, 0, 0, 0, 0, 0, 0] 0 8 8 0 1
        2 0).map (fun w => w.log.map (fun e => (e.1, e.2.1))) = some [(0, 0)]
      ∧ (Ref.hashWithoutPassword demoHashWithSalt (fun _ => 0) [1, 0, 0, 0, 0, 0, 0, 0] 0 8 8
          0 1 2 0).map (fun w => w.log.map (fun e => (e.1, e.2.1))) = some [(8, 0)]
      ∧ Ref.sourceAddr [0, 0, 0, 0, 0, 0, 0, 0] 8 8 0 0 2 1 = 0
      ∧ Ref.sourceAddr [1, 0, 0, 0, 0, 0, 0, 0] 8 8 0 0 2 1 = 8 := by
  decide

set_option maxRecDepth 100000 in
/-- C22 (the code at `blocksPerThread = 8`, and at `blocksPerThread = 64` with two
workers): with `blocksPerThread = 8` the fold index of slice 0 is `1 - 8 = -7`, before the
start of the array, and the slice loops stop there; with `blocksPerThread = 64`,
`blocklen = 8` and two workers the fold after slice 0 of worker 1 is at word 0, while the
last block that worker 1 wrote in that slice is at word 128 (its last 8 words are
`128 .. 135`). -/
theorem C22_fold_index_not_last_written :
    Ref.foldIndex 0 8 = -7
      ∧ (∀ slice, slice < 7 → Ref.foldIndex slice 8 < 0)
      ∧ (Ref.hashMemorySlices demoHashWithSalt [0, 0, 0, 0, 0, 0, 0, 0] (fun _ => 0) 64 8 8 8
          0 1 1).isNone = true
      ∧ (Ref.hashWithoutPassword demoHashWithSalt (fun _ => 0) [0, 0, 0, 0, 0, 0, 0, 0] 1 8 64
          0 1 2 0).map (fun w => w.log.head?.map (fun e => e.2.2)) = some (some 128)
      ∧ Ref.foldIndex 0 64 = 0
      ∧ (Ref.sliceStep demoHashWithSalt 1024 64 8 8 0 2 1 0 1
          (some { mem := fun _ => 0, states := fun _ => [0, 0, 0, 0, 0, 0, 0, 0],
                  hash256 := [0, 0, 0, 0, 0, 0, 0, 0], folds := [] })).map (fun h => h.folds)
          = some [(0, 1, 0, some 128)] := by
  decide

theorem ref_hashBlocks_pair (hashWithSalt : List Nat → Nat → List Nat) (m1 m2 : Nat → Nat)
    (s1 s2 : List Nat) (blocklen subBlocklen blocksPerThread fromAddr prevAddr toAddr
      multiplies repetitions p completedBlocks : Nat) :
    (Ref.hashBlocks hashWithSalt m1 s1 blocklen subBlocklen blocksPerThread fromAddr
          prevAddr toAddr multiplies repetitions p 1 completedBlocks = none
        ∧ Ref.hashBlocks hashWithSalt m2 s2 blocklen subBlocklen blocksPerThread fromAddr
          prevAddr toAddr multiplies repetitions p 1 completedBlocks = none)
      ∨ ∃ r1 r2, Ref.hashBlocks hashWithSalt m1 s1 blocklen subBlocklen blocksPerThread fromAddr
            prevAddr toAddr multiplies repetitions p 1 completedBlocks = some r1
          ∧ Ref.hashBlocks hashWithSalt m2 s2 blocklen subBlocklen blocksPerThread fromAddr
            prevAddr toAddr multiplies repetitions p 1 completedBlocks = some r2 := by
  unfold Ref.hashBlocks
  by_cases h2 : subBlocklen = 0
  · left; simp [h2]
  · right; simp [h2]

theorem ref_sourceAddr_single (s1 s2 : List Nat) (blocklen blocksPerThread fromAddr p
    completedBlocks : Nat) :
    Ref.sourceAddr s1 blocklen blocksPerThread fromAddr p 1 completedBlocks
      = Ref.sourceAddr s2 blocklen blocksPerThread fromAddr p 1 completedBlocks := by
  unfold Ref.sourceAddr
  simp only [Nat.mod_one]

theorem ref_resistant_step_single (hashWithSalt : List Nat → Nat → List Nat)
    (p blocklen blocksPerThread multiplies repetitions completedBlocks start i : Nat)
    (w1 w2 : Option Ref.RW)
    (h : (w1 = none ∧ w2 = none)
      ∨ ∃ a b, w1 = some a ∧ w2 = some b ∧ a.numBits = b.numBits ∧ a.log = b.log) :
    (Ref.hashWithoutPasswordStep hashWithSalt p blocklen blocksPerThread multiplies
          repetitions 1 completedBlocks start i w1 = none
        ∧ Ref.hashWithoutPasswordStep hashWithSalt p blocklen blocksPerThread multiplies
          repetitions 1 completedBlocks start i w2 = none)
      ∨ ∃ a b, Ref.hashWithoutPasswordStep hashWithSalt p blocklen blocksPerThread multiplies
            repetitions 1 completedBlocks start i w1 = some a
          ∧ Ref.hashWithoutPasswordStep hashWithSalt p blocklen blocksPerThread multiplies
            repetitions 1 completedBlocks start i w2 = some b
          ∧ a.numBits = b.numBits ∧ a.log = b.log := by
  rcases h with ⟨rfl, rfl⟩ | ⟨a, b, rfl, rfl, hn, hl⟩
  · exact Or.inl ⟨rfl, rfl⟩
  · unfold Ref.hashWithoutPasswordStep
    simp only [hn]
    rcases ref_hashBlocks_pair hashWithSalt a.mem b.mem a.state b.state (u32 blocklen)
      (u32 blocklen) blocksPerThread
      (u64 (blocklen * if u32 (Ref.reverse i (Ref.growNumBits 32 i b.numBits - 1)
          + u32 (1 <<< (Ref.growNumBits 32 i b.numBits - 1))) < i
        then u32 (Ref.reverse i (Ref.growNumBits 32 i b.numBits - 1)
          + u32 (1 <<< (Ref.growNumBits 32 i b.numBits - 1)))
        else Ref.reverse i (Ref.growNumBits 32 i b.numBits - 1)))
      (u64 (u64 (start + u64 (i * blocklen)) + 2 ^ 64 - blocklen))
      (u64 (start + u64 (i * blocklen))) multiplies repetitions p completedBlocks
      with ⟨e1, e2⟩ | ⟨r1, r2, e1, e2⟩
    · left; simp only [e1, e2, and_self]
    · right
      simp only [e1, e2]
      exact ⟨_, _, rfl, rfl, rfl, by
        show (_ :: a.log) = (_ :: b.log)
        rw [hl, ref_sourceAddr_single a.state b.state]⟩

theorem ref_resistant_single_thread (hashWithSalt : List Nat → Nat → List Nat)
    (mem1 mem2 : Nat → Nat) (state1 state2 : List Nat)
    (p blocklen blocksPerThread multiplies repetitions completedBlocks : Nat) :
    (Ref.hashWithoutPassword hashWithSalt mem1 state1 p blocklen blocksPerThread multiplies
        repetitions 1 completedBlocks).map (fun w => w.log)
      = (Ref.hashWithoutPassword hashWithSalt mem2 state2 p blocklen blocksPerThread multiplies
          repetitions 1 completedBlocks).map (fun w => w.log) := by
  unfold Ref.hashWithoutPassword
  have key := forLoop_rel
    (fun (w1 w2 : Option Ref.RW) => (w1 = none ∧ w2 = none)
      ∨ ∃ a b, w1 = some a ∧ w2 = some b ∧ a.numBits = b.numBits ∧ a.log = b.log)
    (fun k w => Ref.hashWithoutPasswordStep hashWithSalt p blocklen blocksPerThread multiplies
      repetitions 1 (if completedBlocks = 0 then 1 else completedBlocks)
      (u32 (blocksPerThread * p)) ((if completedBlocks = 0 then 1 else completedBlocks) + k) w)
    (fun k w => Ref.hashWithoutPasswordStep hashWithSalt p blocklen blocksPerThread multiplies
      repetitions 1 (if completedBlocks = 0 then 1 else completedBlocks)
      (u32 (blocksPerThread * p)) ((if completedBlocks = 0 then 1 else completedBlocks) + k) w)
    (fun k a b hab => ref_resistant_step_single hashWithSalt p blocklen blocksPerThread
      multiplies repetitions _ _ _ a b hab)
  have := key (u32 ((if completedBlocks = 0 then 1 else completedBlocks) + blocksPerThread / 8)
      - (if completedBlocks = 0 then 1 else completedBlocks))
    (some { mem := if completedBlocks = 0 then
              forLoop (blocklen / 8) (fun i (x : Nat → Nat) => fun a =>
                if u32 (blocksPerThread * p) + u32 (8 * i) ≤ a
                    ∧ a < u32 (blocksPerThread * p) + u32 (8 * i) + 8 then
                  (hashWithSalt state1 i).getD (a - (u32 (blocksPerThread * p) + u32 (8 * i))) 0
                else x a) mem1
            else mem1, state := state1, numBits := 1, log := [] })
    (some { mem := if completedBlocks = 0 then
              forLoop (blocklen / 8) (fun i (x : Nat → Nat) => fun a =>
                if u32 (blocksPerThread * p) + u32 (8 * i) ≤ a
                    ∧ a < u32 (blocksPerThread * p) + u32 (8 * i) + 8 then
                  (hashWithSalt state2 i).getD (a - (u32 (blocksPerThread * p) + u32 (8 * i))) 0
                else x a) mem2
            else mem2, state := state2, numBits := 1, log := [] })
    (Or.inr ⟨_, _, rfl, rfl, rfl, rfl⟩)
  rcases this with ⟨h1, h2⟩ | ⟨a, b, h1, h2, _, h4⟩
  · simp only [h1, h2]
  · simp only [h1, h2, Option.map_some', h4]

/-! ## Every read of a garlic level follows a write of the same word -/

theorem readsWritten_append (e t : List Ev)
    (hM : ∀ x, Ev.rdM x ∈ e → Ev.wrM x ∈ t) (hH : ∀ x, Ev.rdH x ∈ e → Ev.wrH x ∈ t)
    (ht : readsWritten t = true) : readsWritten (e ++ t) = true := by
  induction e with
  | nil => exact ht
  | cons ev e ih =>
    have ih2 := ih (fun x hx => hM x (List.mem_cons_of_mem _ hx))
      (fun x hx => hH x (List.mem_cons_of_mem _ hx))
    cases ev with
    | rdM a =>
      have : Ev.wrM a ∈ e ++ t :=
        List.mem_append.2 (Or.inr (hM a (List.mem_cons_self _ _)))
      simp [readsWritten, this, ih2]
    | rdH a =>
      have : Ev.wrH a ∈ e ++ t :=
        List.mem_append.2 (Or.inr (hH a (List.mem_cons_self _ _)))
      simp [readsWritten, this, ih2]
    | wrM a => simpa [readsWritten] using ih2
    | wrH a => simpa [readsWritten] using ih2
    | level g n => simpa [readsWritten] using ih2

theorem levelTrace_mono {nb : Nat} {t0 : List Ev} {Cov Cov2 : Nat → Prop} {m : Mach}
    (h : LevelTrace nb t0 Cov m) (hC : ∀ x, Cov2 x → Cov x) : LevelTrace nb t0 Cov2 m := by
  obtain ⟨ext, h1, h2, h3, h4⟩ := h
  exact ⟨ext, h1, h2, fun x hx => h3 x (hC x hx), h4⟩

theorem levelTrace_touches {nb : Nat} {t0 : List Ev} {Cov R W C : Nat → Prop} {a b : Mach}
    (h : LevelTrace nb t0 Cov a) (ht : Touches R W C a b) (hR : ∀ x, R x → Cov x) :
    LevelTrace nb t0 (fun x => Cov x ∨ C x) b := by
  obtain ⟨ext, h1, h2, h3, h4⟩ := h
  obtain ⟨⟨e, g1, g2, g3⟩, _⟩ := ht
  refine ⟨e ++ ext, by rw [g1, h1, List.append_assoc], ?_, ?_, ?_⟩
  · apply readsWritten_append e ext _ _ h2
    · intro x hx
      rcases g2 _ hx with ⟨y, hy, hRy⟩ | ⟨y, hy, _⟩
      · have : x = y := by simpa using hy
        rw [this]; exact h3 y (hR y hRy)
      · exact absurd hy (by simp)
    · intro x hx
      rcases g2 _ hx with ⟨y, hy, _⟩ | ⟨y, hy, _⟩
      · exact absurd hy (by simp)
      · exact absurd hy (by simp)
  · intro x hx
    rcases hx with hx | hx
    · exact List.mem_append.2 (Or.inr (h3 x hx))
    · exact List.mem_append.2 (Or.inl (g3 x hx))
  · intro i k hi hk
    exact List.mem_append.2 (Or.inr (h4 i k hi hk))

theorem levelTrace_fold {nb : Nat} {t0 : List Ev} {Cov : Nat → Prop} (env : Env) (i : Nat)
    (m : Mach) (s : List Nat) (r : Mach × List Nat) (h : LevelTrace nb t0 Cov m)
    (hr : Sse.hashMultItoState env i m s = some r) (hi : i < nb) :
    LevelTrace nb t0 Cov r.1 := by
  obtain ⟨ext, h1, h2, h3, h4⟩ := h
  obtain ⟨_, g2, _, _⟩ := hashMultItoState_trace env i m s r hr
  refine ⟨_ ++ ext, by rw [g2, h1, List.append_assoc], ?_,
    fun x hx => List.mem_append.2 (Or.inr (h3 x hx)),
    fun j k hj hk => List.mem_append.2 (Or.inr (h4 j k hj hk))⟩
  apply readsWritten_append _ ext _ _ h2
  · intro x hx
    simp at hx
  · intro x hx
    simp only [List.mem_cons, Ev.rdH.injEq, List.mem_singleton, List.not_mem_nil,
      or_false] at hx
    rcases hx with h | h | h | h | h | h | h | h <;> rw [h] <;> apply h4 i _ hi <;> decide

theorem touches_hashBlocks_blocks (m : Mach) (state : List Nat)
    (s8 ns fromAddr toAddr repetitions : Nat) (hs8 : 1 ≤ s8) (hns : 1 ≤ ns)
    (hbl : 8 * s8 * ns < 2 ^ 32) (h4f : 4 ∣ fromAddr) (h4 : 4 ∣ toAddr)
    (hto : 8 * s8 * ns ≤ toAddr) (hto64 : toAddr < 2 ^ 64) :
    Touches
      (fun a => (fromAddr ≤ a ∧ a < fromAddr + 8 * s8 * ns)
        ∨ (toAddr - 8 * s8 * ns ≤ a ∧ a < toAddr))
      (fun a => toAddr ≤ a ∧ a < toAddr + 8 * s8 * ns)
      (fun a => 1 ≤ repetitions ∧ toAddr ≤ a ∧ a < toAddr + 8 * s8 * ns) m
      (Sse.hashBlocks m state (8 * s8 * ns) (8 * s8) fromAddr toAddr repetitions).1 := by
  have e1 : 8 * s8 / 8 = s8 := Nat.mul_div_cancel_left _ (by decide)
  have e2 : 8 * s8 * ns / (8 * s8) = ns := Nat.mul_div_cancel_left _ (by omega)
  have e3 : 4 * (toAddr / 4) = toAddr := Nat.mul_div_cancel' h4
  have e4 : 4 * (fromAddr / 4) = fromAddr := Nat.mul_div_cancel' h4f
  have hp := fun v => pCursor_spec s8 ns toAddr v hs8 hns hbl h4 hto hto64
  refine touches_mono (touches_hashBlocks
    (fun a => (fromAddr ≤ a ∧ a < fromAddr + 8 * s8 * ns)
      ∨ (toAddr - 8 * s8 * ns ≤ a ∧ a < toAddr))
    (fun a => toAddr ≤ a ∧ a < toAddr + 8 * s8 * ns) m state (8 * s8 * ns) (8 * s8) fromAddr
    toAddr repetitions ?_ ?_ ?_ ?_) (fun _ h => h) (fun _ h => h) ?_
  · intro k hk
    rw [e1, e4]
    rw [e2] at hk
    have hle : 8 * s8 * (k + 1) ≤ 8 * s8 * ns := Nat.mul_le_mul_left _ (by omega)
    have e : 8 * s8 * (k + 1) = 8 * s8 * k + 8 * s8 := by ring
    left; omega
  · intro v k hk
    rw [e1] at hk
    right
    rw [(hp v).2.1]
    have := (hp v).2.2
    omega
  · intro k hk
    rw [e1, e2] at hk
    rw [e4]
    left; omega
  · intro k hk
    rw [e1, e2] at hk
    rw [e3]
    exact ⟨by omega, by omega⟩
  · intro x hx
    rw [e1, e2, e3]
    exact hx

theorem hashWithoutPasswordStep_trace (env : Env) (c : Sse.Common) (start i : Nat)
    (t0 : List Ev) (Cov : Nat → Prop) (hv : c.Valid) (h4 : 4 ∣ start)
    (hend : start + c.numblocks * c.blocklen < 2 ^ 64)
    (hi1 : 1 ≤ i) (hi : i < c.numblocks) (w : Sse.WS)
    (hs : w.stuck = false) (hcm : c.numblocks ≤ w.m.completedMultiplies)
    (hT : LevelTrace c.numblocks t0 Cov w.m)
    (hto : w.toAddr = start + i * c.blocklen)
    (hmask : w.mask = 2 ^ w.numBits) (hmle : w.mask ≤ i)
    (hS : ∀ a, start ≤ a → a < start + i * c.blocklen → Cov a) :
    (Sse.hashWithoutPasswordStep env c start i w).stuck = false
      ∧ c.numblocks ≤ (Sse.hashWithoutPasswordStep env c start i w).m.completedMultiplies
      ∧ LevelTrace c.numblocks t0
          (fun a => Cov a ∨ (start + i * c.blocklen ≤ a ∧ a < start + (i + 1) * c.blocklen))
          (Sse.hashWithoutPasswordStep env c start i w).m
      ∧ (Sse.hashWithoutPasswordStep env c start i w).toAddr = start + (i + 1) * c.blocklen
      ∧ (Sse.hashWithoutPasswordStep env c start i w).mask
          = 2 ^ (Sse.hashWithoutPasswordStep env c start i w).numBits
      ∧ (Sse.hashWithoutPasswordStep env c start i w).mask ≤ i := by
  have hnz := valid_nonzero c hv
  have hb := valid_bounds c hv
  obtain ⟨⟨s8, ns, hs8, hns, hsub, hbl⟩, hblt, hrep, hnb1, hhs, hpar, hov⟩ := hv
  have hwin := slideWindow_inv i w.mask w.numBits hmask hmle (by omega)
  have hrp := reversePosOf_lt i _ _ hwin.1 hwin.2.1 hwin.2.2
  have hmul1 : c.blocklen * Sse.reversePosOf i (Sse.slideWindow i (w.mask, w.numBits)).1
      (Sse.slideWindow i (w.mask, w.numBits)).2 + c.blocklen ≤ i * c.blocklen := by
    calc c.blocklen * Sse.reversePosOf i (Sse.slideWindow i (w.mask, w.numBits)).1
          (Sse.slideWindow i (w.mask, w.numBits)).2 + c.blocklen
        = (Sse.reversePosOf i (Sse.slideWindow i (w.mask, w.numBits)).1
          (Sse.slideWindow i (w.mask, w.numBits)).2 + 1) * c.blocklen := by ring
      _ ≤ i * c.blocklen := Nat.mul_le_mul_right _ hrp
  have hmul2 : i * c.blocklen + c.blocklen ≤ c.numblocks * c.blocklen := by
    calc i * c.blocklen + c.blocklen = (i + 1) * c.blocklen := by ring
      _ ≤ c.numblocks * c.blocklen := Nat.mul_le_mul_right _ hi
  have hfrom : u64 (start + u64 (c.blocklen * Sse.reversePosOf i
      (Sse.slideWindow i (w.mask, w.numBits)).1 (Sse.slideWindow i (w.mask, w.numBits)).2))
      = start + c.blocklen * Sse.reversePosOf i
      (Sse.slideWindow i (w.mask, w.numBits)).1
      (Sse.slideWindow i (w.mask, w.numBits)).2 := by
    unfold u64
    rw [Nat.mod_eq_of_lt (a := c.blocklen * _) (by omega)]
    exact Nat.mod_eq_of_lt (by omega)
  have h4bl : 4 ∣ c.blocklen := ⟨2 * s8 * ns, by rw [hbl]; ring⟩
  have hi1bl : c.blocklen ≤ i * c.blocklen := Nat.le_mul_of_pos_left _ hi1
  have eb1 : 8 * (s8 * ns) * 1 = c.blocklen := by rw [hbl]; ring
  have eb2 : 8 * (s8 * ns) = c.blocklen := by rw [hbl]; ring
  have HB := touches_hashBlocks_blocks w.m w.state (s8 * ns) 1
    (u64 (start + u64 (c.blocklen * Sse.reversePosOf i
      (Sse.slideWindow i (w.mask, w.numBits)).1 (Sse.slideWindow i (w.mask, w.numBits)).2)))
    w.toAddr c.repetitions (Nat.mul_pos hs8 hns) (le_refl 1) (by rw [eb1]; exact hblt)
    (by rw [hfrom]; exact Dvd.dvd.add h4 (Dvd.dvd.mul_right h4bl _))
    (by rw [hto]; exact Dvd.dvd.add h4 (Dvd.dvd.mul_left h4bl _))
    (by rw [eb1, hto]; omega) (by rw [hto]; omega)
  rw [eb1, eb2] at HB
  have c1 := sameCtl_hashBlocks w.m w.state c.blocklen c.blocklen
    (u64 (start + u64 (c.blocklen * Sse.reversePosOf i
      (Sse.slideWindow i (w.mask, w.numBits)).1 (Sse.slideWindow i (w.mask, w.numBits)).2)))
    w.toAddr c.repetitions
  have hT2 := levelTrace_touches hT HB (by
    intro a ha
    rw [hfrom, hto] at ha
    rcases ha with ⟨ha1, ha2⟩ | ⟨ha1, ha2⟩
    · exact hS a (by omega) (by omega)
    · exact hS a (by omega) (by omega))
  cases hr : Sse.hashMultItoState env i
      (Sse.hashBlocks w.m w.state c.blocklen c.blocklen
        (u64 (start + u64 (c.blocklen * Sse.reversePosOf i
          (Sse.slideWindow i (w.mask, w.numBits)).1 (Sse.slideWindow i (w.mask, w.numBits)).2)))
        w.toAddr c.repetitions).1
      (Sse.hashBlocks w.m w.state c.blocklen c.blocklen
        (u64 (start + u64 (c.blocklen * Sse.reversePosOf i
          (Sse.slideWindow i (w.mask, w.numBits)).1 (Sse.slideWindow i (w.mask, w.numBits)).2)))
        w.toAddr c.repetitions).2 with
  | none =>
    have := (hashMultItoState_none env i _ _).1 hr
    rw [← c1.1] at this
    omega
  | some r =>
    have e1 := hashWithoutPasswordStep_eq env c start i w hnz.1 hs r hr
    have hT3 := levelTrace_fold env i _ _ r hT2 hr hi
    have hr2 := hashMultItoState_trace env i _ _ r hr
    rw [e1]
    have htoA : u64 (w.toAddr + c.blocklen) = start + (i + 1) * c.blocklen := by
      unfold u64
      rw [hto, Nat.mod_eq_of_lt (by omega)]; ring
    refine ⟨rfl, by show c.numblocks ≤ r.1.completedMultiplies; rw [hr2.2.2.1, ← c1.1]; exact hcm,
      levelTrace_mono hT3 ?_, htoA, hwin.1, hwin.2.1⟩
    intro a ha
    rcases ha with ha | ⟨ha1, ha2⟩
    · exact Or.inl ha
    · refine Or.inr ⟨hrep, by rw [hto]; exact ha1, ?_⟩
      rw [hto]
      calc a < start + (i + 1) * c.blocklen := ha2
        _ = start + i * c.blocklen + c.blocklen := by ring

theorem touches_fill_cover (n start : Nat) (val : Nat → Nat) (m : Mach) :
    Touches (fun _ => False) (fun a => start ≤ a ∧ a < start + n)
      (fun a => start ≤ a ∧ a < start + n) m
      (forLoop n (fun i (x : Mach) => x.wr (start + i) (val i)) m) := by
  refine touches_mono (forLoop_ind
    (fun k (x : Mach) => Touches (fun _ => False) (fun a => start ≤ a ∧ a < start + n)
      (fun a => start ≤ a ∧ a < start + k) m x)
    (fun i (x : Mach) => x.wr (start + i) (val i)) n
    (fun k x hk hx => touches_trans _ hx
      (touches_wr (fun _ => False) (fun a => start ≤ a ∧ a < start + n)
        (fun a => a = start + k) x _ _ ⟨by omega, by omega⟩ (fun _ h => h))
      (fun a ha => by
        have ha2 : start ≤ a ∧ a < start + (k + 1) := ha
        show (start ≤ a ∧ a < start + k) ∨ a = start + k
        omega)) m
    (touches_refl _ _ _ m (fun a ha => by
      have ha2 : start ≤ a ∧ a < start + 0 := ha
      omega))) (fun _ h => h) (fun _ h => h) (fun _ h => h)

theorem hashWithoutPassword_trace (env : Env) (c : Sse.Common) (p : Nat) (t0 : List Ev)
    (Cov : Nat → Prop) (hv : c.Valid) (hp : p < c.parallelism) (m : Mach)
    (hcm : c.numblocks ≤ m.completedMultiplies) (hT : LevelTrace c.numblocks t0 Cov m) :
    LevelTrace c.numblocks t0
        (fun x => Cov x ∨ (2 * p * c.numblocks * c.blocklen ≤ x
          ∧ x < (2 * p + 1) * c.numblocks * c.blocklen))
        (Sse.hashWithoutPassword env c p m).1
      ∧ c.numblocks ≤ (Sse.hashWithoutPassword env c p m).1.completedMultiplies := by
  have hb := valid_bounds c hv
  have hv2 := hv
  obtain ⟨⟨s8, ns, hs8, hns, hsub, hbl⟩, hblt, hrep, hnb1, hhs, hpar, hov⟩ := hv
  have hreg := region_bound c (2 * p) c.numblocks (by omega) (le_refl _)
  have h2p : u32 (2 * p) = 2 * p := by
    unfold u32
    apply Nat.mod_eq_of_lt
    have : 2 * p * 1 ≤ 2 * c.parallelism * c.numblocks :=
      Nat.mul_le_mul (by omega) hnb1
    omega
  have hstart : u64 (u32 (2 * p) * c.numblocks * c.blocklen)
      = 2 * p * c.numblocks * c.blocklen := by
    rw [h2p]; unfold u64
    apply Nat.mod_eq_of_lt
    have : 0 < c.numblocks * c.blocklen := Nat.mul_pos hnb1 hb.2.2.2
    omega
  have h4 : 4 ∣ 2 * p * c.numblocks * c.blocklen :=
    Dvd.dvd.mul_left ⟨2 * s8 * ns, by rw [hbl]; ring⟩ _
  have hbl1 : c.blocklen ≤ c.numblocks * c.blocklen := Nat.le_mul_of_pos_left _ hnb1
  have hfill := touches_fill_cover c.blocklen (2 * p * c.numblocks * c.blocklen)
    (be32dec_vect (env.hashOut (c.blocklen * 4) (c.hash.take c.hashSize) (be32enc p))) m
  have key := forLoop_ind
    (fun k (w : Sse.WS) =>
      w.stuck = false ∧ c.numblocks ≤ w.m.completedMultiplies
        ∧ LevelTrace c.numblocks t0 (fun x => Cov x ∨ (2 * p * c.numblocks * c.blocklen ≤ x
          ∧ x < 2 * p * c.numblocks * c.blocklen + (k + 1) * c.blocklen)) w.m
        ∧ w.toAddr = 2 * p * c.numblocks * c.blocklen + (k + 1) * c.blocklen
        ∧ w.mask = 2 ^ w.numBits ∧ w.mask ≤ k + 1)
    (fun k w => Sse.hashWithoutPasswordStep env c (2 * p * c.numblocks * c.blocklen) (k + 1) w)
    (c.numblocks - 1)
    (fun k w hk hr => by
      obtain ⟨hs, hc, hT1, hto, hmask, hmle⟩ := hr
      have step := hashWithoutPasswordStep_trace env c (2 * p * c.numblocks * c.blocklen)
        (k + 1) t0 _ hv2 h4 (by omega) (by omega) (by omega) w hs hc hT1 hto hmask hmle
        (fun x hx1 hx2 => Or.inr ⟨hx1, hx2⟩)
      refine ⟨step.1, step.2.1, levelTrace_mono step.2.2.1 ?_, step.2.2.2.1, step.2.2.2.2.1,
        Nat.le_succ_of_le step.2.2.2.2.2⟩
      intro x hx
      rcases hx with hx | ⟨hx1, hx2⟩
      · exact Or.inl (Or.inl hx)
      · by_cases hc : x < 2 * p * c.numblocks * c.blocklen + (k + 1) * c.blocklen
        · exact Or.inl (Or.inr ⟨hx1, hc⟩)
        · exact Or.inr ⟨by omega, hx2⟩)
    { m := forLoop c.blocklen (fun i (x : Mach) =>
        x.wr (2 * p * c.numblocks * c.blocklen + i)
          (be32dec_vect (env.hashOut (c.blocklen * 4) (c.hash.take c.hashSize) (be32enc p)) i)) m,
      state := [1, 1, 1, 1, 1, 1, 1, 1], mask := 1, numBits := 0,
      toAddr := u64 (2 * p * c.numblocks * c.blocklen + c.blocklen), stuck := false }
    ⟨rfl, by rw [← (sameCtl_fill _ _ _ m).1]; exact hcm,
      levelTrace_mono (levelTrace_touches hT hfill (fun _ h => absurd h (fun h2 => h2)))
        (fun x hx => by
          rcases hx with hx | ⟨hx1, hx2⟩
          · exact Or.inl hx
          · exact Or.inr ⟨hx1, by omega⟩),
      by unfold u64; rw [Nat.mod_eq_of_lt (by omega)]; ring, rfl, le_refl 1⟩
  unfold Sse.hashWithoutPassword
  simp only [hstart]
  obtain ⟨_, hc, hT1, _, _, _⟩ := key
  refine ⟨levelTrace_mono hT1 ?_, hc⟩
  intro x hx
  rcases hx with hx | ⟨hx1, hx2⟩
  · exact Or.inl hx
  · refine Or.inr ⟨hx1, ?_⟩
    have : c.numblocks - 1 + 1 = c.numblocks := by omega
    rw [this]
    calc x < (2 * p + 1) * c.numblocks * c.blocklen := hx2
      _ = 2 * p * c.numblocks * c.blocklen + c.numblocks * c.blocklen := by ring

theorem hashWithPasswordStep_trace (env : Env) (c : Sse.Common) (p i : Nat) (t0 : List Ev)
    (Cov : Nat → Prop) (hv : c.Valid) (hp : p < c.parallelism) (hi : i < c.numblocks)
    (w : Sse.PS) (hs : w.stuck = false) (hcm : c.numblocks ≤ w.m.completedMultiplies)
    (hT : LevelTrace c.numblocks t0 Cov w.m)
    (hto : w.toAddr = (2 * p + 1) * c.numblocks * c.blocklen + i * c.blocklen)
    (hSF : ∀ a, InFirstHalf c a → Cov a)
    (hSO : ∀ a, (2 * p + 1) * c.numblocks * c.blocklen ≤ a →
      a < (2 * p + 1) * c.numblocks * c.blocklen + i * c.blocklen → Cov a) :
    (Sse.hashWithPasswordStep env c p ((2 * p + 1) * c.numblocks * c.blocklen) i w).stuck
        = false
      ∧ c.numblocks ≤ (Sse.hashWithPasswordStep env c p
          ((2 * p + 1) * c.numblocks * c.blocklen) i w).m.completedMultiplies
      ∧ LevelTrace c.numblocks t0
          (fun a => Cov a ∨ ((2 * p + 1) * c.numblocks * c.blocklen + i * c.blocklen ≤ a
            ∧ a < (2 * p + 1) * c.numblocks * c.blocklen + (i + 1) * c.blocklen))
          (Sse.hashWithPasswordStep env c p ((2 * p + 1) * c.numblocks * c.blocklen) i w).m
      ∧ (Sse.hashWithPasswordStep env c p ((2 * p + 1) * c.numblocks * c.blocklen) i w).toAddr
          = (2 * p + 1) * c.numblocks * c.blocklen + (i + 1) * c.blocklen := by
  have hnz := valid_nonzero c hv
  have hb := valid_bounds c hv
  have hrange := fromAddrWithPassword_range c p i (w.state.getD 0 0) hv hp hi
  obtain ⟨⟨s8, ns, hs8, hns, hsub, hbl⟩, hblt, hrep, hnb1, hhs, hpar, hov⟩ := hv
  have h4bl : 4 ∣ c.blocklen := ⟨2 * s8 * ns, by rw [hbl]; ring⟩
  have hreg := region_bound c (2 * p + 1) c.numblocks (by omega) (le_refl _)
  have hmul2 : i * c.blocklen + c.blocklen ≤ c.numblocks * c.blocklen := by
    calc i * c.blocklen + c.blocklen = (i + 1) * c.blocklen := by ring
      _ ≤ c.numblocks * c.blocklen := Nat.mul_le_mul_right _ hi
  have hbl1 : c.blocklen ≤ c.numblocks * c.blocklen := Nat.le_mul_of_pos_left _ hnb1
  have hsplit : (2 * p + 1) * c.numblocks * c.blocklen
      = 2 * p * c.numblocks * c.blocklen + c.numblocks * c.blocklen := by ring
  have HB := touches_hashBlocks_blocks w.m w.state s8 ns
    (Sse.fromAddrWithPassword c p ((2 * p + 1) * c.numblocks * c.blocklen) i
      (w.state.getD 0 0))
    w.toAddr c.repetitions hs8 hns (by rw [← hbl]; exact hblt) hrange.1
    (by rw [hto]; exact Dvd.dvd.add (Dvd.dvd.mul_left h4bl _) (Dvd.dvd.mul_left h4bl _))
    (by rw [← hbl, hto]; omega) (by rw [hto]; omega)
  rw [← hbl, ← hsub] at HB
  have c1 := sameCtl_hashBlocks w.m w.state c.blocklen c.subBlocklen
    (Sse.fromAddrWithPassword c p ((2 * p + 1) * c.numblocks * c.blocklen) i
      (w.state.getD 0 0)) w.toAddr c.repetitions
  have hT2 := levelTrace_touches hT HB (by
    intro a ha
    rcases ha with ⟨ha1, ha2⟩ | ⟨ha1, ha2⟩
    · rcases hrange.2 a ha1 ha2 with hf | ⟨ho1, ho2⟩
      · exact hSF a hf
      · exact hSO a ho1 ho2
    · rw [hto] at ha1 ha2
      by_cases hlow : a < (2 * p + 1) * c.numblocks * c.blocklen
      · exact hSF a ⟨p, hp, by omega, hlow⟩
      · exact hSO a (by omega) ha2)
  cases hr : Sse.hashMultItoState env i
      (Sse.hashBlocks w.m w.state c.blocklen c.subBlocklen
        (Sse.fromAddrWithPassword c p ((2 * p + 1) * c.numblocks * c.blocklen) i
          (w.state.getD 0 0)) w.toAddr c.repetitions).1
      (Sse.hashBlocks w.m w.state c.blocklen c.subBlocklen
        (Sse.fromAddrWithPassword c p ((2 * p + 1) * c.numblocks * c.blocklen) i
          (w.state.getD 0 0)) w.toAddr c.repetitions).2 with
  | none =>
    have := (hashMultItoState_none env i _ _).1 hr
    rw [← c1.1] at this
    omega
  | some r =>
    have e1 := hashWithPasswordStep_eq env c p _ i w hnz.2 hs r hr
    have hT3 := levelTrace_fold env i _ _ r hT2 hr hi
    have hr2 := hashMultItoState_trace env i _ _ r hr
    rw [e1]
    have htoA : u64 (w.toAddr + c.blocklen)
        = (2 * p + 1) * c.numblocks * c.blocklen + (i + 1) * c.blocklen := by
      unfold u64
      rw [hto, Nat.mod_eq_of_lt (by omega)]; ring
    refine ⟨rfl, by show c.numblocks ≤ r.1.completedMultiplies; rw [hr2.2.2.1, ← c1.1]; exact hcm,
      levelTrace_mono hT3 ?_, htoA⟩
    intro a ha
    rcases ha with ha | ⟨ha1, ha2⟩
    · exact Or.inl ha
    · refine Or.inr ⟨hrep, by rw [hto]; exact ha1, ?_⟩
      rw [hto]
      calc a < (2 * p + 1) * c.numblocks * c.blocklen + (i + 1) * c.blocklen := ha2
        _ = (2 * p + 1) * c.numblocks * c.blocklen + i * c.blocklen + c.blocklen := by ring

theorem hashWithPassword_trace (env : Env) (c : Sse.Common) (p : Nat) (t0 : List Ev)
    (Cov : Nat → Prop) (hv : c.Valid) (hp : p < c.parallelism) (m : Mach)
    (hSF : ∀ x, InFirstHalf c x → Cov x)
    (hcm : c.numblocks ≤ m.completedMultiplies) (hT : LevelTrace c.numblocks t0 Cov m) :
    LevelTrace c.numblocks t0
        (fun x => Cov x ∨ ((2 * p + 1) * c.numblocks * c.blocklen ≤ x
          ∧ x < (2 * p + 2) * c.numblocks * c.blocklen))
        (Sse.hashWithPassword env c p m).1
      ∧ c.numblocks ≤ (Sse.hashWithPassword env c p m).1.completedMultiplies := by
  have hb := valid_bounds c hv
  have hv2 := hv
  obtain ⟨⟨s8, ns, hs8, hns, hsub, hbl⟩, hblt, hrep, hnb1, hhs, hpar, hov⟩ := hv
  have hreg := region_bound c (2 * p + 1) c.numblocks (by omega) (le_refl _)
  have h2p : u32 (2 * p + 1) = 2 * p + 1 := by
    unfold u32
    apply Nat.mod_eq_of_lt
    have : (2 * p + 1) * 1 ≤ 2 * c.parallelism * c.numblocks :=
      Nat.mul_le_mul (by omega) hnb1
    omega
  have hstart : u64 (u32 (2 * p + 1) * c.numblocks * c.blocklen)
      = (2 * p + 1) * c.numblocks * c.blocklen := by
    rw [h2p]; unfold u64
    apply Nat.mod_eq_of_lt
    have : 0 < c.numblocks * c.blocklen := Nat.mul_pos hnb1 hb.2.2.2
    omega
  have key := forLoop_ind
    (fun k (w : Sse.PS) =>
      w.stuck = false ∧ c.numblocks ≤ w.m.completedMultiplies
        ∧ LevelTrace c.numblocks t0
          (fun x => Cov x ∨ ((2 * p + 1) * c.numblocks * c.blocklen ≤ x
            ∧ x < (2 * p + 1) * c.numblocks * c.blocklen + k * c.blocklen)) w.m
        ∧ w.toAddr = (2 * p + 1) * c.numblocks * c.blocklen + k * c.blocklen)
    (fun i w => Sse.hashWithPasswordStep env c p ((2 * p + 1) * c.numblocks * c.blocklen) i w)
    c.numblocks
    (fun k w hk hr => by
      obtain ⟨hs, hc, hT1, hto⟩ := hr
      have step := hashWithPasswordStep_trace env c p k t0 _ hv2 hp hk w hs hc hT1 hto
        (fun x hx => Or.inl (hSF x hx)) (fun x hx1 hx2 => Or.inr ⟨hx1, hx2⟩)
      refine ⟨step.1, step.2.1, levelTrace_mono step.2.2.1 ?_, step.2.2.2⟩
      intro x hx
      rcases hx with hx | ⟨hx1, hx2⟩
      · exact Or.inl (Or.inl hx)
      · by_cases hc : x < (2 * p + 1) * c.numblocks * c.blocklen + k * c.blocklen
        · exact Or.inl (Or.inr ⟨hx1, hc⟩)
        · exact Or.inr ⟨by omega, hx2⟩)
    { m := m, state := [1, 1, 1, 1, 1, 1, 1, 1],
      toAddr := (2 * p + 1) * c.numblocks * c.blocklen, stuck := false }
    ⟨rfl, hcm, levelTrace_mono hT (fun x hx => by
        rcases hx with hx | ⟨hx1, hx2⟩
        · exact hx
        · omega), by simp⟩
  unfold Sse.hashWithPassword
  simp only [hstart]
  obtain ⟨_, hc, hT1, _⟩ := key
  refine ⟨levelTrace_mono hT1 ?_, hc⟩
  intro x hx
  rcases hx with hx | ⟨hx1, hx2⟩
  · exact Or.inl hx
  · refine Or.inr ⟨hx1, ?_⟩
    calc x < (2 * p + 2) * c.numblocks * c.blocklen := hx2
      _ = (2 * p + 1) * c.numblocks * c.blocklen + c.numblocks * c.blocklen := by ring

theorem readsWritten_wrH (ext : List Ev) (h : ∀ e ∈ ext, ∃ a, e = Ev.wrH a) :
    readsWritten ext = true := by
  induction ext with
  | nil => rfl
  | cons e ext ih =>
    obtain ⟨a, rfl⟩ := h e (List.mem_cons_self _ _)
    exact ih (fun e he => h e (List.mem_cons_of_mem _ he))

theorem pacer_trace_wrH (env : Env) (c : Sse.Common) (m : Mach) (st : List Nat)
    (h0 : m.completedMultiplies = 0) : ∀ k : Nat,
    (forLoop k (fun _ ms => Sse.multHashStep env c ms) (m, st)).1.completedMultiplies = u32 k
      ∧ ∃ ext, (forLoop k (fun _ ms => Sse.multHashStep env c ms) (m, st)).1.trace
            = ext ++ m.trace
          ∧ (∀ e ∈ ext, ∃ a, e = Ev.wrH a)
          ∧ ∀ i j, i < k → j < 8 → Ev.wrH (u32 (8 * u32 i + j)) ∈ ext := by
  intro k
  induction k with
  | zero => exact ⟨h0, [], rfl, fun e he => absurd he (List.not_mem_nil _),
      fun i j hi _ => absurd hi (Nat.not_lt_zero _)⟩
  | succ k ih =>
    obtain ⟨h1, ext, h2, h3, h4⟩ := ih
    have hp := multHashPublish_spec env c
      (forLoop k (fun _ ms => Sse.multHashStep env c ms) (m, st)).1
      (forLoop k (fun _ ms => Sse.multHashStep env c ms) (m, st)).2
    refine ⟨?_, [Ev.wrH (u32 (8 * u32 k + 7)), Ev.wrH (u32 (8 * u32 k + 6)),
      Ev.wrH (u32 (8 * u32 k + 5)), Ev.wrH (u32 (8 * u32 k + 4)), Ev.wrH (u32 (8 * u32 k + 3)),
      Ev.wrH (u32 (8 * u32 k + 2)), Ev.wrH (u32 (8 * u32 k + 1)),
      Ev.wrH (u32 (8 * u32 k + 0))] ++ ext, ?_, ?_, ?_⟩
    · show u32 ((Sse.multHashPublish env c
        (forLoop k (fun _ ms => Sse.multHashStep env c ms) (m, st))).1.completedMultiplies + 1)
        = u32 (k + 1)
      rw [hp.2.1, h1]
      unfold u32
      rw [Nat.add_mod, Nat.mod_mod, ← Nat.add_mod]
    · show (Sse.multHashPublish env c
        (forLoop k (fun _ ms => Sse.multHashStep env c ms) (m, st))).1.trace = _
      rw [hp.1, h2, h1, List.append_assoc]
    · intro e he
      rcases List.mem_append.1 he with h | h
      · simp only [List.mem_cons, List.mem_singleton, List.not_mem_nil, or_false] at h
        rcases h with h | h | h | h | h | h | h | h <;> exact ⟨_, h⟩
      · exact h3 e h
    · intro i j hi hj
      by_cases hik : i < k
      · exact List.mem_append.2 (Or.inr (h4 i j hik hj))
      · have : i = k := by omega
        subst this
        apply List.mem_append.2
        left
        have hj8 : j = 0 ∨ j = 1 ∨ j = 2 ∨ j = 3 ∨ j = 4 ∨ j = 5 ∨ j = 6 ∨ j = 7 := by omega
        rcases hj8 with h | h | h | h | h | h | h | h <;> subst h <;> simp

theorem multHash_levelTrace (env : Env) (c : Sse.Common) (g : Nat) (m : Mach)
    (hnb : c.numblocks < 2 ^ 31) :
    LevelTrace c.numblocks m.trace (fun _ => False)
        (Sse.multHash env c (m.startLevel g c.numblocks))
      ∧ c.numblocks ≤ (Sse.multHash env c (m.startLevel g c.numblocks)).completedMultiplies := by
  have hN : u32 (c.numblocks * 2) = c.numblocks * 2 := Nat.mod_eq_of_lt (by omega)
  obtain ⟨h1, ext, h2, h3, h4⟩ := pacer_trace_wrH env c (m.startLevel g c.numblocks)
    (Sse.multHashSeed env c) rfl (u32 (c.numblocks * 2))
  rw [hN] at h1 h2 h4
  have hcm : (Sse.multHash env c (m.startLevel g c.numblocks)).completedMultiplies
      = c.numblocks * 2 := by
    rw [multHash_eq_seed, hN, h1, hN]
  refine ⟨⟨ext ++ [Ev.level g c.numblocks], ?_, ?_, fun x hx => absurd hx (fun h => h), ?_⟩,
    by rw [hcm]; omega⟩
  · rw [multHash_eq_seed, hN, h2, List.append_assoc]
    rfl
  · apply readsWritten_append ext [Ev.level g c.numblocks] _ _ rfl
    · intro x hx
      obtain ⟨a, ha⟩ := h3 _ hx
      exact absurd ha (by simp)
    · intro x hx
      obtain ⟨a, ha⟩ := h3 _ hx
      exact absurd ha (by simp)
  · intro i k hi hk
    apply List.mem_append.2
    left
    have := h4 i k (by omega) hk
    have hi32 : u32 i = i := Nat.mod_eq_of_lt (by omega)
    rw [hi32, Nat.mul_comm] at this
    exact this

theorem runResistant_trace (env : Env) (c : Sse.Common) (hv : c.Valid) (t0 : List Ev)
    (Cov : Nat → Prop) (m : Mach) (hcm : c.numblocks ≤ m.completedMultiplies)
    (hT : LevelTrace c.numblocks t0 Cov m) :
    LevelTrace c.numblocks t0 (fun x => Cov x ∨ InFirstHalf c x)
        (Sse.runWorkers (Sse.hashWithoutPassword env c) c.parallelism m).1
      ∧ c.numblocks
          ≤ (Sse.runWorkers (Sse.hashWithoutPassword env c) c.parallelism m).1.completedMultiplies
      := by
  have key := forLoop_ind
    (fun k (x : Mach × Bool) =>
      LevelTrace c.numblocks t0 (fun z => Cov z ∨ ∃ q, q < k
          ∧ 2 * q * c.numblocks * c.blocklen ≤ z
          ∧ z < (2 * q + 1) * c.numblocks * c.blocklen) x.1
        ∧ c.numblocks ≤ x.1.completedMultiplies)
    (fun p (x : Mach × Bool) => ((Sse.hashWithoutPassword env c p x.1).1,
      x.2 || (Sse.hashWithoutPassword env c p x.1).2))
    c.parallelism
    (fun k x hk hr => by
      obtain ⟨h1, h2⟩ := hr
      have step := hashWithoutPassword_trace env c k t0 _ hv hk x.1 h2 h1
      refine ⟨levelTrace_mono step.1 ?_, step.2⟩
      intro z hz
      rcases hz with hz | ⟨q, hq, hz1, hz2⟩
      · exact Or.inl (Or.inl hz)
      · by_cases hqk : q < k
        · exact Or.inl (Or.inr ⟨q, hqk, hz1, hz2⟩)
        · have : q = k := by omega
          subst this
          exact Or.inr ⟨hz1, hz2⟩)
    (m, false) ⟨levelTrace_mono hT (fun z hz => by
      rcases hz with hz | ⟨q, hq, _⟩
      · exact hz
      · omega), hcm⟩
  unfold Sse.runWorkers
  exact ⟨levelTrace_mono key.1 (fun z hz => by
    rcases hz with hz | ⟨q, hq, hz1, hz2⟩
    · exact Or.inl hz
    · exact Or.inr ⟨q, hq, hz1, hz2⟩), key.2⟩

theorem runUnpredictable_trace (env : Env) (c : Sse.Common) (hv : c.Valid) (t0 : List Ev)
    (Cov : Nat → Prop) (m : Mach) (hSF : ∀ x, InFirstHalf c x → Cov x)
    (hcm : c.numblocks ≤ m.completedMultiplies) (hT : LevelTrace c.numblocks t0 Cov m) :
    LevelTrace c.numblocks t0
      (fun x => Cov x ∨ ∃ q, q < c.parallelism ∧ (2 * q + 1) * c.numblocks * c.blocklen ≤ x
        ∧ x < (2 * q + 2) * c.numblocks * c.blocklen)
      (Sse.runWorkers (Sse.hashWithPassword env c) c.parallelism m).1 := by
  have key := forLoop_ind
    (fun k (x : Mach × Bool) =>
      LevelTrace c.numblocks t0 (fun z => Cov z ∨ ∃ q, q < k
          ∧ (2 * q + 1) * c.numblocks * c.blocklen ≤ z
          ∧ z < (2 * q + 2) * c.numblocks * c.blocklen) x.1
        ∧ c.numblocks ≤ x.1.completedMultiplies)
    (fun p (x : Mach × Bool) => ((Sse.hashWithPassword env c p x.1).1,
      x.2 || (Sse.hashWithPassword env c p x.1).2))
    c.parallelism
    (fun k x hk hr => by
      obtain ⟨h1, h2⟩ := hr
      have step := hashWithPassword_trace env c k t0 _ hv hk x.1
        (fun z hz => Or.inl (hSF z hz)) h2 h1
      refine ⟨levelTrace_mono step.1 ?_, step.2⟩
      intro z hz
      rcases hz with hz | ⟨q, hq, hz1, hz2⟩
      · exact Or.inl (Or.inl hz)
      · by_cases hqk : q < k
        · exact Or.inl (Or.inr ⟨q, hqk, hz1, hz2⟩)
        · have : q = k := by omega
          subst this
          exact Or.inr ⟨hz1, hz2⟩)
    (m, false) ⟨levelTrace_mono hT (fun z hz => by
      rcases hz with hz | ⟨q, hq, _⟩
      · exact hz
      · omega), hcm⟩
  unfold Sse.runWorkers
  exact key.1

theorem touches_readWords (R : Nat → Prop) (m : Mach) (pos n : Nat)
    (hR : ∀ i, i < n → R (pos + i)) :
    Touches R (fun _ => False) (fun _ => False) m (Sse.readWords m pos n) :=
  forLoop_ind (fun _ (x : Mach) => Touches R (fun _ => False) (fun _ => False) m x)
    (fun i (x : Mach) => (x.rd (pos + i)).2) n
    (fun k x hk hx => touches_trans _ hx
      (touches_rd R (fun _ => False) (fun _ => False) x _ (hR k hk) (fun _ h => h))
      (fun _ h => Or.inl h)) m
    (touches_refl _ _ _ m (fun _ h => h))

theorem combineHashes_trace_written (env : Env) (c : Sse.Common) (hv : c.Valid)
    (hash : List Nat) (t0 : List Ev) (Cov : Nat → Prop) (m : Mach)
    (hCov : ∀ x p, p < c.parallelism → (2 * p + 1) * c.numblocks * c.blocklen ≤ x →
      x < (2 * p + 2) * c.numblocks * c.blocklen → Cov x)
    (hT : LevelTrace c.numblocks t0 Cov m) :
    LevelTrace c.numblocks t0 Cov
      (Sse.combineHashes env hash c.hashSize m c.blocklen c.numblocks c.parallelism).1 := by
  have key := forLoop_ind
    (fun _ (x : Mach × List Nat) => LevelTrace c.numblocks t0 Cov x.1)
    (fun p mh => Sse.combineStep env c.hashSize c.blocklen c.numblocks p mh)
    c.parallelism
    (fun p x hp hx => by
      have hpos := combinePos_eq c hv p hp
      have ht := touches_readWords
        (fun a => (2 * p + 1) * c.numblocks * c.blocklen ≤ a
          ∧ a < (2 * p + 2) * c.numblocks * c.blocklen) x.1
        (Sse.combinePos c.hashSize c.blocklen c.numblocks p) (c.hashSize / 4)
        (fun i hi => ⟨by omega, by omega⟩)
      exact levelTrace_mono (levelTrace_touches hx ht (fun a ha => hCov a p hp ha.1 ha.2))
        (fun a ha => Or.inl ha))
    (m, hash) hT
  exact key

theorem level_reads_written (env : Env) (c : Sse.Common) (g : Nat) (m : Mach)
    (hv : c.Valid) :
    ∃ ext, (Sse.combineHashes env c.hash c.hashSize (levelMach env c g m) c.blocklen
          c.numblocks c.parallelism).1.trace = ext ++ m.trace
      ∧ readsWritten ext = true := by
  have hb := valid_bounds c hv
  obtain ⟨p1, p2⟩ := multHash_levelTrace env c g m hb.1
  obtain ⟨r1, r2⟩ := runResistant_trace env c hv m.trace _ _ p2 p1
  have r3 := runUnpredictable_trace env c hv m.trace _ _ (fun x hx => Or.inr hx) r2 r1
  have r4 := combineHashes_trace_written env c hv c.hash m.trace _ _
    (fun x p hp h1 h2 => Or.inr ⟨p, hp, h1, h2⟩) r3
  obtain ⟨ext, h1, h2, _, _⟩ := r4
  exact ⟨ext, h1, h2⟩

/-! ## A garlic level and the initial contents of the arrays -/

set_option maxRecDepth 100000 in
/-- C30 (counterexample): with `repetitions = 0` (one worker, `numblocks = 2`, blocks of 8
words) the mixer stores nothing, so the level reads words of `M` that it has not written,
and its hash depends on the initial contents: it differs between arrays holding 0 and
arrays holding 1. -/
theorem C30_stale_memory_without_repetitions :
    1 ≤ (smallLevel 0).numblocks
      ∧ levelHash demoEnv (smallLevel 0) 0 (freshMach 0)
          ≠ levelHash demoEnv (smallLevel 0) 0 (freshMach 1)
      ∧ readsWritten (Sse.combineHashes demoEnv (smallLevel 0).hash (smallLevel 0).hashSize
          (levelMach demoEnv (smallLevel 0) 0 (freshMach 0)) (smallLevel 0).blocklen
          (smallLevel 0).numblocks (smallLevel 0).parallelism).1.trace = false := by
  decide

/-- C30 (amended): for sizes under which the block arithmetic is exact (`c.Valid`: at least
one repetition, `subBlocklen` a positive multiple of 8 dividing `blocklen`, at least one
block and one worker, `hashSize/4 ≤ blocklen`, `2*parallelism*numblocks < 2^32`) and thread
creations that succeed, one garlic level run in join order is done with the same hash
whatever the initial contents of `M`, of `multHashes` and of the counter; and every read of
a word of `M` or of `multHashes` made during the level follows a write of that word made
during the level. -/
theorem C30_level_hash_independent (env : Env) (c : Sse.Common) (g : Nat) (a b : Mach)
    (hv : c.Valid) (hok : levelThreadsOk env g c.parallelism = true) :
    Sse.garlicLevel env c g a
        = Sse.LevelResult.done
            (Sse.combineHashes env c.hash c.hashSize (levelMach env c g a) c.blocklen
              c.numblocks c.parallelism).1 (levelHash env c g a)
      ∧ Sse.garlicLevel env c g b
        = Sse.LevelResult.done
            (Sse.combineHashes env c.hash c.hashSize (levelMach env c g b) c.blocklen
              c.numblocks c.parallelism).1 (levelHash env c g a)
      ∧ ∃ ext, (Sse.combineHashes env c.hash c.hashSize (levelMach env c g a) c.blocklen
            c.numblocks c.parallelism).1.trace = ext ++ a.trace
          ∧ readsWritten ext = true := by
  have hb := valid_bounds c hv
  have hnz := valid_nonzero c hv
  refine ⟨garlicLevel_done_eq env c g a hb.1 hnz.1 hnz.2 hok, ?_,
    level_reads_written env c g a hv⟩
  rw [levelHash_agree env c hv g g a b]
  exact garlicLevel_done_eq env c g b hb.1 hnz.1 hnz.2 hok

theorem smallLevel_valid : (smallLevel 1).Valid :=
  ⟨⟨1, 1, by decide, by decide, by decide, by decide⟩, by decide, by decide, by decide,
    by decide, by decide, by decide⟩

set_option maxRecDepth 100000 in
/-- C30 (amended) on the small level with one repetition: arrays holding 0 and arrays
holding 1 give the same hash, and every read of the level follows a write of the same
word. -/
theorem C30_level_hash_independent_witness :
    ((smallLevel 1).Valid ∧ levelThreadsOk demoEnv 0 (smallLevel 1).parallelism = true)
      ∧ Sse.garlicLevel demoEnv (smallLevel 1) 0 (freshMach 1)
        = Sse.LevelResult.done
            (Sse.combineHashes demoEnv (smallLevel 1).hash (smallLevel 1).hashSize
              (levelMach demoEnv (smallLevel 1) 0 (freshMach 1)) (smallLevel 1).blocklen
              (smallLevel 1).numblocks (smallLevel 1).parallelism).1
            (levelHash demoEnv (smallLevel 1) 0 (freshMach 0))
      ∧ readsWritten (Sse.combineHashes demoEnv (smallLevel 1).hash (smallLevel 1).hashSize
          (levelMach demoEnv (smallLevel 1) 0 (freshMach 0)) (smallLevel 1).blocklen
          (smallLevel 1).numblocks (smallLevel 1).parallelism).1.trace = true :=
  ⟨⟨smallLevel_valid, by decide⟩,
    (C30_level_hash_independent demoEnv (smallLevel 1) 0 (freshMach 0) (freshMach 1)
      smallLevel_valid (by decide)).2.1, by decide⟩

/-! ## Garlic loop: termination and schedule -/

theorem garlicLoop_eq_spec (env : Env) (stopGarlic : Nat) (skip : Bool)
    (hstop : stopGarlic < 255) :
    ∀ (fuel i : Nat) (c : Sse.Common) (m : Mach),
      (i ≤ stopGarlic → c.numblocks * 2 ^ (stopGarlic - i) < 2 ^ 31) →
      c.blocklen ≠ 0 → c.subBlocklen ≠ 0 →
      stopGarlic + 1 - i < fuel →
      (∀ g, i ≤ g → g ≤ stopGarlic → levelThreadsOk env g c.parallelism = true) →
      Sse.garlicLoop env stopGarlic skip fuel i c m
        = some (true, garlicLevelsSpec env skip (stopGarlic + 1 - i) i c m) := by
  intro fuel
  induction fuel with
  | zero => intro i c m _ _ _ h; omega
  | succ fuel ih =>
    intro i c m hb hbl hsb hf hall
    by_cases hi : i ≤ stopGarlic
    · have hnb : c.numblocks < 2 ^ 31 := by
        have h1 := hb hi
        have h2 : 1 ≤ 2 ^ (stopGarlic - i) := Nat.one_le_two_pow
        calc c.numblocks = c.numblocks * 1 := (Nat.mul_one _).symm
          _ ≤ c.numblocks * 2 ^ (stopGarlic - i) := Nat.mul_le_mul_left _ h2
          _ < 2 ^ 31 := h1
      have hdouble : u32 (c.numblocks * 2) = c.numblocks * 2 := by
        unfold u32; exact Nat.mod_eq_of_lt (by omega)
      have hcount : stopGarlic + 1 - i = (stopGarlic + 1 - (i + 1)) + 1 := by omega
      have hhash : (if (decide (i < stopGarlic) || !skip) = true
            then Sse.rehash env (levelHash env c i m) c.hashSize [i]
            else levelHash env c i m)
          = (if stopGarlic + 1 - (i + 1) = 0 ∧ skip = true then levelHash env c i m
            else Sse.rehash env (levelHash env c i m) c.hashSize [i]) := by
        by_cases hlt : i < stopGarlic
        · rw [if_pos (by simp [hlt]), if_neg (by omega)]
        · cases skip
          · rw [if_pos (by simp), if_neg (by simp)]
          · rw [if_neg (by simp [hlt]), if_pos ⟨by omega, rfl⟩]
      simp only [Sse.garlicLoop, hi, if_true]
      rw [garlicLevel_done_eq env c i m hnb hbl hsb (hall i (le_refl i) hi)]
      simp only [u8_succ i stopGarlic hi hstop, hdouble]
      rw [hcount, garlicLevelsSpec, hhash]
      exact ih (i + 1) _ _
        (by
          intro _
          show c.numblocks * 2 * 2 ^ (stopGarlic - (i + 1)) < 2 ^ 31
          rw [pow_split c.numblocks stopGarlic i (by omega)]
          exact hb hi)
        hbl hsb (by omega) (fun g hg1 hg2 => hall g (by omega) hg2)
    · simp only [Sse.garlicLoop, hi, if_false]
      have : stopGarlic + 1 - i = 0 := by omega
      rw [this]
      rfl

theorem scheduleFrom_exact (n : Nat) : ∀ (i nb : Nat),
    (∀ k, k < n → nb * 2 ^ k < 2 ^ 32) →
    scheduleFrom n i nb = (List.range n).map (fun k => (i + k, nb * 2 ^ k)) := by
  induction n with
  | zero => intro i nb _; rfl
  | succ n ih =>
    intro i nb h
    rw [scheduleFrom, List.range_succ_eq_map]
    simp only [List.map_cons, List.map_map, pow_zero, Nat.mul_one, Nat.add_zero]
    congr 1
    cases n with
    | zero => rfl
    | succ n =>
      have hd : u32 (nb * 2) = nb * 2 := by
        unfold u32
        have := h 1 (by omega)
        exact Nat.mod_eq_of_lt (by omega)
      rw [hd, ih (i + 1) (nb * 2) (fun k hk => by
        have := h (k + 1) (by omega)
        rw [pow_succ] at this
        calc nb * 2 * 2 ^ k = nb * (2 ^ k * 2) := by ring
          _ < 2 ^ 32 := this)]
      apply List.map_congr_left
      intro k _
      simp only [Function.comp, Nat.succ_eq_add_one, pow_succ]
      congr 1
      · omega
      · ring

theorem garlicLoop_hang (env : Env) (stopGarlic : Nat) (skip : Bool)
    (hstop : stopGarlic < 255) :
    ∀ (fuel i : Nat) (c : Sse.Common) (m : Mach),
      i ≤ stopGarlic → 2 ^ 31 ≤ c.numblocks * 2 ^ (stopGarlic - i) → c.numblocks < 2 ^ 32 →
      1 ≤ c.parallelism → c.blocklen ≠ 0 → c.subBlocklen ≠ 0 →
      (∀ g, i ≤ g → g ≤ stopGarlic → levelThreadsOk env g c.parallelism = true) →
      Sse.garlicLoop env stopGarlic skip fuel i c m = none := by
  intro fuel
  induction fuel with
  | zero => intro i c m _ _ _ _ _ _ _; rfl
  | succ fuel ih =>
    intro i c m hi hlo hhi hp hbl hsb hall
    have hok := hall i (le_refl i) hi
    simp only [Sse.garlicLoop, hi, if_true]
    by_cases hnb : 2 ^ 31 ≤ c.numblocks
    · have hok2 := hok
      unfold levelThreadsOk at hok2
      simp only [Bool.and_eq_true] at hok2
      rw [garlicLevel_hang env c i m hok2.1.1 hok2.1.2 hp hnb hhi]
    · have hlt : i < stopGarlic := by
        by_contra hge
        have : stopGarlic - i = 0 := by omega
        rw [this, pow_zero, Nat.mul_one] at hlo
        omega
      have hdouble : u32 (c.numblocks * 2) = c.numblocks * 2 := by
        unfold u32; exact Nat.mod_eq_of_lt (by omega)
      rw [garlicLevel_done_eq env c i m (by omega) hbl hsb hok]
      simp only [u8_succ i stopGarlic hi hstop, hdouble]
      exact ih (i + 1) _ _ (by omega)
        (by
          show 2 ^ 31 ≤ c.numblocks * 2 * 2 ^ (stopGarlic - (i + 1))
          rw [pow_split c.numblocks stopGarlic i hlt]
          exact hlo)
        (by show c.numblocks * 2 < 2 ^ 32; omega) hp hbl hsb
        (fun g hg1 hg2 => hall g (by omega) hg2)

theorem TigerKDF_loop_hang (env : Env) (fuel : Nat) (m : Mach) (hash : List Nat)
    (hashSize memSize multipliesPerBlock startGarlic stopGarlic blockSize subBlockSize
      parallelism repetitions : Nat) (skip : Bool)
    (hse : startGarlic ≤ stopGarlic) (hstop : stopGarlic < 255)
    (hdiv : u32 (2 * parallelism * (blockSize / 4)) ≠ 0)
    (hsub : subBlockSize = 0 ∨ 4 ≤ subBlockSize)
    (hnb : 2 ^ 31 ≤ Sse.numblocksStart memSize blockSize parallelism startGarlic
      * 2 ^ (stopGarlic - startGarlic))
    (hall : AllSucceed env startGarlic stopGarlic parallelism) :
    Sse.TigerKDF env fuel m hash hashSize memSize multipliesPerBlock startGarlic stopGarlic
      blockSize subBlockSize parallelism repetitions skip = none := by
  have hp : 1 ≤ parallelism := by
    rcases Nat.eq_zero_or_pos parallelism with h | h
    · exfalso; apply hdiv; rw [h]; simp [u32]
    · exact h
  unfold Sse.TigerKDF
  simp only [hdiv, if_false, hall.1, hall.2.1, hall.2.2.1, hall.2.2.2.1, Bool.not_true,
    Bool.false_eq_true]
  exact garlicLoop_hang env stopGarlic skip hstop fuel startGarlic _ m hse hnb
    (by unfold Sse.numblocksStart u32; exact Nat.mod_lt _ (by norm_num)) hp
    (blocklen_ne_zero parallelism blockSize hdiv)
    (subBlocklen_ne_zero blockSize subBlockSize
      (blocklen_ne_zero parallelism blockSize hdiv) hsub)
    (fun g hg1 hg2 => (levelThreadsOk_iff env g parallelism).2 (hall.2.2.2.2 g hg1 hg2))

/-- C31 (failing input): with `memSize = 1`, `blockSize = 32`, one worker and
`startGarlic = stopGarlic = 27` (so `startGarlic ≤ stopGarlic ≤ 30`) every allocation and
thread creation succeeds and the single level has `2^31` blocks; the garlic loop does not
terminate, whatever the fuel: the pacer bound `numblocks*2` wraps to 0 in 32 bits, no
checkpoint is published and the first worker waits forever. -/
theorem C31_loop_hangs_at_2_pow_31_blocks :
    (27 ≤ 27 ∧ 27 ≤ 30)
      ∧ AllSucceed demoEnv 27 27 1
      ∧ Sse.numblocksStart 1 32 1 27 = 2 ^ 31
      ∧ ∀ fuel, Sse.TigerKDF demoEnv fuel (freshMach 0) [0, 0, 0, 0] 4 1 0 27 27 32 32 1 1
          false = none :=
  ⟨by decide, demoEnv_allSucceed 27 27 1, by decide, fun fuel =>
    TigerKDF_loop_hang demoEnv fuel (freshMach 0) [0, 0, 0, 0] 4 1 0 27 27 32 32 1 1 false
      (by decide) (by decide) (by decide) (by decide) (by decide)
      (demoEnv_allSucceed 27 27 1)⟩

/-- C31 (below `2^31` blocks): for `startGarlic ≤ stopGarlic ≤ 30`, no division by zero
(`2*parallelism*blocklen` nonzero in 32 bits, `subBlockSize` 0 or at least 4), fewer than
`2^31` blocks at the last level and every allocation and thread creation succeeding,
`TigerKDF` returns true once the fuel exceeds `stopGarlic - startGarlic + 1`, and its
result is that of exactly `stopGarlic - startGarlic + 1` levels run one after the other
from `startGarlic`, with the salted hash after every level except, when `skipLastHash`
is set, the last; the levels started are `startGarlic`, ..., `stopGarlic` in increasing
order, level `startGarlic + k` with `numblocks * 2^k` blocks (no wrap), each twice the
previous one. -/
theorem C31_garlic_loop_schedule (env : Env) (fuel : Nat) (m : Mach) (hash : List Nat)
    (hashSize memSize multipliesPerBlock startGarlic stopGarlic blockSize subBlockSize
      parallelism repetitions : Nat) (skip : Bool)
    (hse : startGarlic ≤ stopGarlic) (hstop : stopGarlic ≤ 30)
    (hdiv : u32 (2 * parallelism * (blockSize / 4)) ≠ 0)
    (hsub : subBlockSize = 0 ∨ 4 ≤ subBlockSize)
    (hnb : Sse.numblocksStart memSize blockSize parallelism startGarlic
      * 2 ^ (stopGarlic - startGarlic) < 2 ^ 31)
    (hfuel : stopGarlic - startGarlic + 1 < fuel)
    (hall : AllSucceed env startGarlic stopGarlic parallelism) :
    Sse.TigerKDF env fuel m hash hashSize memSize multipliesPerBlock startGarlic stopGarlic
        blockSize subBlockSize parallelism repetitions skip
      = some (true, garlicLevelsSpec env skip (stopGarlic - startGarlic + 1) startGarlic
          (initCommon hash hashSize memSize multipliesPerBlock startGarlic blockSize
            subBlockSize parallelism repetitions) m)
    ∧ (levelsOf (garlicLevelsSpec env skip (stopGarlic - startGarlic + 1) startGarlic
          (initCommon hash hashSize memSize multipliesPerBlock startGarlic blockSize
            subBlockSize parallelism repetitions) m).2.trace).reverse
        = (levelsOf m.trace).reverse
          ++ (List.range (stopGarlic - startGarlic + 1)).map (fun k =>
              (startGarlic + k,
                Sse.numblocksStart memSize blockSize parallelism startGarlic * 2 ^ k)) := by
  have hn : stopGarlic + 1 - startGarlic = stopGarlic - startGarlic + 1 := by omega
  have hbl := blocklen_ne_zero parallelism blockSize hdiv
  have hsb := subBlocklen_ne_zero blockSize subBlockSize hbl hsub
  have hrun : Sse.TigerKDF env fuel m hash hashSize memSize multipliesPerBlock startGarlic
      stopGarlic blockSize subBlockSize parallelism repetitions skip
      = some (true, garlicLevelsSpec env skip (stopGarlic - startGarlic + 1) startGarlic
          (initCommon hash hashSize memSize multipliesPerBlock startGarlic blockSize
            subBlockSize parallelism repetitions) m) := by
    unfold Sse.TigerKDF
    simp only [hdiv, if_false, hall.1, hall.2.1, hall.2.2.1, hall.2.2.2.1, Bool.not_true,
      Bool.false_eq_true]
    rw [← hn]
    exact garlicLoop_eq_spec env stopGarlic skip (by omega) fuel startGarlic
      (initCommon hash hashSize memSize multipliesPerBlock startGarlic blockSize
        subBlockSize parallelism repetitions) m (fun _ => hnb) hbl hsb (by omega)
      (fun g hg1 hg2 => (levelThreadsOk_iff env g parallelism).2 (hall.2.2.2.2 g hg1 hg2))
  refine ⟨hrun, ?_⟩
  obtain ⟨b, h, m1, hret, _, hsched⟩ := TigerKDF_returns env fuel m hash hashSize memSize
    multipliesPerBlock startGarlic stopGarlic blockSize subBlockSize parallelism repetitions
    skip (by omega) hdiv hsub hnb (by omega)
  rw [hrun] at hret
  have hbm := Option.some.inj hret
  have hb : b = true := (congrArg Prod.fst hbm).symm
  have hm : (garlicLevelsSpec env skip (stopGarlic - startGarlic + 1) startGarlic
      (initCommon hash hashSize memSize multipliesPerBlock startGarlic blockSize
        subBlockSize parallelism repetitions) m).2 = m1 := congrArg (fun x => x.2.2) hbm
  rw [hm, hsched hb, List.reverse_append, List.reverse_reverse, hn,
    scheduleFrom_exact (stopGarlic - startGarlic + 1) startGarlic _ (fun k hk => by
      have h1 : 2 ^ k ≤ 2 ^ (stopGarlic - startGarlic) :=
        Nat.pow_le_pow_right (by norm_num) (by omega)
      have h2 := Nat.mul_le_mul_left
        (Sse.numblocksStart memSize blockSize parallelism startGarlic) h1
      omega)]

set_option maxRecDepth 100000 in
/-- Witness of C31 at `memSize = 1`, `blockSize = 32`, `parallelism = 9`, garlic levels 0
and 1: the two levels run with 1 and 2 blocks. -/
theorem C31_garlic_loop_schedule_witness :
    (0 ≤ 1 ∧ 1 ≤ 30 ∧ u32 (2 * 9 * (32 / 4)) ≠ 0 ∧ (32 = 0 ∨ 4 ≤ 32)
      ∧ Sse.numblocksStart 1 32 9 0 * 2 ^ (1 - 0) < 2 ^ 31 ∧ 1 - 0 + 1 < 3)
    ∧ (List.range (1 - 0 + 1)).map (fun k => (0 + k, Sse.numblocksStart 1 32 9 0 * 2 ^ k))
        = [(0, 1), (1, 2)]
    ∧ Sse.TigerKDF demoEnv 3 (freshMach 0) [0, 0, 0, 0] 4 1 0 0 1 32 32 9 1 true
        = some (true, garlicLevelsSpec demoEnv true (1 - 0 + 1) 0
            (initCommon [0, 0, 0, 0] 4 1 0 0 32 32 9 1) (freshMach 0))
    ∧ (levelsOf (garlicLevelsSpec demoEnv true (1 - 0 + 1) 0
          (initCommon [0, 0, 0, 0] 4 1 0 0 32 32 9 1) (freshMach 0)).2.trace).reverse
        = (levelsOf (freshMach 0).trace).reverse
          ++ (List.range (1 - 0 + 1)).map (fun k =>
              (0 + k, Sse.numblocksStart 1 32 9 0 * 2 ^ k)) :=
  ⟨by decide, by decide,
    C31_garlic_loop_schedule demoEnv 3 (freshMach 0) [0, 0, 0, 0] 4 1 0 0 1 32 32 9 1 true
      (by decide) (by decide) (by decide) (by decide) (by decide) (by decide)
      (demoEnv_allSucceed 0 1 9)⟩

/-! ## Command line: `readHexByte` -/

theorem hex_byte_join : ∀ hi, hi < 16 → ∀ lo, lo < 16 →
    u8 (u8 (u8 hi <<< 4) ||| lo) = 16 * hi + lo := by
  decide

theorem getD_lt_256 (value : List Nat) (hbytes : ∀ x ∈ value, x < 256) (i : Nat) :
    value.getD i 0 < 256 := by
  by_cases h : i < value.length
  · rw [List.getD_eq_getElem _ _ h]
    exact hbytes _ (List.getElem_mem h)
  · rw [List.getD_eq_default _ _ (by omega)]
    norm_num

theorem hex_digit_upper (charSigned : Bool) (a : Nat) (ha : a < 256) :
    (Cli.isHexDigit a = true ↔
        (48 ≤ Cli.toChar charSigned (Cli.toupper (u8 a))
            ∧ Cli.toChar charSigned (Cli.toupper (u8 a)) ≤ 57)
          ∨ (65 ≤ Cli.toChar charSigned (Cli.toupper (u8 a))
            ∧ Cli.toChar charSigned (Cli.toupper (u8 a)) ≤ 70))
      ∧ (48 ≤ Cli.toChar charSigned (Cli.toupper (u8 a))
          → Cli.toChar charSigned (Cli.toupper (u8 a)) ≤ 57
          → (Cli.toChar charSigned (Cli.toupper (u8 a)) - 48).toNat = Cli.hexDigitValue a)
      ∧ (65 ≤ Cli.toChar charSigned (Cli.toupper (u8 a))
          → Cli.toChar charSigned (Cli.toupper (u8 a)) ≤ 70
          → (Cli.toChar charSigned (Cli.toupper (u8 a)) - 65 + 10).toNat
              = Cli.hexDigitValue a)
      ∧ (Cli.isHexDigit a = true → Cli.hexDigitValue a < 16) := by
  have hu : u8 a = a := Nat.mod_eq_of_lt ha
  rw [hu]
  unfold Cli.isHexDigit Cli.hexDigitValue Cli.toChar Cli.toupper
  simp only [Bool.or_eq_true, Bool.and_eq_true, decide_eq_true_eq]
  cases charSigned <;> simp only [Bool.false_eq_true, false_and, if_false, true_and] <;>
    split_ifs <;> omega

/-- C32: `readHexByte` returns true and stores `16*hi + lo` in `*dest` exactly when the two
characters at `value` are both hexadecimal digits (`0`-`9`, `a`-`f` or `A`-`F`, with `hi`
and `lo` their digit values); otherwise it returns false and `*dest` keeps its value.  This
holds whether `char` is signed or not. -/
theorem C32_readHexByte_decodes (charSigned : Bool) (dest : Nat) (value : List Nat)
    (hbytes : ∀ x ∈ value, x < 256) :
    Cli.readHexByte charSigned dest value
      = if Cli.isHexDigit (value.getD 0 0) = true ∧ Cli.isHexDigit (value.getD 1 0) = true
        then (true, 16 * Cli.hexDigitValue (value.getD 0 0) + Cli.hexDigitValue (value.getD 1 0))
        else (false, dest) := by
  obtain ⟨ha1, ha2, ha3, ha4⟩ :=
    hex_digit_upper charSigned (value.getD 0 0) (getD_lt_256 value hbytes 0)
  obtain ⟨hb1, hb2, hb3, hb4⟩ :=
    hex_digit_upper charSigned (value.getD 1 0) (getD_lt_256 value hbytes 1)
  unfold Cli.readHexByte
  simp only []
  by_cases a1 : 48 ≤ Cli.toChar charSigned (Cli.toupper (u8 (value.getD 0 0)))
      ∧ Cli.toChar charSigned (Cli.toupper (u8 (value.getD 0 0))) ≤ 57
  · have hA : Cli.isHexDigit (value.getD 0 0) = true := ha1.2 (Or.inl a1)
    rw [if_pos a1, ha2 a1.1 a1.2]
    by_cases b1 : 48 ≤ Cli.toChar charSigned (Cli.toupper (u8 (value.getD 1 0)))
        ∧ Cli.toChar charSigned (Cli.toupper (u8 (value.getD 1 0))) ≤ 57
    · have hB : Cli.isHexDigit (value.getD 1 0) = true := hb1.2 (Or.inl b1)
      rw [if_pos b1, hb2 b1.1 b1.2, if_pos ⟨hA, hB⟩,
        hex_byte_join _ (ha4 hA) _ (hb4 hB)]
    · rw [if_neg b1]
      by_cases b2 : 65 ≤ Cli.toChar charSigned (Cli.toupper (u8 (value.getD 1 0)))
          ∧ Cli.toChar charSigned (Cli.toupper (u8 (value.getD 1 0))) ≤ 70
      · have hB : Cli.isHexDigit (value.getD 1 0) = true := hb1.2 (Or.inr b2)
        rw [if_pos b2, hb3 b2.1 b2.2, if_pos ⟨hA, hB⟩,
          hex_byte_join _ (ha4 hA) _ (hb4 hB)]
      · have hB : ¬ Cli.isHexDigit (value.getD 1 0) = true := fun h =>
          (hb1.1 h).elim b1 b2
        rw [if_neg b2, if_neg (fun h => hB h.2)]
  · rw [if_neg a1]
    by_cases a2 : 65 ≤ Cli.toChar charSigned (Cli.toupper (u8 (value.getD 0 0)))
        ∧ Cli.toChar charSigned (Cli.toupper (u8 (value.getD 0 0))) ≤ 70
    · have hA : Cli.isHexDigit (value.getD 0 0) = true := ha1.2 (Or.inr a2)
      rw [if_pos a2, ha3 a2.1 a2.2]
      by_cases b1 : 48 ≤ Cli.toChar charSigned (Cli.toupper (u8 (value.getD 1 0)))
          ∧ Cli.toChar charSigned (Cli.toupper (u8 (value.getD 1 0))) ≤ 57
      · have hB : Cli.isHexDigit (value.getD 1 0) = true := hb1.2 (Or.inl b1)
        rw [if_pos b1, hb2 b1.1 b1.2, if_pos ⟨hA, hB⟩,
          hex_byte_join _ (ha4 hA) _ (hb4 hB)]
      · rw [if_neg b1]
        by_cases b2 : 65 ≤ Cli.toChar charSigned (Cli.toupper (u8 (value.getD 1 0)))
            ∧ Cli.toChar charSigned (Cli.toupper (u8 (value.getD 1 0))) ≤ 70
        · have hB : Cli.isHexDigit (value.getD 1 0) = true := hb1.2 (Or.inr b2)
          rw [if_pos b2, hb3 b2.1 b2.2, if_pos ⟨hA, hB⟩,
            hex_byte_join _ (ha4 hA) _ (hb4 hB)]
        · have hB : ¬ Cli.isHexDigit (value.getD 1 0) = true := fun h =>
            (hb1.1 h).elim b1 b2
          rw [if_neg b2, if_neg (fun h => hB h.2)]
    · have hA : ¬ Cli.isHexDigit (value.getD 0 0) = true := fun h =>
        (ha1.1 h).elim a1 a2
      rw [if_neg a2, if_neg (fun h => hA h.1)]

/-- Witness of C32 on the strings "a7", "F", "g0" and "0x" with 99 at `*dest`: the first
gives true and the byte 167, the others false and the byte 99. -/
theorem C32_readHexByte_decodes_witness :
    (∀ x ∈ [97, 55], x < 256)
      ∧ Cli.readHexByte true 99 [97, 55] = (true, 167)
      ∧ Cli.readHexByte false 99 [70] = (false, 99)
      ∧ Cli.readHexByte true 99 [103, 48] = (false, 99)
      ∧ Cli.readHexByte true 99 [48, 120] = (false, 99) :=
  ⟨by decide, (C32_readHexByte_decodes true 99 [97, 55] (by decide)).trans (by decide),
    by decide, by decide, by decide⟩

/-! ## Multiplications of the pacer, counted in the pacer itself -/

theorem hashState_length (env : Env) (s : List Nat) : (Sse.hashState env s).length = 8 := by
  unfold Sse.hashState
  simp

theorem multStmt_length (k : Nat) (s : List Nat) : (Sse.multStmt k s).length = s.length := by
  unfold Sse.multStmt
  simp

theorem multRound_length (s : List Nat) (hs : s.length = 8) :
    (Sse.multRound s).length = 8 := by
  rw [multRound_eq_stmts s hs]
  simp [multStmt_length, hs]

theorem multRoundCounted_eq (s : List Nat) (n : Nat) (hs : s.length = 8) :
    Sse.multRoundCounted (s, n) = (Sse.multRound s, n + 8) := by
  rw [multRound_eq_stmts s hs]
  rfl

theorem multRoundsCounted_eq (k : Nat) : ∀ (s : List Nat) (n : Nat), s.length = 8 →
    forLoop k (fun _ y => Sse.multRoundCounted y) (s, n)
        = (forLoop k (fun _ t => Sse.multRound t) s, n + 8 * k)
      ∧ (forLoop k (fun _ t => Sse.multRound t) s).length = 8 := by
  induction k with
  | zero => intro s n hs; exact ⟨rfl, hs⟩
  | succ k ih =>
    intro s n hs
    obtain ⟨h1, h2⟩ := ih s n hs
    refine ⟨?_, multRound_length _ h2⟩
    show Sse.multRoundCounted (forLoop k (fun _ y => Sse.multRoundCounted y) (s, n)) = _
    rw [h1, multRoundCounted_eq _ _ h2]
    show (Sse.multRound (forLoop k (fun _ t => Sse.multRound t) s), n + 8 * k + 8) = _
    rw [show n + 8 * k + 8 = n + 8 * (k + 1) by ring]
    rfl

theorem multRounds_eq (c : Sse.Common) (h8 : 8 ∣ c.multipliesPerBlock)
    (hprod : c.multipliesPerBlock * c.repetitions < 2 ^ 32) :
    8 * Sse.multRounds c = c.multipliesPerBlock * c.repetitions := by
  obtain ⟨q, hq⟩ := h8
  have hu : u32 (c.multipliesPerBlock * c.repetitions) = 8 * (q * c.repetitions) := by
    unfold u32; rw [Nat.mod_eq_of_lt hprod, hq]; ring
  unfold Sse.multRounds
  rw [hu, hq]
  have : (8 * (q * c.repetitions) + 7) / 8 = q * c.repetitions := by omega
  rw [this]; ring

theorem multHashStepCounted_eq (env : Env) (c : Sse.Common) (ms : Mach × List Nat) (n : Nat)
    (hs : ms.2.length = 8) :
    Sse.multHashStepCounted env c (ms, n)
      = (Sse.multHashStep env c ms, n + 8 * Sse.multRounds c) := by
  unfold Sse.multHashStepCounted Sse.multHashStep
  simp only []
  rw [(multRoundsCounted_eq (Sse.multRounds c) ms.2 n hs).1]

theorem multHashCounted_loop (env : Env) (c : Sse.Common) (k : Nat) (ms : Mach × List Nat)
    (hs : ms.2.length = 8) :
    forLoop k (fun _ x => Sse.multHashStepCounted env c x) (ms, 0)
        = (forLoop k (fun _ y => Sse.multHashStep env c y) ms, k * (8 * Sse.multRounds c))
      ∧ (forLoop k (fun _ y => Sse.multHashStep env c y) ms).2.length = 8 := by
  induction k with
  | zero => exact ⟨by simp [forLoop], hs⟩
  | succ k ih =>
    obtain ⟨h1, h2⟩ := ih
    refine ⟨?_, ?_⟩
    · show Sse.multHashStepCounted env c
          (forLoop k (fun _ x => Sse.multHashStepCounted env c x) (ms, 0)) = _
      rw [h1, multHashStepCounted_eq env c _ _ h2]
      show (Sse.multHashStep env c (forLoop k (fun _ y => Sse.multHashStep env c y) ms),
        k * (8 * Sse.multRounds c) + 8 * Sse.multRounds c) = _
      rw [show k * (8 * Sse.multRounds c) + 8 * Sse.multRounds c
        = (k + 1) * (8 * Sse.multRounds c) by ring]
      rfl
    · show (Sse.multHashStep env c (forLoop k (fun _ y => Sse.multHashStep env c y) ms)).2.length
        = 8
      exact hashState_length env _

set_option maxRecDepth 100000 in
/-- C20 (as stated) fails: a caller passing `multipliesPerBlock = 12` (one repetition, one
block per worker, so two checkpoints) gets 8 multiplications before each checkpoint and 16
over the level, not 12 and 24; a caller passing 0 gets 8 and 16, not 0. -/
theorem C20_caller_value_is_rounded :
    (Sse.multHashStepCounted demoEnv (initCommon [0, 0, 0, 0] 4 1 12 0 512 32 1 1)
        ((freshMach 0, Sse.multHashSeed demoEnv (initCommon [0, 0, 0, 0] 4 1 12 0 512 32 1 1)),
          0)).2 = 8
      ∧ (Sse.multHashCounted demoEnv (initCommon [0, 0, 0, 0] 4 1 12 0 512 32 1 1)
          (freshMach 0)).2 = 16
      ∧ 12 * 1 = 12 ∧ 2 * (initCommon [0, 0, 0, 0] 4 1 12 0 512 32 1 1).numblocks * 12 * 1 = 24
      ∧ (Sse.multHashStepCounted demoEnv (initCommon [0, 0, 0, 0] 4 1 0 0 512 32 1 1)
          ((freshMach 0, Sse.multHashSeed demoEnv (initCommon [0, 0, 0, 0] 4 1 0 0 512 32 1 1)),
            0)).2 = 8
      ∧ (Sse.multHashCounted demoEnv (initCommon [0, 0, 0, 0] 4 1 0 0 512 32 1 1)
          (freshMach 0)).2 = 16 := by
  decide

/-- C20 (amended): `TigerKDF` stores `m' = 8 * floor(multipliesPerBlock / 8)`, or 8 when
that is 0, in place of the caller's `multipliesPerBlock`.  When `m' * repetitions` fits in 32
bits (the bound of the `j` loop is this 32-bit product), every run of the body of the `i`
loop of `multHash` is the step of the pacer (`multHashStep`) and performs exactly
`m' * repetitions` multiplications before it publishes its checkpoint, whatever the number
of blocks; and at a level with fewer than `2^31` blocks the pacer (`multHash`) performs
`2 * numblocks * m' * repetitions` multiplications in all. -/
theorem C20_pacer_multiplications (env : Env) (mpb : Nat) (c : Sse.Common)
    (hmpb : mpb < 2 ^ 32) (hc : c.multipliesPerBlock = Sse.roundMultiplies mpb)
    (hprod : Sse.roundMultiplies mpb * c.repetitions < 2 ^ 32) :
    (∀ hash hashSize memSize startGarlic blockSize subBlockSize parallelism repetitions,
        (initCommon hash hashSize memSize mpb startGarlic blockSize subBlockSize parallelism
          repetitions).multipliesPerBlock = Sse.roundMultiplies mpb)
      ∧ Sse.roundMultiplies mpb = (if 8 * (mpb / 8) = 0 then 8 else 8 * (mpb / 8))
      ∧ (∀ (ms : Mach × List Nat) (n : Nat), ms.2.length = 8 →
          Sse.multHashStepCounted env c (ms, n)
            = (Sse.multHashStep env c ms, n + Sse.roundMultiplies mpb * c.repetitions))
      ∧ (∀ m, c.numblocks < 2 ^ 31 →
          Sse.multHashCounted env c m
            = (Sse.multHash env c m,
                2 * c.numblocks * (Sse.roundMultiplies mpb * c.repetitions))) := by
  have h8 : 8 ∣ c.multipliesPerBlock := by rw [hc]; exact (roundMultiplies_eq mpb hmpb).2
  have hr : 8 * Sse.multRounds c = Sse.roundMultiplies mpb * c.repetitions := by
    rw [← hc]; exact multRounds_eq c h8 (by rw [hc]; exact hprod)
  refine ⟨fun _ _ _ _ _ _ _ _ => rfl, (roundMultiplies_eq mpb hmpb).1, ?_, ?_⟩
  · intro ms n hs
    rw [multHashStepCounted_eq env c ms n hs, hr]
  · intro m hnb
    have hu : u32 (c.numblocks * 2) = 2 * c.numblocks := by
      unfold u32; rw [Nat.mod_eq_of_lt (by omega)]; ring
    unfold Sse.multHashCounted Sse.multHash
    simp only []
    rw [(multHashCounted_loop env c (u32 (c.numblocks * 2)) _ (by simp)).1, hu, hr]

/-- C20 (witness): `multipliesPerBlock = 12`, three repetitions, one block per worker:
`m' = 8`, 24 multiplications before each checkpoint and 48 over the level. -/
theorem C20_pacer_multiplications_witness :
    (12 < 2 ^ 32 ∧ Sse.roundMultiplies 12 * 3 < 2 ^ 32 ∧ Sse.roundMultiplies 12 = 8
      ∧ (initCommon [0, 0, 0, 0] 4 1 12 0 512 32 1 3).numblocks < 2 ^ 31)
    ∧ (Sse.multHashStepCounted demoEnv (initCommon [0, 0, 0, 0] 4 1 12 0 512 32 1 3)
        ((freshMach 0, [1, 2, 3, 4, 5, 6, 7, 8]), 0)).2 = 24
    ∧ (Sse.multHashCounted demoEnv (initCommon [0, 0, 0, 0] 4 1 12 0 512 32 1 3)
        (freshMach 0)).2 = 48 :=
  ⟨by decide,
    (congrArg Prod.snd ((C20_pacer_multiplications demoEnv 12
      (initCommon [0, 0, 0, 0] 4 1 12 0 512 32 1 3) (by decide) rfl (by decide)).2.2.1
        (freshMach 0, [1, 2, 3, 4, 5, 6, 7, 8]) 0 rfl)).trans (by decide),
    (congrArg Prod.snd ((C20_pacer_multiplications demoEnv 12
      (initCommon [0, 0, 0, 0] 4 1 12 0 512 32 1 3) (by decide) rfl (by decide)).2.2.2
        (freshMach 0) (by decide))).trans (by decide)⟩

/-! ## The source block of the resistant pass -/

theorem hashWithoutPasswordLoop_toAddr (env : Env) (c : Sse.Common) (start : Nat)
    (w0 : Sse.WS) (h0 : w0.toAddr = start + c.blocklen) (n : Nat)
    (h64 : start + (n + 1) * c.blocklen < 2 ^ 64) :
    (forLoop n (fun k w => Sse.hashWithoutPasswordStep env c start (k + 1) w) w0).stuck = false →
      (forLoop n (fun k w => Sse.hashWithoutPasswordStep env c start (k + 1) w) w0).toAddr
        = start + (n + 1) * c.blocklen :=
  forLoop_ind (fun k (w : Sse.WS) => w.stuck = false → w.toAddr = start + (k + 1) * c.blocklen)
    (fun k w => Sse.hashWithoutPasswordStep env c start (k + 1) w) n
    (fun k w hk hw => by
      show (Sse.hashWithoutPasswordStep env c start (k + 1) w).stuck = false →
        (Sse.hashWithoutPasswordStep env c start (k + 1) w).toAddr
          = start + (k + 1 + 1) * c.blocklen
      unfold Sse.hashWithoutPasswordStep
      by_cases hst : w.stuck = true
      · simp only [hst, if_true]
        intro h; exact absurd h (by simp)
      · have hsf : w.stuck = false := by simpa using hst
        have hto : w.toAddr = start + (k + 1) * c.blocklen := hw hsf
        simp only [hsf, Bool.false_eq_true, if_false]
        split
        · intro h; exact absurd h (by simp)
        · cases h1 : Sse.hashMultItoState env (k + 1) _ _ with
          | none => intro h; exact absurd h (by simp)
          | some r =>
            intro _
            show u64 (w.toAddr + c.blocklen) = start + (k + 1 + 1) * c.blocklen
            rw [hto]
            have hle : (k + 1 + 1) * c.blocklen ≤ (n + 1) * c.blocklen :=
              Nat.mul_le_mul_right _ (by omega)
            have e : start + (k + 1) * c.blocklen + c.blocklen
                = start + (k + 1 + 1) * c.blocklen := by ring
            rw [e]
            unfold u64
            exact Nat.mod_eq_of_lt (by omega))
    w0 (fun _ => by rw [h0]; ring)

theorem hashWithoutPasswordStep_mach (env : Env) (c : Sse.Common) (start i : Nat) (w : Sse.WS)
    (hbl : c.blocklen ≠ 0) (hs : w.stuck = false) (fromAddr : Nat)
    (hfrom : u64 (start + u64 (c.blocklen * Sse.reversePosOf i
        (Sse.slideWindow i (w.mask, w.numBits)).1 (Sse.slideWindow i (w.mask, w.numBits)).2))
      = fromAddr) :
    (Sse.hashWithoutPasswordStep env c start i w).m
      = ((Sse.hashMultItoState env i
          (Sse.hashBlocks w.m w.state c.blocklen c.blocklen fromAddr w.toAddr c.repetitions).1
          (Sse.hashBlocks w.m w.state c.blocklen c.blocklen fromAddr w.toAddr
            c.repetitions).2).map (fun r => r.1)).getD
          (Sse.hashBlocks w.m w.state c.blocklen c.blocklen fromAddr w.toAddr c.repetitions).1 := by
  unfold Sse.hashWithoutPasswordStep
  simp only [hs, hbl, Bool.false_eq_true, if_false, hfrom]
  cases h1 : Sse.hashMultItoState env i
      (Sse.hashBlocks w.m w.state c.blocklen c.blocklen fromAddr w.toAddr c.repetitions).1
      (Sse.hashBlocks w.m w.state c.blocklen c.blocklen fromAddr w.toAddr c.repetitions).2 with
  | none => rfl
  | some r => rfl

set_option maxRecDepth 100000 in
/-- C14 (as stated) fails: with `blockSize = 36` (`blocklen = 9` words), `subBlockSize = 32`,
`memSize = 1` and two workers, each pass has 7 blocks and the resistant region of worker 1
is `[126, 189)`; for block 1 the window gives `reversePos = 0`, the source address is 126,
but the vector cursor `fromAddr/4` rounds down: the first read of the pass, the source word
`*(uint32_t *)f` of block 1, is at word 124, which belongs to worker 0, and so does word
125 of the vector read next. -/
theorem C14_unaligned_source_outside_region :
    (initCommon [0, 0, 0, 0] 4 1 0 0 36 32 2 1).numblocks = 7
      ∧ (initCommon [0, 0, 0, 0] 4 1 0 0 36 32 2 1).blocklen = 9
      ∧ 2 * 1 * 7 * 9 = 126
      ∧ Sse.reversePosOf 1 (Sse.windowAt 1).1 (Sse.windowAt 1).2 = 0
      ∧ (readsM (Sse.hashWithoutPassword demoEnv (initCommon [0, 0, 0, 0] 4 1 0 0 36 32 2 1) 1
          (Sse.multHash demoEnv (initCommon [0, 0, 0, 0] 4 1 0 0 36 32 2 1)
            ((freshMach 0).startLevel 0 7)).clearTrace).1.trace).reverse.take 5
        = [124, 124, 125, 126, 127] := by
  decide

/-- C14 (amended): let `blocklen` be a positive multiple of 8 words, worker `p` of a level
with `numblocks ≤ 2^30` blocks, `start = 2*p*numblocks*blocklen` (the value of the 64-bit
expression of line 214) and `w` the loop variables with which `hashWithoutPassword` reaches
block `i`, `1 ≤ i < numblocks`.  Then the window is `mask = 2^numBits ≤ i < 2*mask`, the
source block `reversePos` satisfies `i - mask ≤ reversePos < i`, the address of line 233 is
`start + blocklen*reversePos` and `toAddr = start + blocklen*i`, the machine after the
iteration is that of `hashBlocks` at these addresses followed by the fold of checkpoint `i`,
and `hashBlocks` reads only words of block `reversePos` and of block `i - 1` of the worker's
region and writes block `i`: the source is a strictly earlier block of the same region. -/
theorem C14_sliding_window (env : Env) (c : Sse.Common) (p i s8 start rp : Nat) (m : Mach)
    (w : Sse.WS) (hs8 : 1 ≤ s8) (hbl : c.blocklen = 8 * s8) (hblt : c.blocklen < 2 ^ 32)
    (hp : p < c.parallelism) (hpar : c.parallelism ≤ 2 ^ 31)
    (h64 : 2 * c.parallelism * c.numblocks * c.blocklen < 2 ^ 64)
    (h1 : 1 ≤ i) (hi : i < c.numblocks) (hnb : c.numblocks ≤ 2 ^ 30)
    (hstart : start = 2 * p * c.numblocks * c.blocklen)
    (hrp : rp = Sse.reversePosOf i (Sse.windowAt i).1 (Sse.windowAt i).2)
    (hw : w = forLoop (i - 1) (fun k x => Sse.hashWithoutPasswordStep env c start (k + 1) x)
      (Sse.hashWithoutPasswordInit env c p m))
    (hrun : w.stuck = false) :
    ((Sse.windowAt i).1 = 2 ^ (Sse.windowAt i).2 ∧ (Sse.windowAt i).1 ≤ i
        ∧ i < 2 * (Sse.windowAt i).1 ∧ i - (Sse.windowAt i).1 ≤ rp ∧ rp < i)
      ∧ u64 (u32 (2 * p) * c.numblocks * c.blocklen) = start
      ∧ u64 (start + u64 (c.blocklen * Sse.reversePosOf i
            (Sse.slideWindow i (w.mask, w.numBits)).1 (Sse.slideWindow i (w.mask, w.numBits)).2))
          = start + c.blocklen * rp
      ∧ w.toAddr = start + c.blocklen * i
      ∧ (Sse.hashWithoutPasswordStep env c start i w).m
          = ((Sse.hashMultItoState env i
              (Sse.hashBlocks w.m w.state c.blocklen c.blocklen (start + c.blocklen * rp)
                (start + c.blocklen * i) c.repetitions).1
              (Sse.hashBlocks w.m w.state c.blocklen c.blocklen (start + c.blocklen * rp)
                (start + c.blocklen * i) c.repetitions).2).map (fun r => r.1)).getD
              (Sse.hashBlocks w.m w.state c.blocklen c.blocklen (start + c.blocklen * rp)
                (start + c.blocklen * i) c.repetitions).1
      ∧ Touches
          (fun a => (start + c.blocklen * rp ≤ a ∧ a < start + c.blocklen * (rp + 1))
            ∨ (start + c.blocklen * (i - 1) ≤ a ∧ a < start + c.blocklen * i))
          (fun a => start + c.blocklen * i ≤ a ∧ a < start + c.blocklen * (i + 1))
          (fun a => 1 ≤ c.repetitions ∧ start + c.blocklen * i ≤ a
            ∧ a < start + c.blocklen * (i + 1)) w.m
          (Sse.hashBlocks w.m w.state c.blocklen c.blocklen (start + c.blocklen * rp)
            (start + c.blocklen * i) c.repetitions).1
      ∧ start + c.blocklen * (i + 1) ≤ start + c.numblocks * c.blocklen
      ∧ start + c.numblocks * c.blocklen = (2 * p + 1) * c.numblocks * c.blocklen := by
  obtain ⟨j, rfl⟩ : ∃ j, i = j + 1 := ⟨i - 1, by omega⟩
  obtain ⟨w1, w2, w3, w4⟩ := windowAt_inv j (by omega)
  have hge := reversePosOf_ge _ _ _ w1 w2 w3 (by omega) w4
  have hlt := reversePosOf_lt _ _ _ w1 w2 w4
  rw [← hrp] at hge hlt
  have hbl0 : c.blocklen ≠ 0 := by omega
  have hreg : (2 * p + 1) * c.numblocks * c.blocklen
      ≤ 2 * c.parallelism * c.numblocks * c.blocklen :=
    Nat.mul_le_mul_right _ (Nat.mul_le_mul_right _ (by omega))
  have hsplit : (2 * p + 1) * c.numblocks * c.blocklen
      = start + c.numblocks * c.blocklen := by rw [hstart]; ring
  have hu : u64 (u32 (2 * p) * c.numblocks * c.blocklen) = start := by
    have : u32 (2 * p) = 2 * p := by unfold u32; exact Nat.mod_eq_of_lt (by omega)
    rw [this, hstart]; unfold u64; exact Nat.mod_eq_of_lt (by omega)
  have hmul : c.blocklen * (j + 1 + 1) ≤ c.numblocks * c.blocklen := by
    rw [Nat.mul_comm]; exact Nat.mul_le_mul_right _ hi
  have hmulrp : c.blocklen * rp + c.blocklen ≤ c.blocklen * (j + 1) := by
    calc c.blocklen * rp + c.blocklen = c.blocklen * (rp + 1) := by ring
      _ ≤ c.blocklen * (j + 1) := Nat.mul_le_mul_left _ hlt
  have hj1 : c.blocklen * (j + 1 + 1) = c.blocklen * (j + 1) + c.blocklen := by ring
  -- the loop variables at block `j + 1`
  have hinit : (Sse.hashWithoutPasswordInit env c p m).toAddr = start + c.blocklen := by
    show u64 (u64 (u32 (2 * p) * c.numblocks * c.blocklen) + c.blocklen) = start + c.blocklen
    rw [hu]; unfold u64; exact Nat.mod_eq_of_lt (by omega)
  have hrun2 := hrun
  rw [hw] at hrun2
  have hto : w.toAddr = start + c.blocklen * (j + 1) := by
    rw [hw, show j + 1 - 1 = j by omega]
    rw [show j + 1 - 1 = j by omega] at hrun2
    rw [hashWithoutPasswordLoop_toAddr env c start _ hinit j (by
      have : (j + 1) * c.blocklen = c.blocklen * (j + 1) := Nat.mul_comm _ _
      omega) hrun2]
    ring
  have hwin : (w.mask, w.numBits) = Sse.windowAt j := by
    rw [hw, show j + 1 - 1 = j by omega]
    rw [show j + 1 - 1 = j by omega] at hrun2
    exact hashWithoutPasswordLoop_window env c start _ rfl rfl j hrun2
  have hslide : Sse.slideWindow (j + 1) (w.mask, w.numBits) = Sse.windowAt (j + 1) := by
    rw [hwin]; rfl
  have hfrom : u64 (start + u64 (c.blocklen * Sse.reversePosOf (j + 1)
        (Sse.slideWindow (j + 1) (w.mask, w.numBits)).1
        (Sse.slideWindow (j + 1) (w.mask, w.numBits)).2))
      = start + c.blocklen * rp := by
    rw [hslide, ← hrp]
    unfold u64
    rw [Nat.mod_eq_of_lt (a := c.blocklen * rp) (by omega)]
    exact Nat.mod_eq_of_lt (by omega)
  have hmach := hashWithoutPasswordStep_mach env c start (j + 1) w hbl0 hrun _ hfrom
  rw [hto] at hmach
  have h4s : 4 ∣ start := by
    rw [hstart, hbl]; exact ⟨2 * p * c.numblocks * 2 * s8, by ring⟩
  have h4b : 4 ∣ c.blocklen := by rw [hbl]; exact ⟨2 * s8, by ring⟩
  have ht := touches_hashBlocks_blocks w.m w.state s8 1 (start + c.blocklen * rp)
    (start + c.blocklen * (j + 1)) c.repetitions hs8 (le_refl 1)
    (by rw [Nat.mul_one, ← hbl]; exact hblt)
    (Dvd.dvd.add h4s (Dvd.dvd.mul_right h4b _))
    (Dvd.dvd.add h4s (Dvd.dvd.mul_right h4b _))
    (by
      rw [Nat.mul_one, ← hbl]
      have : c.blocklen ≤ c.blocklen * (j + 1) := Nat.le_mul_of_pos_right _ (by omega)
      omega)
    (by omega)
  rw [Nat.mul_one, ← hbl] at ht
  refine ⟨⟨w1, w2, w3, hge, hlt⟩, hu, hfrom, hto, hmach, ?_, by omega, hsplit.symm⟩
  have e1 : c.blocklen * (rp + 1) = c.blocklen * rp + c.blocklen := by ring
  have e2 : c.blocklen * (j + 1) = c.blocklen * j + c.blocklen := by ring
  refine touches_mono ht ?_ ?_ ?_
  · intro a ha
    rw [show j + 1 - 1 = j by omega]
    rcases ha with h | h
    · left; constructor <;> omega
    · right; constructor <;> omega
  · intro a ha
    constructor <;> omega
  · intro a ha
    refine ⟨ha.1, ?_, ?_⟩ <;> omega

set_option maxRecDepth 100000 in
/-- C14 (witness) at `memSize = 1`, `blockSize = 32`, four workers (4 blocks of 8 words per
pass), worker 1 after the pacer has run, block 3: the region starts at word 64, the window
is `mask = 2`, the source block is `reversePos = 1` at word 72, and `toAddr` is word 88. -/
theorem C14_sliding_window_witness :
    ((1 ≤ 1 ∧ (initCommon [0, 0, 0, 0] 4 1 0 0 32 32 4 1).blocklen = 8 * 1
        ∧ (initCommon [0, 0, 0, 0] 4 1 0 0 32 32 4 1).blocklen < 2 ^ 32
        ∧ 1 < (initCommon [0, 0, 0, 0] 4 1 0 0 32 32 4 1).parallelism
        ∧ 3 < (initCommon [0, 0, 0, 0] 4 1 0 0 32 32 4 1).numblocks
        ∧ 64 = 2 * 1 * (initCommon [0, 0, 0, 0] 4 1 0 0 32 32 4 1).numblocks
            * (initCommon [0, 0, 0, 0] 4 1 0 0 32 32 4 1).blocklen
        ∧ 1 = Sse.reversePosOf 3 (Sse.windowAt 3).1 (Sse.windowAt 3).2)
      ∧ (forLoop (3 - 1) (fun k x => Sse.hashWithoutPasswordStep demoEnv
            (initCommon [0, 0, 0, 0] 4 1 0 0 32 32 4 1) 64 (k + 1) x)
          (Sse.hashWithoutPasswordInit demoEnv (initCommon [0, 0, 0, 0] 4 1 0 0 32 32 4 1) 1
            (Sse.multHash demoEnv (initCommon [0, 0, 0, 0] 4 1 0 0 32 32 4 1)
              (freshMach 0)))).stuck = false)
    ∧ ((Sse.windowAt 3).1 = 2 ^ (Sse.windowAt 3).2 ∧ (Sse.windowAt 3).1 ≤ 3
        ∧ 3 < 2 * (Sse.windowAt 3).1 ∧ 3 - (Sse.windowAt 3).1 ≤ 1 ∧ 1 < 3)
    ∧ (forLoop (3 - 1) (fun k x => Sse.hashWithoutPasswordStep demoEnv
            (initCommon [0, 0, 0, 0] 4 1 0 0 32 32 4 1) 64 (k + 1) x)
          (Sse.hashWithoutPasswordInit demoEnv (initCommon [0, 0, 0, 0] 4 1 0 0 32 32 4 1) 1
            (Sse.multHash demoEnv (initCommon [0, 0, 0, 0] 4 1 0 0 32 32 4 1)
              (freshMach 0)))).toAddr
        = 64 + (initCommon [0, 0, 0, 0] 4 1 0 0 32 32 4 1).blocklen * 3 :=
  ⟨⟨by decide, by decide⟩,
    (C14_sliding_window demoEnv (initCommon [0, 0, 0, 0] 4 1 0 0 32 32 4 1) 1 3 1 64 1
      (Sse.multHash demoEnv (initCommon [0, 0, 0, 0] 4 1 0 0 32 32 4 1) (freshMach 0)) _
      (by decide) (by decide) (by decide) (by decide) (by decide) (by decide) (by decide)
      (by decide) (by decide) (by decide) (by decide) rfl (by decide)).1,
    (C14_sliding_window demoEnv (initCommon [0, 0, 0, 0] 4 1 0 0 32 32 4 1) 1 3 1 64 1
      (Sse.multHash demoEnv (initCommon [0, 0, 0, 0] 4 1 0 0 32 32 4 1) (freshMach 0)) _
      (by decide) (by decide) (by decide) (by decide) (by decide) (by decide) (by decide)
      (by decide) (by decide) (by decide) (by decide) rfl (by decide)).2.2.2.1⟩

/-! ## The checkpoint a fold reads, in every interleaving -/

theorem callInBounds_returns (hashSize memSize startGarlic stopGarlic blockSize subBlockSize
    parallelism repetitions : Nat)
    (h : CallInBounds hashSize memSize startGarlic stopGarlic blockSize subBlockSize
      parallelism repetitions) :
    stopGarlic < 255 ∧ u32 (2 * parallelism * (blockSize / 4)) ≠ 0
      ∧ (subBlockSize = 0 ∨ 4 ≤ subBlockSize)
      ∧ Sse.numblocksStart memSize blockSize parallelism startGarlic
          * 2 ^ (stopGarlic - startGarlic) < 2 ^ 31 := by
  obtain ⟨_, hstop, _, _, hdiv, ⟨s8, ns, hs8, _, hsub, _⟩, _, _, _, hpar, _, hov⟩ := h
  refine ⟨by omega, hdiv, ?_, ?_⟩
  · by_cases h0 : subBlockSize = 0
    · exact Or.inl h0
    · right
      rw [if_pos h0] at hsub
      omega
  · have : 2 * 1 * (Sse.numblocksStart memSize blockSize parallelism startGarlic
        * 2 ^ (stopGarlic - startGarlic)) ≤ 2 * parallelism
          * (Sse.numblocksStart memSize blockSize parallelism startGarlic
            * 2 ^ (stopGarlic - startGarlic)) :=
      Nat.mul_le_mul_right _ (Nat.mul_le_mul_left _ hpar)
    omega

/-- C9 (amended): in a call inside its arrays (`CallInBounds`: `startGarlic ≤ stopGarlic ≤
30`, at least one block per worker, no division by zero, no 32-bit wrap of the block
arithmetic) in which every allocation and thread creation succeeds, the result is true, the
garlic levels are `startGarlic`, ..., `stopGarlic` in this order, and level `g` runs with
`numblocks = (floor(baseMem / d) * 2^g) mod 2^32`, where `baseMem = 256 * memSize`,
`blocklen = blockSize / 4` and `d = (2 * parallelism * blocklen) mod 2^32`: the floor is
taken once, before the doubling. -/
theorem C9_numblocks_per_level (env : Env) (fuel : Nat) (m : Mach) (hash : List Nat)
    (hashSize memSize multipliesPerBlock startGarlic stopGarlic blockSize subBlockSize
      parallelism repetitions : Nat) (skip : Bool)
    (hin : CallInBounds hashSize memSize startGarlic stopGarlic blockSize subBlockSize
      parallelism repetitions)
    (hfuel : stopGarlic + 1 - startGarlic < fuel)
    (hall : AllSucceed env startGarlic stopGarlic parallelism) :
    ∃ h m1, Sse.TigerKDF env fuel m hash hashSize memSize multipliesPerBlock startGarlic
        stopGarlic blockSize subBlockSize parallelism repetitions skip = some (true, h, m1)
      ∧ (levelsOf m1.trace).reverse = (levelsOf m.trace).reverse ++
          (List.range (stopGarlic + 1 - startGarlic)).map (fun k =>
            (startGarlic + k,
              u32 (256 * memSize / u32 (2 * parallelism * (blockSize / 4))
                * 2 ^ (startGarlic + k)))) := by
  obtain ⟨hstop, hdiv, hsub, hnb⟩ := callInBounds_returns _ _ _ _ _ _ _ _ hin
  obtain ⟨b, h, m1, hrun, hiff, hsched⟩ := TigerKDF_returns env fuel m hash hashSize memSize
    multipliesPerBlock startGarlic stopGarlic blockSize subBlockSize parallelism repetitions
    skip hstop hdiv hsub hnb hfuel
  have hb : b = true := hiff.2 hall
  subst hb
  refine ⟨h, m1, hrun, ?_⟩
  rw [hsched rfl, List.reverse_append, List.reverse_reverse,
    numblocksStart_eq memSize blockSize parallelism startGarlic hin.2.2.1, scheduleFrom_eq]
  congr 1
  apply List.map_congr_left
  intro k _
  congr 2
  rw [pow_add]; ring

set_option maxRecDepth 100000 in
/-- Witness of C9 (amended) at `memSize = 1`, `blockSize = 32`, `parallelism = 9`, garlic
levels 0 and 1: the levels run with 1 and 2 blocks. -/
theorem C9_numblocks_per_level_witness :
    (CallInBounds 4 1 0 1 32 32 9 1 ∧ 1 + 1 - 0 < 3)
    ∧ (List.range (1 + 1 - 0)).map (fun k =>
        (0 + k, u32 (256 * 1 / u32 (2 * 9 * (32 / 4)) * 2 ^ (0 + k)))) = [(0, 1), (1, 2)]
    ∧ ∃ h m1, Sse.TigerKDF demoEnv 3 (freshMach 0) [0, 0, 0, 0] 4 1 0 0 1 32 32 9 1 false
          = some (true, h, m1)
        ∧ (levelsOf m1.trace).reverse = (levelsOf (freshMach 0).trace).reverse ++
            (List.range (1 + 1 - 0)).map (fun k =>
              (0 + k, u32 (256 * 1 / u32 (2 * 9 * (32 / 4)) * 2 ^ (0 + k)))) :=
  ⟨⟨⟨by decide, by decide, by decide, by decide, by decide,
      ⟨1, 1, by decide, by decide, by decide, by decide⟩, by decide, by decide, by decide,
      by decide, by decide, by decide⟩, by decide⟩, by decide,
    C9_numblocks_per_level demoEnv 3 (freshMach 0) [0, 0, 0, 0] 4 1 0 0 1 32 32 9 1 false
      ⟨by decide, by decide, by decide, by decide, by decide,
        ⟨1, 1, by decide, by decide, by decide, by decide⟩, by decide, by decide, by decide,
        by decide, by decide, by decide⟩ (by decide) (demoEnv_allSucceed 0 1 9)⟩

/-! ## Every access of a call is inside the arrays -/

end Tiger
